import Mathlib

/-!
The documentation parser's string utilities and the type resolver of go-lol.

A shallow embedding of `go-lol-generator/loldoc/utils.go` and
`go-lol-generator/patcher/{patcher,a_patchdatas}.go`.

Conventions of the embedding
* a Go `string` is its sequence of bytes (`GoString = List UInt8`); `str "..."` is the
  UTF-8 encoding of a literal of the source;
* Go `int` index arithmetic is done in `Int`; indexing and slicing return `none` where
  the Go runtime would raise an index fault;
* a Go `map` with string keys is an association list read with `List.lookup`.
-/

/-! ## Go strings -/

/-- A Go string: an immutable sequence of bytes. -/
abbrev GoString := List UInt8

namespace Go

/-- The bytes of a string literal of the source (Go source text is UTF-8). -/
def str (s : String) : GoString := s.data.flatMap String.utf8EncodeChar

/-- The builtin `len(s)`. -/
def len (s : GoString) : Int := (s.length : Int)

/-- The index expression `s[i]`; `none` is the runtime fault "index out of range". -/
def byteAt (s : GoString) (i : Int) : Option UInt8 :=
  if 0 ≤ i ∧ i < len s then s[i.toNat]? else none

/-- The slice expression `s[lo:hi]`; `none` is the runtime fault
"slice bounds out of range", raised unless `0 ≤ lo ≤ hi ≤ len(s)`. -/
def sliceOf (s : GoString) (lo hi : Int) : Option GoString :=
  if 0 ≤ lo ∧ lo ≤ hi ∧ hi ≤ len s then some ((s.take hi.toNat).drop lo.toNat) else none

end Go

open Go

namespace strings

/-- The loop of `strings.LastIndexByte`: `for i := n - 1; i >= 0; i--` returning the first
`i` with `s[i] == c`, and `-1` when the loop runs out. -/
def lastIndexByteFrom (s : GoString) (c : UInt8) : Nat → Int
  | 0 => -1
  | i + 1 => if s[i]? = some c then (i : Int) else lastIndexByteFrom s c i

/-- The function `strings.LastIndexByte(s, c)`: the index of the last instance of `c` in
`s`, or `-1`. -/
def LastIndexByte (s : GoString) (c : UInt8) : Int := lastIndexByteFrom s c s.length

/-- The function `strings.HasPrefix(s, pre)`: whether `s` begins with `pre`. -/
def HasPrefix (s pre : GoString) : Bool := pre.isPrefixOf s

/-- The function `strings.HasSuffix(s, suf)`: whether `s` ends with `suf`. -/
def HasSuffix (s suf : GoString) : Bool := suf.isSuffixOf s

/-- The left-to-right scan behind `strings.Replace(s, old, new, -1)`: at a position where
`old` begins, `new` is emitted and the bytes of `old` are stepped over (`skip` counts
those still to step over); any other byte is copied. -/
def replaceFrom (old new : GoString) : Nat → GoString → GoString
  | _, [] => []
  | k + 1, _ :: bs => replaceFrom old new k bs
  | 0, b :: bs =>
    if old.isPrefixOf (b :: bs) then new ++ replaceFrom old new (old.length - 1) bs
    else b :: replaceFrom old new 0 bs

/-- The call `strings.Replace(s, old, new, -1)` for a non-empty `old`: every non-overlapping
instance of `old`, found from the left, is replaced by `new`. -/
def Replace (s old new : GoString) : GoString := replaceFrom old new 0 s

/-- Puts a byte in front of the first piece. -/
def consHead (b : UInt8) : List GoString → List GoString
  | [] => [[b]]
  | h :: t => (b :: h) :: t

/-- The left-to-right scan behind `strings.Split`: at a position where `sep` begins the
current piece ends and the bytes of `sep` are stepped over (`skip` counts those still to
step over); any other byte joins the current piece. -/
def splitFrom (sep : GoString) : Nat → GoString → List GoString
  | _, [] => [[]]
  | k + 1, _ :: bs => splitFrom sep k bs
  | 0, b :: bs =>
    if sep.isPrefixOf (b :: bs) then [] :: splitFrom sep (sep.length - 1) bs
    else consHead b (splitFrom sep 0 bs)

/-- The function `strings.Split(s, sep)` for a non-empty `sep`: the substrings of `s` between the
non-overlapping instances of `sep` found from the left; a single piece `s` when `sep`
does not occur. -/
def Split (s sep : GoString) : List GoString := splitFrom sep 0 s

end strings

namespace loldoc

/-- The function `parseResourceIDVersion` of `loldoc/utils.go`. The named results `id, ver` start as
empty strings, which the bare `return` of the first branch hands back. -/
def parseResourceIDVersion (s : GoString) : Option (GoString × GoString) :=
  if len s < 2 then some ([], [])
  else
    let lastIdx := strings.LastIndexByte s '-'.toUInt8
    if lastIdx = -1 then some (s, [])
    else do
      let id ← sliceOf s 0 lastIdx
      let ver ← sliceOf s (lastIdx + 1) (len s) -- exclude '-' from version
      some (id, ver)

/-- The function `parseRegions` of `loldoc/utils.go`. A `nil` slice is the empty list;
`||` evaluates its right operand only when the left one is false. -/
def parseRegions (src0 : GoString) : Option (List GoString) :=
  let src := strings.Replace src0 (str " ") (str "")
  if len src ≤ 2 then some []
  else do
    let first ← byteAt src 0
    if first ≠ '['.toUInt8 then some []
    else do
      let last ← byteAt src (len src - 1)
      if last ≠ ']'.toUInt8 then some []
      else do
        let inner ← sliceOf src 1 (len src - 1)
        some (strings.Split inner (str ","))

end loldoc

namespace strings

/-- The UTF-8 encodings of the runes for which `unicode.IsSpace` holds: tab, line feed,
vertical tab, form feed, carriage return, space, U+0085, U+00A0, U+1680, U+2000..U+200A,
U+2028, U+2029, U+202F, U+205F and U+3000. -/
def spaceRunes : List GoString :=
  [[0x09], [0x0A], [0x0B], [0x0C], [0x0D], [0x20],
   [0xC2, 0x85], [0xC2, 0xA0], [0xE1, 0x9A, 0x80],
   [0xE2, 0x80, 0x80], [0xE2, 0x80, 0x81], [0xE2, 0x80, 0x82], [0xE2, 0x80, 0x83],
   [0xE2, 0x80, 0x84], [0xE2, 0x80, 0x85], [0xE2, 0x80, 0x86], [0xE2, 0x80, 0x87],
   [0xE2, 0x80, 0x88], [0xE2, 0x80, 0x89], [0xE2, 0x80, 0x8A],
   [0xE2, 0x80, 0xA8], [0xE2, 0x80, 0xA9], [0xE2, 0x80, 0xAF], [0xE2, 0x81, 0x9F],
   [0xE3, 0x80, 0x80]]

/-- The width in bytes of the white-space rune `s` starts with; 0 when the first rune of
`s` is not white space (or `s` is empty). -/
def leadingSpaceWidth (s : GoString) : Nat :=
  match spaceRunes.find? (fun w => w.isPrefixOf s) with
  | some w => w.length
  | none => 0

/-- The width in bytes of the white-space rune `s` ends with, read on the reversed string
`r`; 0 when the last rune is not white space. -/
def trailingSpaceWidth (r : GoString) : Nat :=
  match spaceRunes.find? (fun w => w.reverse.isPrefixOf r) with
  | some w => w.length
  | none => 0

/-- The loop of `strings.TrimLeftFunc` and, on the reversed string, of
`strings.TrimRightFunc`: runes are stepped over while `width` finds one (`skip` counts
the bytes of the current rune still to step over). -/
def trimFrom (width : GoString → Nat) : Nat → GoString → GoString
  | _, [] => []
  | k + 1, _ :: bs => trimFrom width k bs
  | 0, b :: bs =>
    match width (b :: bs) with
    | 0 => b :: bs
    | w + 1 => trimFrom width w bs

/-- The function `strings.TrimSpace(s)`: `s` without its leading and trailing white space,
as defined by Unicode. -/
def TrimSpace (s : GoString) : GoString :=
  (trimFrom trailingSpaceWidth 0 (trimFrom leadingSpaceWidth 0 s).reverse).reverse

end strings

/-! ## go/types: the types the resolver builds -/

namespace types

/-- The kinds of `types.BasicKind` the package uses; `Invalid` is the zero value. -/
inductive BasicKind
  | Invalid | Bool | Int32 | Int64 | Float32 | Float64 | String
  deriving DecidableEq, Repr

/-- The values of `types.Type` the resolver builds. `Named name` is
`types.NewNamed(types.NewTypeName(token.NoPos, nil, name, nil), nil, nil)`: a type name
with no underlying type and no methods. -/
inductive GoType
  | Typ (kind : BasicKind)
  | Slice (elem : GoType)
  | Map (key elem : GoType)
  | Pointer (base : GoType)
  | Named (name : GoString)
  deriving DecidableEq, Repr

end types

/-! ## The override registry and the type resolver -/

/-- Equality of results `(value, error)` is decidable. -/
instance instDecidableEqExcept {ε α : Type} [DecidableEq ε] [DecidableEq α] :
    DecidableEq (Except ε α)
  | .ok a, .ok b =>
    if h : a = b then isTrue (congrArg Except.ok h)
    else isFalse (fun e => h (Except.ok.inj e))
  | .error a, .error b =>
    if h : a = b then isTrue (congrArg Except.error h)
    else isFalse (fun e => h (Except.error.inj e))
  | .ok _, .error _ => isFalse (fun e => Except.noConfusion e)
  | .error _, .ok _ => isFalse (fun e => Except.noConfusion e)

namespace patcher

/-- The text `fmt.Sprintf(format, args...)` of the two call sites of `patchRequired`:
`patchRequired(id, "")` and `patchRequired(resID, "operation %q", opPath)`. -/
inductive PatchFor
  | nothing
  | operation (opPath : GoString)
  deriving DecidableEq, Repr

/-- The error values of the package, one constructor per construction site, each keeping
the arguments of its format string. The last two are not Go errors: `sliceBounds` is the
runtime fault of a slice expression, `recursionBound` says that the recursion bound of
`typeFuel` was reached. -/
inductive GoError
  /-- The value `&ErrPatchRequired{ResID, For}`. -/
  | ErrPatchRequired (ResID : GoString) (For : PatchFor)
  /-- The error `errors.Errorf("class override is required for %q", clsName)`. -/
  | classOverrideRequired (clsName : GoString)
  /-- The error `errors.Errorf("cannot parse empty string as types.Type\n")`. -/
  | emptyTypeString
  /-- The error `errors.Wrapf(err, "invalid list type: %q\n", s)`. -/
  | invalidListType (s : GoString) (err : GoError)
  /-- The error `errors.Wrapf(err, "invalid set type: %q\n", s)`. -/
  | invalidSetType (s : GoString) (err : GoError)
  /-- The error `errors.Errorf("invalid map type: %q\n", s)`. -/
  | invalidMapType (s : GoString)
  /-- The error `errors.Wrap(err, "invalid map key type\n")`. -/
  | invalidMapKeyType (err : GoError)
  /-- The error `errors.Wrap(err, "invalid map elem type\n")`. -/
  | invalidMapElemType (err : GoError)
  /-- The error `errors.Wrapf(err, "unknown type %q\n", clsName)`. -/
  | unknownType (clsName : GoString) (err : GoError)
  | sliceBounds
  | recursionBound
  deriving DecidableEq, Repr

/-- The struct `OpPatch`: a predeclared operation info. -/
structure OpPatch where
  Name : GoString
  MapKey : types.BasicKind
  deriving DecidableEq, Repr

/-- The struct `ClassPatch`. -/
structure ClassPatch where
  Name : GoString
  deriving DecidableEq, Repr

/-- The struct `ResPatch`: the operation overrides by path suffix and the class overrides by
original class name. -/
structure ResPatch where
  Operations : List (GoString × OpPatch)
  Classes : List (GoString × ClassPatch)
  deriving DecidableEq, Repr

/-- The struct `Patches`: the resource overrides by resource ID. -/
structure Patches where
  Resources : List (GoString × ResPatch)
  deriving DecidableEq, Repr

/-- The method `(*ResPatch).Class`. -/
def ResPatch.Class (rp : ResPatch) (clsName : GoString) : Except GoError ClassPatch :=
  match rp.Classes.lookup clsName with
  | none => .error (.classOverrideRequired clsName)
  | some co => .ok co

/-- The method `(*Patches).Add`; `none` is the panic "resource override already exists". -/
def Patches.Add (p : Patches) (id : GoString) (rp : ResPatch) : Option Patches :=
  match p.Resources.lookup id with
  | some _ => none
  | none => some ⟨p.Resources ++ [(id, rp)]⟩

/-- The arguments of the `overrides.Add` calls of `init`, in source order. -/
def initTable : List (GoString × ResPatch) := [
  (str "lol-static-data", ⟨
    [(str "/champion", ⟨str "Champions", .Invalid⟩),
     (str "/champion/{id}", ⟨str "Champion", .Invalid⟩),
     (str "/item", ⟨str "Items", .Invalid⟩),
     (str "/item/{id}", ⟨str "Item", .Invalid⟩),
     (str "/language-strings", ⟨str "LanguageStrings", .Invalid⟩),
     (str "/languages", ⟨str "Languages", .Invalid⟩),
     (str "/map", ⟨str "Maps", .Invalid⟩),
     (str "/mastery", ⟨str "Masteries", .Invalid⟩),
     (str "/mastery/{id}", ⟨str "Mastery", .Invalid⟩),
     (str "/realm", ⟨str "Realm", .Invalid⟩),
     (str "/rune", ⟨str "Runes", .Invalid⟩),
     (str "/rune/{id}", ⟨str "Rune", .Invalid⟩),
     (str "/summoner-spell", ⟨str "SummonerSpells", .Invalid⟩),
     (str "/summoner-spell/{id}", ⟨str "SummonerSpell", .Invalid⟩),
     (str "versions", ⟨str "Versions", .Invalid⟩)],
    [(str "ImageDto", ⟨str "Image"⟩),
     (str "ChampionDto", ⟨str "Champion"⟩),
     (str "ChampionListDto", ⟨str "Champions"⟩),
     (str "MapDetailsDto", ⟨str "Map"⟩),
     (str "MapDataDto", ⟨str "Maps"⟩),
     (str "ChampionSpellDto", ⟨str "ChampionSpell"⟩),
     (str "SummonerSpellDto", ⟨str "SummonerSpell"⟩),
     (str "SummonerSpellListDto", ⟨str "SummonerSpells"⟩),
     (str "ItemDto", ⟨str "Item"⟩),
     (str "ItemListDto", ⟨str "Items"⟩),
     (str "GoldDto", ⟨str "Gold"⟩),
     (str "StatsDto", ⟨str "ChampionStats"⟩),
     (str "GroupDto", ⟨str "ItemGroup"⟩),
     (str "InfoDto", ⟨str "ChampionInfo"⟩),
     (str "SkinDto", ⟨str "Skin"⟩),
     (str "RecommendedDto", ⟨str "Recommended"⟩),
     (str "BlockDto", ⟨str "RecommendedBlock"⟩),
     (str "BlockItemDto", ⟨str "RecommendedItems"⟩),
     (str "ItemTreeDto", ⟨str "ItemTree"⟩),
     (str "MasteryDto", ⟨str "Mastery"⟩),
     (str "MasteryListDto", ⟨str "Masteries"⟩),
     (str "MasteryTreeItemDto", ⟨str "MasteryTreeItem"⟩),
     (str "MasteryTreeDto", ⟨str "MasteryTree"⟩),
     (str "MasteryTreeListDto", ⟨str "MasteryTrees"⟩),
     (str "RuneDto", ⟨str "Rune"⟩),
     (str "RuneListDto", ⟨str "Runes"⟩),
     (str "MetaDataDto", ⟨str "RuneMetadata"⟩),
     (str "PassiveDto", ⟨str "Passive"⟩),
     (str "SpellVarsDto", ⟨str "SpellVars"⟩),
     (str "BasicDataDto", ⟨str "BasicData"⟩),
     (str "BasicDataStatsDto", ⟨str "BasicStats"⟩),
     (str "LanguageStringsDto", ⟨str "LanguageStrings"⟩),
     (str "LevelTipDto", ⟨str "LevelTip"⟩),
     (str "RealmDto", ⟨str "Realm"⟩)]⟩),
  (str "champion", ⟨
    [(str "/champion", ⟨str "ChampionStatuses", .Invalid⟩),
     (str "/champion/{id}", ⟨str "ChampionStatus", .Invalid⟩)],
    [(str "ChampionDto", ⟨str "ChampionStatus"⟩),
     (str "ChampionListDto", ⟨str "ChampionStatuses"⟩)]⟩),
  (str "current-game", ⟨
    [(str "/getSpectatorGameInfo/{platformId}/{summonerId}", ⟨str "SpectatorGameInfo", .Invalid⟩)],
    [(str "BannedChampion", ⟨str "CurrentGameBannedChampion"⟩),
     (str "Rune", ⟨str "CurrentGameRune"⟩),
     (str "Mastery", ⟨str "CurrentGameMastery"⟩),
     (str "CurrentGameInfo", ⟨str "CurrentGameInfo"⟩),
     (str "CurrentGameParticipant", ⟨str "CurrentGameParticipant"⟩),
     (str "Observer", ⟨str "CurrentGameObserver"⟩)]⟩),
  (str "featured-games", ⟨
    [(str "/featured", ⟨str "FeaturedGames", .Invalid⟩)],
    [(str "BannedChampion", ⟨str "FeaturedGameBannedChampion"⟩),
     (str "Participant", ⟨str "FeaturedGameParticipant"⟩),
     (str "Rune", ⟨str "FeaturedGameRune"⟩),
     (str "Mastery", ⟨str "FeaturedGameMastery"⟩),
     (str "Observer", ⟨str "FeaturedGameObserver"⟩),
     (str "FeaturedGames", ⟨str "FeaturedGames"⟩),
     (str "FeaturedGameInfo", ⟨str "FeaturedGameInfo"⟩)]⟩),
  (str "game", ⟨
    [(str "/game/by-summoner/{summonerId}/recent", ⟨str "RecentGames", .Invalid⟩)],
    [(str "GameDto", ⟨str "Game"⟩),
     (str "RecentGamesDto", ⟨str "RecentGames"⟩),
     (str "RawStatsDto", ⟨str "GamePlayerRawStats"⟩),
     (str "PlayerDto", ⟨str "GamePlayer"⟩)]⟩),
  (str "league", ⟨
    [(str "/league/by-summoner/{summonerIds}", ⟨str "LeaguesBySummonerID", .Invalid⟩),
     (str "/league/by-summoner/{summonerIds}/entry", ⟨str "LeagueEntriesBySummonerID", .Invalid⟩),
     (str "/league/by-team/{teamIds}", ⟨str "LeaguesByTeamID", .Invalid⟩),
     (str "/league/by-team/{teamIds}/entry", ⟨str "LeagueEntriesByTeamID", .Invalid⟩),
     (str "/league/challenger", ⟨str "Challenger", .Invalid⟩),
     (str "/league/master", ⟨str "Master", .Invalid⟩)],
    [(str "MiniSeriesDto", ⟨str "MiniSeries"⟩),
     (str "LeagueEntryDto", ⟨str "LeagueEntry"⟩),
     (str "LeagueDto", ⟨str "League"⟩)]⟩),
  (str "lol-status", ⟨
    [(str "/shards", ⟨str "Shards", .Invalid⟩),
     (str "/shards/{region}", ⟨str "ShardsInRegion", .Invalid⟩),
     (str "/shards/{shard}", ⟨str "Shard", .Invalid⟩)],
    [(str "Shard", ⟨str "Shard"⟩),
     (str "ShardStatus", ⟨str "ShardStatus"⟩),
     (str "Service", ⟨str "Service"⟩),
     (str "Message", ⟨str "StatusMessage"⟩),
     (str "Translation", ⟨str "StatusMessageTranslation"⟩),
     (str "Incident", ⟨str "Incident"⟩)]⟩),
  (str "match", ⟨
    [(str "/match/{matchId}", ⟨str "Match", .Invalid⟩),
     (str "/match/by-tournament/{tournamentCode}/ids", ⟨str "MatchesByTournement", .Invalid⟩),
     (str "/match/for-tournament/{matchId}", ⟨str "MatchForTournement", .Invalid⟩)],
    [(str "BannedChampion", ⟨str "BannedChampion"⟩),
     (str "Timeline", ⟨str "Timeline"⟩),
     (str "Frame", ⟨str "Frame"⟩),
     (str "Event", ⟨str "Event"⟩),
     (str "Position", ⟨str "Position"⟩),
     (str "Team", ⟨str "MatchTeam"⟩),
     (str "Participant", ⟨str "Participant"⟩),
     (str "ParticipantStats", ⟨str "ParticipantStats"⟩),
     (str "ParticipantIdentity", ⟨str "ParticipantIdentity"⟩),
     (str "ParticipantFrame", ⟨str "ParticipantFrame"⟩),
     (str "ParticipantStatus", ⟨str "ParticipantStatus"⟩),
     (str "ParticipantTimeline", ⟨str "ParticipantTimeline"⟩),
     (str "ParticipantTimelineData", ⟨str "ParticipantTimelineData"⟩),
     (str "Player", ⟨str "Player"⟩),
     (str "Mastery", ⟨str "UsedMastery"⟩),
     (str "Rune", ⟨str "UsedRune"⟩),
     (str "MatchDetail", ⟨str "MatchDetail"⟩)]⟩),
  (str "matchlist", ⟨
    [(str "/matchlist/by-summoner/{summonerId}", ⟨str "MatchesBySummonerID", .Invalid⟩)],
    [(str "MatchList", ⟨str "Matches"⟩),
     (str "MatchReference", ⟨str "MatchRef"⟩)]⟩),
  (str "stats", ⟨
    [(str "/stats/by-summoner/{summonerId}/ranked", ⟨str "RankedStats", .Invalid⟩),
     (str "/stats/by-summoner/{summonerId}/summary", ⟨str "StatsSummary", .Invalid⟩)],
    [(str "RankedStatsDto", ⟨str "RankedStats"⟩),
     (str "PlayerStatsSummaryDto", ⟨str "PlayerStatsSummary"⟩),
     (str "PlayerStatsSummaryListDto", ⟨str "PlayerStatsSummaries"⟩),
     (str "AggregatedStatsDto", ⟨str "AggregatedStats"⟩),
     (str "ChampionStatsDto", ⟨str "PlayerChampionStats"⟩)]⟩),
  (str "summoner", ⟨
    [(str "/summoner/by-name/{summonerNames}", ⟨str "SummonersByName", .Invalid⟩),
     (str "/summoner/{summonerIds}", ⟨str "Summoners", .Int64⟩),
     (str "/summoner/{summonerIds}/masteries", ⟨str "MasteryPages", .Int64⟩),
     (str "/summoner/{summonerIds}/name", ⟨str "SummonerNames", .Int64⟩),
     (str "/summoner/{summonerIds}/runes", ⟨str "RunePages", .Int64⟩)],
    [(str "MasteryDto", ⟨str "EquippedMastery"⟩),
     (str "MasteryPageDto", ⟨str "MasteryPage"⟩),
     (str "MasteryPagesDto", ⟨str "MasteryPages"⟩),
     (str "RuneSlotDto", ⟨str "RuneSlot"⟩),
     (str "RunePageDto", ⟨str "RunePage"⟩),
     (str "RunePagesDto", ⟨str "RunePages"⟩),
     (str "SummonerDto", ⟨str "Summoner"⟩)]⟩),
  (str "team", ⟨
    [(str "/team/by-summoner/{summonerIds}", ⟨str "TeamsBySummonerID", .Int64⟩),
     (str "/team/{teamIds}", ⟨str "Teams", .Invalid⟩)],
    [(str "TeamDto", ⟨str "Team"⟩),
     (str "MatchHistorySummaryDto", ⟨str "TeamMatchHistorySummary"⟩),
     (str "TeamStatDetailDto", ⟨str "TeamStatDetails"⟩),
     (str "TeamMemberInfoDto", ⟨str "TeamMemberInfo"⟩),
     (str "RosterDto", ⟨str "TeamRoaster"⟩)]⟩),
  (str "championmastery", ⟨
    [(str "/championmastery/location/{platformId}/player/{playerId}/champion/{championId}", ⟨str "ChampionMastery", .Invalid⟩),
     (str "/championmastery/location/{platformId}/player/{playerId}/champions", ⟨str "ChampionMasteries", .Invalid⟩),
     (str "/championmastery/location/{platformId}/player/{playerId}/score", ⟨str "ChampionMasteryScore", .Invalid⟩),
     (str "/championmastery/location/{platformId}/player/{playerId}/topchampions", ⟨str "TopChampions", .Invalid⟩)],
    [(str "ChampionMasteryDTO", ⟨str "ChampionMastery"⟩)]⟩)
  ]

/-- The function `init` of `a_patchdatas.go`: the `Add` calls in turn, from the empty
registry; `none` if one of them panics. -/
def init : Option Patches :=
  initTable.foldlM (fun p e => p.Add e.1 e.2) ⟨[]⟩

/-- The package variable `overrides` once `init` has run. -/
def overrides : Patches := ⟨initTable⟩

/-- The function `forResource`, reading the registry `p`. -/
def forResource (p : Patches) (id : GoString) : Except GoError ResPatch :=
  match p.Resources.lookup id with
  | none => .error (.ErrPatchRequired id .nothing)
  | some rp => .ok rp

/-- The function `ForClass`. -/
def ForClass (p : Patches) (resID clsName : GoString) : Except GoError ClassPatch :=
  match forResource p resID with
  | .error err => .error err
  | .ok rp =>
    match rp.Class clsName with
    | .error err => .error err
    | .ok cp => .ok cp

/-- The function `StructName`. -/
def StructName (p : Patches) (resID clsName : GoString) : Except GoError GoString :=
  match ForClass p resID clsName with
  | .error err => .error err
  | .ok cp => .ok cp.Name

/-- The map `javaPrimitives`. -/
def javaPrimitives : List (GoString × types.BasicKind) :=
  [(str "boolean", .Bool),
   (str "int", .Int32),
   (str "long", .Int64),
   (str "string", .String),
   (str "double", .Float64),
   (str "float", .Float32)]

/-- The function `ClassType`: the `switch` jumps to `ret` with `clsName` unchanged for the class
`SpellRange` of `lol-static-data`; every other class goes through `ForClass`. -/
def ClassType (p : Patches) (resID clsName : GoString) : Except GoError types.GoType :=
  if resID = str "lol-static-data" ∧ clsName = str "SpellRange" then
    .ok (.Pointer (.Named clsName))
  else
    match ForClass p resID clsName with
    | .error err => .error (.unknownType clsName err)
    | .ok cp => .ok (.Pointer (.Named cp.Name))

/-- The body of `Type`, with `self` standing for the recursive call `Type(resID, ·)`.
The test `len(bs) != 2` followed by `bs[0]`, `bs[1]` is the match on a two-element list. -/
def typeBody (p : Patches) (resID : GoString)
    (self : GoString → Except GoError types.GoType) (s0 : GoString) :
    Except GoError types.GoType :=
  let s := strings.TrimSpace s0
  match javaPrimitives.lookup s with
  | some bk => .ok (.Typ bk)
  | none =>
    if s = str "" then .error .emptyTypeString
    else if strings.HasPrefix s (str "List[") && strings.HasSuffix s (str "]") then
      match sliceOf s 5 (len s - 1) with
      | none => .error .sliceBounds
      | some inner =>
        match self inner with
        | .error err => .error (.invalidListType s err)
        | .ok elem => .ok (.Slice elem)
    else if strings.HasPrefix s (str "Set[") && strings.HasSuffix s (str "]") then
      match sliceOf s 4 (len s - 1) with
      | none => .error .sliceBounds
      | some inner =>
        match self inner with
        | .error err => .error (.invalidSetType s err)
        | .ok elem => .ok (.Slice elem)
    else if strings.HasPrefix s (str "Map[") && strings.HasSuffix s (str "]") then
      match sliceOf s 4 (len s - 1) with
      | none => .error .sliceBounds
      | some body =>
        match strings.Split body (str ", ") with
        | [k, v] =>
          match self k with
          | .error err => .error (.invalidMapKeyType err)
          | .ok key =>
            match self v with
            | .error err => .error (.invalidMapElemType err)
            | .ok elem => .ok (.Map key elem)
        | _ => .error (.invalidMapType s)
    else ClassType p resID s

/-- The function `Type` unrolled at most `fuel` calls deep. -/
def typeFuel (p : Patches) (resID : GoString) :
    Nat → GoString → Except GoError types.GoType
  | 0, _ => .error .recursionBound
  | fuel + 1, s => typeBody p resID (typeFuel p resID fuel) s

/-- The function `Type` (the name is a keyword of Lean, hence the underscore): converts a
type used in the Riot document to a Go type. Every recursive call is on a strictly shorter
string, so `len(s) + 1` nested calls are never exceeded (`Type_eq_typeBody`). -/
def Type_ (p : Patches) (resID s : GoString) : Except GoError types.GoType :=
  typeFuel p resID (s.length + 1) s

end patcher

/-! ## Inputs of the claims and notions used in the proofs -/

/-- The ASCII lower-case form of a byte: `A`..`Z` go to `a`..`z`, every other byte is kept.
Two strings differ only in letter case when their images under `asciiLower` agree. -/
def asciiLower (b : UInt8) : UInt8 :=
  if 'A'.toUInt8 ≤ b ∧ b ≤ 'Z'.toUInt8 then b + 32 else b

/-- The primitive names of the grammar of type strings. -/
inductive Primitive
  | boolean | int | long | string | double | float
  deriving DecidableEq, Repr

/-- The text of a primitive name. -/
def Primitive.text : Primitive → GoString
  | .boolean => str "boolean"
  | .int => str "int"
  | .long => str "long"
  | .string => str "string"
  | .double => str "double"
  | .float => str "float"

/-- The kind a primitive name stands for: bool, int32, int64, string, float64, float32. -/
def Primitive.kind : Primitive → types.BasicKind
  | .boolean => .Bool
  | .int => .Int32
  | .long => .Int64
  | .string => .String
  | .double => .Float64
  | .float => .Float32

/-- The derivations of the grammar
`Type := Primitive | "List[" Type "]" | "Set[" Type "]" | "Map[" Type ", " Type "]"`
with primitives as leaves. -/
inductive TypeTerm
  | prim (q : Primitive)
  | list (elem : TypeTerm)
  | set (elem : TypeTerm)
  | map (key value : TypeTerm)
  deriving DecidableEq, Repr

/-- The textual form of a derivation. -/
def TypeTerm.text : TypeTerm → GoString
  | .prim q => q.text
  | .list e => str "List[" ++ e.text ++ str "]"
  | .set e => str "Set[" ++ e.text ++ str "]"
  | .map k v => str "Map[" ++ k.text ++ str ", " ++ v.text ++ str "]"

/-- The structured type that mirrors a derivation: `List` and `Set` as `List(elem)`,
`Map` as `Map(key, value)`. -/
def TypeTerm.mirror : TypeTerm → types.GoType
  | .prim q => .Typ q.kind
  | .list e => .Slice e.mirror
  | .set e => .Slice e.mirror
  | .map k v => .Map k.mirror v.mirror

/-- No `Map` occurs in the derivation. -/
def TypeTerm.mapFree : TypeTerm → Bool
  | .prim _ => true
  | .list e => e.mapFree
  | .set e => e.mapFree
  | .map _ _ => false

/-- No `Map` occurs inside the key or the value of another `Map`. -/
def TypeTerm.mapsFlat : TypeTerm → Bool
  | .prim _ => true
  | .list e => e.mapsFlat
  | .set e => e.mapsFlat
  | .map k v => k.mapFree && v.mapFree

/-- Whether `b` is the first byte of the encoding of a white-space rune. -/
def spaceFirst (b : UInt8) : Bool := strings.spaceRunes.any (fun w => w.head? == some b)

/-- Whether `b` is the last byte of the encoding of a white-space rune. -/
def spaceLast (b : UInt8) : Bool := strings.spaceRunes.any (fun w => w.getLast? == some b)

/-- A run of `n` space characters (U+0020). -/
def spaces (n : Nat) : GoString := List.replicate n ' '.toUInt8

/-- The text of a bracketed region list: the codes `first, rest...` joined by commas, the
comma before each later code having the given numbers of spaces before and after it. -/
def regionListText (first : GoString) (rest : List (Nat × Nat × GoString)) : GoString :=
  str "[" ++ first ++
    (rest.flatMap fun r => spaces r.1 ++ str "," ++ spaces r.2.1 ++ r.2.2) ++ str "]"

namespace patcher

/-- The function `ForOperation`. The `range` over the map `rp.Operations` visits the entries
in an order the language leaves open; the order of the association list stands for the
order of the run, so that a statement for every registry is a statement for every order. -/
def ForOperation (p : Patches) (resID opPath : GoString) : Except GoError OpPatch :=
  match forResource p resID with
  | .error err => .error err
  | .ok rp =>
    match rp.Operations.find? (fun e => strings.HasSuffix opPath e.1) with
    | some e => .ok e.2
    | none => .error (.ErrPatchRequired resID (.operation opPath))

/-- The function `OperationName`. -/
def OperationName (p : Patches) (resID opPath : GoString) : Except GoError GoString :=
  match ForOperation p resID opPath with
  | .error err => .error err
  | .ok op => .ok op.Name

/-- The registry a call `p.Add(id, rp)` leaves behind, whether it returns or panics: the
write `p.Resources[id] = rp` is reached only when the check before it did not panic. -/
def Patches.afterAdd (p : Patches) (id : GoString) (rp : ResPatch) : Patches :=
  match p.Resources.lookup id with
  | some _ => p
  | none => ⟨p.Resources ++ [(id, rp)]⟩

end patcher

/-! ## The document tree and the typed selection (`htmlutil`) -/

namespace Go

/-- The map write `m[k] = v` on a map kept as an association list: the entry of `k` is
overwritten where it stands, or added at the end. -/
def mapSet {β : Type} (m : List (GoString × β)) (k : GoString) (v : β) :
    List (GoString × β) :=
  match m with
  | [] => [(k, v)]
  | e :: rest => if e.1 = k then (k, v) :: rest else e :: mapSet rest k v

end Go

namespace html

/-- The nodes of `golang.org/x/net/html` below a document: an element with its tag name,
its attributes (key and value) and its child nodes, a text node, a comment node. -/
inductive Node
  | element (Data : GoString) (Attr : List (GoString × GoString)) (children : List Node)
  | text (Data : GoString)
  | comment (Data : GoString)
  deriving Repr

/-- Whether the node is an element node. -/
def Node.isElement : Node → Bool
  | .element _ _ _ => true
  | _ => false

end html

namespace htmlutil

/-- The failures of `htmlutil` and `loldoc/utils.go`, one constructor per construction site,
each keeping the arguments of its format string. `withDump` is `sel.WithDump(err)`, whose
dump text is not kept; `indexOutOfRange` is the runtime fault of an index expression. -/
inductive Failure
  /-- The error `errors.Errorf("expected selector: %q\n", selector)`. -/
  | expectedSelector (selector : GoString)
  /-- The error "cannot read text: node must not have a child, but has %d". -/
  | cannotReadText (cnt : Nat)
  /-- The error `errors.Errorf("must have single node, but has %d", len(ss))`. -/
  | mustHaveSingle (n : Nat)
  /-- The error `errors.Errorf("consumeSelect: no key for value %q", text)`. -/
  | noKeyForValue (text : GoString)
  /-- The error "row.len(%d) != columns.len(%d)" with `len(row)`, `len(columns)`. -/
  | rowLen (row columns : Nat)
  | withDump (err : Failure)
  | indexOutOfRange
  /-- The error `errors.Errorf("htmlutil: invalid selector %s", Dump(s))` of `Wrap`. -/
  | invalidSelector
  /-- The error `errors.Errorf("EatText: want %q, but got %q", text, got)` of `EatExact`. -/
  | eatExact (text got : GoString)
  /-- An error of package `patcher`, passed on as it is. -/
  | patcher (err : patcher.GoError)
  /-- The panic `loldoc: context must contain resource id` of `resID`. -/
  | noResourceID
  /-- The error `errors.New("unknown operation method")`. -/
  | unknownOperationMethod
  /-- The error `errors.Wrap(err, "parse api block")`. -/
  | parseAPIBlockFailed (err : Failure)
  /-- The error `errors.Wrapf(err, "failed to parse return value\n")`. -/
  | returnValueFailed (err : Failure)
  /-- The error "unexpected child count %d from response classes\n". -/
  | unexpectedChildCount (cnt : Nat)
  /-- The error `errors.Wrap(err, "failed to parse response errors\n")`. -/
  | responseErrorsFailed (err : Failure)
  /-- The error `errors.Wrap(err, "failed to parse query paramters\n")`. -/
  | queryParamsFailed (err : Failure)
  /-- The error `errors.Wrap(err, "failed to parse path parameters\n")`. -/
  | pathParamsFailed (err : Failure)
  /-- The error `errors.Errorf("unknown api block %q", blockType)`. -/
  | unknownAPIBlock (blockType : GoString)
  /-- The error `errors.Wrap(err, "failed to parse response error table\n")`. -/
  | responseErrorTableFailed (err : Failure)
  /-- The error of `strconv.Atoi` on the given text. -/
  | atoi (text : GoString)
  /-- The error `errors.Wrapf(err, "failed to parse class %q \n", cls.OrigName)`. -/
  | classFailed (origName : GoString) (err : Failure)
  /-- The error `errors.Wrapf(err, "failed to parse type of field %q\n", rawName)`. -/
  | fieldTypeFailed (rawName : GoString) (err : Failure)
  /-- The error `errors.Wrap(err, "parse endpoint")`. -/
  | parseEndpointFailed (err : Failure)
  /-- The error `errors.Wrapf(err, "failed to parse resource %q \n", res.ID)`; the ID, that
  of the resource returned with the error, is not kept. -/
  | resourceFailed (err : Failure)
  deriving DecidableEq, Repr

/-- The way a call ends: it returns a value with a nil error, it returns a non-nil error
(and no value), or it panics. -/
inductive Outcome (α : Type)
  | ok (v : α)
  | error (err : Failure)
  | panic (err : Failure)
  deriving DecidableEq, Repr

/-- The selection `sel.Selection.Is(selector)` for a selector that is a tag name: the node
is an element with that tag. -/
def Is (sel : html.Node) (selector : GoString) : Bool :=
  match sel with
  | .element tag _ _ => tag == selector
  | _ => false

/-- The selection `sel.Selection.Contents()`: all the child nodes. -/
def Contents (sel : html.Node) : List html.Node :=
  match sel with
  | .element _ _ cs => cs
  | _ => []

/-- The method `Sel.Children`: the child elements, each wrapped as a single-node handle. -/
def Children (sel : html.Node) : List html.Node :=
  (Contents sel).filter html.Node.isElement

/-- The method `Sel.ChildrenFiltered` for a selector that is a tag name. -/
def ChildrenFiltered (sel : html.Node) (selector : GoString) : List html.Node :=
  (Children sel).filter (fun c => Is c selector)

/-- The selection `sel.Attr(name)`: the value of the first attribute with that key. -/
def Attr (sel : html.Node) (name : GoString) : Option GoString :=
  match sel with
  | .element _ attrs _ => attrs.lookup name
  | _ => none

/-- The method `Sel.Ensure`. -/
def Ensure (sel : html.Node) (selector : GoString) : Outcome html.Node :=
  if Is sel selector then .ok sel
  else .panic (.withDump (.expectedSelector selector))

/-- The loop of `Sel.Text` over the child nodes: comment nodes are passed over, the data of
the first text node is returned, and the empty string when there is none. -/
def firstText : List html.Node → GoString
  | [] => []
  | .comment _ :: rest => firstText rest
  | .text t :: _ => t
  | .element _ _ _ :: rest => firstText rest

/-- The method `Sel.Text`. -/
def Text (sel : html.Node) : Outcome GoString :=
  if (Children sel).length ≠ 0 then
    .panic (.withDump (.cannotReadText (Children sel).length))
  else .ok (firstText (Contents sel))

/-- The method `Sels.MustBeSingle`. -/
def MustBeSingle (ss : List html.Node) : Outcome html.Node :=
  match ss with
  | [s] => .ok s
  | _ => .panic (.mustHaveSingle ss.length)

/-- The method `Sels.First`: `ss[0]`. -/
def First (ss : List html.Node) : Outcome html.Node :=
  match ss with
  | s :: _ => .ok s
  | [] => .panic .indexOutOfRange

end htmlutil

namespace loldoc

open htmlutil

/-- The library functions whose results `loldoc` only passes on: the text
`fmt.Sprintf("select: %v", vals)` of a map, and the nodes that
`Selection.ReplaceWithHtml(html)` parses `html` to and puts in the place of the node;
the text `fmt.Sprintf("%q", t)`; whether a node matches a selector that is not a plain
tag name, `Selection.Is(selector)`; `Selection.HasClass(class)`; the nodes of
`Selection.Find(selector)` below a node; the attributes that
`Selection.RemoveAttr(attrName)` leaves of the attributes of a node; and the number
`strconv.Atoi(s)` reads (`none` when it returns an error). -/
structure Library where
  sprintSelect : List (GoString × GoString) → GoString
  parseHTML : GoString → List html.Node
  quote : GoString → GoString
  Is : html.Node → GoString → Bool
  HasClass : html.Node → GoString → Bool
  Find : html.Node → GoString → List html.Node
  RemoveAttr : GoString → List (GoString × GoString) → List (GoString × GoString)
  Atoi : GoString → Option Int

/-- The function `commentf`, applied to the text `fmt.Sprintf(format, args...)`. -/
def commentf (text : GoString) : GoString := str "<!-- " ++ text ++ str " -->"

/-- The loop of `consumeSelect` over the children of the `<select>`. -/
def consumeSelectLoop :
    List html.Node → List (GoString × GoString) → Outcome (List (GoString × GoString))
  | [], vals => .ok vals
  | os :: rest, vals =>
    match Ensure os (str "option") with
    | .panic err => .panic err
    | .error err => .error err
    | .ok os =>
      match Text os with
      | .panic err => .panic err
      | .error err => .error err
      | .ok text =>
        match Attr os (str "value") with
        | none => .error (.withDump (.noKeyForValue text))
        | some val => consumeSelectLoop rest (mapSet vals val text)

/-- The function `consumeSelect`: the way the call ends, and the nodes that stand in the
place of `s` in its parent afterwards (`s` itself as long as `ReplaceWithHtml` has not
been reached). -/
def consumeSelect (L : Library) (s : html.Node) :
    Outcome (List (GoString × GoString)) × List html.Node :=
  match Ensure s (str "select") with
  | .panic err => (.panic err, [s])
  | .error err => (.error err, [s])
  | .ok s =>
    match consumeSelectLoop (Children s) [] with
    | .ok vals => (.ok vals, L.parseHTML (commentf (L.sprintSelect vals)))
    | .error err => (.error err, [s])
    | .panic err => (.panic err, [s])

/-- The loop of `consumeTableRow` over the cells of a row. -/
def consumeTableRowLoop (tagName : GoString) :
    List html.Node → List GoString → Outcome (List GoString)
  | [], vals => .ok vals
  | cs :: rest, vals =>
    match Ensure cs tagName with
    | .panic err => .panic err
    | .error err => .error err
    | .ok cs =>
      match Text cs with
      | .panic err => .panic err
      | .error err => .error err
      | .ok text => consumeTableRowLoop tagName rest (vals ++ [text])

/-- The function `consumeTableRow`: the texts of the cells of a row. Its last statement,
`tr.ReplaceWithHtml(commentf("Row: %v", vals))`, puts a marker in the place of the row
after every cell has been read; it changes nothing that is read later and is not kept. -/
def consumeTableRow (tr : html.Node) (isHead : Bool) : Outcome (List GoString) :=
  match Ensure tr (str "tr") with
  | .panic err => .panic err
  | .error err => .error err
  | .ok tr =>
    consumeTableRowLoop (if isHead then str "th" else str "td") (Children tr) []

/-- The loop of `consumeTableRows` over the rows of the body. -/
def consumeTableRowsLoop :
    List html.Node → List (List GoString) → Outcome (List (List GoString))
  | [], rows => .ok rows
  | tr :: rest, rows =>
    match consumeTableRow tr false with
    | .panic err => .panic err
    | .error err => .error err
    | .ok row => consumeTableRowsLoop rest (rows ++ [row])

/-- The function `consumeTableRows`. -/
def consumeTableRows (tbody : html.Node) : Outcome (List (List GoString)) :=
  match Ensure tbody (str "tbody") with
  | .panic err => .panic err
  | .error err => .error err
  | .ok tbody => consumeTableRowsLoop (Children tbody) []

/-- The inner loop of `consumeSimpleTable`: `rowData[columns[i]] = row[i]` for every index
`i` of `columns` (the row has as many entries as `columns` at this point). -/
def rowData (columns row : List GoString) : List (GoString × GoString) :=
  (columns.zip row).foldl (fun m e => mapSet m e.1 e.2) []

/-- The outer loop of `consumeSimpleTable` over the rows read. -/
def consumeSimpleTableLoop (columns : List GoString) :
    List (List GoString) → List (List (GoString × GoString)) →
    Outcome (List (List (GoString × GoString)))
  | [], data => .ok data
  | row :: rest, data =>
    if row.length ≠ columns.length then
      .error (.withDump (.rowLen row.length columns.length))
    else consumeSimpleTableLoop columns rest (data ++ [rowData columns row])

/-- The function `consumeSimpleTable`. -/
def consumeSimpleTable (table : html.Node) :
    Outcome (List (List (GoString × GoString))) :=
  match Ensure table (str "table") with
  | .panic err => .panic err
  | .error err => .error err
  | .ok table =>
    match MustBeSingle (ChildrenFiltered table (str "thead")) with
    | .panic err => .panic err
    | .error err => .error err
    | .ok thead =>
      match MustBeSingle (ChildrenFiltered table (str "tbody")) with
      | .panic err => .panic err
      | .error err => .error err
      | .ok tbody =>
        match First (Children thead) with
        | .panic err => .panic err
        | .error err => .error err
        | .ok hrow =>
          match consumeTableRow hrow true with
          | .panic err => .panic err
          | .error err => .error err
          | .ok columns =>
            match consumeTableRows tbody with
            | .panic err => .panic err
            | .error err => .error err
            | .ok rows => consumeSimpleTableLoop columns rows []

end loldoc

/-! ## Inputs of the claims on the document tree -/

/-- The value and the text of a leaf `<option>` element that carries a `value` attribute:
an element with the tag `option`, no child element and an attribute `value`; its text is
its first text node. -/
def leafOption (c : html.Node) : Option (GoString × GoString) :=
  if htmlutil.Is c (str "option") && (htmlutil.Children c).isEmpty then
    match htmlutil.Attr c (str "value") with
    | some val => some (val, htmlutil.firstText (htmlutil.Contents c))
    | none => none
  else none

/-- A row of leaf cells: a `<tr>` element whose child elements all have the tag `cell`
and no child element of their own. -/
def rowOf (cell : GoString) (tr : html.Node) : Bool :=
  htmlutil.Is tr (str "tr") &&
    (htmlutil.Children tr).all (fun c => htmlutil.Is c cell && (htmlutil.Children c).isEmpty)

/-- The texts of the cells of a row. -/
def cellTexts (tr : html.Node) : List GoString :=
  (htmlutil.Children tr).map (fun c => htmlutil.firstText (htmlutil.Contents c))

/-- A table-shaped subtree with a header row and a body: a `<table>` element with exactly
one `<thead>` child, whose first child element `hrow` is a row of leaf `<th>` cells, and
exactly one `<tbody>` child, whose child elements are rows of leaf `<td>` cells. -/
def tableShaped (table thead tbody hrow : html.Node) : Prop :=
  htmlutil.Is table (str "table") = true ∧
  htmlutil.ChildrenFiltered table (str "thead") = [thead] ∧
  htmlutil.ChildrenFiltered table (str "tbody") = [tbody] ∧
  (htmlutil.Children thead).head? = some hrow ∧
  rowOf (str "th") hrow = true ∧
  ∀ tr ∈ htmlutil.Children tbody, rowOf (str "td") tr = true

/-- The pieces of a compound selector such as `div#footer.push`: the tag name (empty
when there is none), then every `#id` and `.class` with its mark. -/
def selectorPieces : GoString → List GoString
  | [] => [[]]
  | b :: bs =>
    if b = '.'.toUInt8 ∨ b = '#'.toUInt8 then [] :: strings.consHead b (selectorPieces bs)
    else strings.consHead b (selectorPieces bs)

/-- The pieces of a text between its blanks (space, tab, line feed, form feed, carriage
return); two blanks in a row leave an empty piece. -/
def blankSplit : GoString → List GoString
  | [] => [[]]
  | b :: bs =>
    if b = 32 ∨ b = 9 ∨ b = 10 ∨ b = 12 ∨ b = 13 then [] :: blankSplit bs
    else strings.consHead b (blankSplit bs)

/-- The class names of a node: the pieces of its `class` attribute. -/
def classNames (n : html.Node) : List GoString :=
  (blankSplit ((htmlutil.Attr n (str "class")).getD [])).filter (fun c => c ≠ [])

/-- Whether an element matches a compound selector: its tag name when one is given, the
value of its `id` attribute for `#id`, one of its class names for `.class`. -/
def matchesCompound (n : html.Node) (selector : GoString) : Bool :=
  match n, selectorPieces selector with
  | .element tag attrs cs, t :: marks =>
    (t = [] || t = tag) && marks.all (fun m =>
      match m with
      | [] => false
      | b :: name =>
        if b = '#'.toUInt8 then htmlutil.Attr (.element tag attrs cs) (str "id") = some name
        else classNames (.element tag attrs cs) |>.contains name)
  | _, _ => false

mutual
/-- The elements below `n` that match the compound selector `inner` and stand below an
element that matches `outer`; `seen` says that `n` stands below such an element
already. -/
def findBelow (outer inner : GoString) (seen : Bool) : html.Node → List html.Node
  | .element tag attrs cs =>
    findBelowList outer inner (seen || matchesCompound (.element tag attrs cs) outer) cs
  | _ => []
/-- The same for every node of a list of siblings, in document order. -/
def findBelowList (outer inner : GoString) (seen : Bool) : List html.Node → List html.Node
  | [] => []
  | c :: rest =>
    (if seen && matchesCompound c inner then [c] else []) ++
      findBelow outer inner seen c ++ findBelowList outer inner seen rest
end

/-- The number a text of decimal digits stands for; `none` for any other text. -/
def decimal (s : GoString) : Option Int :=
  if s ≠ [] ∧ s.all (fun b => 48 ≤ b ∧ b ≤ 57) then
    some (s.foldl (fun n b => 10 * n + ((b.toNat : Int) - 48)) 0)
  else none

/-- A stand-in for the library, to run the embedding on concrete inputs: the text of a map
lists its entries as `key:value`, and a marker is parsed to one comment node that holds the
text between `<!--` and `-->`; a text is quoted by putting it between double quotes;
selectors are compound selectors, and `Find` takes two of them with a blank between;
`RemoveAttr` drops every attribute of the name; `Atoi` reads decimal digits. -/
def loldoc.Library.plain : loldoc.Library where
  sprintSelect := fun vals => str "select: map[" ++
      (vals.map fun e => e.1 ++ str ":" ++ e.2).flatten ++ str "]"
  parseHTML := fun h => [.comment ((h.drop 4).take (h.length - 7))]
  quote := fun t => [34] ++ t ++ [34]
  Is := matchesCompound
  HasClass := fun n c => (classNames n).contains c
  Find := fun n selector =>
    match blankSplit selector with
    | [outer, inner] => findBelow outer inner (matchesCompound n outer) n
    | _ => []
  RemoveAttr := fun name attrs => attrs.filter (fun a => a.1 ≠ name)
  Atoi := decimal

/-- The element `<tag>text</tag>` without attributes. -/
def leaf (tag text : GoString) : html.Node := .element tag [] [.text text]

/-- The row `<tr>` with the given cells. -/
def rowNode (cell : GoString) (texts : List GoString) : html.Node :=
  .element (str "tr") [] (texts.map (leaf cell))

/-- The table with one header row and the given body rows. -/
def tableNode (header : List GoString) (rows : List (List GoString)) : html.Node :=
  .element (str "table") []
    [.element (str "thead") [] [rowNode (str "th") header],
     .element (str "tbody") [] (rows.map (rowNode (str "td")))]

/-! ## Identifier normalisation (`FieldName`) -/

namespace unicode

/-- The tables of package `unicode` that `FieldName` consults, taken as parameters: the
predicates `unicode.IsLower` and `unicode.IsDigit` and the case mappings `unicode.ToUpper`
and `unicode.ToLower`, which `strings.ToUpper` and `strings.ToLower` apply rune by rune. -/
structure Tables where
  IsLower : Char → Bool
  IsDigit : Char → Bool
  ToUpper : Char → Char
  ToLower : Char → Char

/-- The tables with the ASCII entries only: `a`..`z` are the lower-case runes, `0`..`9` the
digits, and the case mappings act on the ASCII letters. -/
def Tables.ascii : Tables := ⟨Char.isLower, Char.isDigit, Char.toUpper, Char.toLower⟩

/-- On the runes below U+0080 the tables are the ASCII ones. -/
def Tables.agreeOnASCII (U : Tables) : Prop :=
  ∀ c : Char, c.toNat < 128 →
    U.IsLower c = c.isLower ∧ U.IsDigit c = c.isDigit ∧
      U.ToUpper c = c.toUpper ∧ U.ToLower c = c.toLower

/-- Two facts of the Unicode tables about the runes of any script: no rune other than `_`
has `_` as its upper-case form, and the upper-case form of a digit is a digit. -/
def Tables.caseKeepsShape (U : Tables) : Prop :=
  (∀ c : Char, U.ToUpper c = '_' → c = '_') ∧
    (∀ c : Char, U.IsDigit c = true → U.IsDigit (U.ToUpper c) = true)

end unicode

namespace patcher

/-- The keys of the map `commonInitialisms` (every value is `true`), as rune sequences. -/
def commonInitialisms : List (List Char) :=
  ["API".data, "ASCII".data, "CPU".data, "CSS".data, "DNS".data, "EOF".data, "GUID".data,
   "HTML".data, "HTTP".data, "HTTPS".data, "ID".data, "IP".data, "JSON".data, "LHS".data,
   "QPS".data, "RAM".data, "RHS".data, "RPC".data, "SLA".data, "SMTP".data, "SQL".data,
   "SSH".data, "TCP".data, "TLS".data, "TTL".data, "UDP".data, "UI".data, "UID".data,
   "UUID".data, "URI".data, "URL".data, "UTF8".data, "VM".data, "XML".data, "XSRF".data,
   "XSS".data]

/-- The function `upperFirst`. In this part of the embedding a string is the sequence of
its runes, which is how `utf8.DecodeRuneInString`, `range name` and `[]rune(name)` read
it and what `string(runes)` writes back. -/
def upperFirst (U : unicode.Tables) (s : List Char) : List Char :=
  match s with
  | [] => []
  | r :: rest => U.ToUpper r :: rest

/-- The end-of-word part of the loop of `lintName`: `[w, i)` is a word. A word whose
upper-case form is a common initialism is overwritten with that form (with its lower-case
form when it starts the name with a lower-case rune), `copy(runes[w:], []rune(u))`;
another word that is all lower case and not the first one gets its first rune in upper
case. -/
def lintWord (U : unicode.Tables) (runes : List Char) (w i : Nat) : List Char :=
  let word := (runes.take i).drop w
  let u := word.map U.ToUpper
  if commonInitialisms.contains u then
    let u' := if w = 0 ∧ runes[w]?.map U.IsLower = some true then u.map U.ToLower else u
    runes.take w ++ u' ++ runes.drop (w + u'.length)
  else if 0 < w ∧ word.map U.ToLower = word then
    match runes[w]? with
    | some r => runes.set w (U.ToUpper r)
    | none => runes
  else runes

/-- One turn of the loop of `lintName`, entered with `i + 1 ≤ len(runes)`: the runes, the
start `w` of the current word and the scan index `i` afterwards. Before an underscore the
whole run of underscores is counted (`n`), one is left when the run stands between two
digits, and the others are cut out: `copy(runes[i+1:], runes[i+n+1:])` and
`runes = runes[:len(runes)-n]`. -/
def lintIter (U : unicode.Tables) (runes : List Char) (w i : Nat) :
    List Char × Nat × Nat :=
  if i + 1 = runes.length then
    (lintWord U runes w (i + 1), i + 1, i + 1)
  else if runes[i + 1]? = some '_' then
    let n := 1 + ((runes.drop (i + 2)).takeWhile (fun r => r == '_')).length
    let n := if i + n + 1 < runes.length ∧ runes[i]?.map U.IsDigit = some true ∧
        runes[i + n + 1]?.map U.IsDigit = some true then n - 1 else n
    let runes := runes.take (i + 1) ++ runes.drop (i + n + 1)
    (lintWord U runes w (i + 1), i + 1, i + 1)
  else if runes[i]?.map U.IsLower = some true ∧
      runes[i + 1]?.map U.IsLower = some false then
    (lintWord U runes w (i + 1), i + 1, i + 1)
  else (runes, w, i + 1)

/-- The loop `for i+1 <= len(runes)` of `lintName`, at most `fuel` turns of it. -/
def lintLoop (U : unicode.Tables) : Nat → List Char → Nat → Nat → List Char
  | 0, runes, _, _ => runes
  | fuel + 1, runes, w, i =>
    if i + 1 ≤ runes.length then
      lintLoop U fuel (lintIter U runes w i).1 (lintIter U runes w i).2.1
        (lintIter U runes w i).2.2
    else runes

/-- The function `lintName`. Every turn of the loop moves `i` one step towards
`len(runes)`, which never grows, so `len(name)` turns are never exceeded
(`lintLoop_fuel`). -/
def lintName (U : unicode.Tables) (name : List Char) : List Char :=
  if name = ['_'] then name
  else if name.all U.IsLower then name
  else lintLoop U name.length name 0 0

/-- The function `FieldName`. -/
def FieldName (U : unicode.Tables) (orig : List Char) : List Char :=
  if orig = [] then []
  else lintName U (upperFirst U orig)

end patcher

/-! ## Inputs of the claims on identifiers -/

/-- The capitalised form of a word: its first rune, then the others in lower case. -/
def capitalised (W : List Char) : List Char :=
  match W with
  | [] => []
  | c :: rest => c :: rest.map Char.toLower

/-- What a case mapping leaves of a rune `a` in its image `b`: being the underscore, and
being a digit. -/
def sameShape (U : unicode.Tables) (a b : Char) : Prop :=
  (a = '_' ↔ b = '_') ∧ (U.IsDigit a = true → U.IsDigit b = true)

/-- Every underscore of `rs` at an index from 1 to `k` stands directly between two
digits. -/
def underscoresBetweenDigits (U : unicode.Tables) (rs : List Char) (k : Nat) : Prop :=
  ∀ j : Nat, 0 < j → j ≤ k → rs[j]? = some '_' →
    (∃ a, rs[j - 1]? = some a ∧ U.IsDigit a = true) ∧
      (∃ b, rs[j + 1]? = some b ∧ U.IsDigit b = true)

/-! ## The handles of `htmlutil`: wrapping, reading and consuming text -/

namespace htmlutil

/-- The function `Wrap`. A `*goquery.Selection` is the list of its nodes; a handle `Sel`
on a selection of one node is that node. -/
def Wrap (s : List html.Node) : Outcome html.Node :=
  if s.length ≠ 1 then .panic .invalidSelector
  else
    match s with
    | n :: _ => .ok n
    | [] => .panic .invalidSelector

/-- The method `Sels.Children`: `ret = append(ret, s.Children()...)` for every `s`. -/
def Sels.Children (ss : List html.Node) : List html.Node :=
  ss.foldl (fun ret s => ret ++ htmlutil.Children s) []

/-- The loop of `Sel.EatText` over the child nodes: comment nodes are passed over, and the
data of the first text node is found; `none` when the loop runs out. -/
def eatTextLoop : List html.Node → Option GoString
  | [] => none
  | .comment _ :: rest => eatTextLoop rest
  | .text t :: _ => some t
  | .element _ _ _ :: rest => eatTextLoop rest

/-- The method `Sel.EatText`: the way the call ends, and the nodes that stand in the place
of the node in its parent afterwards: the nodes that `ReplaceWithHtml` makes of the text
`fmt.Sprintf("<!-- %q -->", t)` when a text node was found, the node itself otherwise. -/
def EatText (L : loldoc.Library) (sel : html.Node) : Outcome GoString × List html.Node :=
  if (Children sel).length ≠ 0 then
    (.panic (.withDump (.cannotReadText (Children sel).length)), [sel])
  else
    match eatTextLoop (Contents sel) with
    | some t => (.ok t, L.parseHTML (str "<!-- " ++ L.quote t ++ str " -->"))
    | none => (.ok [], [sel])

/-- The method `Sel.EatExact`: the way the call ends, and the nodes that stand in the
place of the node afterwards (none once `sel.Remove()` has run). -/
def EatExact (sel : html.Node) (text : GoString) : Outcome Unit × List html.Node :=
  match Text sel with
  | .panic err => (.panic err, [sel])
  | .error err => (.error err, [sel])
  | .ok got =>
    if got ≠ text then (.panic (.eatExact text got), [sel])
    else (.ok (), [])

end htmlutil

/-! ## Regions and the response check of package `lol` -/

namespace lol

/-- The type `Region`, an `int32`. -/
abbrev Region := Int

/-- The constant `Global`. -/
def Global : Region := 0
/-- The constant `PBE`. -/
def PBE : Region := 2
/-- The constant `NA`. -/
def NA : Region := 10
/-- The constant `EUW`. -/
def EUW : Region := 11
/-- The constant `EUNE`. -/
def EUNE : Region := 12
/-- The constant `KR`. -/
def KR : Region := 13
/-- The constant `BR`. -/
def BR : Region := 14
/-- The constant `TR`. -/
def TR : Region := 15
/-- The constant `RU`. -/
def RU : Region := 16
/-- The constant `LAS`. -/
def LAS : Region := 17
/-- The constant `LAN`. -/
def LAN : Region := 18
/-- The constant `OCE`. -/
def OCE : Region := 19
/-- The constant `JP`. -/
def JP : Region := 20

/-- The constants of the `const` block of `region.go`, in source order. -/
def regionConstants : List Region :=
  [Global, PBE, NA, EUW, EUNE, KR, BR, TR, RU, LAS, LAN, OCE, JP]

/-- The array `regions`. -/
def regions : List Region := [PBE, NA, EUW, EUNE, KR, BR, TR, RU, LAS, LAN, OCE, JP]

/-- The map `regionByName`. -/
def regionByName : List (GoString × Region) :=
  [(str "global", Global), (str "pbe", PBE), (str "na", NA), (str "euw", EUW),
   (str "eune", EUNE), (str "kr", KR), (str "br", BR), (str "tr", TR), (str "ru", RU),
   (str "las", LAS), (str "lan", LAN), (str "oce", OCE), (str "jp", JP)]

/-- The map `nameByRegion`. -/
def nameByRegion : List (Region × GoString) :=
  [(Global, str "global"), (PBE, str "pbe"), (NA, str "na"), (EUW, str "euw"),
   (EUNE, str "eune"), (KR, str "kr"), (BR, str "br"), (TR, str "tr"), (RU, str "ru"),
   (LAS, str "las"), (LAN, str "lan"), (OCE, str "oce"), (JP, str "jp")]

/-- The error values of `region.go`. -/
inductive RegionError
  /-- The variable `ErrNoSuchRegion`. -/
  | ErrNoSuchRegion
  deriving DecidableEq, Repr

/-- The function `RegionByName`: the region and the error it returns (`none` is `nil`). -/
def RegionByName (name : GoString) : Region × Option RegionError :=
  match regionByName.lookup name with
  | none => (0, some .ErrNoSuchRegion)
  | some r => (r, none)

/-- The method `Region.Name`: `nameByRegion[r]`, the empty string for a missing key. -/
def Region.Name (r : Region) : GoString :=
  (nameByRegion.lookup r).getD []

/-- The function `Regions`: `regions[:]`. -/
def Regions : List Region := regions

/-- The fields of `*http.Request` that `verifyResponse` reads: the URL, as its text. -/
structure Request where
  URL : GoString
  deriving DecidableEq, Repr

/-- The fields of `*http.Response` that `verifyResponse` reads. `Request` is a pointer
(`none` is `nil`); `Body` is `none` for a `nil` body and otherwise holds the bytes that
`ioutil.ReadAll(resp.Body)` returns, whose error is dropped. -/
structure Response where
  StatusCode : Int
  Request : Option Request
  Header : List (GoString × List GoString)
  Body : Option GoString
  deriving DecidableEq, Repr

/-- The struct `HTTPError`. -/
structure HTTPError where
  URL : GoString
  Code : Int
  Body : GoString
  Header : List (GoString × List GoString)
  deriving DecidableEq, Repr

/-- The function `verifyResponse` on a non-nil response: `some none` is the result `nil`,
`some (some e)` the error `e`, and `none` the runtime fault of `resp.Request.URL` on a
`nil` request. -/
def verifyResponse (resp : Response) : Option (Option HTTPError) :=
  if resp.StatusCode ≥ 200 ∧ resp.StatusCode ≤ 299 then some none
  else
    match resp.Request with
    | none => none
    | some rq =>
      some (some
        { Code := resp.StatusCode, URL := rq.URL, Header := resp.Header,
          Body := match resp.Body with
            | some b => b
            | none => [] })

end lol

/-! ## URI templates (`internal/uritemplates`) -/

namespace strings

/-- The function `strings.Contains(s, substr)`: whether `substr` begins at some position
of `s`. -/
def Contains (s substr : GoString) : Bool :=
  match s with
  | [] => substr.isPrefixOf []
  | b :: bs => substr.isPrefixOf (b :: bs) || Contains bs substr

end strings

namespace uritemplates

/-- The struct `templateTerm`. -/
structure templateTerm where
  name : GoString
  explode : Bool
  truncate : Int
  deriving DecidableEq, Repr

/-- The struct `templatePart`. -/
structure templatePart where
  raw : GoString
  terms : List templateTerm
  first : GoString
  sep : GoString
  named : Bool
  ifemp : GoString
  allowReserved : Bool
  deriving DecidableEq, Repr

/-- The struct `URITemplate`. -/
structure URITemplate where
  raw : GoString
  parts : List templatePart
  deriving DecidableEq, Repr

/-- The error values of the package, one constructor per construction site. `parseInt`
is the error of `strconv.ParseInt`; `indexOutOfRange` is not a Go error but the runtime
fault of the index expression `expression[0]`. -/
inductive ParseError
  /-- The error `errors.New("unexpected }")`. -/
  | unexpectedClose
  /-- The error `errors.New("malformed template")`. -/
  | malformedTemplate
  | parseInt (text : GoString)
  /-- The error `errors.New("multiple colons in same term")`. -/
  | multipleColons
  /-- The error `errors.New("not a valid name: " + result.name)`. -/
  | notValidName (name : GoString)
  /-- The error `errors.New("both explode and prefix modifers on same term")`. -/
  | explodeAndPrefix
  | indexOutOfRange
  deriving DecidableEq, Repr

/-- The class `[A-Za-z0-9_\.]` of the expression `validname`. -/
def isNameByte (b : UInt8) : Bool :=
  (65 ≤ b && b ≤ 90) || (97 ≤ b && b ≤ 122) || (48 ≤ b && b ≤ 57) || b == 95 || b == 46

/-- The class `[0-9A-Fa-f]` of the expression `validname`. -/
def isHexByte (b : UInt8) : Bool :=
  (48 ≤ b && b ≤ 57) || (65 ≤ b && b ≤ 70) || (97 ≤ b && b ≤ 102)

/-- The repetition `([A-Za-z0-9_\.]|%[0-9A-Fa-f][0-9A-Fa-f])*` up to the end of the text;
`pending` counts the hexadecimal digits that a `%` read before still asks for. -/
def validnameFrom : Nat → GoString → Bool
  | 0, [] => true
  | _ + 1, [] => false
  | k + 1, b :: rest => isHexByte b && validnameFrom k rest
  | 0, b :: rest =>
    if isNameByte b then validnameFrom 0 rest
    else if b = '%'.toUInt8 then validnameFrom 2 rest
    else false

/-- The test `validname.MatchString(s)` for the expression
`^([A-Za-z0-9_\.]|%[0-9A-Fa-f][0-9A-Fa-f])+$`. -/
def validname (s : GoString) : Bool :=
  s ≠ [] && validnameFrom 0 s

/-- The function `parseTerm`: the term and the error it returns (`none` is `nil`).
`ParseInt` stands for `strconv.ParseInt(·, 10, 0)`: the number it returns and whether its
error is non-nil. -/
def parseTerm (ParseInt : GoString → Int × Bool) (term0 : GoString) :
    templateTerm × Option ParseError :=
  let explode := strings.HasSuffix term0 (str "*")
  let term := if explode then term0.take (term0.length - 1) else term0
  let r : GoString × Int × Option ParseError :=
    match strings.Split term (str ":") with
    | [_] => (term, 0, none)
    | [a, b] => (a, (ParseInt b).1, if (ParseInt b).2 then some (.parseInt b) else none)
    | _ => ([], 0, some .multipleColons)
  let err := if !validname r.1 then some (.notValidName r.1) else r.2.2
  let err := if explode ∧ r.2.1 > 0 then some .explodeAndPrefix else err
  (⟨r.1, explode, r.2.1⟩, err)

/-- The loop of `parseExpression` over the raw terms: it stops at the first error. -/
def parseTerms (ParseInt : GoString → Int × Bool) :
    List GoString → Except ParseError (List templateTerm)
  | [] => .ok []
  | raw :: rest =>
    match parseTerm ParseInt raw with
    | (_, some err) => .error err
    | (t, none) =>
      match parseTerms ParseInt rest with
      | .error err => .error err
      | .ok ts => .ok (t :: ts)

/-- The `switch expression[0]` of `parseExpression`: the part with the fields the operator
sets, and the expression without its operator. -/
def operatorPart (c : UInt8) (rest : GoString) : templatePart × GoString :=
  if c = '+'.toUInt8 then (⟨[], [], [], str ",", false, [], true⟩, rest)
  else if c = '.'.toUInt8 then (⟨[], [], str ".", str ".", false, [], false⟩, rest)
  else if c = '/'.toUInt8 then (⟨[], [], str "/", str "/", false, [], false⟩, rest)
  else if c = ';'.toUInt8 then (⟨[], [], str ";", str ";", true, [], false⟩, rest)
  else if c = '?'.toUInt8 then (⟨[], [], str "?", str "&", true, str "=", false⟩, rest)
  else if c = '&'.toUInt8 then (⟨[], [], str "&", str "&", true, str "=", false⟩, rest)
  else if c = '#'.toUInt8 then (⟨[], [], str "#", str ",", false, [], true⟩, rest)
  else (⟨[], [], [], str ",", false, [], false⟩, c :: rest)

/-- The function `parseExpression`. On an error the part built so far is dropped: `Parse`
returns a nil template then. On the empty expression `expression[0]` faults. -/
def parseExpression (ParseInt : GoString → Int × Bool) (expression : GoString) :
    Except ParseError templatePart :=
  match expression with
  | [] => .error .indexOutOfRange
  | c :: rest =>
    match parseTerms ParseInt (strings.Split (operatorPart c rest).2 (str ",")) with
    | .error err => .error err
    | .ok terms => .ok { (operatorPart c rest).1 with terms := terms }

/-- The part of a literal text: only `raw` is set. -/
def literalPart (raw : GoString) : templatePart := ⟨raw, [], [], [], false, [], false⟩

/-- The loop of `Parse` over the pieces after the first one: each piece gives the part of
its expression and the part of the literal text after it. -/
def parsePieces (ParseInt : GoString → Int × Bool) :
    List GoString → Except ParseError (List templatePart)
  | [] => .ok []
  | s :: rest =>
    match strings.Split s (str "\x7d") with
    | [expression, lit] =>
      match parseExpression ParseInt expression with
      | .error err => .error err
      | .ok part =>
        match parsePieces ParseInt rest with
        | .error err => .error err
        | .ok parts => .ok (part :: literalPart lit :: parts)
    | _ => .error .malformedTemplate

/-- The function `Parse`: the template, or the error with which it returns a nil
template. -/
def Parse (ParseInt : GoString → Int × Bool) (rawtemplate : GoString) :
    Except ParseError URITemplate :=
  match strings.Split rawtemplate (str "\x7b") with
  | [] => .ok ⟨rawtemplate, []⟩
  | s :: rest =>
    if strings.Contains s (str "\x7d") then .error .unexpectedClose
    else
      match parsePieces ParseInt rest with
      | .error err => .error err
      | .ok parts => .ok ⟨rawtemplate, literalPart s :: parts⟩

/-- The method `URITemplate.Names`. -/
def URITemplate.Names (t : URITemplate) : List GoString :=
  t.parts.foldl (fun names p =>
    if p.raw.length > 0 ∨ p.terms.length = 0 then names
    else p.terms.foldl (fun names term => names ++ [term.name]) names) []

/-- The method `URITemplate.String`. -/
def URITemplate.String (t : URITemplate) : GoString := t.raw

/-- From the words of the claim: the expressions of a template in order of appearance,
each the text between a `{` and the next `}`. `open` holds the text read since the last
`{`, and is `none` outside an expression. -/
def specExpressions : Option GoString → GoString → List GoString
  | _, [] => []
  | none, b :: rest =>
    if b = 0x7b then specExpressions (some []) rest else specExpressions none rest
  | some acc, b :: rest =>
    if b = 0x7d then acc :: specExpressions none rest
    else specExpressions (some (acc ++ [b])) rest

/-- From the words of the claim: the name of a variable, its specifier up to the modifier
(`*`, or `:` and a length). -/
def specVarName (v : GoString) : GoString :=
  v.takeWhile (fun b => b != ':'.toUInt8 && b != '*'.toUInt8)

/-- From the words of the claim: the names of the variables of an expression, which stand
between commas after the operator (one of `+ . / ; ? & #`) when there is one. -/
def specExpressionNames (e : GoString) : List GoString :=
  match e with
  | [] => []
  | c :: rest =>
    ((if c ∈ str "+./;?&#" then rest else c :: rest).splitOn ','.toUInt8).map specVarName

/-- From the words of the claim: the names of all variables of all expressions of the
template, in order of appearance. -/
def specNames (raw : GoString) : List GoString :=
  (specExpressions none raw).flatMap specExpressionNames

end uritemplates

/-- A stand-in for `strconv.ParseInt(·, 10, 0)` on concrete inputs: decimal digits are
read, and any other text is an error. -/
def plainParseInt (s : GoString) : Int × Bool :=
  match decimal s with
  | some n => (n, false)
  | none => (0, true)

/-! ## Pruning the document (`removeIfUseless`) -/

namespace html

mutual
/-- The element nodes of the subtree of a node, the node itself included, in document
order. -/
def Node.elements : Node → List Node
  | .element tag attrs cs => .element tag attrs cs :: Node.elementsOf cs
  | _ => []
/-- The element nodes of the subtrees of a list of siblings. -/
def Node.elementsOf : List Node → List Node
  | [] => []
  | c :: rest => Node.elements c ++ Node.elementsOf rest
end

/-- The attributes of a node (none for a text or comment node). -/
def Node.attrs : Node → List (GoString × GoString)
  | .element _ attrs _ => attrs
  | _ => []

end html

namespace loldoc

open htmlutil

/-- The function `isUseless` on a selection of one node. The selectors that are tag names
are matched as `htmlutil.Is` does; the others are left to the library. -/
def isUseless (L : Library) (s : html.Node) : Bool :=
  if Is s (str "head") || Is s (str "script") || Is s (str "style") ||
      Is s (str "title") then true
  else if Is s (str "link") && ((Attr s (str "rel")).getD [] == str "stylesheet" ||
      (Attr s (str "rel")).getD [] == str "shortcut icon") then true
  else if L.Is s (str "div#footer") || L.Is s (str "div.navbar") ||
      L.Is s (str "div.header.container.ezreal") || L.Is s (str "div#inputs-link") ||
      L.Is s (str ".sandbox_header") then true
  else if L.Is s (str "div.push") && (Children s).length == 0 then true
  else false

mutual
/-- The function `removeIfUseless` on a selection of one node: the nodes that stand in
the place of the node afterwards, none when `s.Remove()` has run. The attributes
`onclick` and `style` are removed, every child element is visited in turn
(`s.Children().Each(removeIfUseless)`), and the node is checked a second time. -/
def removeIfUseless (L : Library) : html.Node → List html.Node
  | .element tag attrs cs =>
    if isUseless L (.element tag attrs cs) then []
    else if isUseless L (.element tag
        (L.RemoveAttr (str "style") (L.RemoveAttr (str "onclick") attrs))
        (removeEach L cs)) then []
    else [.element tag (L.RemoveAttr (str "style") (L.RemoveAttr (str "onclick") attrs))
        (removeEach L cs)]
  | .text d => if isUseless L (.text d) then [] else [.text d]
  | .comment d => if isUseless L (.comment d) then [] else [.comment d]
/-- The visit of the child elements: the child nodes afterwards, in document order. -/
def removeEach (L : Library) : List html.Node → List html.Node
  | [] => []
  | .element tag attrs cs :: rest =>
    removeIfUseless L (.element tag attrs cs) ++ removeEach L rest
  | c :: rest => c :: removeEach L rest
end

end loldoc

/-- A page fragment to run the pruning on: a container with a style sheet
link, a navigation bar, a `div.push` that holds only a script, and a paragraph. -/
def prunedPage : html.Node :=
  .element (str "div") [(str "class", str "body container"), (str "style", str "x")]
    [.element (str "link") [(str "rel", str "stylesheet")] [],
     .element (str "div") [(str "class", str "navbar")] [leaf (str "a") (str "Home")],
     .text (str "intro"),
     .element (str "div") [(str "class", str "push")] [leaf (str "script") (str "x()")],
     .element (str "p") [(str "onclick", str "f()"), (str "id", str "t")] [.text (str "body")]]

/-- The page fragment `prunedPage` after the pruning. -/
def prunedResult : html.Node :=
  .element (str "div") [(str "class", str "body container")]
    [.text (str "intro"),
     .element (str "p") [(str "id", str "t")] [.text (str "body")]]

/-- The attributes `attrs` of an element have no second `onclick` or `style` for the
library to find: in what the two `RemoveAttr` calls of `removeIfUseless` leave of them,
another `RemoveAttr("onclick")` or `RemoveAttr("style")` removes nothing. -/
def removalSettles (L : loldoc.Library) (attrs : List (GoString × GoString)) : Prop :=
  L.RemoveAttr (str "onclick")
      (L.RemoveAttr (str "style") (L.RemoveAttr (str "onclick") attrs)) =
    L.RemoveAttr (str "style") (L.RemoveAttr (str "onclick") attrs) ∧
  L.RemoveAttr (str "style")
      (L.RemoveAttr (str "style") (L.RemoveAttr (str "onclick") attrs)) =
    L.RemoveAttr (str "style") (L.RemoveAttr (str "onclick") attrs)

/-! ## The parser of the method pages (`loldoc/riot.go`) -/

namespace patcher

/-- The function `PathParamType`. -/
def PathParamType (paramName typeStr : GoString) : GoString :=
  if paramName = str "summonerIds" then str "List[long]"
  else if paramName = str "summonerNames" then str "List[string]"
  else typeStr

/-- The function `FieldTypeString`. -/
def FieldTypeString (resID clsName rawFieldName typeStr : GoString) : GoString :=
  if resID = str "lol-static-data" ∧
      (clsName = str "SummonerSpellDto" ∨ clsName = str "ChampionSpellDto") then
    if rawFieldName = str "effect" then str "List[List[double]]"
    else if rawFieldName = str "range" then str "SpellRange"
    else typeStr
  else typeStr

end patcher

namespace htmlutil

/-- The sequencing of calls: the next call runs on the value of a call that returned
without error; an error or a panic ends the sequence. -/
def Outcome.bind {α β : Type} (x : Outcome α) (f : α → Outcome β) : Outcome β :=
  match x with
  | .ok v => f v
  | .error err => .error err
  | .panic err => .panic err

instance : Monad Outcome where
  pure := .ok
  bind := Outcome.bind

/-- The call `errors.Wrap(err, ...)` on the error of a result: `wrapper` is the
constructor of the wrapped error; a panic passes as it is. -/
def Outcome.wrap {α : Type} (wrapper : Failure → Failure) (x : Outcome α) : Outcome α :=
  match x with
  | .ok v => .ok v
  | .error err => .error (wrapper err)
  | .panic err => .panic err

/-- A result of package `patcher` as a result of `loldoc`. -/
def Outcome.ofPatcher {α : Type} (x : Except patcher.GoError α) : Outcome α :=
  match x with
  | .ok v => .ok v
  | .error err => .error (.patcher err)

/-- The method `Sel.Ensure` for a selector that is not a plain tag name. -/
def EnsureSel (L : loldoc.Library) (sel : html.Node) (selector : GoString) :
    Outcome html.Node :=
  if L.Is sel selector then .ok sel
  else .panic (.withDump (.expectedSelector selector))

/-- The method `Sel.ChildrenFiltered` for a selector that is not a plain tag name. -/
def ChildrenFilteredSel (L : loldoc.Library) (sel : html.Node) (selector : GoString) :
    List html.Node :=
  (Children sel).filter (fun c => L.Is c selector)

/-- The method `Sels.Last`: `ss[len(ss)-1]`. -/
def Last (ss : List html.Node) : Outcome html.Node :=
  match ss.getLast? with
  | some s => .ok s
  | none => .panic .indexOutOfRange

/-- The index expression `ss[i]` on a sequence of handles. -/
def At (ss : List html.Node) (i : Nat) : Outcome html.Node :=
  match ss[i]? with
  | some s => .ok s
  | none => .panic .indexOutOfRange

/-- The loop of `Sels.Reverse`: `for i := len(ss) - 1; i >= 0; i--` appends `ss[i]`;
the first argument is `i + 1`. -/
def reverseFrom (ss : List html.Node) : Nat → List html.Node → List html.Node
  | 0, ret => ret
  | i + 1, ret =>
    match ss[i]? with
    | some s => reverseFrom ss i (ret ++ [s])
    | none => reverseFrom ss i ret

/-- The method `Sels.Reverse`. -/
def Sels.Reverse (ss : List html.Node) : List html.Node :=
  reverseFrom ss ss.length []

/-- The node with other child nodes in the place of its own. -/
def withChildren (n : html.Node) (cs : List html.Node) : html.Node :=
  match n with
  | .element tag attrs _ => .element tag attrs cs
  | n => n

/-- The child nodes after the first one that `p` holds of has been replaced by the nodes
`new` (removed, when `new` is empty). -/
def replaceFirst (p : html.Node → Bool) (new : List html.Node) :
    List html.Node → List html.Node
  | [] => []
  | c :: rest => if p c then new ++ rest else c :: replaceFirst p new rest

/-- The child nodes after the last one that `p` holds of has been replaced by `new`. -/
def replaceLast (p : html.Node → Bool) (new : List html.Node) (cs : List html.Node) :
    List html.Node :=
  (replaceFirst p new.reverse cs.reverse).reverse

end htmlutil

namespace loldoc

open htmlutil

/-- The struct `Parameter`. `Type_` is the field `Type`, a `types.Type`; `none` is the
nil interface. -/
structure Parameter where
  Name : GoString
  Description : GoString
  Required : Bool
  Type_ : Option types.GoType
  deriving DecidableEq, Repr

/-- The struct `ResponseError`. -/
structure ResponseError where
  Code : Int
  Reason : GoString
  deriving DecidableEq, Repr

/-- The struct `Field`. Its field `goName` is `patcher.FieldName(origName)`, a function
of `origName`, and is not kept. -/
structure Field where
  origName : GoString
  Type_ : Option types.GoType
  Description : GoString
  deriving DecidableEq, Repr

/-- The struct `Schema`, without the embedded `*types.Named` (never set by the parser)
and the pointer `res` to the resource. -/
structure Schema where
  Description : GoString
  Fields : List Field
  OrigName : GoString
  StructName : GoString
  deriving DecidableEq, Repr

/-- The struct `Operation`, without the pointer `res` to the resource. -/
structure Operation where
  PathParams : List Parameter
  QueryParams : List Parameter
  Description : GoString
  OrigReturnType : Option types.GoType
  MethodName : GoString
  OverridedMapKey : types.BasicKind
  HTTPMethod : GoString
  RequestPath : GoString
  ResponseErrors : List ResponseError
  ImplNotes : GoString
  RateLimitNotes : GoString
  deriving DecidableEq, Repr

/-- The struct `Resource`; the map `Definitions` is kept as an association list. -/
structure Resource where
  ID : GoString
  Version : GoString
  Regions : List GoString
  Definitions : List (GoString × Schema)
  Operations : List Operation
  deriving DecidableEq, Repr

/-- The value `Operation{}`. -/
def Operation.zero : Operation :=
  ⟨[], [], [], none, [], .Invalid, [], [], [], [], []⟩

/-- The function `resID` on a context; the context is kept as the resource ID that
`withResID` has put in it, `none` when there is none. -/
def resID (c : Option GoString) : Outcome GoString :=
  match c with
  | none => .panic .noResourceID
  | some id => .ok id

/-- The function `IsRegion`. -/
def IsRegion (p : Parameter) : Bool :=
  p.Name = str "region" || p.Name = str "platformId"

/-- The loop of `parseResponseErrors` over the rows of the table. -/
def responseErrorsLoop (L : Library) :
    List (List (GoString × GoString)) → List ResponseError → Outcome (List ResponseError)
  | [], errs => .ok errs
  | data :: rest, errs =>
    match L.Atoi ((data.lookup (str "HTTP Status Code")).getD []) with
    | none => .error (.atoi ((data.lookup (str "HTTP Status Code")).getD []))
    | some code =>
      responseErrorsLoop L rest (errs ++ [⟨code, (data.lookup (str "Reason")).getD []⟩])

/-- The function `parseResponseErrors`. -/
def parseResponseErrors (L : Library) (s : html.Node) : Outcome (List ResponseError) := do
  let s ← EnsureSel L s (str ".api_block")
  let table ← First (Children s)
  let datas ← (consumeSimpleTable table).wrap .responseErrorTableFailed
  responseErrorsLoop L datas []

/-- The body of the loop of `parsePathParams`: the parameter of one row. The row is
read again after each of its cells was consumed: `td1`, `tr1`, `tr2` are the cell and the
row after the replacements that `EatText` has made. -/
def pathParamRow (L : Library) (p : patcher.Patches) (c : Option GoString)
    (tr : html.Node) : Outcome Parameter := do
  let tr ← Ensure tr (str "tr")
  let td0 ← First (Children tr)
  let td ← EnsureSel L td0 (str "td.code")
  let cs ← MustBeSingle (ChildrenFilteredSel L td (str "div.required"))
  let marker ← (EatText L cs).1
  let td1 := withChildren td (replaceFirst
    (fun x => x.isElement && L.Is x (str "div.required")) (EatText L cs).2 (Contents td))
  let name ← Text td1
  let tr1 := withChildren tr (replaceFirst html.Node.isElement [td1] (Contents tr))
  let d0 ← Last (Children tr1)
  let d ← Ensure d0 (str "td")
  let description ← (EatText L d).1
  let tr2 := withChildren tr1
    (replaceLast html.Node.isElement (EatText L d).2 (Contents tr1))
  let t0 ← Last (Children tr2)
  let td2 ← Ensure t0 (str "td")
  let sp0 ← First (Children td2)
  let sp ← EnsureSel L sp0 (str "span.model-signature")
  let typeStr ← Text sp
  let id ← resID c
  let typ ← Outcome.ofPatcher (patcher.Type_ p id (patcher.PathParamType name typeStr))
  pure ⟨name, description, decide (marker = str "required"), some typ⟩

/-- The loop of `parsePathParams` over the rows of the body. -/
def pathParamRows (L : Library) (p : patcher.Patches) (c : Option GoString) :
    List html.Node → List Parameter → Outcome (List Parameter)
  | [], params => .ok params
  | tr :: rest, params =>
    match pathParamRow L p c tr with
    | .ok param => pathParamRows L p c rest (params ++ [param])
    | .error err => .error err
    | .panic err => .panic err

/-- The function `parsePathParams`. -/
def parsePathParams (L : Library) (p : patcher.Patches) (c : Option GoString)
    (s : html.Node) : Outcome (List Parameter) := do
  let s ← EnsureSel L s (str ".api_block")
  let t0 ← First (Children s)
  let table ← EnsureSel L t0 (str "table.table")
  let tb0 ← MustBeSingle (ChildrenFiltered table (str "tbody"))
  let tbody ← EnsureSel L tb0 (str ".operation-params")
  pathParamRows L p c (Children tbody) []

/-- The body of the loop of `parseQueryParams`: the parameter of one row. -/
def queryParamRow (L : Library) (p : patcher.Patches) (c : Option GoString)
    (tr : html.Node) : Outcome Parameter := do
  let tr ← Ensure tr (str "tr")
  let cb0 ← First (Children tr)
  let codeBlock ← EnsureSel L cb0 (str "td.code")
  let ob0 ← First (Children codeBlock)
  let optionalBlock ← EnsureSel L ob0 (str "div.required")
  let optional ← (EatText L optionalBlock).1
  let codeBlock1 := withChildren codeBlock (replaceFirst html.Node.isElement
    (EatText L optionalBlock).2 (Contents codeBlock))
  let name ← (EatText L codeBlock1).1
  let tr1 := withChildren tr
    (replaceFirst html.Node.isElement (EatText L codeBlock1).2 (Contents tr))
  let d0 ← Last (Children tr1)
  let d ← Ensure d0 (str "td")
  let description ← (EatText L d).1
  let tr2 := withChildren tr1
    (replaceLast html.Node.isElement (EatText L d).2 (Contents tr1))
  let t0 ← Last (Children tr2)
  let td ← Ensure t0 (str "td")
  let sp0 ← First (Children td)
  let sp ← EnsureSel L sp0 (str "span.model-signature")
  let typeStr ← Text sp
  let id ← resID c
  let typ ← Outcome.ofPatcher (patcher.Type_ p id typeStr)
  pure ⟨name, description, !decide (optional = str "optional"), some typ⟩

/-- The loop of `parseQueryParams` over the rows of the body. -/
def queryParamRows (L : Library) (p : patcher.Patches) (c : Option GoString) :
    List html.Node → List Parameter → Outcome (List Parameter)
  | [], params => .ok params
  | tr :: rest, params =>
    match queryParamRow L p c tr with
    | .ok param => queryParamRows L p c rest (params ++ [param])
    | .error err => .error err
    | .panic err => .panic err

/-- The function `parseQueryParams`. -/
def parseQueryParams (L : Library) (p : patcher.Patches) (c : Option GoString)
    (s : html.Node) : Outcome (List Parameter) := do
  let s ← EnsureSel L s (str ".api_block")
  let t0 ← First (Children s)
  let table ← Ensure t0 (str "table")
  let th0 ← First (Children table)
  let thead ← Ensure th0 (str "thead")
  let tb0 ← At (Children table) 1
  let tbody ← EnsureSel L tb0 (str "tbody.operation-params")
  let hr0 ← MustBeSingle (Children thead)
  let hrow ← Ensure hr0 (str "tr")
  let _columns ← consumeTableRow hrow true
  queryParamRows L p c (Children tbody) []

/-- The loop of `parseResponseClass` over the rows of the table of fields. -/
def responseFields (p : patcher.Patches) (id origName : GoString) :
    List (List (GoString × GoString)) → List Field → Outcome (List Field)
  | [], fields => .ok fields
  | row :: rest, fields =>
    match patcher.Type_ p id (patcher.FieldTypeString id origName
        ((row.lookup (str "Name")).getD []) ((row.lookup (str "Data Type")).getD [])) with
    | .error err => .error (.fieldTypeFailed ((row.lookup (str "Name")).getD []) (.patcher err))
    | .ok typ =>
      responseFields p id origName rest
        (fields ++ [⟨(row.lookup (str "Name")).getD [], some typ,
          (row.lookup (str "Description")).getD []⟩])

/-- The function `parseResponseClass`. The deferred function wraps every error that is
returned; `s1`, `s2`, `s3` are the node after `<b>` was consumed, after `<br>` was
removed and after the table was removed. -/
def parseResponseClass (L : Library) (p : patcher.Patches) (c : Option GoString)
    (s : html.Node) : Outcome Schema := do
  let s ← EnsureSel L s (str ".response_body")
  let b0 ← First (Children s)
  let b ← Ensure b0 (str "b")
  let origName ← (EatText L b).1
  let s1 := withChildren s (replaceFirst html.Node.isElement (EatText L b).2 (Contents s))
  Outcome.wrap (.classFailed origName) (do
    let id ← resID c
    let cp ← Outcome.ofPatcher (patcher.ForClass p id origName)
    let br0 ← First (Children s1)
    let _br ← Ensure br0 (str "br")
    let s2 := withChildren s1 (replaceFirst html.Node.isElement [] (Contents s1))
    let t0 ← First (Children s2)
    let table ← Ensure t0 (str "table")
    let rows ← consumeSimpleTable table
    let fields ← responseFields p id origName rows []
    let _t ← First (Children s2)
    let s3 := withChildren s2 (replaceFirst html.Node.isElement [] (Contents s2))
    let description ← Text s3
    pure ⟨description, fields, origName, cp.Name⟩)

/-- The case `1` of the loop over the response bodies: the type of the return value. The
marker that `ReplaceWithHtml` puts in the place of the body is not read again. -/
def returnValue (p : patcher.Patches) (resID : GoString) (respBody : html.Node) :
    Outcome types.GoType := do
  let b0 ← First (Children respBody)
  let b ← Ensure b0 (str "b")
  (EatExact b (str "Return Value:")).1
  let respBody1 := withChildren respBody (replaceFirst html.Node.isElement
    (EatExact b (str "Return Value:")).2 (Contents respBody))
  let retValCls ← Text respBody1
  Outcome.wrap .returnValueFailed (Outcome.ofPatcher (patcher.Type_ p resID retValCls))

/-- The loop of the case "Response Classes" over the response bodies. -/
def responseClassesLoop (L : Library) (p : patcher.Patches) (c : Option GoString) :
    List html.Node → Resource × Operation → Outcome (Resource × Operation)
  | [], st => .ok st
  | respBody :: rest, st =>
    if (Children respBody).length = 1 then
      match returnValue p st.1.ID respBody with
      | .ok retValType =>
        responseClassesLoop L p c rest
          (st.1, { st.2 with OrigReturnType := some retValType })
      | .error err => .error err
      | .panic err => .panic err
    else if (Children respBody).length = 3 then
      match parseResponseClass L p c respBody with
      | .ok cls =>
        responseClassesLoop L p c rest
          ({ st.1 with Definitions := mapSet st.1.Definitions cls.OrigName cls }, st.2)
      | .error err => .error err
      | .panic err => .panic err
    else .error (.unexpectedChildCount (Children respBody).length)

/-- The function `parseAPIBlock`: the resource and the operation after the call. `s1` is
the block after its `<h4>` was consumed. -/
def parseAPIBlock (L : Library) (p : patcher.Patches) (c : Option GoString)
    (res : Resource) (op : Operation) (s : html.Node) : Outcome (Resource × Operation) := do
  let s ← EnsureSel L s (str ".api_block")
  if (Children s).length = 0 then pure (res, op)
  else do
    let h0 ← First (Children s)
    let h4 ← Ensure h0 (str "h4")
    let blockType ← (EatText L h4).1
    let s1 := withChildren s (replaceFirst html.Node.isElement (EatText L h4).2 (Contents s))
    if blockType = str "Response Classes" then
      responseClassesLoop L p c
        (Sels.Reverse (ChildrenFilteredSel L s1 (str ".block.response_body"))) (res, op)
    else if blockType = str "Response Errors" then do
      let respErrors ← (parseResponseErrors L s1).wrap .responseErrorsFailed
      pure (res, { op with ResponseErrors := respErrors })
    else if blockType = str "Query Parameters" then do
      let params ← (parseQueryParams L p c s1).wrap .queryParamsFailed
      pure (res, { op with QueryParams := params })
    else if blockType = str "Path Parameters" then do
      let params ← (parsePathParams L p c s1).wrap .pathParamsFailed
      pure (res, { op with PathParams := op.PathParams ++ params })
    else if blockType = str "Select Region to Execute Against" then pure (res, op)
    else if blockType = str "Implementation Notes" then do
      let p0 ← MustBeSingle (Children s1)
      let p1 ← Ensure p0 (str "p")
      let notes ← Text p1
      pure (res, { op with ImplNotes := notes })
    else if blockType = str "Rate Limit Notes" then do
      let p0 ← MustBeSingle (Children s1)
      let p1 ← Ensure p0 (str "p")
      let sp0 ← MustBeSingle (Children p1)
      let sp ← Ensure sp0 (str "span")
      let notes ← Text sp
      pure (res, { op with RateLimitNotes := notes })
    else .error (.withDump (.unknownAPIBlock blockType))

/-- The loop of `parseOperation` over the blocks found. Each block is read as it stood
when `Find` returned it. -/
def parseAPIBlocks (L : Library) (p : patcher.Patches) (c : Option GoString) :
    List html.Node → Resource × Operation → Outcome (Resource × Operation)
  | [], st => .ok st
  | block :: rest, st =>
    match parseAPIBlock L p c st.1 st.2 block with
    | .ok st' => parseAPIBlocks L p c rest st'
    | .error err => .error (.parseAPIBlockFailed err)
    | .panic err => .panic err

/-- The block `parse: .heading` of `parseOperation`: the request path, the description,
and the operation node after `heading.Remove()`. `heading1` is the heading after the path
was consumed. -/
def parseHeading (L : Library) (s : html.Node) :
    Outcome (GoString × GoString × html.Node) := do
  let heading ← MustBeSingle (ChildrenFilteredSel L s (str "div.heading"))
  let pathSel ← MustBeSingle (ChildrenFilteredSel L heading (str ".path"))
  let x ← MustBeSingle (Children pathSel)
  let requestPath ← (EatText L x).1
  let heading1 := withChildren heading (replaceFirst
    (fun y => y.isElement && L.Is y (str ".path"))
    [withChildren pathSel (replaceFirst html.Node.isElement (EatText L x).2 (Contents pathSel))]
    (Contents heading))
  let opts ← MustBeSingle (ChildrenFilteredSel L heading1 (str "ul.options"))
  let li0 ← MustBeSingle (Children opts)
  let li ← Ensure li0 (str "li")
  let a0 ← MustBeSingle (Children li)
  let a ← Ensure a0 (str "a")
  let description ← (EatText L a).1
  pure (requestPath, description, withChildren s (replaceFirst
    (fun y => y.isElement && L.Is y (str "div.heading")) [] (Contents s)))

/-- The loop over the keywords `region` and `platformId` of `parseOperation`: a parameter
is added for every keyword whose placeholder stands in the request path; its type is the
result of `patcher.Type(res.ID, "Region")`, whose error is dropped. -/
def implicitParams (p : patcher.Patches) (resID requestPath : GoString)
    (params : List Parameter) : List Parameter :=
  [str "region", str "platformId"].foldl (fun params keyword =>
    if strings.Contains requestPath (str "\x7b" ++ keyword ++ str "\x7d") then
      params ++ [⟨keyword, [], false,
        match patcher.Type_ p resID (str "Region") with
        | .ok typ => some typ
        | .error _ => none⟩]
    else params) params

/-- The `switch` of `parseOperation` on the class marker of the operation node. -/
def httpMethodOf (L : Library) (s : html.Node) : Outcome GoString :=
  if L.HasClass s (str "get") then .ok (str "GET")
  else if L.HasClass s (str "post") then .ok (str "POST")
  else if L.HasClass s (str "put") then .ok (str "PUT")
  else .error (.withDump .unknownOperationMethod)

/-- The function `parseOperation`: the resource (whose `Definitions` the blocks fill) and
the operation after a call that returns without error. -/
def parseOperation (L : Library) (p : patcher.Patches) (c : Option GoString)
    (res : Resource) (s : html.Node) : Outcome (Resource × Operation) := do
  let s ← EnsureSel L s (str "li.operation")
  let (requestPath, description, s1) ← parseHeading L s
  let patch ← Outcome.ofPatcher (patcher.ForOperation p res.ID requestPath)
  let httpMethod ← httpMethodOf L s1
  parseAPIBlocks L p c (L.Find s1 (str ".content .api_block"))
    (res, { Operation.zero with
      RequestPath := requestPath, Description := description,
      PathParams := implicitParams p res.ID requestPath [],
      MethodName := patch.Name, OverridedMapKey := patch.MapKey,
      HTTPMethod := httpMethod })

end loldoc

/-! ## Inputs of the claims on the method pages -/

/-- The element `<tag class="cls">` with the given child nodes. -/
def classed (tag cls : GoString) (children : List html.Node) : html.Node :=
  .element tag [(str "class", cls)] children

/-- The heading of an operation: its path and its description. -/
def headingNode (path description : GoString) : html.Node :=
  classed (str "div") (str "heading")
    [classed (str "span") (str "path") [leaf (str "a") path],
     classed (str "ul") (str "options") [.element (str "li") [] [leaf (str "a") description]]]

/-- A row of a table of path parameters: the name with its marker, the type and the
description. -/
def paramRow (marker name typ description : GoString) : html.Node :=
  .element (str "tr") []
    [classed (str "td") (str "code") [classed (str "div") (str "required") [.text marker],
      .text name],
     .element (str "td") [] [classed (str "span") (str "model-signature") [.text typ]],
     .element (str "td") [] [.text description]]

/-- A block "Path Parameters" with the given rows. -/
def pathParamsBlock (rows : List html.Node) : html.Node :=
  classed (str "div") (str "api_block")
    [leaf (str "h4") (str "Path Parameters"),
     classed (str "table") (str "table")
       [classed (str "tbody") (str "operation-params") rows]]

/-- The operation `GET /shards/{region}` of the resource `lol-status`, which
declares no parameter. -/
def shardOperation : html.Node :=
  classed (str "li") (str "operation get")
    [headingNode (str "/shards/\x7bregion\x7d") (str "Get shard status"),
     classed (str "div") (str "content") []]

/-- The operation `GET /api/lol/{region}/v1.2/champion/{id}` of the resource
`champion`, with its table of path parameters. -/
def championOperation : html.Node :=
  classed (str "li") (str "operation get")
    [headingNode (str "/api/lol/\x7bregion\x7d/v1.2/champion/\x7bid\x7d")
      (str "Retrieve champion by ID"),
     classed (str "div") (str "content")
       [pathParamsBlock
         [paramRow (str "required") (str "id") (str "int") (str "ID of the champion"),
          paramRow (str "required") (str "region") (str "string") (str "Region")]]]

/-- A resource with the given ID and nothing else. -/
def resourceOf (id : GoString) : loldoc.Resource := ⟨id, [], [], [], []⟩

/-- A response body that declares the return value: `<b>Return Value:</b>` and the class. -/
def returnBody (cls : GoString) : html.Node :=
  classed (str "div") (str "block response_body") [leaf (str "b") (str "Return Value:"), .text cls]

/-- A response body that describes a class: its name, a line break and the table of its
fields. -/
def classBody (name description : GoString) (fields : List (List GoString)) : html.Node :=
  classed (str "div") (str "block response_body")
    [leaf (str "b") name, .text description, .element (str "br") [] [],
     tableNode [str "Name", str "Data Type", str "Description"] fields]

/-- A block "Response Classes" with the given response bodies. -/
def responseClassesBlock (bodies : List html.Node) : html.Node :=
  classed (str "div") (str "api_block") (leaf (str "h4") (str "Response Classes") :: bodies)

/-- The response body that describes the class `ChampionDto`. -/
def championClassBody : html.Node :=
  classBody (str "ChampionDto") (str " - a champion")
    [[str "id", str "long", str "Champion ID"],
     [str "active", str "boolean", str "Whether it is active"]]

/-- The response classes of the operation that retrieves a champion. -/
def championBlock : html.Node :=
  responseClassesBlock [returnBody (str " ChampionDto"), championClassBody]

/-- The resource and the operation that `parseAPIBlock` leaves of `championBlock`, called
with an empty resource `champion` and the operation `Operation{}`. -/
def championBlockParsed : loldoc.Resource × loldoc.Operation :=
  (⟨str "champion", [], [],
      [(str "ChampionDto", ⟨str " - a champion",
        [⟨str "id", some (.Typ .Int64), str "Champion ID"⟩,
         ⟨str "active", some (.Typ .Bool), str "Whether it is active"⟩],
        str "ChampionDto", str "ChampionStatus"⟩)], []⟩,
    { loldoc.Operation.zero with
      OrigReturnType := some (.Pointer (.Named (str "ChampionStatus"))) })

/-- The operation that `parseOperation` reads from `shardOperation`. -/
def shardParsed : loldoc.Operation :=
  { loldoc.Operation.zero with
    PathParams := [⟨str "region", [], false, none⟩]
    Description := str "Get shard status"
    MethodName := str "ShardsInRegion"
    HTTPMethod := str "GET"
    RequestPath := str "/shards/\x7bregion\x7d" }

/-- The operation that `parseOperation` reads from `championOperation`. -/
def championParsed : loldoc.Operation :=
  { loldoc.Operation.zero with
    PathParams := [⟨str "region", [], false, none⟩,
      ⟨str "id", str "ID of the champion", true, some (.Typ .Int32)⟩,
      ⟨str "region", str "Region", true, some (.Typ .String)⟩]
    Description := str "Retrieve champion by ID"
    MethodName := str "ChampionStatus"
    HTTPMethod := str "GET"
    RequestPath := str "/api/lol/\x7bregion\x7d/v1.2/champion/\x7bid\x7d" }

/-- What the proofs ask of `Selection.HasClass`: the answer for a node does not depend on
its child nodes. -/
def loldoc.Library.classKeptByChildren (L : loldoc.Library) : Prop :=
  ∀ (n : html.Node) (cs : List html.Node) (c : GoString),
    L.HasClass (htmlutil.withChildren n cs) c = L.HasClass n c

namespace loldoc

open htmlutil

/-- The marker text of a row as the loop body of `parsePathParams` reads it: the text
`cs.EatText()` of the only child `div.required` of the first cell, which must match
`td.code`. These are the first steps of `pathParamRow`. -/
def pathParamMarker (L : Library) (tr : html.Node) : Outcome GoString := do
  let tr ← Ensure tr (str "tr")
  let td0 ← First (Children tr)
  let td ← EnsureSel L td0 (str "td.code")
  let cs ← MustBeSingle (ChildrenFilteredSel L td (str "div.required"))
  (EatText L cs).1

/-- The marker text of a row as the loop body of `parseQueryParams` reads it: the text
`optionalBlock.EatText()` of the first child of the first cell, which must match
`div.required`. These are the first steps of `queryParamRow`. -/
def queryParamMarker (L : Library) (tr : html.Node) : Outcome GoString := do
  let tr ← Ensure tr (str "tr")
  let cb0 ← First (Children tr)
  let codeBlock ← EnsureSel L cb0 (str "td.code")
  let ob0 ← First (Children codeBlock)
  let optionalBlock ← EnsureSel L ob0 (str "div.required")
  (EatText L optionalBlock).1

end loldoc

/-- A row of path parameters with the marker `required`. -/
def idRow : html.Node :=
  paramRow (str "required") (str "id") (str "int") (str "ID of the champion")

/-- A row of query parameters whose description cell is empty: `<td></td>`. -/
def emptyDescriptionRow : html.Node :=
  .element (str "tr") []
    [classed (str "td") (str "code")
      [classed (str "div") (str "required") [.text (str "optional")],
       .text (str "freeToPlay")],
     .element (str "td") [] [classed (str "span") (str "model-signature")
       [.text (str "boolean")]],
     .element (str "td") [] []]

/-- A row of query parameters with the marker `optional`. -/
def freeToPlayRow : html.Node :=
  paramRow (str "optional") (str "freeToPlay") (str "boolean") (str "Filter")

/-- The parameter that `parsePathParams` reads from `idRow`. -/
def idParam : loldoc.Parameter :=
  ⟨str "id", str "ID of the champion", true, some (.Typ .Int32)⟩

/-- The parameter that `parseQueryParams` reads from `freeToPlayRow`. -/
def freeToPlayParam : loldoc.Parameter :=
  ⟨str "freeToPlay", str "Filter", false, some (.Typ .Bool)⟩

namespace patcher

/-- Whether no key of an operation table is a suffix of a different key of the table. -/
def suffixFree (ops : List (GoString × OpPatch)) : Bool :=
  ops.all fun a => ops.all fun b => a.1 == b.1 || !strings.HasSuffix b.1 a.1

/-- Whether every key of an operation table stands for one override, as the keys of a Go
map do. -/
def singleValued (ops : List (GoString × OpPatch)) : Bool :=
  ops.all fun a => ops.all fun b => !(a.1 == b.1) || a.2 == b.2

end patcher

/-- The override of the resource `lol-status` in `init`. -/
def statusPatch : patcher.ResPatch := ⟨
  [(str "/shards", ⟨str "Shards", .Invalid⟩),
   (str "/shards/{region}", ⟨str "ShardsInRegion", .Invalid⟩),
   (str "/shards/{shard}", ⟨str "Shard", .Invalid⟩)],
  [(str "Shard", ⟨str "Shard"⟩),
   (str "ShardStatus", ⟨str "ShardStatus"⟩),
   (str "Service", ⟨str "Service"⟩),
   (str "Message", ⟨str "StatusMessage"⟩),
   (str "Translation", ⟨str "StatusMessageTranslation"⟩),
   (str "Incident", ⟨str "Incident"⟩)]⟩

/-- A registry that holds `statusPatch` with its operation table in the opposite order. -/
def statusReversed : patcher.Patches :=
  ⟨[(str "lol-status", ⟨statusPatch.Operations.reverse, statusPatch.Classes⟩)]⟩

namespace patcher

/-- Whether an error value is, or wraps, one of the two values that are not Go errors:
the fault of a slice expression and the recursion bound of `typeFuel`. -/
def GoError.isFault : GoError → Bool
  | .sliceBounds => true
  | .recursionBound => true
  | .invalidListType _ err => err.isFault
  | .invalidSetType _ err => err.isFault
  | .invalidMapKeyType err => err.isFault
  | .invalidMapElemType err => err.isFault
  | .unknownType _ err => err.isFault
  | .ErrPatchRequired _ _ => false
  | .classOverrideRequired _ => false
  | .emptyTypeString => false
  | .invalidMapType _ => false

end patcher

namespace loldoc

/-- The method `Resource.APIBase`. -/
def Resource.APIBase (res : Resource) : GoString :=
  if res.ID = str "lol-static-data" then str "https://global.api.pvp.net"
  else if res.ID = str "lol-status" then str "https://status.leagueoflegends.com"
  else str ""

/-- The loop of `IsRegional` over the path parameters. -/
def anyRegion : List Parameter → Bool
  | [] => false
  | p :: rest => if IsRegion p then true else anyRegion rest

/-- The method `Operation.IsRegional`. `res` is the pointer `op.res` to the owning
resource, which `parseOperation` sets; on a nil pointer `op.res.APIBase()` faults, which
is the result `none`. -/
def Operation.IsRegional (res : Option Resource) (op : Operation) : Option Bool :=
  match res with
  | none => none
  | some r => if r.APIBase = str "" then some true else some (anyRegion op.PathParams)

end loldoc

/-- From the words of the claim: the identifier with all underscores removed, in lower
case. -/
def foldedName (s : List Char) : List Char :=
  (s.filter (fun c => c != '_')).map Char.toLower

/-- Two ASCII runes that differ in letter case at most. -/
def sameLetter (a b : Char) : Prop :=
  a.toNat < 128 ∧ b.toNat < 128 ∧ a.toLower = b.toLower

/-! ## The page parser (`Parse` of `loldoc/riot.go`) -/

namespace loldoc

open htmlutil

/-- The struct `Doc`. -/
structure Doc where
  Resources : List Resource
  deriving DecidableEq, Repr

/-- The value `Resource{}`. -/
def Resource.zero : Resource := ⟨[], [], [], [], []⟩

/-- The function `isUseless` on a selection of any number of nodes, as `Parse` calls
`removeIfUseless` on one: `Selection.Is` holds when one of the nodes matches,
`Selection.Attr` reads the first node, and `Selection.Children` has the child elements of
all the nodes. -/
def isUselessSel (L : Library) (s : List html.Node) : Bool :=
  if s.any (Is · (str "head")) || s.any (Is · (str "script")) ||
      s.any (Is · (str "style")) || s.any (Is · (str "title")) then true
  else if s.any (Is · (str "link")) &&
      (((s.head?.bind (Attr · (str "rel"))).getD [] == str "stylesheet") ||
        ((s.head?.bind (Attr · (str "rel"))).getD [] == str "shortcut icon")) then true
  else if s.any (L.Is · (str "div#footer")) || s.any (L.Is · (str "div.navbar")) ||
      s.any (L.Is · (str "div.header.container.ezreal")) ||
      s.any (L.Is · (str "div#inputs-link")) ||
      s.any (L.Is · (str ".sandbox_header")) then true
  else if s.any (L.Is · (str "div.push")) && (Sels.Children s).length == 0 then true
  else false

/-- The node after the middle part of `removeIfUseless`: the attributes `onclick` and
`style` are removed and every child element was visited. -/
def visited (L : Library) : html.Node → html.Node
  | .element tag attrs cs =>
    .element tag (L.RemoveAttr (str "style") (L.RemoveAttr (str "onclick") attrs))
      (removeEach L cs)
  | n => n

/-- The function `removeIfUseless` on a selection of any number of nodes: the nodes that
the selection `s` of the caller holds afterwards, and whether `s.Remove()` has run.
`Selection.Remove` takes every node of the selection out of its parent, and the selection
keeps the nodes, with all that stands below them; `Selection.RemoveAttr` acts on every
node, and `s.Children().Each(removeIfUseless)` visits every child element on its own. -/
def removeIfUselessSel (L : Library) (s : List html.Node) : List html.Node × Bool :=
  if isUselessSel L s then (s, true)
  else if isUselessSel L (s.map (visited L)) then (s.map (visited L), true)
  else (s.map (visited L), false)

/-- The loop of `parseEndpoint` over the operations. `parseOperation` writes to the
resource through its pointer, so the resource is handed on from turn to turn. -/
def operationsLoop (L : Library) (p : patcher.Patches) (c : Option GoString) :
    List html.Node → Resource × List Operation → Outcome (Resource × List Operation)
  | [], st => .ok st
  | s :: rest, st =>
    match parseOperation L p c st.1 s with
    | .ok st' => operationsLoop L p c rest (st'.1, st.2 ++ [st'.2])
    | .error err => .error err
    | .panic err => .panic err

/-- The function `parseEndpoint`: the resource after the call and the operations. -/
def parseEndpoint (L : Library) (p : patcher.Patches) (c : Option GoString)
    (res : Resource) (s : html.Node) : Outcome (Resource × List Operation) := do
  let s ← EnsureSel L s (str "li.endpoint")
  operationsLoop L p c (Sels.Children (ChildrenFilteredSel L s (str "ul.operations")))
    (res, [])

/-- The loop of `parseResource` over the endpoints. -/
def endpointsLoop (L : Library) (p : patcher.Patches) (c : Option GoString) :
    List html.Node → Resource → Outcome Resource
  | [], res => .ok res
  | s :: rest, res =>
    match parseEndpoint L p c res s with
    | .ok st => endpointsLoop L p c rest { st.1 with Operations := st.1.Operations ++ st.2 }
    | .error err => .error (.parseEndpointFailed err)
    | .panic err => .panic err

/-- The function `parseResource`. `heading1` and `s1` are the heading and the resource
node after `Remove()` has taken the list `ul.options` out of the heading. The context
`c` of the caller is replaced by `withResID(c, res.ID)`. A result of `parseResourceIDVersion`
or `parseRegions` that is a runtime fault ends the call as a panic. -/
def parseResource (L : Library) (p : patcher.Patches) (s : html.Node) :
    Outcome Resource := do
  let s ← EnsureSel L s (str "li.resource")
  let h0 ← MustBeSingle (ChildrenFilteredSel L s (str ".heading"))
  let _ ← MustBeSingle (ChildrenFilteredSel L h0 (str "ul.options"))
  let heading1 := withChildren h0 (replaceFirst
    (fun y => y.isElement && L.Is y (str "ul.options")) [] (Contents h0))
  let s1 := withChildren s (replaceFirst
    (fun y => y.isElement && L.Is y (str ".heading")) [heading1] (Contents s))
  let heading ← MustBeSingle (ChildrenFilteredSel L s1 (str ".heading"))
  let h20 ← First (Children heading)
  let h2 ← Ensure h20 (str "h2")
  let a0 ← First (Children h2)
  let a ← Ensure a0 (str "a")
  let sp0 ← First (Children a)
  let sp ← Ensure sp0 (str "span")
  let idVer ← Text sp
  let idv ← (match parseResourceIDVersion idVer with
    | some r => Outcome.ok r
    | none => .panic .indexOutOfRange)
  let rs0 ← Last (Children a)
  let rsp ← Ensure rs0 (str "span")
  let regionText ← Text rsp
  let regions ← (match parseRegions regionText with
    | some r => Outcome.ok r
    | none => .panic .indexOutOfRange)
  if idv.1 = str "tournament-provider" then pure Resource.zero
  else
    endpointsLoop L p (some idv.1)
      (Sels.Children (ChildrenFilteredSel L s1 (str "ul.endpoints")))
      ⟨idv.1, idv.2, regions, [], []⟩

/-- The loop of `Parse` over the children of `ul#resources`. -/
def resourcesLoop (L : Library) (p : patcher.Patches) :
    List html.Node → List Resource → Outcome (List Resource)
  | [], acc => .ok acc
  | li :: rest, acc =>
    match parseResource L p li with
    | .error err => .error (.resourceFailed err)
    | .panic err => .panic err
    | .ok res =>
      if res.ID = str "" then resourcesLoop L p rest acc
      else resourcesLoop L p rest (acc ++ [res])

/-- The loop of `Parse` over the nodes that `Find` returned. Each node is read as it
stood when `Find` returned it. -/
def detailsLoop (L : Library) (p : patcher.Patches) :
    List html.Node → List Resource → Outcome (List Resource)
  | [], acc => .ok acc
  | s :: rest, acc =>
    match EnsureSel L s (str "div#api_detail") with
    | .error err => .error err
    | .panic err => .panic err
    | .ok s =>
      match First (Children s) with
      | .error err => .error err
      | .panic err => .panic err
      | .ok u0 =>
        match EnsureSel L u0 (str "ul#resources") with
        | .error err => .error err
        | .panic err => .panic err
        | .ok ul =>
          match resourcesLoop L p (Children ul) acc with
          | .error err => .error err
          | .panic err => .panic err
          | .ok acc' => detailsLoop L p rest acc'

/-- The nodes that the loop of `Parse` ranges over: the selection `s` of
`html > body > #wrap > .body.container` of the document after `removeIfUseless(0, s)`,
and what `s.Find(".row .span12 #api_detail")` returns below its nodes, in document order.
`Find` reads the nodes that `s` holds, also when `removeIfUseless` has taken them out of
the document. `d` is the document node, of which only the child elements are read. -/
def apiDetails (L : Library) (d : html.Node) : List html.Node :=
  (removeIfUselessSel L
    ((((ChildrenFiltered d (str "html")).flatMap (ChildrenFiltered · (str "body"))).flatMap
      (ChildrenFilteredSel L · (str "#wrap"))).flatMap
        (ChildrenFilteredSel L · (str ".body.container")))).1.flatMap
    (L.Find · (str ".row .span12 #api_detail"))

/-- The function `Parse`. The context of the caller is not read: `parseResource` puts
the resource ID in it before any reader is reached. -/
def Parse (L : Library) (p : patcher.Patches) (d : html.Node) : Outcome Doc :=
  match detailsLoop L p (apiDetails L d) [] with
  | .ok resources => .ok ⟨resources⟩
  | .error err => .error err
  | .panic err => .panic err

/-- The children of the lists `ul#resources` of the page, in document order: the
resource blocks that `Parse` hands to `parseResource`. -/
def resourceBlocks (L : Library) (d : html.Node) : List html.Node :=
  (apiDetails L d).flatMap fun s =>
    match Children s with
    | ul :: _ => Children ul
    | [] => []

end loldoc

/-- The stand-in `plain` with a `Find` that also takes three compound selectors with
blanks between: the elements that match the third below an element that matches the
second below an element that matches the first. -/
def loldoc.Library.page : loldoc.Library :=
  { loldoc.Library.plain with
    Find := fun n selector =>
      match blankSplit selector with
      | [a, b, c] =>
        (findBelow a b (matchesCompound n a) n).flatMap (fun x => findBelow b c true x)
      | _ => loldoc.Library.plain.Find n selector }

/-- A block `li.resource`: the heading with the ID and version, the regions and the list
of options, and one endpoint with the given operations. -/
def resourceBlock (idVer regions : GoString) (operations : List html.Node) : html.Node :=
  classed (str "li") (str "resource")
    [classed (str "div") (str "heading")
      [.element (str "h2") []
        [.element (str "a") []
          [leaf (str "span") idVer, leaf (str "span") regions]],
       classed (str "ul") (str "options") []],
     classed (str "ul") (str "endpoints")
       [classed (str "li") (str "endpoint")
         [classed (str "ul") (str "operations") operations]]]

/-- A methods page with three resource blocks: `champion`, `tournament-provider` and
`lol-status`; `cls` is the class attribute of the container. -/
def methodsPageWith (cls : GoString) : html.Node :=
  .element [] []
    [.element (str "html") []
      [.element (str "head") [] [leaf (str "title") (str "API")],
       .element (str "body") []
        [.element (str "div") [(str "id", str "wrap")]
          [classed (str "div") cls
            [classed (str "div") (str "navbar") [],
             classed (str "div") (str "row")
              [classed (str "div") (str "span12")
                [.element (str "div") [(str "id", str "api_detail")]
                  [.element (str "ul") [(str "id", str "resources")]
                    [resourceBlock (str "champion-v1.2") (str "[BR, EUNE]") [championOperation],
                     resourceBlock (str "tournament-provider-v1") (str "[NA]") [],
                     resourceBlock (str "lol-status-v1.0") (str "[NA]")
                       [shardOperation]]]]]]]]]]

/-- The methods page with the container `div.body.container`. -/
def methodsPage : html.Node := methodsPageWith (str "body container")

/-- The methods page with a container that `isUseless` holds of: `removeIfUseless` takes
it out of the document. -/
def methodsPageDetached : html.Node :=
  methodsPageWith (str "body container sandbox_header")

/-- The document that `Parse` reads from `methodsPage`. -/
def methodsDoc : loldoc.Doc :=
  ⟨[⟨str "champion", str "v1.2", [str "BR", str "EUNE"], [], [championParsed]⟩,
    ⟨str "lol-status", str "v1.0", [str "NA"], [], [shardParsed]⟩]⟩

/-! ## Lemmas on the string primitives -/

theorem lastIndexByteFrom_spec (s : GoString) (c : UInt8) (n : Nat) :
    (strings.lastIndexByteFrom s c n = -1 ∧ ∀ i, i < n → s[i]? ≠ some c) ∨
    (∃ i : Nat, i < n ∧ strings.lastIndexByteFrom s c n = (i : Int) ∧ s[i]? = some c) := by
  induction n with
  | zero => left; exact ⟨rfl, fun i hi => absurd hi (Nat.not_lt_zero i)⟩
  | succ n ih =>
    unfold strings.lastIndexByteFrom
    by_cases h : s[n]? = some c
    · right; exact ⟨n, Nat.lt_succ_self n, by simp [h], h⟩
    · rw [if_neg h]
      rcases ih with ⟨h1, h2⟩ | ⟨i, hi, h1, h2⟩
      · left
        refine ⟨h1, fun i hi => ?_⟩
        rcases Nat.lt_succ_iff_lt_or_eq.mp hi with hlt | heq
        · exact h2 i hlt
        · rw [heq]; exact h
      · right; exact ⟨i, Nat.lt_succ_of_lt hi, h1, h2⟩

theorem lastIndexByte_of_mem (s : GoString) (c : UInt8) (hc : c ∈ s) :
    ∃ i : Nat, i < s.length ∧ strings.LastIndexByte s c = (i : Int) ∧ s[i]? = some c := by
  rcases lastIndexByteFrom_spec s c s.length with ⟨_, h2⟩ | h
  · obtain ⟨i, hi, hget⟩ := List.mem_iff_getElem.mp hc
    exact absurd (by rw [List.getElem?_eq_getElem hi, hget]) (h2 i hi)
  · exact h

theorem lastIndexByte_of_not_mem (s : GoString) (c : UInt8) (hc : c ∉ s) :
    strings.LastIndexByte s c = -1 := by
  rcases lastIndexByteFrom_spec s c s.length with ⟨h1, _⟩ | ⟨i, hi, _, h2⟩
  · exact h1
  · exact absurd (List.getElem?_mem h2) hc

theorem take_append_byte_append_drop (s : GoString) (c : UInt8) (i : Nat)
    (h : s[i]? = some c) : s.take i ++ c :: s.drop (i + 1) = s := by
  induction s generalizing i with
  | nil => simp at h
  | cons b bs ih =>
    cases i with
    | zero => simp at h; simp [h]
    | succ i => simp at h; simp [ih i h]

/-! ## Claims -/

/-- C1: for every string `s` containing at least one `-`, `parseResourceIDVersion s`
returns a pair `(id, ver)` with `id ++ "-" ++ ver = s`. -/
theorem parseResourceIDVersion_rejoin (s : GoString) (h : '-'.toUInt8 ∈ s) :
    ∃ id ver, loldoc.parseResourceIDVersion s = some (id, ver) ∧
      id ++ str "-" ++ ver = s := by
  obtain ⟨i, hi, hidx, hget⟩ := lastIndexByte_of_mem s _ h
  have hstr : str "-" = ['-'.toUInt8] := by decide
  by_cases hlen : len s < 2
  · refine ⟨[], [], by simp [loldoc.parseResourceIDVersion, hlen], ?_⟩
    have h1 : s.length < 2 := by simpa [len] using hlen
    match s, h, h1 with
    | [b], hb, _ =>
      have : b = '-'.toUInt8 := by simpa [eq_comm] using hb
      simp [hstr, this]
  · refine ⟨s.take i, s.drop (i + 1), ?_, ?_⟩
    · have hne : ¬ ((i : Int) = -1) := by omega
      have hb1 : (0 : Int) ≤ i ∧ (i : Int) ≤ len s := by simp only [len]; omega
      have hb2 : (0 : Int) ≤ (i : Int) + 1 ∧ (i : Int) + 1 ≤ len s := by
        simp only [len]; omega
      have e1 : ((i : Int) + 1).toNat = i + 1 := by omega
      have e2 : (len s).toNat = s.length := by simp [len]
      simp [loldoc.parseResourceIDVersion, hlen, hidx, hne, sliceOf, hb1, hb2, e1, e2]
    · rw [hstr, List.append_assoc]
      exact take_append_byte_append_drop s _ i hget

theorem parseResourceIDVersion_rejoin_witness :
    '-'.toUInt8 ∈ str "champion-v1.2" ∧
    ∃ id ver, loldoc.parseResourceIDVersion (str "champion-v1.2") = some (id, ver) ∧
      id ++ str "-" ++ ver = str "champion-v1.2" :=
  ⟨by decide, parseResourceIDVersion_rejoin (str "champion-v1.2") (by decide)⟩

/-- C2 fails as stated: on the one-byte string `"a"`, which contains no `-`, both
results are empty, so `id` differs from the input. -/
theorem parseResourceIDVersion_short_counterexample :
    '-'.toUInt8 ∉ str "a" ∧
    loldoc.parseResourceIDVersion (str "a") = some ([], []) ∧
    loldoc.parseResourceIDVersion (str "a") ≠ some (str "a", []) := by
  decide

/-- C2 (amended): for every string `s` without `-` whose length is not exactly one byte,
`parseResourceIDVersion s` returns `id = s` and an empty version. -/
theorem parseResourceIDVersion_no_dash (s : GoString) (h : '-'.toUInt8 ∉ s)
    (hlen : len s ≠ 1) :
    loldoc.parseResourceIDVersion s = some (s, []) := by
  by_cases h2 : len s < 2
  · have h0 : s.length = 0 := by simp only [len] at h2 hlen; omega
    have hs : s = [] := List.length_eq_zero.mp h0
    subst hs
    simp [loldoc.parseResourceIDVersion, len]
  · simp [loldoc.parseResourceIDVersion, h2, lastIndexByte_of_not_mem s _ h]

theorem parseResourceIDVersion_no_dash_witness :
    '-'.toUInt8 ∉ str "champion" ∧ len (str "champion") ≠ 1 ∧
    loldoc.parseResourceIDVersion (str "champion") = some (str "champion", []) :=
  ⟨by decide, by decide,
    parseResourceIDVersion_no_dash (str "champion") (by decide) (by decide)⟩

/-! ### Replace and Split -/

theorem str_space : str " " = [' '.toUInt8] := by decide
theorem str_empty : str "" = [] := by decide
theorem str_comma : str "," = [','.toUInt8] := by decide
theorem str_lbracket : str "[" = ['['.toUInt8] := by decide
theorem str_rbracket : str "]" = [']'.toUInt8] := by decide

theorem Replace_space (s : GoString) :
    strings.Replace s (str " ") (str "") = s.filter (fun b => b != ' '.toUInt8) := by
  rw [str_space, str_empty]
  unfold strings.Replace
  induction s with
  | nil => rfl
  | cons b bs ih =>
    by_cases hb : b = ' '.toUInt8
    · simp [strings.replaceFrom, hb, ih]
    · have hb2 : ¬ ' '.toUInt8 = b := fun e => hb e.symm
      simp [strings.replaceFrom, hb, hb2, ih]

theorem splitFrom_skip (sep x b : GoString) :
    strings.splitFrom sep x.length (x ++ b) = strings.splitFrom sep 0 b := by
  induction x with
  | nil => rfl
  | cons c cs ih => simpa [strings.splitFrom] using ih

theorem splitFrom_not_mem (c : UInt8) (sep' a : GoString) (h : c ∉ a) :
    strings.splitFrom (c :: sep') 0 a = [a] := by
  induction a with
  | nil => rfl
  | cons b bs ih =>
    have hb : ¬ c = b := fun e => h (by simp [e])
    have hbs : c ∉ bs := fun e => h (by simp [e])
    simp [strings.splitFrom, hb, ih hbs, strings.consHead]

theorem splitFrom_append (c : UInt8) (sep' a b : GoString) (h : c ∉ a) :
    strings.splitFrom (c :: sep') 0 (a ++ (c :: sep') ++ b) =
      a :: strings.splitFrom (c :: sep') 0 b := by
  induction a with
  | nil =>
    have := splitFrom_skip (c :: sep') sep' b
    simp [strings.splitFrom, this]
  | cons x xs ih =>
    have hb : ¬ c = x := fun e => h (by simp [e])
    have hbs : c ∉ xs := fun e => h (by simp [e])
    have := ih hbs
    simp only [List.append_assoc, List.cons_append] at this
    simp [strings.splitFrom, hb, this, strings.consHead]

/-! ### Indexing and slicing -/

theorem byteAt_zero (s : GoString) (h : 0 < s.length) : byteAt s 0 = s.head? := by
  cases s with
  | nil => simp at h
  | cons b bs => simp [byteAt, len]

theorem byteAt_last (s : GoString) (h : 0 < s.length) :
    byteAt s (len s - 1) = s.getLast? := by
  have e : ((s.length : Int) - 1).toNat = s.length - 1 := by omega
  have hb : (0 : Int) ≤ (s.length : Int) - 1 := by omega
  simp [byteAt, len, e, hb, List.getLast?_eq_getElem?]

theorem sliceOf_inner (s : GoString) (h : 2 ≤ s.length) :
    sliceOf s 1 (len s - 1) = some (s.tail.dropLast) := by
  have e : ((s.length : Int) - 1).toNat = s.length - 1 := by omega
  have hb : (1 : Int) ≤ (s.length : Int) - 1 := by omega
  simp only [sliceOf, len]
  rw [if_pos ⟨by omega, hb, by omega⟩, e]
  congr 1
  cases s with
  | nil => simp at h
  | cons b bs =>
    obtain ⟨n, hn⟩ : ∃ n, bs.length = n + 1 := ⟨bs.length - 1, by simp at h; omega⟩
    simp [List.dropLast_eq_take, hn]

/-- The body of `parseRegions` read on the string with its spaces removed. -/
theorem parseRegions_eq (src : GoString) :
    loldoc.parseRegions src =
      (let f := src.filter (fun b => b != ' '.toUInt8)
       if f.length ≤ 2 then some []
       else if f.head? ≠ some '['.toUInt8 then some []
       else if f.getLast? ≠ some ']'.toUInt8 then some []
       else some (strings.Split f.tail.dropLast (str ","))) := by
  simp only [loldoc.parseRegions, Replace_space]
  generalize src.filter (fun b => b != ' '.toUInt8) = f
  by_cases h2 : f.length ≤ 2
  · have : len f ≤ 2 := by simp only [len]; omega
    simp [h2, this]
  · have h3 : ¬ len f ≤ 2 := by simp only [len]; omega
    have hpos : 0 < f.length := by omega
    simp only [h2, h3, if_false, byteAt_zero f hpos, byteAt_last f hpos,
      sliceOf_inner f (by omega)]
    cases hh : f.head? with
    | none => cases f <;> simp at hh hpos
    | some a =>
      cases hl : f.getLast? with
      | none => cases f <;> simp at hl hpos
      | some z =>
        by_cases ha : a = '['.toUInt8 <;> by_cases hz : z = ']'.toUInt8 <;> simp [ha, hz]

theorem filter_head_eq_find (s : GoString) (p : UInt8 → Bool) :
    (s.filter p).head? = s.find? p := by
  induction s with
  | nil => rfl
  | cons b bs ih => by_cases hb : p b <;> simp [List.filter_cons, List.find?_cons, hb, ih]

theorem filter_getLast_eq_find (s : GoString) (p : UInt8 → Bool) :
    (s.filter p).getLast? = s.reverse.find? p := by
  rw [← filter_head_eq_find, List.filter_reverse, List.head?_reverse]

theorem split_comma_codes (first : GoString) (rest : List (Nat × Nat × GoString))
    (h : ∀ c ∈ first :: rest.map (fun r => r.2.2), ','.toUInt8 ∉ c) :
    strings.Split (first ++ rest.flatMap (fun r => ','.toUInt8 :: r.2.2)) (str ",") =
      first :: rest.map (fun r => r.2.2) := by
  rw [str_comma]
  unfold strings.Split
  induction rest generalizing first with
  | nil => simpa using splitFrom_not_mem _ [] first (h first (by simp))
  | cons r rest ih =>
    have h1 : ','.toUInt8 ∉ first := h first (by simp)
    have h2 : ∀ c ∈ r.2.2 :: rest.map (fun r => r.2.2), ','.toUInt8 ∉ c :=
      fun c hc => h c (by simp at hc ⊢; right; exact hc)
    have := splitFrom_append ','.toUInt8 [] first
      (r.2.2 ++ rest.flatMap (fun r => ','.toUInt8 :: r.2.2)) h1
    simp only [List.append_assoc, List.cons_append, List.nil_append] at this
    simp only [List.flatMap_cons, List.cons_append, List.map_cons]
    rw [this, ih r.2.2 h2]

theorem filter_regionListText (first : GoString) (rest : List (Nat × Nat × GoString))
    (h : ∀ c ∈ first :: rest.map (fun r => r.2.2), ' '.toUInt8 ∉ c) :
    (regionListText first rest).filter (fun b => b != ' '.toUInt8) =
      '['.toUInt8 :: ((first ++ rest.flatMap (fun r => ','.toUInt8 :: r.2.2)) ++
        [']'.toUInt8]) := by
  have hcode : ∀ c : GoString, ' '.toUInt8 ∉ c →
      c.filter (fun b => b != ' '.toUInt8) = c := by
    intro c hc
    apply List.filter_eq_self.mpr
    intro a ha
    have : a ≠ ' '.toUInt8 := fun e => hc (e ▸ ha)
    simpa using this
  have hsp : ∀ n, (spaces n).filter (fun b => b != ' '.toUInt8) = [] := by
    intro n
    apply List.filter_eq_nil_iff.mpr
    intro a ha
    have := List.eq_of_mem_replicate ha
    simp [this]
  have hrest : ∀ rest : List (Nat × Nat × GoString),
      (∀ c ∈ rest.map (fun r => r.2.2), ' '.toUInt8 ∉ c) →
      (rest.flatMap fun r => spaces r.1 ++ str "," ++ spaces r.2.1 ++ r.2.2).filter
          (fun b => b != ' '.toUInt8) =
        rest.flatMap (fun r => ','.toUInt8 :: r.2.2) := by
    intro rest
    induction rest with
    | nil => intro _; rfl
    | cons r rest ih =>
      intro hr
      have hc := hcode r.2.2 (hr r.2.2 (by simp))
      have := ih (fun c hc => hr c (by simp at hc ⊢; right; exact hc))
      have hcs : ¬ ','.toUInt8 = ' '.toUInt8 := by decide
      simp only [List.flatMap_cons, List.filter_append, hsp, hc, this]
      simp [str_comma, List.filter_cons, hcs]
  unfold regionListText
  simp only [List.filter_append, hcode first (h first (by simp)),
    hrest rest (fun c hc => h c (by simp at hc ⊢; right; exact hc)), str_lbracket, str_rbracket]
  have hl : ¬ '['.toUInt8 = ' '.toUInt8 := by decide
  have hr : ¬ ']'.toUInt8 = ' '.toUInt8 := by decide
  simp [List.filter_cons, hl, hr]

/-- C3 fails as stated: with a tab (byte 9) after the comma, `"[A,<tab>B]"` parses to
`["A", "<tab>B"]`, not to `["A", "B"]`; only U+0020 is removed. -/
theorem parseRegions_tab_counterexample :
    loldoc.parseRegions (str "[A," ++ [9] ++ str "B]") = some [str "A", 9 :: str "B"] ∧
    loldoc.parseRegions (str "[A," ++ [9] ++ str "B]") ≠ some [str "A", str "B"] := by
  decide

/-- C3 (amended): for every non-empty list of region codes, each non-empty and free of
commas and spaces, `parseRegions` applied to the codes joined by commas with any number of
space characters (U+0020) around each comma, wrapped in `[` and `]`, returns exactly that
list in the same order. -/
theorem parseRegions_padded (first : GoString) (rest : List (Nat × Nat × GoString))
    (h : ∀ c ∈ first :: rest.map (fun r => r.2.2),
      c ≠ [] ∧ ','.toUInt8 ∉ c ∧ ' '.toUInt8 ∉ c) :
    loldoc.parseRegions (regionListText first rest) =
      some (first :: rest.map (fun r => r.2.2)) := by
  rw [parseRegions_eq, filter_regionListText first rest (fun c hc => (h c hc).2.2)]
  have hne : first ≠ [] := (h first (by simp)).1
  have hlen : 0 < first.length := List.length_pos.mpr hne
  have h2 : ¬ ('['.toUInt8 :: ((first ++ rest.flatMap (fun r => ','.toUInt8 :: r.2.2)) ++
      [']'.toUInt8])).length ≤ 2 := by
    simp only [List.length_cons, List.length_append, List.length_nil]; omega
  have h3 : ('['.toUInt8 :: ((first ++ rest.flatMap (fun r => ','.toUInt8 :: r.2.2)) ++
      [']'.toUInt8])).getLast? = some ']'.toUInt8 := by
    rw [← List.cons_append, List.getLast?_concat]
  simp only [h2, h3, if_false, List.head?_cons, List.tail_cons, List.dropLast_concat,
    ne_eq, not_true_eq_false]
  rw [split_comma_codes first rest (fun c hc => (h c hc).2.1)]

theorem parseRegions_padded_witness :
    (∀ c ∈ str "BR" :: [(1, 2, str "EUNE"), (0, 1, str "EUW")].map (fun r => r.2.2),
      c ≠ [] ∧ ','.toUInt8 ∉ c ∧ ' '.toUInt8 ∉ c) ∧
    loldoc.parseRegions (regionListText (str "BR") [(1, 2, str "EUNE"), (0, 1, str "EUW")]) =
      some (str "BR" :: [(1, 2, str "EUNE"), (0, 1, str "EUW")].map (fun r => r.2.2)) :=
  ⟨by decide, parseRegions_padded (str "BR") [(1, 2, str "EUNE"), (0, 1, str "EUW")]
    (by decide)⟩

/-- C4: for every input whose first non-space character is not `[` or whose last
non-space character is not `]` (also when it has no non-space character at all),
`parseRegions` returns the empty result, without an index fault. -/
theorem parseRegions_missing_bracket (src : GoString)
    (h : src.find? (fun b => b != ' '.toUInt8) ≠ some '['.toUInt8 ∨
         src.reverse.find? (fun b => b != ' '.toUInt8) ≠ some ']'.toUInt8) :
    loldoc.parseRegions src = some [] := by
  rw [parseRegions_eq]
  rw [← filter_head_eq_find, ← filter_getLast_eq_find] at h
  simp only
  split_ifs with h1 h2 h3
  · rfl
  · rfl
  · rfl
  · rcases h with h | h
    · exact absurd h h2
    · exact absurd h h3

theorem parseRegions_missing_bracket_witness :
    ((str "BR, EUNE]").find? (fun b => b != ' '.toUInt8) ≠ some '['.toUInt8 ∨
      (str "BR, EUNE]").reverse.find? (fun b => b != ' '.toUInt8) ≠ some ']'.toUInt8) ∧
    loldoc.parseRegions (str "BR, EUNE]") = some [] :=
  ⟨by decide, parseRegions_missing_bracket (str "BR, EUNE]") (by decide)⟩

/-! ### TrimSpace -/

theorem trimFrom_suffix (width : GoString → Nat) (k : Nat) (s : GoString) :
    strings.trimFrom width k s <:+ s := by
  induction s generalizing k with
  | nil => cases k <;> exact List.suffix_refl _
  | cons b bs ih =>
    cases k with
    | succ k => exact (ih k).trans (List.suffix_cons b bs)
    | zero =>
      simp only [strings.trimFrom]
      split
      · exact List.suffix_refl _
      · exact (ih _).trans (List.suffix_cons b bs)

theorem TrimSpace_length_le (s : GoString) : (strings.TrimSpace s).length ≤ s.length := by
  unfold strings.TrimSpace
  have h1 := (trimFrom_suffix strings.leadingSpaceWidth 0 s).length_le
  have h2 := (trimFrom_suffix strings.trailingSpaceWidth 0
    (strings.trimFrom strings.leadingSpaceWidth 0 s).reverse).length_le
  simp only [List.length_reverse] at h2 ⊢
  omega

theorem spaceRunes_ne_nil : ∀ w ∈ strings.spaceRunes, w ≠ [] := by decide

theorem leadingSpaceWidth_eq_zero (b : UInt8) (bs : GoString) (h : spaceFirst b = false) :
    strings.leadingSpaceWidth (b :: bs) = 0 := by
  unfold strings.leadingSpaceWidth
  have : strings.spaceRunes.find? (fun w => w.isPrefixOf (b :: bs)) = none := by
    apply List.find?_eq_none.mpr
    intro w hw hp
    cases w with
    | nil => exact spaceRunes_ne_nil [] hw rfl
    | cons c cs =>
      have hc : c = b := by simp at hp; exact hp.1
      have : spaceFirst b = true := by
        unfold spaceFirst
        exact List.any_eq_true.mpr ⟨c :: cs, hw, by simp [hc]⟩
      rw [h] at this
      exact Bool.noConfusion this
  rw [this]

theorem trailingSpaceWidth_eq_zero (b : UInt8) (bs : GoString) (h : spaceLast b = false) :
    strings.trailingSpaceWidth (b :: bs) = 0 := by
  unfold strings.trailingSpaceWidth
  have : strings.spaceRunes.find? (fun w => w.reverse.isPrefixOf (b :: bs)) = none := by
    apply List.find?_eq_none.mpr
    intro w hw hp
    cases hr : w.reverse with
    | nil => exact spaceRunes_ne_nil w hw (by simpa using hr)
    | cons c cs =>
      rw [hr] at hp
      have hc : c = b := by simp at hp; exact hp.1
      have hl : w.getLast? = some c := by
        rw [← List.head?_reverse, hr]; rfl
      have : spaceLast b = true := by
        unfold spaceLast
        exact List.any_eq_true.mpr ⟨w, hw, by simp [hl, hc]⟩
      rw [h] at this
      exact Bool.noConfusion this
  rw [this]

/-- A string whose first byte starts no white-space rune and whose last byte ends none is
left unchanged by `TrimSpace`. -/
theorem TrimSpace_eq_self (s : GoString)
    (hf : ∀ b, s.head? = some b → spaceFirst b = false)
    (hl : ∀ b, s.getLast? = some b → spaceLast b = false) :
    strings.TrimSpace s = s := by
  unfold strings.TrimSpace
  have h1 : strings.trimFrom strings.leadingSpaceWidth 0 s = s := by
    cases s with
    | nil => rfl
    | cons b bs =>
      simp only [strings.trimFrom, leadingSpaceWidth_eq_zero b bs (hf b rfl)]
  rw [h1]
  have h2 : strings.trimFrom strings.trailingSpaceWidth 0 s.reverse = s.reverse := by
    cases hr : s.reverse with
    | nil => rfl
    | cons b bs =>
      have : s.getLast? = some b := by rw [← List.head?_reverse, hr]; rfl
      simp only [strings.trimFrom, trailingSpaceWidth_eq_zero b bs (hl b this)]
  rw [h2, List.reverse_reverse]

/-! ### Split: the pieces are no longer than the input -/

theorem splitFrom_length_le (sep : GoString) (k : Nat) (s : GoString) :
    ∀ piece ∈ strings.splitFrom sep k s, piece.length ≤ s.length := by
  induction s generalizing k with
  | nil => cases k <;> simp [strings.splitFrom]
  | cons b bs ih =>
    cases k with
    | succ k =>
      intro piece hp
      have := ih k piece (by simpa [strings.splitFrom] using hp)
      simp only [List.length_cons]; omega
    | zero =>
      intro piece hp
      simp only [strings.splitFrom] at hp
      split at hp
      · rcases List.mem_cons.mp hp with h | h
        · simp [h]
        · have := ih _ piece h
          simp only [List.length_cons]; omega
      · cases hrec : strings.splitFrom sep 0 bs with
        | nil =>
          rw [hrec] at hp
          simp [strings.consHead] at hp
          simp [hp]
        | cons x xs =>
          rw [hrec] at hp
          simp only [strings.consHead, List.mem_cons] at hp
          rcases hp with h | h
          · have := ih 0 x (by rw [hrec]; exact List.mem_cons_self _ _)
            simp only [h, List.length_cons]; omega
          · have := ih 0 piece (by rw [hrec]; exact List.mem_cons_of_mem _ h)
            simp only [List.length_cons]; omega

theorem sliceOf_length_le (s : GoString) (lo hi : Int) (t : GoString)
    (h : sliceOf s lo hi = some t) : t.length ≤ hi.toNat - lo.toNat := by
  unfold sliceOf at h
  split at h
  · cases h
    simp only [List.length_drop, List.length_take]
    omega
  · cases h

/-! ### The recursion of `Type` -/

theorem sliceOf_tail_shorter (s : GoString) (lo : Int) (t : GoString) (hs : s ≠ [])
    (h : sliceOf s lo (len s - 1) = some t) : t.length < s.length := by
  have h1 := sliceOf_length_le s lo (len s - 1) t h
  have h2 : 0 < s.length := List.length_pos.mpr hs
  simp only [len] at h1
  omega

/-- The body of `Type` only calls `self` on strings strictly shorter than its argument. -/
theorem typeBody_congr (p : patcher.Patches) (resID : GoString)
    (f g : GoString → Except patcher.GoError types.GoType) (s : GoString)
    (h : ∀ t : GoString, t.length < s.length → f t = g t) :
    patcher.typeBody p resID f s = patcher.typeBody p resID g s := by
  have hlen := TrimSpace_length_le s
  unfold patcher.typeBody
  generalize strings.TrimSpace s = s' at hlen ⊢
  simp only []
  split
  · rfl
  · by_cases he : s' = str ""
    · simp only [he, if_true]
    · have hne : s' ≠ [] := by rw [str_empty] at he; exact he
      simp only [he, if_false]
      by_cases hL : (strings.HasPrefix s' (str "List[") && strings.HasSuffix s' (str "]")) = true
      · simp only [hL, if_true]
        cases hsl : sliceOf s' 5 (len s' - 1) with
        | none => rfl
        | some inner =>
          have := sliceOf_tail_shorter s' 5 inner hne hsl
          simp only [Bool.false_eq_true, if_false, h inner (by omega)]
      · simp only [hL, Bool.false_eq_true, if_false]
        by_cases hS : (strings.HasPrefix s' (str "Set[") && strings.HasSuffix s' (str "]")) = true
        · simp only [hS, if_true]
          cases hsl : sliceOf s' 4 (len s' - 1) with
          | none => rfl
          | some inner =>
            have := sliceOf_tail_shorter s' 4 inner hne hsl
            simp only [Bool.false_eq_true, if_false, h inner (by omega)]
        · simp only [hS, Bool.false_eq_true, if_false]
          by_cases hM : (strings.HasPrefix s' (str "Map[") && strings.HasSuffix s' (str "]")) = true
          · simp only [hM, if_true]
            cases hsl : sliceOf s' 4 (len s' - 1) with
            | none => rfl
            | some body =>
              have hb := sliceOf_tail_shorter s' 4 body hne hsl
              have hp := splitFrom_length_le (str ", ") 0 body
              simp only []
              cases hsp : strings.Split body (str ", ") with
              | nil => rfl
              | cons k rest =>
                cases rest with
                | nil => rfl
                | cons v rest2 =>
                  cases rest2 with
                  | cons _ _ => rfl
                  | nil =>
                    unfold strings.Split at hsp
                    rw [hsp] at hp
                    have hk := hp k (by simp)
                    have hv := hp v (by simp)
                    simp only [Bool.false_eq_true, if_false, h k (by omega), h v (by omega)]
          · simp only [hM, Bool.false_eq_true, if_false]

theorem typeFuel_stable (p : patcher.Patches) (resID : GoString) (n : Nat) :
    ∀ (m : Nat) (s : GoString), s.length < n → s.length < m →
      patcher.typeFuel p resID n s = patcher.typeFuel p resID m s := by
  induction n with
  | zero => intro m s h; exact absurd h (Nat.not_lt_zero _)
  | succ n ih =>
    intro m s hn hm
    cases m with
    | zero => exact absurd hm (Nat.not_lt_zero _)
    | succ m =>
      simp only [patcher.typeFuel]
      exact typeBody_congr p resID _ _ s (fun t ht => ih m t (by omega) (by omega))

/-- The function `Type` satisfies the recursion of its source: it is its body, with itself in the place
of the recursive calls. -/
theorem Type_eq_typeBody (p : patcher.Patches) (resID s : GoString) :
    patcher.Type_ p resID s = patcher.typeBody p resID (patcher.Type_ p resID) s := by
  unfold patcher.Type_
  simp only [patcher.typeFuel]
  exact typeBody_congr p resID _ _ s
    (fun t ht => typeFuel_stable p resID _ _ t ht (Nat.lt_succ_self _))

/-! ### The branches of `Type` -/

theorem str_List : str "List[" = [76, 105, 115, 116, 91] := by decide
theorem str_Set : str "Set[" = [83, 101, 116, 91] := by decide
theorem str_Map : str "Map[" = [77, 97, 112, 91] := by decide
theorem str_close : str "]" = [93] := by decide
theorem str_sep : str ", " = [44, 32] := by decide

theorem lookup_some_mem {β : Type} (a : GoString) (b : β) (l : List (GoString × β))
    (h : l.lookup a = some b) : (a, b) ∈ l := by
  induction l with
  | nil => simp at h
  | cons e l ih =>
    obtain ⟨k, v⟩ := e
    by_cases hk : a = k
    · subst hk
      simp [List.lookup] at h
      simp [h]
    · have hk2 : (a == k) = false := by simpa using hk
      simp [List.lookup, hk2] at h
      exact List.mem_cons_of_mem _ (ih h)

theorem lookup_none_of_not_mem {β : Type} (a : GoString) (l : List (GoString × β))
    (h : ∀ e ∈ l, e.1 ≠ a) : l.lookup a = none := by
  cases hl : l.lookup a with
  | none => rfl
  | some b => exact absurd rfl (h (a, b) (lookup_some_mem a b l hl))

theorem javaPrimitives_keys_last :
    ∀ e ∈ patcher.javaPrimitives, e.1.getLast? ≠ some 93 := by decide

/-- No key of `javaPrimitives` ends with `]`. -/
theorem javaPrimitives_lookup_bracket (s : GoString) (h : s.getLast? = some 93) :
    patcher.javaPrimitives.lookup s = none :=
  lookup_none_of_not_mem s _ (fun e he heq => javaPrimitives_keys_last e he (heq ▸ h))

theorem spaceLast_close : spaceLast 93 = false := by decide

/-- The text between an opening of `n` bytes and the closing `]`. -/
theorem sliceOf_between (pre t : GoString) (n : Nat) (hn : pre.length = n) :
    sliceOf (pre ++ t ++ [93]) n (len (pre ++ t ++ [93]) - 1) = some t := by
  have hl : len (pre ++ t ++ [93]) - 1 = ((n + t.length : Nat) : Int) := by
    simp [len, hn]; omega
  rw [hl]
  simp only [sliceOf, len]
  rw [if_pos (by simp [hn])]
  congr 1
  have e1 : (((n + t.length : Nat) : Int)).toNat = n + t.length := by omega
  have e2 : ((n : Nat) : Int).toNat = n := by omega
  rw [e1, e2]
  have : (pre ++ t ++ [93]).take (n + t.length) = pre ++ t := by
    rw [List.take_append_of_le_length (by simp [hn])]
    rw [List.take_of_length_le (by simp [hn])]
  rw [this, ← hn, List.drop_left]

/-- The common shape of the three composite branches: a string `pre ++ t ++ "]"` whose
first byte starts no white-space rune is trimmed to itself, is no primitive and is not
empty. -/
theorem bracketed_trimmed (c : UInt8) (pre t : GoString)
    (hc : spaceFirst c = false) :
    strings.TrimSpace (c :: pre ++ t ++ [93]) = c :: pre ++ t ++ [93] ∧
    patcher.javaPrimitives.lookup (c :: pre ++ t ++ [93]) = none ∧
    ¬ (c :: pre ++ t ++ [93] = str "") := by
  have hlast : (c :: pre ++ t ++ [93]).getLast? = some 93 := by
    rw [List.getLast?_concat]
  refine ⟨TrimSpace_eq_self _ ?_ ?_, javaPrimitives_lookup_bracket _ hlast, ?_⟩
  · intro b hb
    simp at hb
    rw [← hb]; exact hc
  · intro b hb
    rw [hlast] at hb
    cases hb
    exact spaceLast_close
  · rw [str_empty]; simp

theorem Type_List_unfold (p : patcher.Patches) (resID t : GoString) :
    patcher.Type_ p resID (str "List[" ++ t ++ str "]") =
      match patcher.Type_ p resID t with
      | .error err => .error (.invalidListType (str "List[" ++ t ++ str "]") err)
      | .ok elem => .ok (.Slice elem) := by
  rw [Type_eq_typeBody]
  rw [str_List, str_close]
  obtain ⟨h1, h2, h3⟩ := bracketed_trimmed 76 [105, 115, 116, 91] t (by decide)
  have hpre : strings.HasPrefix ([76, 105, 115, 116, 91] ++ t ++ [93]) (str "List[") = true := by
    rw [str_List]; simp [strings.HasPrefix]
  have hsuf : strings.HasSuffix ([76, 105, 115, 116, 91] ++ t ++ [93]) (str "]") = true := by
    rw [str_close]
    simpa [strings.HasSuffix] using
      (⟨[76, 105, 115, 116, 91] ++ t, by simp⟩ : [93] <:+ [76, 105, 115, 116, 91] ++ t ++ [93])
  have hsl := sliceOf_between [76, 105, 115, 116, 91] t 5 rfl
  simp only [List.cons_append, List.nil_append] at h1 h2 h3 hpre hsuf hsl ⊢
  unfold patcher.typeBody
  simp only [h1, h2, h3, hpre, hsuf, if_false, Bool.and_self, if_true]
  have e5 : ((5 : Nat) : Int) = 5 := rfl
  rw [e5] at hsl
  rw [hsl]

theorem isPrefixOf_head_ne (a b : UInt8) (l1 l2 : GoString) (h : (a == b) = false) :
    (a :: l1).isPrefixOf (b :: l2) = false := by
  rw [List.isPrefixOf, h, Bool.false_and]

theorem Type_Set_unfold (p : patcher.Patches) (resID t : GoString) :
    patcher.Type_ p resID (str "Set[" ++ t ++ str "]") =
      match patcher.Type_ p resID t with
      | .error err => .error (.invalidSetType (str "Set[" ++ t ++ str "]") err)
      | .ok elem => .ok (.Slice elem) := by
  rw [Type_eq_typeBody]
  rw [str_Set, str_close]
  obtain ⟨h1, h2, h3⟩ := bracketed_trimmed 83 [101, 116, 91] t (by decide)
  have hL : strings.HasPrefix ([83, 101, 116, 91] ++ t ++ [93]) (str "List[") = false := by
    rw [str_List]; exact isPrefixOf_head_ne _ _ _ _ (by decide)
  have hpre : strings.HasPrefix ([83, 101, 116, 91] ++ t ++ [93]) (str "Set[") = true := by
    rw [str_Set]; simp [strings.HasPrefix]
  have hsuf : strings.HasSuffix ([83, 101, 116, 91] ++ t ++ [93]) (str "]") = true := by
    rw [str_close]
    simpa [strings.HasSuffix] using
      (⟨[83, 101, 116, 91] ++ t, by simp⟩ : [93] <:+ [83, 101, 116, 91] ++ t ++ [93])
  have hsl := sliceOf_between [83, 101, 116, 91] t 4 rfl
  simp only [List.cons_append, List.nil_append] at h1 h2 h3 hL hpre hsuf hsl ⊢
  unfold patcher.typeBody
  simp only [h1, h2, h3, hL, hpre, hsuf, if_false, Bool.and_self, if_true, Bool.false_and,
    Bool.false_eq_true]
  have e4 : ((4 : Nat) : Int) = 4 := rfl
  rw [e4] at hsl
  rw [hsl]

theorem Type_Map_unfold (p : patcher.Patches) (resID body : GoString) :
    patcher.Type_ p resID (str "Map[" ++ body ++ str "]") =
      match strings.Split body (str ", ") with
      | [k, v] =>
        match patcher.Type_ p resID k with
        | .error err => .error (.invalidMapKeyType err)
        | .ok key =>
          match patcher.Type_ p resID v with
          | .error err => .error (.invalidMapElemType err)
          | .ok elem => .ok (.Map key elem)
      | _ => .error (.invalidMapType (str "Map[" ++ body ++ str "]")) := by
  rw [Type_eq_typeBody]
  rw [str_Map, str_close]
  obtain ⟨h1, h2, h3⟩ := bracketed_trimmed 77 [97, 112, 91] body (by decide)
  have hL : strings.HasPrefix ([77, 97, 112, 91] ++ body ++ [93]) (str "List[") = false := by
    rw [str_List]; exact isPrefixOf_head_ne _ _ _ _ (by decide)
  have hS : strings.HasPrefix ([77, 97, 112, 91] ++ body ++ [93]) (str "Set[") = false := by
    rw [str_Set]; exact isPrefixOf_head_ne _ _ _ _ (by decide)
  have hpre : strings.HasPrefix ([77, 97, 112, 91] ++ body ++ [93]) (str "Map[") = true := by
    rw [str_Map]; simp [strings.HasPrefix]
  have hsuf : strings.HasSuffix ([77, 97, 112, 91] ++ body ++ [93]) (str "]") = true := by
    rw [str_close]
    simpa [strings.HasSuffix] using
      (⟨[77, 97, 112, 91] ++ body, by simp⟩ : [93] <:+ [77, 97, 112, 91] ++ body ++ [93])
  have hsl := sliceOf_between [77, 97, 112, 91] body 4 rfl
  simp only [List.cons_append, List.nil_append] at h1 h2 h3 hL hS hpre hsuf hsl ⊢
  unfold patcher.typeBody
  simp only [h1, h2, h3, hL, hS, hpre, hsuf, if_false, Bool.and_self, if_true, Bool.false_and,
    Bool.false_eq_true]
  have e4 : ((4 : Nat) : Int) = 4 := rfl
  rw [e4] at hsl
  rw [hsl]

/-- A string that is trimmed, not empty, no primitive and of none of the three composite
forms is resolved by `ClassType`. -/
theorem Type_to_ClassType (p : patcher.Patches) (resID s : GoString)
    (ht : strings.TrimSpace s = s) (hp : patcher.javaPrimitives.lookup s = none)
    (hne : s ≠ str "")
    (hL : (strings.HasPrefix s (str "List[") && strings.HasSuffix s (str "]")) = false)
    (hS : (strings.HasPrefix s (str "Set[") && strings.HasSuffix s (str "]")) = false)
    (hM : (strings.HasPrefix s (str "Map[") && strings.HasSuffix s (str "]")) = false) :
    patcher.Type_ p resID s = patcher.ClassType p resID s := by
  rw [Type_eq_typeBody]
  unfold patcher.typeBody
  simp only [ht, hp, hne, hL, hS, hM, if_false, Bool.false_eq_true]

theorem Type_of_lookup (p : patcher.Patches) (resID s : GoString) (bk : types.BasicKind)
    (hp : patcher.javaPrimitives.lookup (strings.TrimSpace s) = some bk) :
    patcher.Type_ p resID s = .ok (.Typ bk) := by
  rw [Type_eq_typeBody]
  unfold patcher.typeBody
  simp only [hp]

theorem Type_empty (p : patcher.Patches) (resID s : GoString)
    (h : strings.TrimSpace s = []) :
    patcher.Type_ p resID s = .error .emptyTypeString := by
  rw [Type_eq_typeBody]
  unfold patcher.typeBody
  have hp : patcher.javaPrimitives.lookup ([] : GoString) = none := by decide
  simp only [h, hp, str_empty, if_true]

/-! ### C5: primitives -/

theorem forall_byte (P : UInt8 → Prop) (h : ∀ n : Fin 256, P (UInt8.ofNat n)) :
    ∀ b, P b := by
  intro b
  have := h ⟨b.toNat, b.toBitVec.isLt⟩
  have e : UInt8.ofNat b.toNat = b := by
    cases b with
    | mk bv => simp [UInt8.ofNat, UInt8.toNat]
  simpa [e] using this

set_option maxRecDepth 100000 in
theorem letter_not_space : ∀ b : UInt8,
    (97 ≤ asciiLower b ∧ asciiLower b ≤ 122) → spaceFirst b = false ∧ spaceLast b = false :=
  forall_byte _ (by decide)

theorem javaPrimitives_keys_letters :
    ∀ e ∈ patcher.javaPrimitives, ∀ c ∈ e.1, 97 ≤ c ∧ c ≤ 122 := by decide

theorem javaPrimitives_keys_lower :
    ∀ e ∈ patcher.javaPrimitives, e.1.map asciiLower = e.1 := by decide

/-- The function `Type` answers a primitive kind only through the table `javaPrimitives`. -/
theorem Type_Typ_lookup (p : patcher.Patches) (resID s : GoString) (k : types.BasicKind)
    (h : patcher.Type_ p resID s = .ok (.Typ k)) :
    patcher.javaPrimitives.lookup (strings.TrimSpace s) = some k := by
  rw [Type_eq_typeBody] at h
  unfold patcher.typeBody at h
  cases hlk : patcher.javaPrimitives.lookup (strings.TrimSpace s) with
  | some bk =>
    simp only [hlk] at h
    cases h
    rfl
  | none =>
    exfalso
    simp only [hlk] at h
    split_ifs at h
    · split at h
      · cases h
      · split at h <;> cases h
    · split at h
      · cases h
      · split at h <;> cases h
    · split at h
      · cases h
      · split at h
        · split at h
          · cases h
          · split at h <;> cases h
        · cases h
    · unfold patcher.ClassType at h
      split_ifs at h
      · cases h
      · split at h <;> cases h

/-- A string that differs from a key of `javaPrimitives` only in letter case is no key and
is left as it is by `TrimSpace`. -/
theorem case_variant_not_primitive (s prim : GoString) (kind : types.BasicKind)
    (hmem : (prim, kind) ∈ patcher.javaPrimitives) (hlow : s.map asciiLower = prim)
    (hne : s ≠ prim) :
    patcher.javaPrimitives.lookup (strings.TrimSpace s) = none := by
  have hbytes : ∀ b ∈ s, spaceFirst b = false ∧ spaceLast b = false := by
    intro b hb
    apply letter_not_space
    apply javaPrimitives_keys_letters (prim, kind) hmem
    rw [← hlow]
    exact List.mem_map_of_mem _ hb
  have htrim : strings.TrimSpace s = s :=
    TrimSpace_eq_self s (fun b hb => (hbytes b (List.mem_of_mem_head? hb)).1)
      (fun b hb => (hbytes b (List.mem_of_mem_getLast? hb)).2)
  rw [htrim]
  apply lookup_none_of_not_mem
  intro e he heq
  apply hne
  rw [← hlow, ← heq]
  exact (javaPrimitives_keys_lower e he).symm

/-- C5: for every registry and every resource ID, `Type` resolves the exact strings
`boolean`, `int`, `long`, `string`, `double`, `float` to the kinds bool, int32, int64,
string, float64, float32, and a string that differs from one of them only in letter case
is not resolved as a primitive. -/
theorem Type_primitives (p : patcher.Patches) (resID : GoString) :
    patcher.Type_ p resID (str "boolean") = .ok (.Typ .Bool) ∧
    patcher.Type_ p resID (str "int") = .ok (.Typ .Int32) ∧
    patcher.Type_ p resID (str "long") = .ok (.Typ .Int64) ∧
    patcher.Type_ p resID (str "string") = .ok (.Typ .String) ∧
    patcher.Type_ p resID (str "double") = .ok (.Typ .Float64) ∧
    patcher.Type_ p resID (str "float") = .ok (.Typ .Float32) ∧
    ∀ (s prim : GoString) (kind : types.BasicKind),
      (prim, kind) ∈ patcher.javaPrimitives → s.map asciiLower = prim → s ≠ prim →
      ∀ k, patcher.Type_ p resID s ≠ .ok (.Typ k) := by
  refine ⟨Type_of_lookup p resID _ _ (by decide), Type_of_lookup p resID _ _ (by decide),
    Type_of_lookup p resID _ _ (by decide), Type_of_lookup p resID _ _ (by decide),
    Type_of_lookup p resID _ _ (by decide), Type_of_lookup p resID _ _ (by decide), ?_⟩
  intro s prim kind hmem hlow hne k h
  have h1 := Type_Typ_lookup p resID s k h
  rw [case_variant_not_primitive s prim kind hmem hlow hne] at h1
  cases h1

theorem Type_primitives_witness :
    patcher.Type_ patcher.overrides (str "champion") (str "long") = .ok (.Typ .Int64) ∧
    (str "Long").map asciiLower = str "long" ∧ str "Long" ≠ str "long" ∧
    ∀ k, patcher.Type_ patcher.overrides (str "champion") (str "Long") ≠ .ok (.Typ k) :=
  ⟨(Type_primitives patcher.overrides (str "champion")).2.2.1, by decide, by decide,
    (Type_primitives patcher.overrides (str "champion")).2.2.2.2.2.2 (str "Long")
      (str "long") .Int64 (by decide) (by decide) (by decide)⟩

/-! ### C6: the grammar of type strings -/

theorem Primitive_lookup (q : Primitive) :
    patcher.javaPrimitives.lookup (strings.TrimSpace q.text) = some q.kind := by
  cases q <;> decide

theorem Primitive_text_no_comma (q : Primitive) : (44 : UInt8) ∉ q.text := by
  cases q <;> decide

theorem TypeTerm_text_no_comma (t : TypeTerm) (h : t.mapFree = true) :
    (44 : UInt8) ∉ t.text := by
  induction t with
  | prim q => exact Primitive_text_no_comma q
  | list e ih =>
    have := ih h
    simp only [TypeTerm.text, str_List, str_close, List.mem_append, not_or]
    exact ⟨⟨by decide, this⟩, by decide⟩
  | set e ih =>
    have := ih h
    simp only [TypeTerm.text, str_Set, str_close, List.mem_append, not_or]
    exact ⟨⟨by decide, this⟩, by decide⟩
  | map k v _ _ => simp [TypeTerm.mapFree] at h

theorem TypeTerm_mapsFlat_of_mapFree (t : TypeTerm) (h : t.mapFree = true) :
    t.mapsFlat = true := by
  induction t with
  | prim q => rfl
  | list e ih => exact ih h
  | set e ih => exact ih h
  | map k v _ _ => simp [TypeTerm.mapFree] at h

theorem Split_two (a b : GoString) (ha : (44 : UInt8) ∉ a) (hb : (44 : UInt8) ∉ b) :
    strings.Split (a ++ str ", " ++ b) (str ", ") = [a, b] := by
  rw [str_sep]
  unfold strings.Split
  rw [splitFrom_append 44 [32] a b ha, splitFrom_not_mem 44 [32] b hb]

/-- C6 fails as stated: `Map[string, Map[string, int]]` is derivable from the grammar, yet
`Type` rejects it, because the body of the outer `Map` splits into three pieces at
`", "`. -/
theorem Type_nested_map_counterexample :
    (TypeTerm.map (.prim .string) (.map (.prim .string) (.prim .int))).text =
      str "Map[string, Map[string, int]]" ∧
    patcher.Type_ patcher.overrides (str "champion") (str "Map[string, Map[string, int]]") =
      .error (.invalidMapType (str "Map[string, Map[string, int]]")) ∧
    patcher.Type_ patcher.overrides (str "champion") (str "Map[string, Map[string, int]]") ≠
      .ok (TypeTerm.map (.prim .string) (.map (.prim .string) (.prim .int))).mirror := by
  decide

/-- C6 (amended): for every type term derivable from the grammar in which no `Map` occurs
inside the key or the value of another `Map`, `Type` applied to its textual form succeeds
and returns the structured type that mirrors the derivation. -/
theorem Type_grammar (p : patcher.Patches) (resID : GoString) (t : TypeTerm)
    (h : t.mapsFlat = true) :
    patcher.Type_ p resID t.text = .ok t.mirror := by
  induction t with
  | prim q => exact Type_of_lookup p resID _ _ (Primitive_lookup q)
  | list e ih =>
    simp only [TypeTerm.text, TypeTerm.mirror]
    rw [Type_List_unfold, ih h]
  | set e ih =>
    simp only [TypeTerm.text, TypeTerm.mirror]
    rw [Type_Set_unfold, ih h]
  | map k v ihk ihv =>
    simp only [TypeTerm.mapsFlat, Bool.and_eq_true] at h
    simp only [TypeTerm.text, TypeTerm.mirror]
    have hsplit := Split_two k.text v.text (TypeTerm_text_no_comma k h.1)
      (TypeTerm_text_no_comma v h.2)
    have e : str "Map[" ++ k.text ++ str ", " ++ v.text ++ str "]" =
        str "Map[" ++ (k.text ++ str ", " ++ v.text) ++ str "]" := by
      simp only [List.append_assoc]
    rw [e, Type_Map_unfold, hsplit]
    simp only [ihk (TypeTerm_mapsFlat_of_mapFree k h.1),
      ihv (TypeTerm_mapsFlat_of_mapFree v h.2)]

theorem Type_grammar_witness :
    (TypeTerm.list (.map (.prim .string) (.prim .int))).mapsFlat = true ∧
    (TypeTerm.list (.map (.prim .string) (.prim .int))).text = str "List[Map[string, int]]" ∧
    patcher.Type_ patcher.overrides (str "champion")
        (TypeTerm.list (.map (.prim .string) (.prim .int))).text =
      .ok (.Slice (.Map (.Typ .String) (.Typ .Int32))) :=
  ⟨by decide, by decide, Type_grammar patcher.overrides (str "champion")
    (TypeTerm.list (.map (.prim .string) (.prim .int))) (by decide)⟩

/-! ### C7: `Set[T]` and `List[T]` -/

/-- C7: for every registry, resource ID and string `t`, `Type` on `"Set[" ++ t ++ "]"`
succeeds exactly when it succeeds on `"List[" ++ t ++ "]"`, with the same result, and that
result is `List(elem)` for the type `elem` that `t` resolves to. -/
theorem Type_Set_as_List (p : patcher.Patches) (resID t : GoString) :
    (∀ ty, patcher.Type_ p resID (str "Set[" ++ t ++ str "]") = .ok ty ↔
      patcher.Type_ p resID (str "List[" ++ t ++ str "]") = .ok ty) ∧
    (∀ ty, patcher.Type_ p resID (str "Set[" ++ t ++ str "]") = .ok ty →
      ∃ elem, patcher.Type_ p resID t = .ok elem ∧ ty = .Slice elem) := by
  rw [Type_Set_unfold, Type_List_unfold]
  cases patcher.Type_ p resID t with
  | error err => simp
  | ok elem => simp [eq_comm]

/-! ### C8: `Map[K, V]` -/

/-- C8 fails as stated: the body of `Map[string,int]` is the two comma-separated terms
`string` and `int`, which both resolve, yet `Type` fails: the separator is a comma
followed by one space. -/
theorem Type_map_comma_counterexample :
    patcher.Type_ patcher.overrides (str "champion") (str "string") = .ok (.Typ .String) ∧
    patcher.Type_ patcher.overrides (str "champion") (str "int") = .ok (.Typ .Int32) ∧
    patcher.Type_ patcher.overrides (str "champion") (str "Map[string,int]") =
      .error (.invalidMapType (str "Map[string,int]")) ∧
    patcher.Type_ patcher.overrides (str "champion") (str "Map[string,int]") ≠
      .ok (.Map (.Typ .String) (.Typ .Int32)) := by
  decide

/-- C8 (amended): for every string `"Map[" ++ body ++ "]"`, `Type` fails with the error
that names this string whenever splitting `body` at each comma followed by one space does
not give exactly two pieces, and succeeds with `Map(key, value)` whenever it gives exactly
two pieces that resolve to `key` and `value`. -/
theorem Type_Map_pieces (p : patcher.Patches) (resID body : GoString) :
    ((strings.Split body (str ", ")).length ≠ 2 →
      patcher.Type_ p resID (str "Map[" ++ body ++ str "]") =
        .error (.invalidMapType (str "Map[" ++ body ++ str "]"))) ∧
    (∀ k v key value, strings.Split body (str ", ") = [k, v] →
      patcher.Type_ p resID k = .ok key → patcher.Type_ p resID v = .ok value →
      patcher.Type_ p resID (str "Map[" ++ body ++ str "]") = .ok (.Map key value)) := by
  rw [Type_Map_unfold]
  constructor
  · intro hlen
    split
    · rename_i k v heq
      rw [heq] at hlen
      exact absurd rfl hlen
    · rfl
  · intro k v key value hs hk hv
    rw [hs]
    simp only [hk, hv]

theorem Type_Map_pieces_witness :
    ((strings.Split (str "string, int, long") (str ", ")).length ≠ 2 ∧
      patcher.Type_ patcher.overrides (str "champion")
          (str "Map[" ++ str "string, int, long" ++ str "]") =
        .error (.invalidMapType (str "Map[" ++ str "string, int, long" ++ str "]"))) ∧
    (strings.Split (str "string, int") (str ", ") = [str "string", str "int"] ∧
      patcher.Type_ patcher.overrides (str "champion")
          (str "Map[" ++ str "string, int" ++ str "]") =
        .ok (.Map (.Typ .String) (.Typ .Int32))) :=
  ⟨⟨by decide, (Type_Map_pieces patcher.overrides (str "champion")
      (str "string, int, long")).1 (by decide)⟩,
    ⟨by decide, (Type_Map_pieces patcher.overrides (str "champion") (str "string, int")).2
      (str "string") (str "int") (.Typ .String) (.Typ .Int32) (by decide) (by decide)
      (by decide)⟩⟩

/-! ### C9: empty and all-white-space type strings -/

theorem trimFrom_skip (width : GoString → Nat) (x rest : GoString) :
    strings.trimFrom width x.length (x ++ rest) = strings.trimFrom width 0 rest := by
  induction x with
  | nil => rfl
  | cons c cs ih => simpa [strings.trimFrom] using ih

theorem spaceRunes_antichain :
    ∀ w ∈ strings.spaceRunes, ∀ w' ∈ strings.spaceRunes,
      (w'.isPrefixOf w = true ∨ w.isPrefixOf w' = true) → w'.length = w.length := by
  decide

theorem leadingSpaceWidth_rune (w rest : GoString) (hw : w ∈ strings.spaceRunes) :
    strings.leadingSpaceWidth (w ++ rest) = w.length := by
  unfold strings.leadingSpaceWidth
  cases hf : strings.spaceRunes.find? (fun w' => w'.isPrefixOf (w ++ rest)) with
  | none =>
    have := List.find?_eq_none.mp hf w hw
    simp at this
  | some w' =>
    have hp : w'.isPrefixOf (w ++ rest) = true :=
      @List.find?_some GoString (fun x => x.isPrefixOf (w ++ rest)) w' _ hf
    have hm : w' ∈ strings.spaceRunes := List.mem_of_find?_eq_some hf
    have h1 : w' <+: w ++ rest := List.isPrefixOf_iff_prefix.mp hp
    have h2 : w <+: w ++ rest := List.prefix_append w rest
    apply spaceRunes_antichain w hw w' hm
    rcases List.prefix_or_prefix_of_prefix h1 h2 with h | h
    · left; exact List.isPrefixOf_iff_prefix.mpr h
    · right; exact List.isPrefixOf_iff_prefix.mpr h

theorem trimFrom_rune (w rest : GoString) (hw : w ∈ strings.spaceRunes) :
    strings.trimFrom strings.leadingSpaceWidth 0 (w ++ rest) =
      strings.trimFrom strings.leadingSpaceWidth 0 rest := by
  cases w with
  | nil => exact absurd rfl (spaceRunes_ne_nil [] hw)
  | cons b bs =>
    have hwid := leadingSpaceWidth_rune (b :: bs) rest hw
    simp only [List.cons_append] at hwid ⊢
    simp only [strings.trimFrom, hwid, List.length_cons]
    exact trimFrom_skip _ bs rest

theorem TrimSpace_runes (ws : List GoString) (h : ∀ w ∈ ws, w ∈ strings.spaceRunes) :
    strings.TrimSpace ws.flatten = [] := by
  have h1 : strings.trimFrom strings.leadingSpaceWidth 0 ws.flatten = [] := by
    induction ws with
    | nil => rfl
    | cons w ws ih =>
      rw [List.flatten_cons, trimFrom_rune w _ (h w (by simp))]
      exact ih (fun w' hw' => h w' (by simp [hw']))
  unfold strings.TrimSpace
  rw [h1]
  rfl

/-- C9: for every registry and resource ID and every string that consists only of white
space (a concatenation of white-space runes, the empty string included), `Type` fails, with
the error "cannot parse empty string", and returns no type. -/
theorem Type_blank (p : patcher.Patches) (resID : GoString) (ws : List GoString)
    (h : ∀ w ∈ ws, w ∈ strings.spaceRunes) :
    patcher.Type_ p resID ws.flatten = .error .emptyTypeString :=
  Type_empty p resID _ (TrimSpace_runes ws h)

theorem Type_blank_witness :
    (∀ w ∈ [str " ", [0x09], [0xC2, 0xA0]], w ∈ strings.spaceRunes) ∧
    patcher.Type_ patcher.overrides (str "champion") [str " ", [0x09], [0xC2, 0xA0]].flatten =
      .error .emptyTypeString :=
  ⟨by decide, Type_blank patcher.overrides (str "champion") [str " ", [0x09], [0xC2, 0xA0]]
    (by decide)⟩

/-! ### C10: class names -/

/-- The `Add` calls of `init` all succeed and leave the registry `overrides`. -/
theorem init_eq_overrides : patcher.init = some patcher.overrides := by decide

theorem overrides_no_empty_class :
    ∀ e ∈ patcher.overrides.Resources, e.2.Classes.lookup [] = none := by
  decide

/-- C10: for every resource ID and every trimmed string `s` that is neither a primitive
nor of a `List[...]`, `Set[...]` or `Map[...]` form, `Type` (on the shipped registry)
succeeds exactly when `s` is a registered class of that resource or the resource is
`lol-static-data` and `s` is `SpellRange`; on success the result is a pointer to a named
type whose name is `SpellRange` for the exception and the registered target identifier
otherwise. -/
theorem Type_class_name (resID s : GoString)
    (ht : strings.TrimSpace s = s) (hp : patcher.javaPrimitives.lookup s = none)
    (hL : (strings.HasPrefix s (str "List[") && strings.HasSuffix s (str "]")) = false)
    (hS : (strings.HasPrefix s (str "Set[") && strings.HasSuffix s (str "]")) = false)
    (hM : (strings.HasPrefix s (str "Map[") && strings.HasSuffix s (str "]")) = false) :
    ((∃ ty, patcher.Type_ patcher.overrides resID s = .ok ty) ↔
      ((∃ rp cp, patcher.overrides.Resources.lookup resID = some rp ∧
          rp.Classes.lookup s = some cp) ∨
        (resID = str "lol-static-data" ∧ s = str "SpellRange"))) ∧
    (∀ ty, patcher.Type_ patcher.overrides resID s = .ok ty →
      (resID = str "lol-static-data" ∧ s = str "SpellRange" ∧
          ty = .Pointer (.Named (str "SpellRange"))) ∨
        (∃ rp cp, patcher.overrides.Resources.lookup resID = some rp ∧
          rp.Classes.lookup s = some cp ∧ ty = .Pointer (.Named cp.Name))) := by
  by_cases hs : s = []
  · subst hs
    rw [Type_empty patcher.overrides resID [] ht]
    have hno : ∀ rp, patcher.overrides.Resources.lookup resID = some rp →
        rp.Classes.lookup [] = none :=
      fun rp hrp => overrides_no_empty_class (resID, rp) (lookup_some_mem resID rp _ hrp)
    have hsr : ¬ (([] : GoString) = str "SpellRange") := by decide
    constructor
    · constructor
      · rintro ⟨ty, hty⟩; cases hty
      · rintro (⟨rp, cp, hrp, hcp⟩ | ⟨_, h2⟩)
        · rw [hno rp hrp] at hcp; cases hcp
        · exact absurd h2 hsr
    · intro ty hty; cases hty
  · have hne : s ≠ str "" := by rw [str_empty]; exact hs
    rw [Type_to_ClassType patcher.overrides resID s ht hp hne hL hS hM]
    unfold patcher.ClassType
    by_cases hx : resID = str "lol-static-data" ∧ s = str "SpellRange"
    · rw [if_pos hx]
      constructor
      · exact ⟨fun _ => Or.inr hx, fun _ => ⟨_, rfl⟩⟩
      · intro ty hty
        cases hty
        exact Or.inl ⟨hx.1, hx.2, by rw [hx.2]⟩
    · rw [if_neg hx]
      unfold patcher.ForClass patcher.forResource patcher.ResPatch.Class
      cases hrp : patcher.overrides.Resources.lookup resID with
      | none =>
        simp only []
        constructor
        · constructor
          · rintro ⟨ty, hty⟩; cases hty
          · rintro (⟨rp, cp, h1, _⟩ | h)
            · cases h1
            · exact absurd h hx
        · intro ty hty; cases hty
      | some rp =>
        simp only []
        cases hcp : rp.Classes.lookup s with
        | none =>
          simp only []
          constructor
          · constructor
            · rintro ⟨ty, hty⟩; cases hty
            · rintro (⟨rp', cp, h1, h2⟩ | h)
              · cases h1; rw [hcp] at h2; cases h2
              · exact absurd h hx
          · intro ty hty; cases hty
        | some cp =>
          simp only []
          constructor
          · exact ⟨fun _ => Or.inl ⟨rp, cp, rfl, hcp⟩, fun _ => ⟨_, rfl⟩⟩
          · intro ty hty
            cases hty
            exact Or.inr ⟨rp, cp, rfl, hcp, rfl⟩

theorem Type_class_name_witness :
    strings.TrimSpace (str "ChampionDto") = str "ChampionDto" ∧
    patcher.Type_ patcher.overrides (str "champion") (str "ChampionDto") =
      .ok (.Pointer (.Named (str "ChampionStatus"))) ∧
    ((∃ ty, patcher.Type_ patcher.overrides (str "champion") (str "ChampionDto") = .ok ty) ↔
      ((∃ rp cp, patcher.overrides.Resources.lookup (str "champion") = some rp ∧
          rp.Classes.lookup (str "ChampionDto") = some cp) ∨
        (str "champion" = str "lol-static-data" ∧ str "ChampionDto" = str "SpellRange"))) :=
  ⟨by decide, by decide,
    (Type_class_name (str "champion") (str "ChampionDto") (by decide) (by decide) (by decide)
      (by decide) (by decide)).1⟩

/-! ### C11, C12: operation overrides -/

/-- C11: `ForOperation` fails with an `ErrPatchRequired` carrying `resID` when `resID` has
no registry entry; it fails with an `ErrPatchRequired` carrying `resID` and naming the path
when the resource is registered and no registered suffix is a suffix of the path; it
succeeds, with the override of a matching suffix, whenever some registered suffix is a
suffix of the path. -/
theorem ForOperation_outcomes (p : patcher.Patches) (resID opPath : GoString) :
    (p.Resources.lookup resID = none →
      patcher.ForOperation p resID opPath = .error (.ErrPatchRequired resID .nothing)) ∧
    (∀ rp, p.Resources.lookup resID = some rp →
      (∀ e ∈ rp.Operations, strings.HasSuffix opPath e.1 = false) →
      patcher.ForOperation p resID opPath =
        .error (.ErrPatchRequired resID (.operation opPath))) ∧
    (∀ rp, p.Resources.lookup resID = some rp →
      (∃ e ∈ rp.Operations, strings.HasSuffix opPath e.1 = true) →
      ∃ e ∈ rp.Operations, strings.HasSuffix opPath e.1 = true ∧
        patcher.ForOperation p resID opPath = .ok e.2) := by
  refine ⟨?_, ?_, ?_⟩
  · intro h
    simp [patcher.ForOperation, patcher.forResource, h]
  · intro rp h hno
    have hf : rp.Operations.find? (fun e => strings.HasSuffix opPath e.1) = none :=
      List.find?_eq_none.mpr (fun e he => by simp [hno e he])
    simp [patcher.ForOperation, patcher.forResource, h, hf]
  · intro rp h ⟨e, he, hm⟩
    cases hf : rp.Operations.find? (fun e => strings.HasSuffix opPath e.1) with
    | none =>
      have := List.find?_eq_none.mp hf e he
      simp [hm] at this
    | some e' =>
      refine ⟨e', List.mem_of_find?_eq_some hf, ?_, ?_⟩
      · exact @List.find?_some _ (fun e => strings.HasSuffix opPath e.1) e' _ hf
      · simp [patcher.ForOperation, patcher.forResource, h, hf]

theorem ForOperation_outcomes_witness :
    (patcher.overrides.Resources.lookup (str "no-such-resource") = none ∧
      patcher.ForOperation patcher.overrides (str "no-such-resource") (str "/x") =
        .error (.ErrPatchRequired (str "no-such-resource") .nothing)) ∧
    patcher.ForOperation patcher.overrides (str "champion") (str "/api/lol/champion") =
      .ok ⟨str "ChampionStatuses", .Invalid⟩ :=
  ⟨⟨by decide, (ForOperation_outcomes patcher.overrides (str "no-such-resource")
      (str "/x")).1 (by decide)⟩, by decide⟩

/-- C12 fails as stated: in a registry whose resource `r` registers the suffixes `/b` and
`/a/b`, both match the path `/a/b`; when the run visits `/b` first `ForOperation` returns
the override of `/b`, the shorter suffix, and when it visits `/a/b` first it returns the
other one. -/
theorem ForOperation_order_counterexample :
    strings.HasSuffix (str "/a/b") (str "/b") = true ∧
    strings.HasSuffix (str "/a/b") (str "/a/b") = true ∧
    patcher.ForOperation
        ⟨[(str "r", ⟨[(str "/b", ⟨str "Short", .Invalid⟩),
                      (str "/a/b", ⟨str "Long", .Invalid⟩)], []⟩)]⟩
        (str "r") (str "/a/b") = .ok ⟨str "Short", .Invalid⟩ ∧
    patcher.ForOperation
        ⟨[(str "r", ⟨[(str "/a/b", ⟨str "Long", .Invalid⟩),
                      (str "/b", ⟨str "Short", .Invalid⟩)], []⟩)]⟩
        (str "r") (str "/a/b") = .ok ⟨str "Long", .Invalid⟩ := by
  decide

/-- C12 (amended): for every registry and every path matched by registered suffixes of a
resource, `ForOperation` returns the override of the matching suffix that the iteration
over the operation table reaches first. -/
theorem ForOperation_first_match (p : patcher.Patches) (resID opPath : GoString)
    (rp : patcher.ResPatch) (before after : List (GoString × patcher.OpPatch))
    (e : GoString × patcher.OpPatch)
    (hres : p.Resources.lookup resID = some rp)
    (hops : rp.Operations = before ++ e :: after)
    (hbefore : ∀ x ∈ before, strings.HasSuffix opPath x.1 = false)
    (he : strings.HasSuffix opPath e.1 = true) :
    patcher.ForOperation p resID opPath = .ok e.2 := by
  have hf : rp.Operations.find? (fun e => strings.HasSuffix opPath e.1) = some e := by
    rw [hops, List.find?_append]
    have : before.find? (fun e => strings.HasSuffix opPath e.1) = none :=
      List.find?_eq_none.mpr (fun x hx => by simp [hbefore x hx])
    simp [this, List.find?_cons, he]
  simp [patcher.ForOperation, patcher.forResource, hres, hf]

theorem ForOperation_first_match_witness :
    patcher.ForOperation
        ⟨[(str "r", ⟨[(str "/c", ⟨str "Other", .Invalid⟩),
                      (str "/b", ⟨str "Short", .Invalid⟩),
                      (str "/a/b", ⟨str "Long", .Invalid⟩)], []⟩)]⟩
        (str "r") (str "/a/b") = .ok ⟨str "Short", .Invalid⟩ :=
  ForOperation_first_match _ (str "r") (str "/a/b")
    ⟨[(str "/c", ⟨str "Other", .Invalid⟩), (str "/b", ⟨str "Short", .Invalid⟩),
      (str "/a/b", ⟨str "Long", .Invalid⟩)], []⟩
    [(str "/c", ⟨str "Other", .Invalid⟩)] [(str "/a/b", ⟨str "Long", .Invalid⟩)]
    (str "/b", ⟨str "Short", .Invalid⟩) (by decide) (by decide) (by decide) (by decide)

/-! ### C13: class overrides -/

theorem lookup_isSome_iff_key {β : Type} (a : GoString) (l : List (GoString × β)) :
    (∃ b, l.lookup a = some b) ↔ a ∈ l.map Prod.fst := by
  induction l with
  | nil => simp
  | cons e l ih =>
    obtain ⟨k, v⟩ := e
    by_cases hk : a = k
    · subst hk
      simp [List.lookup]
    · have hk2 : (a == k) = false := by simpa using hk
      simp only [List.lookup, hk2, List.map_cons, List.mem_cons, hk, false_or]
      exact ih

/-- C13: for the registered resource `champion` and the unregistered class `NoSuchDto`,
`ForClass` fails with the plain error "class override is required for "NoSuchDto"", which
is no `ErrPatchRequired` and does not carry the resource ID; the sibling paths do return
an `ErrPatchRequired` with the resource ID: `ForClass` for an unregistered resource, and
`ForOperation` for a path that no registered suffix matches. -/
theorem ForClass_missing_class_error :
    (patcher.overrides.Resources.lookup (str "champion")).map
        (fun rp => rp.Classes.lookup (str "NoSuchDto")) = some none ∧
    patcher.ForClass patcher.overrides (str "champion") (str "NoSuchDto") =
      .error (.classOverrideRequired (str "NoSuchDto")) ∧
    patcher.ForClass patcher.overrides (str "no-such-resource") (str "NoSuchDto") =
      .error (.ErrPatchRequired (str "no-such-resource") .nothing) ∧
    patcher.ForOperation patcher.overrides (str "champion") (str "/no-such-path") =
      .error (.ErrPatchRequired (str "champion") (.operation (str "/no-such-path"))) ∧
    ∀ resID what, patcher.ForClass patcher.overrides (str "champion") (str "NoSuchDto") ≠
      .error (.ErrPatchRequired resID what) := by
  refine ⟨by decide, by decide, by decide, by decide, ?_⟩
  intro resID what h
  have h2 : patcher.ForClass patcher.overrides (str "champion") (str "NoSuchDto") =
      .error (.classOverrideRequired (str "NoSuchDto")) := by decide
  rw [h2] at h
  cases h

/-- The outcomes of `ForClass` for every registry: it succeeds exactly when the resource
is registered and the name is, byte for byte, a key of its class overrides, and then
returns the override stored under that key; for a registered resource and any other name
it returns the error of `(*ResPatch).Class`. -/
theorem ForClass_outcomes (p : patcher.Patches) (resID name : GoString) :
    ((∃ cp, patcher.ForClass p resID name = .ok cp) ↔
      ∃ rp, p.Resources.lookup resID = some rp ∧ name ∈ rp.Classes.map Prod.fst) ∧
    (∀ cp, patcher.ForClass p resID name = .ok cp →
      ∃ rp, p.Resources.lookup resID = some rp ∧ rp.Classes.lookup name = some cp) ∧
    (∀ rp, p.Resources.lookup resID = some rp → name ∉ rp.Classes.map Prod.fst →
      patcher.ForClass p resID name = .error (.classOverrideRequired name)) := by
  unfold patcher.ForClass patcher.forResource patcher.ResPatch.Class
  cases hrp : p.Resources.lookup resID with
  | none => simp
  | some rp =>
    cases hcp : rp.Classes.lookup name with
    | none =>
      have hk : name ∉ rp.Classes.map Prod.fst := by
        rw [← lookup_isSome_iff_key]; simp [hcp]
      simp only [hcp]
      refine ⟨⟨?_, ?_⟩, ?_, ?_⟩
      · rintro ⟨cp, h⟩; cases h
      · rintro ⟨rp', h, hk'⟩
        cases h
        exact absurd hk' hk
      · intro cp h; cases h
      · intro rp' _ _; trivial
    | some cp =>
      have hk : name ∈ rp.Classes.map Prod.fst := by
        rw [← lookup_isSome_iff_key]; exact ⟨cp, hcp⟩
      simp only [hcp]
      refine ⟨⟨fun _ => ⟨rp, rfl, hk⟩, fun _ => ⟨cp, rfl⟩⟩, ?_, ?_⟩
      · intro cp' h
        cases h
        exact ⟨rp, rfl, hcp⟩
      · intro rp' h hno
        cases h
        exact absurd hk hno

theorem ForClass_outcomes_witness :
    patcher.ForClass patcher.overrides (str "champion") (str "ChampionDto") =
      .ok ⟨str "ChampionStatus"⟩ ∧
    ((∃ cp, patcher.ForClass patcher.overrides (str "champion") (str "ChampionDto") = .ok cp) ↔
      ∃ rp, patcher.overrides.Resources.lookup (str "champion") = some rp ∧
        str "ChampionDto" ∈ rp.Classes.map Prod.fst) :=
  ⟨by decide,
    (ForClass_outcomes patcher.overrides (str "champion") (str "ChampionDto")).1⟩

/-! ### C14: registration -/

theorem lookup_append_single {β : Type} (l : List (GoString × β)) (id k : GoString) (v : β) :
    (l ++ [(id, v)]).lookup k =
      match l.lookup k with
      | some b => some b
      | none => if k = id then some v else none := by
  induction l with
  | nil =>
    by_cases h : k = id
    · subst h; simp [List.lookup]
    · have h2 : (k == id) = false := by simpa using h
      simp [List.lookup, h2, h]
  | cons e l ih =>
    obtain ⟨k', v'⟩ := e
    by_cases h : k = k'
    · subst h; simp [List.lookup]
    · have h2 : (k == k') = false := by simpa using h
      simp only [List.cons_append, List.lookup, h2]
      exact ih

/-- C14: `Patches.Add(id, rp)` panics when `id` is already registered and then leaves the
registry as it was; when `id` is not registered it returns, the registry then maps `id`
to `rp`, and the entry of every other resource ID is unchanged. -/
theorem Add_outcomes (p : patcher.Patches) (id : GoString) (rp : patcher.ResPatch) :
    ((p.Resources.lookup id).isSome = true →
      p.Add id rp = none ∧ p.afterAdd id rp = p) ∧
    (p.Resources.lookup id = none →
      p.Add id rp = some (p.afterAdd id rp) ∧
      (p.afterAdd id rp).Resources.lookup id = some rp ∧
      ∀ k, k ≠ id → (p.afterAdd id rp).Resources.lookup k = p.Resources.lookup k) := by
  constructor
  · intro h
    obtain ⟨old, h⟩ := Option.isSome_iff_exists.mp h
    simp [patcher.Patches.Add, patcher.Patches.afterAdd, h]
  · intro h
    refine ⟨by simp [patcher.Patches.Add, patcher.Patches.afterAdd, h], ?_, ?_⟩
    · simp [patcher.Patches.afterAdd, h, lookup_append_single]
    · intro k hk
      simp only [patcher.Patches.afterAdd, h, lookup_append_single, hk, if_false]
      cases p.Resources.lookup k <;> rfl

theorem Add_outcomes_witness :
    ((patcher.overrides.Resources.lookup (str "champion")).isSome = true ∧
      patcher.overrides.Add (str "champion") ⟨[], []⟩ = none ∧
      patcher.overrides.afterAdd (str "champion") ⟨[], []⟩ = patcher.overrides) ∧
    ((⟨[]⟩ : patcher.Patches).Resources.lookup (str "champion") = none ∧
      ((⟨[]⟩ : patcher.Patches).afterAdd (str "champion") ⟨[], []⟩).Resources.lookup
        (str "champion") = some ⟨[], []⟩) :=
  ⟨⟨by decide, (Add_outcomes patcher.overrides (str "champion") ⟨[], []⟩).1
      (by decide)⟩,
    ⟨by decide, ((Add_outcomes ⟨[]⟩ (str "champion") ⟨[], []⟩).2 (by decide)).2.1⟩⟩

/-! ### C17, C18: `consumeSelect` -/

theorem mapSet_lookup {β : Type} (m : List (GoString × β)) (k a : GoString) (v : β) :
    (mapSet m k v).lookup a = if a = k then some v else m.lookup a := by
  induction m with
  | nil =>
    by_cases h : a = k
    · subst h; simp [mapSet, List.lookup]
    · have h2 : (a == k) = false := by simpa using h
      simp [mapSet, List.lookup, h, h2]
  | cons e m ih =>
    obtain ⟨k', v'⟩ := e
    by_cases hk : k' = k
    · subst hk
      by_cases h : a = k'
      · subst h; simp [mapSet, List.lookup]
      · have h2 : (a == k') = false := by simpa using h
        simp [mapSet, List.lookup, h, h2]
    · by_cases h : a = k'
      · subst h
        have : ¬ a = k := hk
        simp [mapSet, hk, List.lookup, this]
      · have h2 : (a == k') = false := by simpa using h
        simp only [mapSet, hk, if_false, List.lookup, h2]
        exact ih

theorem foldl_mapSet_lookup {β : Type} (l : List (GoString × β)) (m : List (GoString × β))
    (a : GoString) :
    (l.foldl (fun m e => mapSet m e.1 e.2) m).lookup a =
      match l.reverse.lookup a with
      | some v => some v
      | none => m.lookup a := by
  induction l generalizing m with
  | nil => rfl
  | cons e l ih =>
    obtain ⟨k, v⟩ := e
    rw [List.foldl_cons, ih, List.reverse_cons, lookup_append_single, mapSet_lookup]
    cases l.reverse.lookup a with
    | some b => rfl
    | none =>
      by_cases h : a = k <;> simp [h]

theorem leafOption_some (c : html.Node) (val text : GoString)
    (h : leafOption c = some (val, text)) :
    htmlutil.Ensure c (str "option") = .ok c ∧ htmlutil.Text c = .ok text ∧
      htmlutil.Attr c (str "value") = some val := by
  unfold leafOption at h
  split at h
  · rename_i hc
    simp only [Bool.and_eq_true, List.isEmpty_iff] at hc
    cases ha : htmlutil.Attr c (str "value") with
    | none => simp [ha] at h
    | some v =>
      simp only [ha, Option.some.injEq, Prod.mk.injEq] at h
      refine ⟨by simp [htmlutil.Ensure, hc.1], ?_, by rw [h.1]⟩
      simp [htmlutil.Text, hc.2, h.2]
  · cases h

theorem consumeSelectLoop_options (cs : List html.Node) (vals : List (GoString × GoString))
    (h : ∀ c ∈ cs, (leafOption c).isSome = true) :
    loldoc.consumeSelectLoop cs vals =
      .ok ((cs.filterMap leafOption).foldl (fun m e => mapSet m e.1 e.2) vals) := by
  induction cs generalizing vals with
  | nil => rfl
  | cons c cs ih =>
    obtain ⟨⟨val, text⟩, hc⟩ := Option.isSome_iff_exists.mp (h c (by simp))
    obtain ⟨h1, h2, h3⟩ := leafOption_some c val text hc
    simp only [loldoc.consumeSelectLoop, h1, h2, h3, List.filterMap_cons, hc, List.foldl_cons]
    exact ih _ (fun c' hc' => h c' (by simp [hc']))

/-- C17 fails as stated: with two options of the same value, `<option value="a">A</option>`
and `<option value="a">B</option>`, the mapping returned sends `a` to `B`, not to the
text `A` of the first option. -/
theorem consumeSelect_duplicate_counterexample :
    leafOption (.element (str "option") [(str "value", str "a")] [.text (str "A")]) =
      some (str "a", str "A") ∧
    (loldoc.consumeSelect loldoc.Library.plain
      (.element (str "select") []
        [.element (str "option") [(str "value", str "a")] [.text (str "A")],
         .element (str "option") [(str "value", str "a")] [.text (str "B")]])).1 =
      .ok [(str "a", str "B")] ∧
    List.lookup (str "a") [(str "a", str "B")] ≠ some (str "A") := by
  decide

/-- C17 (amended): for every `<select>` node whose children are all leaf `<option>`
elements carrying a value attribute, `consumeSelect` returns without error the mapping
that sends each value to the text of the last option carrying it, and afterwards the nodes
that `ReplaceWithHtml` parses the marker `<!-- select: ... -->` to stand in the place of
the `<select>`: a single comment node, so that no `<option>` remains, whenever the marker
is parsed to one comment. -/
theorem consumeSelect_options (L : loldoc.Library) (s : html.Node)
    (hs : htmlutil.Is s (str "select") = true)
    (h : ∀ c ∈ htmlutil.Children s, (leafOption c).isSome = true) :
    ∃ vals,
      loldoc.consumeSelect L s =
        (.ok vals, L.parseHTML (loldoc.commentf (L.sprintSelect vals))) ∧
      (∀ k, vals.lookup k = ((htmlutil.Children s).filterMap leafOption).reverse.lookup k) ∧
      (∀ d, L.parseHTML (loldoc.commentf (L.sprintSelect vals)) = [.comment d] →
        (loldoc.consumeSelect L s).2 = [.comment d]) := by
  have hloop := consumeSelectLoop_options (htmlutil.Children s) [] h
  have hcs : loldoc.consumeSelect L s =
      (.ok (((htmlutil.Children s).filterMap leafOption).foldl
          (fun m e => mapSet m e.1 e.2) []),
        L.parseHTML (loldoc.commentf (L.sprintSelect
          (((htmlutil.Children s).filterMap leafOption).foldl
            (fun m e => mapSet m e.1 e.2) [])))) := by
    simp only [loldoc.consumeSelect, htmlutil.Ensure, hs, if_true, hloop]
  refine ⟨_, hcs, ?_, ?_⟩
  · intro k
    rw [foldl_mapSet_lookup]
    cases ((htmlutil.Children s).filterMap leafOption).reverse.lookup k <;> rfl
  · intro d hd
    rw [hcs]
    exact hd

theorem consumeSelect_options_witness :
    (∀ c ∈ htmlutil.Children (.element (str "select") [(str "name", str "virtual")]
        [.text [10], .element (str "option") [(str "value", str "a")] [.text (str "A")],
         .text [10], .element (str "option") [(str "value", str "b")] [.text (str "B")],
         .text [10], .element (str "option") [(str "value", str "c")] [.text (str "C & C")],
         .text [10]]), (leafOption c).isSome = true) ∧
    (loldoc.consumeSelect loldoc.Library.plain (.element (str "select")
        [(str "name", str "virtual")]
        [.text [10], .element (str "option") [(str "value", str "a")] [.text (str "A")],
         .text [10], .element (str "option") [(str "value", str "b")] [.text (str "B")],
         .text [10], .element (str "option") [(str "value", str "c")] [.text (str "C & C")],
         .text [10]])).1 =
      .ok [(str "a", str "A"), (str "b", str "B"), (str "c", str "C & C")] ∧
    ∃ vals,
      loldoc.consumeSelect loldoc.Library.plain (.element (str "select")
        [(str "name", str "virtual")]
        [.text [10], .element (str "option") [(str "value", str "a")] [.text (str "A")],
         .text [10], .element (str "option") [(str "value", str "b")] [.text (str "B")],
         .text [10], .element (str "option") [(str "value", str "c")] [.text (str "C & C")],
         .text [10]]) =
        (.ok vals, loldoc.Library.plain.parseHTML
          (loldoc.commentf (loldoc.Library.plain.sprintSelect vals))) :=
  ⟨by decide, by decide,
    (consumeSelect_options loldoc.Library.plain _ (by decide) (by decide)).imp
      (fun _ h => h.1)⟩

theorem consumeSelectLoop_fails (cs : List html.Node) (vals : List (GoString × GoString))
    (h : ∃ c ∈ cs, htmlutil.Is c (str "option") = true ∧
      htmlutil.Attr c (str "value") = none) :
    ∃ err, loldoc.consumeSelectLoop cs vals = .error err ∨
      loldoc.consumeSelectLoop cs vals = .panic err := by
  induction cs generalizing vals with
  | nil => obtain ⟨c, hc, _⟩ := h; simp at hc
  | cons c cs ih =>
    simp only [loldoc.consumeSelectLoop, htmlutil.Ensure]
    by_cases hopt : htmlutil.Is c (str "option") = true
    · simp only [hopt, if_true]
      cases ht : htmlutil.Text c with
      | panic err => exact ⟨err, Or.inr rfl⟩
      | error err => exact ⟨err, Or.inl rfl⟩
      | ok text =>
        cases ha : htmlutil.Attr c (str "value") with
        | none => exact ⟨_, Or.inl rfl⟩
        | some val =>
          simp only []
          apply ih
          obtain ⟨c0, hc0, h1, h2⟩ := h
          rcases List.mem_cons.mp hc0 with heq | hmem
          · subst heq; rw [ha] at h2; cases h2
          · exact ⟨c0, hmem, h1, h2⟩
    · simp only [hopt]
      exact ⟨_, Or.inr rfl⟩

theorem consumeSelectLoop_no_value (cs : List html.Node) (vals : List (GoString × GoString))
    (hshape : ∀ c ∈ cs, htmlutil.Is c (str "option") = true ∧
      (htmlutil.Children c).isEmpty = true)
    (h : ∃ c ∈ cs, htmlutil.Attr c (str "value") = none) :
    ∃ o ∈ cs, htmlutil.Attr o (str "value") = none ∧
      loldoc.consumeSelectLoop cs vals =
        .error (.withDump (.noKeyForValue (htmlutil.firstText (htmlutil.Contents o)))) := by
  induction cs generalizing vals with
  | nil => obtain ⟨c, hc, _⟩ := h; simp at hc
  | cons c cs ih =>
    obtain ⟨hopt, hleaf⟩ := hshape c (by simp)
    have hlen : (htmlutil.Children c).length = 0 := by
      rw [List.isEmpty_iff] at hleaf; simp [hleaf]
    simp only [loldoc.consumeSelectLoop, htmlutil.Ensure, hopt, if_true, htmlutil.Text, hlen,
      ne_eq, not_true_eq_false, if_false]
    cases ha : htmlutil.Attr c (str "value") with
    | none => exact ⟨c, by simp, ha, rfl⟩
    | some val =>
      simp only []
      have hrest : ∃ c' ∈ cs, htmlutil.Attr c' (str "value") = none := by
        obtain ⟨c0, hc0, h2⟩ := h
        rcases List.mem_cons.mp hc0 with heq | hmem
        · subst heq; rw [ha] at h2; cases h2
        · exact ⟨c0, hmem, h2⟩
      obtain ⟨o, ho, h1, h2⟩ := ih (mapSet vals val (htmlutil.firstText (htmlutil.Contents c)))
        (fun c' hc' => hshape c' (by simp [hc'])) hrest
      exact ⟨o, by simp [ho], h1, h2⟩

/-- C18: if some `<option>` child of the `<select>` lacks a value attribute, `consumeSelect`
fails, returns no mapping and leaves the `<select>` in its place, not replaced by a marker;
when the children are all leaf `<option>` elements the failure is the returned error "no
key for value" with the text of the first option that lacks the attribute (otherwise it may
be the panic of a shape assertion on that option or on a child before it). -/
theorem consumeSelect_missing_value (L : loldoc.Library) (s : html.Node)
    (hs : htmlutil.Is s (str "select") = true)
    (h : ∃ c ∈ htmlutil.Children s, htmlutil.Is c (str "option") = true ∧
      htmlutil.Attr c (str "value") = none) :
    (∃ err, (loldoc.consumeSelect L s).1 = .error err ∨
      (loldoc.consumeSelect L s).1 = .panic err) ∧
    (loldoc.consumeSelect L s).2 = [s] ∧
    ((∀ c ∈ htmlutil.Children s, htmlutil.Is c (str "option") = true ∧
        (htmlutil.Children c).isEmpty = true) →
      ∃ o ∈ htmlutil.Children s, htmlutil.Attr o (str "value") = none ∧
        (loldoc.consumeSelect L s).1 =
          .error (.withDump (.noKeyForValue (htmlutil.firstText (htmlutil.Contents o))))) := by
  obtain ⟨err, herr⟩ := consumeSelectLoop_fails (htmlutil.Children s) [] h
  refine ⟨⟨err, ?_⟩, ?_, ?_⟩
  · rcases herr with herr | herr
    · left; simp [loldoc.consumeSelect, htmlutil.Ensure, hs, herr]
    · right; simp [loldoc.consumeSelect, htmlutil.Ensure, hs, herr]
  · rcases herr with herr | herr <;> simp [loldoc.consumeSelect, htmlutil.Ensure, hs, herr]
  · intro hshape
    obtain ⟨o, ho, h1, h2⟩ := consumeSelectLoop_no_value (htmlutil.Children s) [] hshape
      (h.imp fun c hc => ⟨hc.1, hc.2.2⟩)
    exact ⟨o, ho, h1, by simp [loldoc.consumeSelect, htmlutil.Ensure, hs, h2]⟩

theorem consumeSelect_missing_value_witness :
    (∃ c ∈ htmlutil.Children (.element (str "select") []
        [.element (str "option") [(str "value", str "a")] [.text (str "A")],
         .element (str "option") [] [.text (str "B")]]),
      htmlutil.Is c (str "option") = true ∧ htmlutil.Attr c (str "value") = none) ∧
    (loldoc.consumeSelect loldoc.Library.plain (.element (str "select") []
        [.element (str "option") [(str "value", str "a")] [.text (str "A")],
         .element (str "option") [] [.text (str "B")]])).1 =
      .error (.withDump (.noKeyForValue (str "B"))) ∧
    (loldoc.consumeSelect loldoc.Library.plain (.element (str "select") []
        [.element (str "option") [(str "value", str "a")] [.text (str "A")],
         .element (str "option") [] [.text (str "B")]])).2 =
      [.element (str "select") []
        [.element (str "option") [(str "value", str "a")] [.text (str "A")],
         .element (str "option") [] [.text (str "B")]]] :=
  ⟨⟨.element (str "option") [] [.text (str "B")], by simp [htmlutil.Children, htmlutil.Contents,
      html.Node.isElement], by decide, by decide⟩, by decide,
    (consumeSelect_missing_value loldoc.Library.plain _ (by decide)
      ⟨.element (str "option") [] [.text (str "B")], by simp [htmlutil.Children,
        htmlutil.Contents, html.Node.isElement], by decide, by decide⟩).2.1⟩

/-! ### C19, C20: `consumeSimpleTable` -/

theorem consumeTableRowLoop_cells (tag : GoString) (cs : List html.Node)
    (vals : List GoString)
    (h : ∀ c ∈ cs, (htmlutil.Is c tag && (htmlutil.Children c).isEmpty) = true) :
    loldoc.consumeTableRowLoop tag cs vals =
      .ok (vals ++ cs.map (fun c => htmlutil.firstText (htmlutil.Contents c))) := by
  induction cs generalizing vals with
  | nil => simp [loldoc.consumeTableRowLoop]
  | cons c cs ih =>
    have hc := h c (by simp)
    simp only [Bool.and_eq_true, List.isEmpty_iff] at hc
    have hlen : (htmlutil.Children c).length = 0 := by simp [hc.2]
    simp only [loldoc.consumeTableRowLoop, htmlutil.Ensure, hc.1, if_true, htmlutil.Text, hlen,
      ne_eq, not_true_eq_false, if_false]
    rw [ih _ (fun c' hc' => h c' (by simp [hc']))]
    simp

/-- A row of leaf cells is read as the texts of its cells. -/
theorem consumeTableRow_rowOf (tr : html.Node) (isHead : Bool)
    (h : rowOf (if isHead then str "th" else str "td") tr = true) :
    loldoc.consumeTableRow tr isHead = .ok (cellTexts tr) := by
  simp only [rowOf, Bool.and_eq_true, List.all_eq_true] at h
  simp only [loldoc.consumeTableRow, htmlutil.Ensure, h.1, if_true]
  rw [consumeTableRowLoop_cells _ _ _ (fun c hc => by simpa using h.2 c hc)]
  simp [cellTexts]

theorem consumeTableRowsLoop_rows (trs : List html.Node) (rows : List (List GoString))
    (h : ∀ tr ∈ trs, rowOf (str "td") tr = true) :
    loldoc.consumeTableRowsLoop trs rows = .ok (rows ++ trs.map cellTexts) := by
  induction trs generalizing rows with
  | nil => simp [loldoc.consumeTableRowsLoop]
  | cons tr trs ih =>
    have := consumeTableRow_rowOf tr false (by simpa using h tr (by simp))
    simp only [loldoc.consumeTableRowsLoop, this]
    rw [ih _ (fun tr' h' => h tr' (by simp [h']))]
    simp

theorem consumeSimpleTableLoop_ok (columns : List GoString) (rows : List (List GoString))
    (data : List (List (GoString × GoString)))
    (h : ∀ row ∈ rows, row.length = columns.length) :
    loldoc.consumeSimpleTableLoop columns rows data =
      .ok (data ++ rows.map (loldoc.rowData columns)) := by
  induction rows generalizing data with
  | nil => simp [loldoc.consumeSimpleTableLoop]
  | cons row rows ih =>
    simp only [loldoc.consumeSimpleTableLoop, h row (by simp), ne_eq, not_true_eq_false,
      if_false]
    rw [ih _ (fun r hr => h r (by simp [hr]))]
    simp

theorem consumeSimpleTableLoop_mismatch (columns : List GoString)
    (pre post : List (List GoString)) (row : List GoString)
    (data : List (List (GoString × GoString)))
    (hpre : ∀ r ∈ pre, r.length = columns.length) (hrow : row.length ≠ columns.length) :
    loldoc.consumeSimpleTableLoop columns (pre ++ row :: post) data =
      .error (.withDump (.rowLen row.length columns.length)) := by
  induction pre generalizing data with
  | nil => simp [loldoc.consumeSimpleTableLoop, hrow]
  | cons r pre ih =>
    simp only [List.cons_append, loldoc.consumeSimpleTableLoop, hpre r (by simp), ne_eq,
      not_true_eq_false, if_false]
    exact ih _ (fun r' hr' => hpre r' (by simp [hr']))

/-- On a table-shaped subtree `consumeSimpleTable` is its last loop, run on the texts of
the header cells and of the cells of the body rows. -/
theorem consumeSimpleTable_shaped (table thead tbody hrow : html.Node)
    (h : tableShaped table thead tbody hrow) :
    loldoc.consumeSimpleTable table =
      loldoc.consumeSimpleTableLoop (cellTexts hrow)
        ((htmlutil.Children tbody).map cellTexts) [] := by
  obtain ⟨h1, h2, h3, h4, h5, h6⟩ := h
  have hfirst : htmlutil.First (htmlutil.Children thead) = .ok hrow := by
    cases hc : htmlutil.Children thead with
    | nil => rw [hc] at h4; cases h4
    | cons x xs => rw [hc] at h4; simp at h4; simp [htmlutil.First, h4]
  have hbody : htmlutil.Is tbody (str "tbody") = true := by
    have : tbody ∈ htmlutil.ChildrenFiltered table (str "tbody") := by rw [h3]; simp
    simp only [htmlutil.ChildrenFiltered, List.mem_filter] at this
    exact this.2
  simp only [loldoc.consumeSimpleTable, htmlutil.Ensure, h1, if_true, h2, h3,
    htmlutil.MustBeSingle, hfirst, consumeTableRow_rowOf hrow true (by simpa using h5),
    loldoc.consumeTableRows, hbody, consumeTableRowsLoop_rows _ [] h6, List.nil_append]

theorem cellTexts_length (tr : html.Node) :
    (cellTexts tr).length = (htmlutil.Children tr).length := by
  simp [cellTexts]

theorem exists_first_split {α : Type} (p : α → Bool) (l : List α)
    (h : ∃ x ∈ l, p x = true) :
    ∃ pre x post, l = pre ++ x :: post ∧ p x = true ∧ ∀ a ∈ pre, p a = false := by
  induction l with
  | nil => obtain ⟨x, hx, _⟩ := h; simp at hx
  | cons y l ih =>
    by_cases hy : p y = true
    · exact ⟨[], y, l, rfl, hy, fun a ha => by simp at ha⟩
    · have hrest : ∃ x ∈ l, p x = true := by
        obtain ⟨x, hx, hpx⟩ := h
        rcases List.mem_cons.mp hx with heq | hmem
        · subst heq; exact absurd hpx hy
        · exact ⟨x, hmem, hpx⟩
      obtain ⟨pre, x, post, hsplit, hx, hpre⟩ := ih hrest
      refine ⟨y :: pre, x, post, by rw [hsplit]; rfl, hx, ?_⟩
      intro a ha
      rcases List.mem_cons.mp ha with heq | hmem
      · subst heq; simpa using hy
      · exact hpre a hmem

/-- C19: on a table-shaped subtree, `consumeSimpleTable` fails exactly when some body row's
cell count differs from the header row's cell count; it then returns the error that names
the cell count of the first such row and the cell count of the header; when every row has
as many cells as the header it succeeds. -/
theorem consumeSimpleTable_row_counts (table thead tbody hrow : html.Node)
    (h : tableShaped table thead tbody hrow) :
    ((∃ err, loldoc.consumeSimpleTable table = .error err ∨
        loldoc.consumeSimpleTable table = .panic err) ↔
      ∃ tr ∈ htmlutil.Children tbody,
        (htmlutil.Children tr).length ≠ (htmlutil.Children hrow).length) ∧
    (∀ pre tr post, htmlutil.Children tbody = pre ++ tr :: post →
      (∀ r ∈ pre, (htmlutil.Children r).length = (htmlutil.Children hrow).length) →
      (htmlutil.Children tr).length ≠ (htmlutil.Children hrow).length →
      loldoc.consumeSimpleTable table =
        .error (.withDump (.rowLen (htmlutil.Children tr).length
          (htmlutil.Children hrow).length))) ∧
    ((∀ tr ∈ htmlutil.Children tbody,
        (htmlutil.Children tr).length = (htmlutil.Children hrow).length) →
      ∃ data, loldoc.consumeSimpleTable table = .ok data) := by
  rw [consumeSimpleTable_shaped table thead tbody hrow h]
  have hmis : ∀ pre tr post, htmlutil.Children tbody = pre ++ tr :: post →
      (∀ r ∈ pre, (htmlutil.Children r).length = (htmlutil.Children hrow).length) →
      (htmlutil.Children tr).length ≠ (htmlutil.Children hrow).length →
      loldoc.consumeSimpleTableLoop (cellTexts hrow)
          ((htmlutil.Children tbody).map cellTexts) [] =
        .error (.withDump (.rowLen (htmlutil.Children tr).length
          (htmlutil.Children hrow).length)) := by
    intro pre tr post hsplit hpre htr
    rw [hsplit, List.map_append, List.map_cons,
      consumeSimpleTableLoop_mismatch (cellTexts hrow) (pre.map cellTexts)
        (post.map cellTexts) (cellTexts tr) []
        (by
          intro r hr
          obtain ⟨r0, hr0, rfl⟩ := List.mem_map.mp hr
          rw [cellTexts_length, cellTexts_length]
          exact hpre r0 hr0)
        (by rw [cellTexts_length, cellTexts_length]; exact htr)]
    rw [cellTexts_length, cellTexts_length]
  have hok : (∀ tr ∈ htmlutil.Children tbody,
        (htmlutil.Children tr).length = (htmlutil.Children hrow).length) →
      loldoc.consumeSimpleTableLoop (cellTexts hrow)
          ((htmlutil.Children tbody).map cellTexts) [] =
        .ok (((htmlutil.Children tbody).map cellTexts).map
          (loldoc.rowData (cellTexts hrow))) := by
    intro hall
    rw [consumeSimpleTableLoop_ok _ _ _ (by
      intro r hr
      obtain ⟨r0, hr0, rfl⟩ := List.mem_map.mp hr
      rw [cellTexts_length, cellTexts_length]
      exact hall r0 hr0)]
    simp
  refine ⟨⟨?_, ?_⟩, hmis, fun hall => ⟨_, hok hall⟩⟩
  · rintro ⟨err, herr⟩
    by_contra hno
    have hall : ∀ tr ∈ htmlutil.Children tbody,
        (htmlutil.Children tr).length = (htmlutil.Children hrow).length := by
      intro tr htr
      by_contra hne
      exact hno ⟨tr, htr, hne⟩
    rw [hok hall] at herr
    rcases herr with herr | herr <;> cases herr
  · rintro ⟨tr, htr, hne⟩
    obtain ⟨pre, x, post, hsplit, hx, hpre⟩ := exists_first_split
      (fun x => decide ((htmlutil.Children x).length ≠ (htmlutil.Children hrow).length))
      (htmlutil.Children tbody) ⟨tr, htr, by simpa using hne⟩
    exact ⟨_, Or.inl (hmis pre x post hsplit (fun r hr => by
      have := hpre r hr; simpa using this) (by simpa using hx))⟩

theorem consumeSimpleTable_row_counts_witness :
    tableShaped (tableNode [str "Name", str "Type"] [[str "a", str "b", str "c"]])
      (.element (str "thead") [] [rowNode (str "th") [str "Name", str "Type"]])
      (.element (str "tbody") [] [rowNode (str "td") [str "a", str "b", str "c"]])
      (rowNode (str "th") [str "Name", str "Type"]) ∧
    loldoc.consumeSimpleTable (tableNode [str "Name", str "Type"] [[str "a", str "b", str "c"]]) =
      .error (.withDump (.rowLen 3 2)) :=
  ⟨⟨by decide, rfl, rfl, rfl, by decide, by decide⟩,
    (consumeSimpleTable_row_counts
      (tableNode [str "Name", str "Type"] [[str "a", str "b", str "c"]])
      (.element (str "thead") [] [rowNode (str "th") [str "Name", str "Type"]])
      (.element (str "tbody") [] [rowNode (str "td") [str "a", str "b", str "c"]])
      (rowNode (str "th") [str "Name", str "Type"])
      ⟨by decide, rfl, rfl, rfl, by decide, by decide⟩).2.1 []
      (rowNode (str "td") [str "a", str "b", str "c"]) [] rfl
      (fun r hr => by simp at hr) (by decide)⟩

theorem consumeSimpleTableLoop_ok_inv (columns : List GoString) (rows : List (List GoString))
    (data : List (List (GoString × GoString)))
    (h : loldoc.consumeSimpleTableLoop columns rows [] = .ok data) :
    (∀ row ∈ rows, row.length = columns.length) ∧
      data = rows.map (loldoc.rowData columns) := by
  by_cases hall : ∀ row ∈ rows, row.length = columns.length
  · rw [consumeSimpleTableLoop_ok columns rows [] hall] at h
    cases h
    exact ⟨hall, by simp⟩
  · exfalso
    have hex : ∃ r ∈ rows, decide (r.length ≠ columns.length) = true := by
      by_contra hno
      apply hall
      intro row hrow
      by_contra hne
      exact hno ⟨row, hrow, by simpa using hne⟩
    obtain ⟨pre, x, post, hsplit, hx, hpre⟩ := exists_first_split _ rows hex
    rw [hsplit, consumeSimpleTableLoop_mismatch columns pre post x []
      (fun r hr => by simpa using hpre r hr) (by simpa using hx)] at h
    cases h

theorem lookup_reverse_nodup {β : Type} (l : List (GoString × β)) (a : GoString)
    (h : (l.map Prod.fst).Nodup) : l.reverse.lookup a = l.lookup a := by
  induction l with
  | nil => rfl
  | cons e l ih =>
    obtain ⟨k, v⟩ := e
    simp only [List.map_cons, List.nodup_cons] at h
    rw [List.reverse_cons, lookup_append_single, ih h.2]
    by_cases hak : a = k
    · subst hak
      have : l.lookup a = none := by
        cases hl : l.lookup a with
        | none => rfl
        | some b =>
          exact absurd ((lookup_isSome_iff_key a l).mp ⟨b, hl⟩) h.1
      simp [this, List.lookup]
    · have h2 : (a == k) = false := by simpa using hak
      simp only [List.lookup, h2, hak, if_false]
      cases l.lookup a <;> rfl

theorem zip_lookup_nodup (columns row : List GoString) (j : Nat) (label : GoString)
    (hd : columns.Nodup) (hlen : row.length = columns.length)
    (hj : columns[j]? = some label) :
    ∃ text, row[j]? = some text ∧ (columns.zip row).lookup label = some text := by
  induction columns generalizing row j with
  | nil => simp at hj
  | cons c columns ih =>
    cases row with
    | nil => simp at hlen
    | cons r row =>
      simp only [List.nodup_cons] at hd
      cases j with
      | zero =>
        simp at hj
        subst hj
        exact ⟨r, by simp, by simp [List.lookup]⟩
      | succ j =>
        simp only [List.getElem?_cons_succ] at hj ⊢
        obtain ⟨text, h1, h2⟩ := ih row j hd.2 (by simpa using hlen) hj
        refine ⟨text, h1, ?_⟩
        have hne : ¬ label = c := by
          intro heq
          subst heq
          exact hd.1 (List.getElem?_mem hj)
        have h3 : (label == c) = false := by simpa using hne
        simp only [List.zip_cons_cons, List.lookup, h3]
        exact h2

theorem rowData_lookup (columns row : List GoString) (j : Nat) (label : GoString)
    (hd : columns.Nodup) (hlen : row.length = columns.length)
    (hj : columns[j]? = some label) :
    ∃ text, row[j]? = some text ∧ (loldoc.rowData columns row).lookup label = some text := by
  obtain ⟨text, h1, h2⟩ := zip_lookup_nodup columns row j label hd hlen hj
  refine ⟨text, h1, ?_⟩
  unfold loldoc.rowData
  have hkeys : ((columns.zip row).map Prod.fst).Nodup := by
    rw [List.map_fst_zip]
    · exact hd
    · omega
  rw [foldl_mapSet_lookup, lookup_reverse_nodup _ _ hkeys, h2]

/-- C20 fails as stated: with the header labels `Name`, `Name` and the body row `a`, `b`,
the mapping of the row sends `Name`, the label of column 0, to `b`, not to the text `a` of
cell 0. -/
theorem consumeSimpleTable_label_counterexample :
    loldoc.consumeSimpleTable (tableNode [str "Name", str "Name"] [[str "a", str "b"]]) =
      .ok [[(str "Name", str "b")]] ∧
    cellTexts (rowNode (str "th") [str "Name", str "Name"]) = [str "Name", str "Name"] ∧
    cellTexts (rowNode (str "td") [str "a", str "b"]) = [str "a", str "b"] ∧
    List.lookup (str "Name") [(str "Name", str "b")] ≠ some (str "a") := by
  decide

/-- C20 (amended): on a table-shaped subtree whose header labels are pairwise distinct, a
successful `consumeSimpleTable` returns one mapping per body row in document order, and
for every row `i` and every column `j` the mapping of row `i` sends the `j`-th header
label to the text of the `j`-th cell of row `i`. -/
theorem consumeSimpleTable_rows (table thead tbody hrow : html.Node)
    (h : tableShaped table thead tbody hrow) (hd : (cellTexts hrow).Nodup)
    (data : List (List (GoString × GoString)))
    (hok : loldoc.consumeSimpleTable table = .ok data) :
    data.length = (htmlutil.Children tbody).length ∧
    ∀ (i : Nat) (tr : html.Node), (htmlutil.Children tbody)[i]? = some tr →
      ∃ rowMap : List (GoString × GoString), data[i]? = some rowMap ∧
        ∀ (j : Nat) (label : GoString), (cellTexts hrow)[j]? = some label →
          ∃ text, (cellTexts tr)[j]? = some text ∧ rowMap.lookup label = some text := by
  rw [consumeSimpleTable_shaped table thead tbody hrow h] at hok
  obtain ⟨hall, hdata⟩ := consumeSimpleTableLoop_ok_inv _ _ _ hok
  subst hdata
  refine ⟨by simp, ?_⟩
  intro i tr htr
  refine ⟨loldoc.rowData (cellTexts hrow) (cellTexts tr), by simp [htr], ?_⟩
  intro j label hj
  exact rowData_lookup _ _ j label hd
    (hall _ (List.mem_map.mpr ⟨tr, List.getElem?_mem htr, rfl⟩)) hj

theorem consumeSimpleTable_rows_witness :
    (cellTexts (rowNode (str "th") [str "Name", str "Type"])).Nodup ∧
    loldoc.consumeSimpleTable
        (tableNode [str "Name", str "Type"] [[str "id", str "long"], [str "x", str "int"]]) =
      .ok [[(str "Name", str "id"), (str "Type", str "long")],
           [(str "Name", str "x"), (str "Type", str "int")]] ∧
    [[(str "Name", str "id"), (str "Type", str "long")],
      [(str "Name", str "x"), (str "Type", str "int")]].length =
      (htmlutil.Children (.element (str "tbody") []
        [rowNode (str "td") [str "id", str "long"],
         rowNode (str "td") [str "x", str "int"]])).length :=
  ⟨by decide, by decide,
    (consumeSimpleTable_rows
      (tableNode [str "Name", str "Type"] [[str "id", str "long"], [str "x", str "int"]])
      (.element (str "thead") [] [rowNode (str "th") [str "Name", str "Type"]])
      (.element (str "tbody") [] [rowNode (str "td") [str "id", str "long"],
        rowNode (str "td") [str "x", str "int"]])
      (rowNode (str "th") [str "Name", str "Type"])
      ⟨by decide, rfl, rfl, rfl, by decide, by decide⟩ (by decide) _ (by decide)).1⟩

/-! ## Lemmas on the identifier normalisation -/

/-- A property of every rune below U+0080 is checked on the 128 of them. -/
theorem forall_ascii (P : Char → Prop) (h : ∀ n : Fin 128, P (Char.ofNat n.val))
    (c : Char) (hc : c.toNat < 128) : P c := by
  have := h ⟨c.toNat, hc⟩
  simpa [Char.ofNat_toNat] using this

theorem char_isLower_ascii (c : Char) (h : c.isLower = true) : c.toNat < 128 := by
  simp only [Char.isLower, Bool.and_eq_true, decide_eq_true_eq, UInt32.le_def,
    Fin.le_def] at h
  have := h.2
  simp only [Char.toNat, UInt32.toNat]
  exact Nat.lt_of_le_of_lt this (by decide)

theorem char_isDigit_ascii (c : Char) (h : c.isDigit = true) : c.toNat < 128 := by
  simp only [Char.isDigit, Bool.and_eq_true, decide_eq_true_eq, UInt32.le_def,
    Fin.le_def] at h
  have := h.2
  simp only [Char.toNat, UInt32.toNat]
  exact Nat.lt_of_le_of_lt this (by decide)

theorem char_toUpper_of_not_ascii (c : Char) (h : 128 ≤ c.toNat) : c.toUpper = c := by
  unfold Char.toUpper
  simp only
  rw [if_neg]
  omega

theorem lintWord_length (U : unicode.Tables) (runes : List Char) (w i : Nat) :
    (patcher.lintWord U runes w i).length = runes.length := by
  unfold patcher.lintWord
  simp only
  split
  · rename_i hc
    have hne : (List.map U.ToUpper (List.drop w (List.take i runes))) ≠ [] := by
      intro h0
      rw [h0] at hc
      exact absurd hc (by decide)
    have hlen : 0 < (List.drop w (List.take i runes)).length := by
      rcases hl : List.drop w (List.take i runes) with _ | ⟨a, l⟩
      · rw [hl] at hne; exact absurd rfl hne
      · simp
    simp only [List.length_drop, List.length_take] at hlen
    split <;> simp only [List.length_append, List.length_take, List.length_map,
      List.length_drop] <;> omega
  · split
    · split
      · simp
      · rfl
    · rfl

theorem ascii_agreeOnASCII : unicode.Tables.ascii.agreeOnASCII :=
  fun _ _ => ⟨rfl, rfl, rfl, rfl⟩

theorem ascii_caseKeepsShape : unicode.Tables.ascii.caseKeepsShape := by
  constructor
  · intro c h
    by_cases hc : c.toNat < 128
    · exact forall_ascii (fun c => c.toUpper = '_' → c = '_') (by decide) c hc h
    · have h2 : c.toUpper = c := char_toUpper_of_not_ascii c (by omega)
      change c.toUpper = '_' at h
      rw [h2] at h
      exact h
  · intro c h
    exact forall_ascii (fun c => c.isDigit = true → c.toUpper.isDigit = true) (by decide) c
      (char_isDigit_ascii c h) h
theorem lintIter_scan (U : unicode.Tables) (runes : List Char) (w i : Nat) (c : Char)
    (hc : runes[i + 1]? = some c) (h1 : c ≠ '_') (h2 : U.IsLower c = true) :
    patcher.lintIter U runes w i = (runes, w, i + 1) := by
  have hlen : i + 1 < runes.length := by
    by_contra hcon
    rw [List.getElem?_eq_none (by omega)] at hc
    simp at hc
  unfold patcher.lintIter
  simp only
  rw [if_neg (by omega), hc, if_neg (by simpa using h1), if_neg (by simp [h2])]

theorem lintIter_camel (U : unicode.Tables) (runes : List Char) (w i : Nat) (a b : Char)
    (ha : runes[i]? = some a) (hb : runes[i + 1]? = some b) (h1 : U.IsLower a = true)
    (h2 : b ≠ '_') (h3 : U.IsLower b = false) :
    patcher.lintIter U runes w i = (patcher.lintWord U runes w (i + 1), i + 1, i + 1) := by
  have hlen : i + 1 < runes.length := by
    by_contra hcon
    rw [List.getElem?_eq_none (by omega)] at hb
    simp at hb
  unfold patcher.lintIter
  simp only
  rw [if_neg (by omega), hb, if_neg (by simpa using h2), ha, if_pos (by simp [h1, h3])]

theorem lintIter_cut (U : unicode.Tables) (A B : List Char) (w i : Nat) (a b : Char)
    (hA : A.length = i + 1) (ha : A[i]? = some a) (h1 : U.IsDigit a = false)
    (h2 : b ≠ '_') :
    patcher.lintIter U (A ++ '_' :: b :: B) w i =
      (patcher.lintWord U (A ++ b :: B) w (i + 1), i + 1, i + 1) := by
  have e1 : (A ++ '_' :: b :: B)[i + 1]? = some '_' := by
    rw [List.getElem?_append_right (by omega), hA]; simp
  have e0 : (A ++ '_' :: b :: B)[i]? = some a := by
    rw [List.getElem?_append_left (by omega)]; exact ha
  have e2 : List.drop (i + 2) (A ++ '_' :: b :: B) = b :: B := by
    rw [List.drop_append_eq_append_drop, List.drop_eq_nil_of_le (by omega), hA,
      show i + 2 - (i + 1) = 1 by omega]
    rfl
  have e3 : List.take (i + 1) (A ++ '_' :: b :: B) = A := by
    rw [← hA, List.take_left]
  have hb : (b == '_') = false := by simpa using h2
  unfold patcher.lintIter
  simp only
  rw [if_neg (by simp only [List.length_append, List.length_cons]; omega), if_pos e1, e2,
    List.takeWhile_cons, hb]
  simp only [Bool.false_eq_true, if_false, List.length_nil, Nat.add_zero, e0, Option.map_some',
    h1, Option.some.injEq, false_and, and_false, e3, e2]
theorem lintLoop_scan (U : unicode.Tables) : ∀ (r A B : List Char) (fuel w i : Nat),
    A.length = i + 1 → (∀ c ∈ r, c ≠ '_' ∧ U.IsLower c = true) →
    patcher.lintLoop U (fuel + r.length) (A ++ r ++ B) w i =
      patcher.lintLoop U fuel (A ++ r ++ B) w (i + r.length) := by
  intro r
  induction r with
  | nil => intro A B fuel w i _ _; rfl
  | cons c r ih =>
    intro A B fuel w i hA hr
    have hc := hr c (List.mem_cons_self _ _)
    have e1 : (A ++ c :: r ++ B)[i + 1]? = some c := by
      rw [List.append_assoc, List.getElem?_append_right (by omega), hA]; simp
    rw [show fuel + (c :: r).length = (fuel + r.length) + 1 by simp; omega,
      patcher.lintLoop, if_pos (by simp only [List.length_append, List.length_cons]; omega),
      lintIter_scan U _ w i c e1 hc.1 hc.2]
    have e2 : A ++ c :: r ++ B = (A ++ [c]) ++ r ++ B := by simp
    rw [e2, ih (A ++ [c]) B fuel w (i + 1) (by simp [hA])
      (fun x hx => hr x (List.mem_cons_of_mem _ hx))]
    congr 1
    simp; omega

theorem lintLoop_last (U : unicode.Tables) (fuel : Nat) (runes : List Char) (w i : Nat)
    (h : i + 1 = runes.length) :
    patcher.lintLoop U (fuel + 1) runes w i = patcher.lintWord U runes w (i + 1) := by
  have e : patcher.lintIter U runes w i =
      (patcher.lintWord U runes w (i + 1), i + 1, i + 1) := by
    unfold patcher.lintIter
    simp only
    rw [if_pos h]
  rw [patcher.lintLoop, if_pos (by omega), e]
  cases fuel with
  | zero => rfl
  | succ fuel =>
    rw [patcher.lintLoop, if_neg (by simp only [lintWord_length]; omega)]

theorem lintWord_first (U : unicode.Tables) (X rest : List Char) :
    ∃ X' : List Char, X'.length = X.length ∧
      patcher.lintWord U (X ++ rest) 0 X.length = X' ++ rest := by
  unfold patcher.lintWord
  simp only [List.take_left, List.drop_zero, List.take_zero, List.nil_append, Nat.zero_add,
    Nat.lt_irrefl, false_and, if_false]
  split
  · split
    · refine ⟨List.map U.ToLower (List.map U.ToUpper X), by simp, ?_⟩
      rw [List.length_map, List.length_map, List.drop_left]
    · refine ⟨List.map U.ToUpper X, by simp, ?_⟩
      rw [List.length_map, List.drop_left]
  · exact ⟨X, rfl, rfl⟩

theorem lintWord_initialism (U : unicode.Tables) (X V W : List Char) (hX : X ≠ [])
    (hW : W ∈ patcher.commonInitialisms) (hV : V.map U.ToUpper = W) :
    patcher.lintWord U (X ++ V) X.length (X.length + V.length) = X ++ W := by
  have hpos : 0 < X.length := List.length_pos.mpr hX
  have hl : W.length = V.length := by rw [← hV, List.length_map]
  unfold patcher.lintWord
  have e1 : List.take (X.length + V.length) (X ++ V) = X ++ V := by
    rw [List.take_of_length_le (by simp)]
  simp only [e1, List.drop_left, hV, List.take_left]
  rw [if_pos (by simpa using hW), if_neg (by omega), hl]
  rw [List.drop_eq_nil_of_le (by simp), List.append_nil]
theorem lower_rune (U : unicode.Tables) (hA : U.agreeOnASCII) (c : Char)
    (h : c.isLower = true) :
    c ≠ '_' ∧ U.IsLower c = true ∧ U.IsDigit c = false ∧ U.ToUpper c ≠ '_' ∧
      U.IsLower (U.ToUpper c) = false ∧ U.IsDigit (U.ToUpper c) = false := by
  have hc := char_isLower_ascii c h
  obtain ⟨h1, h2, h3, h4, h5, h6⟩ := forall_ascii (fun c => c.isLower = true →
    c ≠ '_' ∧ c.isDigit = false ∧ c.toUpper.toNat < 128 ∧ c.toUpper ≠ '_' ∧
      c.toUpper.isLower = false ∧ c.toUpper.isDigit = false) (by decide) c hc h
  have e := hA c hc
  have e2 := hA c.toUpper h3
  rw [e.1, e.2.1, e.2.2.1, e2.1, e2.2.1]
  exact ⟨h1, h, h2, h4, h5, h6⟩

set_option maxRecDepth 100000 in
theorem initialism_words : ∀ W ∈ patcher.commonInitialisms, W ≠ "UTF8".data →
    (capitalised W).map Char.toUpper = W ∧ (W.map Char.toLower).map Char.toUpper = W ∧
      (∀ c ∈ capitalised W ++ W.map Char.toLower, c.toNat < 128) ∧
      (∀ c ∈ (capitalised W).tail ++ W.map Char.toLower, c.isLower = true) ∧
      (∀ c ∈ (capitalised W).take 1, c ≠ '_' ∧ c.isLower = false) ∧
      capitalised W ≠ [] ∧ W ≠ [] := by
  decide

theorem FieldName_camel (U : unicode.Tables) (hA : U.agreeOnASCII) (W : List Char)
    (hW : W ∈ patcher.commonInitialisms) (hW8 : W ≠ "UTF8".data) (p0 : Char)
    (r : List Char) (hp0 : p0.isLower = true) (hr : ∀ c ∈ r, c.isLower = true)
    (hne : r ≠ []) :
    ∃ x : List Char, x.length = r.length + 1 ∧
      patcher.FieldName U (p0 :: r ++ capitalised W) = x ++ W := by
  obtain ⟨f1, _, f3, f4, f5, f6, _⟩ := initialism_words W hW hW8
  rcases hcw : capitalised W with _ | ⟨W0, t⟩
  · exact absurd hcw f6
  rw [hcw] at f1 f3 f4 f5
  have hP := lower_rune U hA p0 hp0
  have hW0 : W0 ≠ '_' ∧ U.IsLower W0 = false := by
    have h := f5 W0 (by simp)
    have h0 := hA W0 (f3 W0 (by simp))
    rw [h0.1]
    exact h
  have ht : ∀ c ∈ t, c ≠ '_' ∧ U.IsLower c = true := fun c hc =>
    ⟨(lower_rune U hA c (f4 c (by simp [hc]))).1, (lower_rune U hA c (f4 c (by simp [hc]))).2.1⟩
  have hr2 : ∀ c ∈ r, c ≠ '_' ∧ U.IsLower c = true := fun c hc =>
    ⟨(lower_rune U hA c (hr c hc)).1, (lower_rune U hA c (hr c hc)).2.1⟩
  have hV : (W0 :: t).map U.ToUpper = W := by
    rw [← f1]
    exact List.map_congr_left (fun c hc => (hA c (f3 c (by simp at hc ⊢; tauto))).2.2.1)
  have hrl : 0 < r.length := List.length_pos.mpr hne
  obtain ⟨X, hXl, hX⟩ := lintWord_first U (U.ToUpper p0 :: r) (W0 :: t)
  refine ⟨X, by simpa using hXl, ?_⟩
  have hXne : X ≠ [] := by
    intro h0; rw [h0] at hXl; simp at hXl
  -- the name after `upperFirst`, and the two fast paths of `lintName`
  have e0 : patcher.FieldName U (p0 :: r ++ W0 :: t) =
      patcher.lintLoop U ((0 + 1 + t.length + 1) + r.length)
        ([U.ToUpper p0] ++ r ++ W0 :: t) 0 0 := by
    unfold patcher.FieldName
    rw [if_neg (by simp)]
    unfold patcher.lintName
    have e1 : patcher.upperFirst U (p0 :: r ++ W0 :: t) = U.ToUpper p0 :: (r ++ W0 :: t) := rfl
    rw [e1, if_neg, if_neg]
    · congr 1
      simp only [List.length_cons, List.length_append]
      omega
    · simp [hP.2.2.2.2.1]
    · intro h
      have := congrArg List.length h
      simp at this
  rw [e0, lintLoop_scan U r [U.ToUpper p0] (W0 :: t) _ 0 0 rfl hr2]
  -- the end of the first word, before the upper-case rune
  have ea : ∃ a, ([U.ToUpper p0] ++ r ++ W0 :: t)[0 + r.length]? = some a ∧ a ∈ r := by
    refine ⟨r[r.length - 1], ?_, List.getElem_mem _⟩
    rw [List.append_assoc, List.getElem?_append_right (by simp; omega),
      List.getElem?_append_left (by simp; omega), List.getElem?_eq_getElem (by simp; omega)]
    simp
  obtain ⟨a, ea, ha⟩ := ea
  have eb : ([U.ToUpper p0] ++ r ++ W0 :: t)[0 + r.length + 1]? = some W0 := by
    rw [List.getElem?_append_right (by simp)]
    simp
  have el : 0 + r.length + 1 ≤ ([U.ToUpper p0] ++ r ++ W0 :: t).length := by
    simp only [List.length_append, List.length_cons]
    omega
  rw [patcher.lintLoop, if_pos el,
    lintIter_camel U _ 0 (0 + r.length) a W0 ea eb (hr2 a ha).2 hW0.1 hW0.2]
  have e1 : [U.ToUpper p0] ++ r ++ W0 :: t = (U.ToUpper p0 :: r) ++ W0 :: t := by simp
  have e2 : 0 + r.length + 1 = (U.ToUpper p0 :: r).length := by simp
  have e3 : X ++ W0 :: t = X ++ [W0] ++ t ++ [] := by simp
  have e4 : (X ++ [W0]).length = 0 + r.length + 1 + 1 := by
    rw [List.length_append, hXl]
    simp
  have e5 : 0 + r.length + 1 + t.length + 1 = (X ++ [W0] ++ t ++ []).length := by
    simp only [List.length_append, List.length_cons, List.length_nil, hXl]
    omega
  have e6 : 0 + r.length + 1 = X.length := by rw [hXl]; simp
  have e7 : 0 + r.length + 1 + t.length + 1 = X.length + (W0 :: t).length := by
    simp only [List.length_cons, hXl]
    omega
  simp only [e1, e2, hX]
  rw [e3, ← e2, lintLoop_scan U t (X ++ [W0]) [] (0 + 1) (0 + r.length + 1)
    (0 + r.length + 1) e4 ht, lintLoop_last U 0 _ _ _ e5, ← e3, e7, e6]
  exact lintWord_initialism U X (W0 :: t) W hXne hW hV
theorem FieldName_snake (U : unicode.Tables) (hA : U.agreeOnASCII) (W : List Char)
    (hW : W ∈ patcher.commonInitialisms) (hW8 : W ≠ "UTF8".data) (p0 : Char)
    (r : List Char) (hp0 : p0.isLower = true) (hr : ∀ c ∈ r, c.isLower = true) :
    ∃ x : List Char, x.length = r.length + 1 ∧
      patcher.FieldName U (p0 :: r ++ '_' :: W.map Char.toLower) = x ++ W := by
  obtain ⟨_, f2, f3, f4, _, _, f7⟩ := initialism_words W hW hW8
  rcases hlw : W.map Char.toLower with _ | ⟨b, t⟩
  · exact absurd (List.map_eq_nil_iff.mp hlw) f7
  rw [hlw] at f2 f3 f4
  have hP := lower_rune U hA p0 hp0
  have hb := lower_rune U hA b (f4 b (by simp))
  have ht : ∀ c ∈ t, c ≠ '_' ∧ U.IsLower c = true := fun c hc =>
    ⟨(lower_rune U hA c (f4 c (by simp [hc]))).1, (lower_rune U hA c (f4 c (by simp [hc]))).2.1⟩
  have hr2 : ∀ c ∈ r, c ≠ '_' ∧ U.IsLower c = true := fun c hc =>
    ⟨(lower_rune U hA c (hr c hc)).1, (lower_rune U hA c (hr c hc)).2.1⟩
  have hV : (b :: t).map U.ToUpper = W := by
    rw [← f2]
    exact List.map_congr_left (fun c hc => (hA c (f3 c (by simp at hc ⊢; tauto))).2.2.1)
  obtain ⟨X, hXl, hX⟩ := lintWord_first U (U.ToUpper p0 :: r) (b :: t)
  refine ⟨X, by simpa using hXl, ?_⟩
  have hXne : X ≠ [] := by
    intro h0; rw [h0] at hXl; simp at hXl
  have e0 : patcher.FieldName U (p0 :: r ++ '_' :: b :: t) =
      patcher.lintLoop U ((0 + 1 + 1 + t.length + 1) + r.length)
        ([U.ToUpper p0] ++ r ++ '_' :: b :: t) 0 0 := by
    unfold patcher.FieldName
    rw [if_neg (by simp)]
    unfold patcher.lintName
    have e1 : patcher.upperFirst U (p0 :: r ++ '_' :: b :: t) =
        U.ToUpper p0 :: (r ++ '_' :: b :: t) := rfl
    rw [e1, if_neg, if_neg]
    · congr 1
      simp only [List.length_cons, List.length_append]
      omega
    · simp [hP.2.2.2.2.1]
    · intro h
      have := congrArg List.length h
      simp at this
  rw [e0, lintLoop_scan U r [U.ToUpper p0] ('_' :: b :: t) _ 0 0 rfl hr2]
  have ea : ∃ a, (U.ToUpper p0 :: r)[0 + r.length]? = some a ∧ U.IsDigit a = false := by
    have hl : 0 + r.length < (U.ToUpper p0 :: r).length := by simp
    refine ⟨(U.ToUpper p0 :: r)[0 + r.length], List.getElem?_eq_getElem hl, ?_⟩
    have hm : (U.ToUpper p0 :: r)[0 + r.length] ∈ U.ToUpper p0 :: r := List.getElem_mem _
    rcases List.mem_cons.mp hm with h | h
    · rw [h]; exact hP.2.2.2.2.2
    · exact (lower_rune U hA _ (hr _ h)).2.2.1
  obtain ⟨a, ea, ha⟩ := ea
  have el : 0 + r.length + 1 ≤ ([U.ToUpper p0] ++ r ++ '_' :: b :: t).length := by
    simp only [List.length_append, List.length_cons]
    omega
  have e1 : [U.ToUpper p0] ++ r ++ '_' :: b :: t = (U.ToUpper p0 :: r) ++ '_' :: b :: t := by
    simp
  have e2 : 0 + r.length + 1 = (U.ToUpper p0 :: r).length := by simp
  rw [patcher.lintLoop, if_pos el, e1,
    lintIter_cut U (U.ToUpper p0 :: r) t 0 (0 + r.length) a b e2.symm ea ha hb.1]
  have e3 : X ++ b :: t = X ++ [b] ++ t ++ [] := by simp
  have e4 : (X ++ [b]).length = 0 + r.length + 1 + 1 := by
    rw [List.length_append, hXl]
    simp
  have e5 : 0 + r.length + 1 + t.length + 1 = (X ++ [b] ++ t ++ []).length := by
    simp only [List.length_append, List.length_cons, List.length_nil, hXl]
    omega
  have e6 : 0 + r.length + 1 = X.length := by rw [hXl]; simp
  have e7 : 0 + r.length + 1 + t.length + 1 = X.length + (b :: t).length := by
    simp only [List.length_cons, hXl]
    omega
  simp only [e2, hX]
  rw [e3, ← e2, lintLoop_scan U t (X ++ [b]) [] (0 + 1 + 1) (0 + r.length + 1)
    (0 + r.length + 1) e4 ht, lintLoop_last U (0 + 1) _ _ _ e5, ← e3, e7, e6]
  exact lintWord_initialism U X (b :: t) W hXne hW hV
/-- C15 (as stated, refuted): after a one-letter word the camel-case form has no word
boundary, `FieldName("aId") = "AId"`, and the initialism `UTF8` is cut before its digit in
both forms, `FieldName("ab_utf8") = "AbUtf8"` and `FieldName("abUtf8") = "AbUtf8"`; none
of the results ends in the all-caps form. -/
theorem FieldName_initialism_counterexample :
    "ID".data ∈ patcher.commonInitialisms ∧
      patcher.FieldName unicode.Tables.ascii ("a".data ++ capitalised "ID".data) =
        "AId".data ∧
      ¬ ("ID".data <:+ "AId".data) ∧
      "UTF8".data ∈ patcher.commonInitialisms ∧
      patcher.FieldName unicode.Tables.ascii
        ("ab".data ++ '_' :: "UTF8".data.map Char.toLower) = "AbUtf8".data ∧
      patcher.FieldName unicode.Tables.ascii ("ab".data ++ capitalised "UTF8".data) =
        "AbUtf8".data ∧
      ¬ ("UTF8".data <:+ "AbUtf8".data) := by
  decide

/-- C15 (amended): for every initialism `W` of the curated set other than `UTF8` and
every word `p` of lower-case ASCII letters, `FieldName` of `p` followed by the capitalised
`W` (when `p` has at least two letters), and of `p`, an underscore and the lower-case `W`
(when `p` is not empty), is an identifier that ends in the all-caps `W`, after as many
runes as `p` has. The tables of package `unicode` are any that are the ASCII ones below
U+0080. -/
theorem FieldName_initialism_suffix (U : unicode.Tables) (hA : U.agreeOnASCII)
    (W p : List Char) (hW : W ∈ patcher.commonInitialisms) (hW8 : W ≠ "UTF8".data)
    (hp : ∀ c ∈ p, c.isLower = true) :
    (2 ≤ p.length → ∃ x : List Char, x.length = p.length ∧
        patcher.FieldName U (p ++ capitalised W) = x ++ W) ∧
      (p ≠ [] → ∃ x : List Char, x.length = p.length ∧
        patcher.FieldName U (p ++ '_' :: W.map Char.toLower) = x ++ W) := by
  rcases p with _ | ⟨p0, r⟩
  · exact ⟨fun h => absurd h (by decide), fun h => absurd rfl h⟩
  have hp0 := hp p0 (List.mem_cons_self _ _)
  have hr : ∀ c ∈ r, c.isLower = true := fun c hc => hp c (List.mem_cons_of_mem _ hc)
  constructor
  · intro h2
    have hne : r ≠ [] := by
      intro h0
      rw [h0, List.length_singleton] at h2
      exact absurd h2 (by decide)
    exact FieldName_camel U hA W hW hW8 p0 r hp0 hr hne
  · intro _
    exact FieldName_snake U hA W hW hW8 p0 r hp0 hr

theorem FieldName_initialism_suffix_witness :
    patcher.FieldName unicode.Tables.ascii "championId".data = "ChampionID".data ∧
      (∃ x : List Char, x.length = "champion".data.length ∧
        patcher.FieldName unicode.Tables.ascii ("champion".data ++ capitalised "ID".data) =
          x ++ "ID".data) ∧
      (∃ x : List Char, x.length = "champion".data.length ∧
        patcher.FieldName unicode.Tables.ascii
          ("champion".data ++ '_' :: "ID".data.map Char.toLower) = x ++ "ID".data) :=
  ⟨by decide,
    (FieldName_initialism_suffix unicode.Tables.ascii ascii_agreeOnASCII "ID".data
      "champion".data (by decide) (by decide) (by decide)).1 (by decide),
    (FieldName_initialism_suffix unicode.Tables.ascii ascii_agreeOnASCII "ID".data
      "champion".data (by decide) (by decide) (by decide)).2 (by decide)⟩
theorem sameShape_refl (U : unicode.Tables) (c : Char) : sameShape U c c :=
  ⟨Iff.rfl, id⟩

theorem sameShape_trans (U : unicode.Tables) (a b c : Char) (h1 : sameShape U a b)
    (h2 : sameShape U b c) : sameShape U a c :=
  ⟨h1.1.trans h2.1, fun h => h2.2 (h1.2 h)⟩

theorem sameShape_upper (U : unicode.Tables) (hA : U.agreeOnASCII) (hK : U.caseKeepsShape)
    (c : Char) : sameShape U c (U.ToUpper c) := by
  refine ⟨⟨fun h => ?_, hK.1 c⟩, hK.2 c⟩
  subst h
  rw [(hA '_' (by decide)).2.2.1]
  rfl

theorem initialism_runes : ∀ u ∈ patcher.commonInitialisms, ∀ x ∈ u,
    x.toNat < 128 ∧ x ≠ '_' ∧ x.toLower ≠ '_' ∧ (x.isDigit = true → x.toLower.isDigit = true) := by
  decide

theorem sameShape_lower (U : unicode.Tables) (hA : U.agreeOnASCII) (u : List Char)
    (hu : u ∈ patcher.commonInitialisms) (x : Char) (hx : x ∈ u) :
    sameShape U x (U.ToLower x) := by
  obtain ⟨h1, h2, h3, h4⟩ := initialism_runes u hu x hx
  have hx := hA x h1
  have h5 : (x.toLower).toNat < 128 := by
    exact forall_ascii (fun x => x.toLower.toNat < 128) (by decide) x h1
  have hl := hA x.toLower h5
  rw [sameShape, hx.2.2.2, hx.2.1, hl.2.1]
  exact ⟨⟨fun h => absurd h h2, fun h => absurd h h3⟩, h4⟩

theorem forall₂_getElem?_right {α : Type} (R : α → α → Prop) (l l' : List α)
    (h : List.Forall₂ R l l') (j : Nat) (b : α) (hb : l'[j]? = some b) :
    ∃ a, l[j]? = some a ∧ R a b := by
  induction h generalizing j with
  | nil => simp at hb
  | cons hab _ ih =>
    cases j with
    | zero =>
      simp only [List.getElem?_cons_zero, Option.some.injEq] at hb
      subst hb
      exact ⟨_, by simp, hab⟩
    | succ j => simpa using ih j (by simpa using hb)

theorem forall₂_getElem?_left {α : Type} (R : α → α → Prop) (l l' : List α)
    (h : List.Forall₂ R l l') (j : Nat) (a : α) (ha : l[j]? = some a) :
    ∃ b, l'[j]? = some b ∧ R a b := by
  induction h generalizing j with
  | nil => simp at ha
  | cons hab _ ih =>
    cases j with
    | zero =>
      simp only [List.getElem?_cons_zero, Option.some.injEq] at ha
      subst ha
      exact ⟨_, by simp, hab⟩
    | succ j => simpa using ih j (by simpa using ha)

theorem forall₂_append3 {α : Type} (R : α → α → Prop) (a b b' c : List α)
    (ha : List.Forall₂ R a a) (hb : List.Forall₂ R b b') (hc : List.Forall₂ R c c) :
    List.Forall₂ R (a ++ b ++ c) (a ++ b' ++ c) :=
  List.rel_append (List.rel_append ha hb) hc

theorem underscores_of_sameShape (U : unicode.Tables) (rs rs' : List Char) (k : Nat)
    (h : List.Forall₂ (sameShape U) rs rs') (hg : underscoresBetweenDigits U rs k) :
    underscoresBetweenDigits U rs' k := by
  intro j hj hjk hb
  obtain ⟨a, ha, hab⟩ := forall₂_getElem?_right _ _ _ h j _ hb
  have ha_ : a = '_' := hab.1.mpr rfl
  subst ha_
  obtain ⟨⟨x, hx, hxd⟩, ⟨y, hy, hyd⟩⟩ := hg j hj hjk ha
  obtain ⟨x', hx', hxx⟩ := forall₂_getElem?_left _ _ _ h _ _ hx
  obtain ⟨y', hy', hyy⟩ := forall₂_getElem?_left _ _ _ h _ _ hy
  exact ⟨⟨x', hx', hxx.2 hxd⟩, ⟨y', hy', hyy.2 hyd⟩⟩

theorem word_decomp (runes : List Char) (w i : Nat)
    (h : 0 < (List.drop w (List.take i runes)).length) :
    runes = List.take w runes ++ List.drop w (List.take i runes) ++
      List.drop (w + (List.drop w (List.take i runes)).length) runes := by
  have hlen := h
  simp only [List.length_drop, List.length_take] at hlen
  have h1 : List.take w runes = List.take w (List.take i runes) := by
    rw [List.take_take]
    congr 1
    omega
  have h2 : List.drop (w + (List.drop w (List.take i runes)).length) runes =
      List.drop i runes := by
    simp only [List.length_drop, List.length_take]
    by_cases hi : i ≤ runes.length
    · congr 1
      omega
    · rw [List.drop_eq_nil_of_le (by omega), List.drop_eq_nil_of_le (by omega)]
  rw [h2, h1, List.take_append_drop, List.take_append_drop]

theorem lintWord_sameShape (U : unicode.Tables) (hA : U.agreeOnASCII)
    (hK : U.caseKeepsShape) (runes : List Char) (w i : Nat) :
    List.Forall₂ (sameShape U) runes (patcher.lintWord U runes w i) := by
  have hrefl : ∀ l : List Char, List.Forall₂ (sameShape U) l l := fun l =>
    List.forall₂_same.mpr (fun x _ => sameShape_refl U x)
  unfold patcher.lintWord
  simp only
  split
  · rename_i hc
    have hmem : List.map U.ToUpper (List.drop w (List.take i runes)) ∈
        patcher.commonInitialisms := by simpa using hc
    have hlen : 0 < (List.drop w (List.take i runes)).length := by
      rcases hl : List.drop w (List.take i runes) with _ | ⟨a, l⟩
      · rw [hl, List.map_nil] at hc; exact absurd hc (by decide)
      · simp
    have hup : List.Forall₂ (sameShape U) (List.drop w (List.take i runes))
        (List.map U.ToUpper (List.drop w (List.take i runes))) := by
      rw [List.forall₂_map_right_iff]
      exact List.forall₂_same.mpr (fun x _ => sameShape_upper U hA hK x)
    have hlow : List.Forall₂ (sameShape U) (List.drop w (List.take i runes))
        (List.map U.ToLower (List.map U.ToUpper (List.drop w (List.take i runes)))) := by
      rw [List.forall₂_map_right_iff, List.forall₂_map_right_iff]
      refine List.forall₂_same.mpr (fun x hx => ?_)
      exact sameShape_trans U _ _ _ (sameShape_upper U hA hK x)
        (sameShape_lower U hA _ hmem _ (List.mem_map_of_mem _ hx))
    split
    · have h := forall₂_append3 _ _ _ _ _ (hrefl (List.take w runes)) hlow
        (hrefl (List.drop (w + (List.drop w (List.take i runes)).length) runes))
      rw [← word_decomp runes w i hlen] at h
      simpa only [List.length_map] using h
    · have h := forall₂_append3 _ _ _ _ _ (hrefl (List.take w runes)) hup
        (hrefl (List.drop (w + (List.drop w (List.take i runes)).length) runes))
      rw [← word_decomp runes w i hlen] at h
      simpa only [List.length_map] using h
  · split
    · split
      · rename_i r hr
        have hw : w < runes.length := by
          by_contra hcon
          rw [List.getElem?_eq_none (by omega)] at hr
          exact absurd hr (by simp)
        have hset : runes.set w (U.ToUpper r) =
            List.take w runes ++ U.ToUpper r :: List.drop (w + 1) runes := by
          rw [List.set_eq_take_append_cons_drop, if_pos hw]
        have hrun : runes = List.take w runes ++ r :: List.drop (w + 1) runes := by
          have hr' : runes[w] = r := by
            rw [List.getElem?_eq_getElem hw] at hr
            exact Option.some.inj hr
          rw [← hr', ← List.drop_eq_getElem_cons hw, List.take_append_drop]
        rw [hset]
        have h := forall₂_append3 _ _ _ _ [] (hrefl (List.take w runes))
          (List.Forall₂.cons (sameShape_upper U hA hK r) (hrefl (List.drop (w + 1) runes)))
          List.Forall₂.nil
        rw [List.append_nil, List.append_nil, ← hrun] at h
        exact h
      · exact hrefl _
    · exact hrefl _
theorem takeWhile_stops {α : Type} (p : α → Bool) (l : List α) (x : α)
    (h : l[(l.takeWhile p).length]? = some x) : p x = false := by
  induction l with
  | nil => simp at h
  | cons a l ih =>
    by_cases hp : p a = true
    · simp only [List.takeWhile_cons, hp, if_true, List.length_cons,
        List.getElem?_cons_succ] at h
      exact ih h
    · simp only [List.takeWhile_cons, hp, Bool.false_eq_true, if_false, List.length_nil,
        List.getElem?_cons_zero, Option.some.injEq] at h
      subst h
      simpa using hp

theorem underscores_succ (U : unicode.Tables) (rs : List Char) (i : Nat)
    (hg : underscoresBetweenDigits U rs i) (h : rs[i + 1]? ≠ some '_') :
    underscoresBetweenDigits U rs (i + 1) := by
  intro j hj hjk hb
  by_cases hji : j ≤ i
  · exact hg j hj hji hb
  · have : j = i + 1 := by omega
    subst this
    exact absurd hb h

theorem underscores_cut (U : unicode.Tables) (hA : U.agreeOnASCII) (runes : List Char)
    (i n : Nat) (hi : i + 1 < runes.length) (hg : underscoresBetweenDigits U runes i)
    (h1 : runes[i + 1]? = some '_')
    (hn : runes[i + n + 1]? = some '_' →
      (∃ a, runes[i]? = some a ∧ U.IsDigit a = true) ∧
        (∃ b, runes[i + n + 2]? = some b ∧ U.IsDigit b = true)) :
    underscoresBetweenDigits U
      (List.take (i + 1) runes ++ List.drop (i + n + 1) runes) (i + 1) := by
  have hlen : (List.take (i + 1) runes).length = i + 1 := by
    rw [List.length_take]; omega
  have key1 : ∀ k : Nat, k ≤ i →
      (List.take (i + 1) runes ++ List.drop (i + n + 1) runes)[k]? = runes[k]? := by
    intro k hk
    rw [List.getElem?_append_left (by omega), List.getElem?_take_of_lt (by omega)]
  have key2 : ∀ k : Nat, i + 1 ≤ k →
      (List.take (i + 1) runes ++ List.drop (i + n + 1) runes)[k]? = runes[k + n]? := by
    intro k hk
    rw [List.getElem?_append_right (by omega), hlen, List.getElem?_drop]
    congr 1
    omega
  have hd : U.IsDigit '_' = false := by
    rw [(hA '_' (by decide)).2.1]; rfl
  intro j hj hjk hb
  by_cases hji : j ≤ i
  · rw [key1 j hji] at hb
    obtain ⟨⟨a, ha, had⟩, ⟨b, hb2, hbd⟩⟩ := hg j hj hji hb
    refine ⟨⟨a, by rw [key1 _ (by omega)]; exact ha, had⟩, ?_⟩
    by_cases hj1 : j + 1 ≤ i
    · exact ⟨b, by rw [key1 _ hj1]; exact hb2, hbd⟩
    · have hji2 : j = i := by omega
      subst hji2
      rw [h1] at hb2
      have hb3 : b = '_' := (Option.some.inj hb2).symm
      subst hb3
      rw [hd] at hbd
      exact absurd hbd (by decide)
  · have hji2 : j = i + 1 := by omega
    subst hji2
    rw [key2 _ (le_refl _)] at hb
    have hb2 : runes[i + n + 1]? = some '_' := by
      rw [← hb]; congr 1; omega
    obtain ⟨⟨a, ha, had⟩, ⟨b, hb3, hbd⟩⟩ := hn hb2
    refine ⟨⟨a, ?_, had⟩, ⟨b, ?_, hbd⟩⟩
    · rw [show i + 1 - 1 = i by omega, key1 _ (le_refl _)]; exact ha
    · rw [key2 _ (by omega), ← hb3]; congr 1; omega

theorem lintIter_underscores (U : unicode.Tables) (hA : U.agreeOnASCII)
    (hK : U.caseKeepsShape) (runes : List Char) (w i : Nat) (hi : i + 1 ≤ runes.length)
    (hg : underscoresBetweenDigits U runes i) :
    underscoresBetweenDigits U (patcher.lintIter U runes w i).1 (i + 1) ∧
      (patcher.lintIter U runes w i).2.2 = i + 1 ∧
      (patcher.lintIter U runes w i).1.length ≤ runes.length := by
  unfold patcher.lintIter
  simp only
  split
  · rename_i hend
    refine ⟨?_, rfl, le_of_eq (lintWord_length _ _ _ _)⟩
    refine underscores_of_sameShape U _ _ _ (lintWord_sameShape U hA hK _ _ _) ?_
    refine underscores_succ U _ _ hg ?_
    rw [List.getElem?_eq_none (by omega)]
    simp
  · rename_i hend
    have hi2 : i + 1 < runes.length := by omega
    split
    · rename_i h1
      refine ⟨?_, rfl, ?_⟩
      · refine underscores_of_sameShape U _ _ _ (lintWord_sameShape U hA hK _ _ _) ?_
        refine underscores_cut U hA runes i _ hi2 hg h1 ?_
        intro hu
        split at hu
        · rename_i hcond
          have hcond2 := hcond
          obtain ⟨_, h2, h3⟩ := hcond2
          rw [if_pos hcond]
          constructor
          · cases hri : runes[i]? with
            | none => rw [hri] at h2; simp at h2
            | some a =>
              rw [hri] at h2
              exact ⟨a, rfl, by simpa using h2⟩
          · rw [show i + (1 + (List.takeWhile (fun r => r == '_')
                (List.drop (i + 2) runes)).length - 1) + 2 =
                i + (1 + (List.takeWhile (fun r => r == '_')
                (List.drop (i + 2) runes)).length) + 1 by omega]
            cases hri : runes[i + (1 + (List.takeWhile (fun r => r == '_')
                (List.drop (i + 2) runes)).length) + 1]? with
            | none => rw [hri] at h3; simp at h3
            | some b =>
              rw [hri] at h3
              exact ⟨b, rfl, by simpa using h3⟩
        · exfalso
          have hs := takeWhile_stops (fun r => r == '_') (List.drop (i + 2) runes) '_'
            (by
              rw [List.getElem?_drop, ← hu]
              congr 1
              omega)
          simp at hs
      · rw [lintWord_length, List.length_append, List.length_take, List.length_drop]
        omega
    · rename_i h1
      split
      · refine ⟨?_, rfl, le_of_eq (lintWord_length _ _ _ _)⟩
        refine underscores_of_sameShape U _ _ _ (lintWord_sameShape U hA hK _ _ _) ?_
        exact underscores_succ U _ _ hg h1
      · exact ⟨underscores_succ U _ _ hg h1, rfl, le_refl _⟩

theorem lintLoop_underscores (U : unicode.Tables) (hA : U.agreeOnASCII)
    (hK : U.caseKeepsShape) : ∀ (fuel : Nat) (runes : List Char) (w i : Nat),
    runes.length - i ≤ fuel → underscoresBetweenDigits U runes i →
    underscoresBetweenDigits U (patcher.lintLoop U fuel runes w i)
      (patcher.lintLoop U fuel runes w i).length := by
  have hfin : ∀ (runes : List Char) (i : Nat), runes.length ≤ i →
      underscoresBetweenDigits U runes i →
      underscoresBetweenDigits U runes runes.length := by
    intro runes i hle hg j hj _ hb
    have hjl : j < runes.length := by
      by_contra hcon
      rw [List.getElem?_eq_none (by omega)] at hb
      simp at hb
    exact hg j hj (by omega) hb
  intro fuel
  induction fuel with
  | zero =>
    intro runes w i hf hg
    exact hfin runes i (by omega) hg
  | succ fuel ih =>
    intro runes w i hf hg
    rw [patcher.lintLoop]
    split
    · rename_i hi
      obtain ⟨h1, h2, h3⟩ := lintIter_underscores U hA hK runes w i hi hg
      refine ih _ _ _ ?_ ?_
      · rw [h2]; omega
      · rw [h2]; exact h1
    · exact hfin runes i (by omega) hg
theorem lintIter_measure (U : unicode.Tables) (runes : List Char) (w i : Nat) :
    (patcher.lintIter U runes w i).2.2 = i + 1 ∧
      (patcher.lintIter U runes w i).1.length ≤ runes.length := by
  unfold patcher.lintIter
  simp only
  split
  · exact ⟨rfl, le_of_eq (lintWord_length _ _ _ _)⟩
  · split
    · refine ⟨rfl, ?_⟩
      rw [lintWord_length, List.length_append, List.length_take, List.length_drop]
      split <;> omega
    · split
      · exact ⟨rfl, le_of_eq (lintWord_length _ _ _ _)⟩
      · exact ⟨rfl, le_refl _⟩

/-- The loop of `lintName` ends within `len(runes) - i` turns: more fuel than that changes
nothing. -/
theorem lintLoop_fuel (U : unicode.Tables) : ∀ (fuel k : Nat) (runes : List Char)
    (w i : Nat), runes.length - i ≤ fuel →
    patcher.lintLoop U (fuel + k) runes w i = patcher.lintLoop U fuel runes w i := by
  intro fuel
  induction fuel with
  | zero =>
    intro k runes w i hf
    cases k with
    | zero => rfl
    | succ k =>
      rw [show 0 + (k + 1) = k + 1 by omega]
      simp only [patcher.lintLoop, if_neg (show ¬ i + 1 ≤ runes.length by omega)]
  | succ fuel ih =>
    intro k runes w i hf
    rw [show fuel + 1 + k = (fuel + k) + 1 by omega, patcher.lintLoop, patcher.lintLoop]
    split
    · obtain ⟨h2, h3⟩ := lintIter_measure U runes w i
      exact ih k _ _ _ (by rw [h2]; omega)
    · rfl

theorem lintName_underscores (U : unicode.Tables) (hA : U.agreeOnASCII)
    (hK : U.caseKeepsShape) (name : List Char) :
    underscoresBetweenDigits U (patcher.lintName U name) (patcher.lintName U name).length := by
  unfold patcher.lintName
  split
  · rename_i h
    subst h
    intro j hj _ hb
    rw [List.getElem?_eq_none (by simpa using hj)] at hb
    simp at hb
  · split
    · rename_i hall
      intro j _ _ hb
      have hmem : '_' ∈ name := List.getElem?_mem hb
      have hl := List.all_eq_true.mp hall _ hmem
      rw [(hA '_' (by decide)).1] at hl
      exact absurd hl (by decide)
    · refine lintLoop_underscores U hA hK _ _ _ _ (by omega) ?_
      intro j hj hj0 _
      omega

/-- C16 (as stated, refuted): an underscore that starts the identifier stays, and a lone
underscore is returned as it is: `FieldName("_id") = "_id"` and `FieldName("_") = "_"`,
where no underscore stands between two digits. -/
theorem FieldName_underscore_counterexample :
    patcher.FieldName unicode.Tables.ascii "_id".data = "_id".data ∧
      unicode.Tables.ascii.IsDigit 'i' = false ∧
      patcher.FieldName unicode.Tables.ascii "_".data = "_".data := by
  decide

/-- C16 (amended): in the output of `FieldName`, every underscore other than one at the
very start of the identifier stands directly between two digits; every other underscore
of the input is removed. The tables of package `unicode` are any that are the ASCII ones
below U+0080, give no other rune than `_` the upper-case form `_`, and keep digits digits
under `ToUpper`. -/
theorem FieldName_underscores (U : unicode.Tables) (hA : U.agreeOnASCII)
    (hK : U.caseKeepsShape) (orig : List Char) (j : Nat) (hj : 0 < j)
    (h : (patcher.FieldName U orig)[j]? = some '_') :
    (∃ a, (patcher.FieldName U orig)[j - 1]? = some a ∧ U.IsDigit a = true) ∧
      (∃ b, (patcher.FieldName U orig)[j + 1]? = some b ∧ U.IsDigit b = true) := by
  have hall : underscoresBetweenDigits U (patcher.FieldName U orig)
      (patcher.FieldName U orig).length := by
    unfold patcher.FieldName
    split
    · intro j _ _ hb
      simp at hb
    · exact lintName_underscores U hA hK _
  have hjl : j < (patcher.FieldName U orig).length := by
    by_contra hcon
    rw [List.getElem?_eq_none (by omega)] at h
    simp at h
  exact hall j hj (by omega) h

theorem FieldName_underscores_witness :
    patcher.FieldName unicode.Tables.ascii "a_1__2_b".data = "A1_2B".data ∧
      ((∃ a, (patcher.FieldName unicode.Tables.ascii "a_1__2_b".data)[2 - 1]? = some a ∧
          unicode.Tables.ascii.IsDigit a = true) ∧
        (∃ b, (patcher.FieldName unicode.Tables.ascii "a_1__2_b".data)[2 + 1]? = some b ∧
          unicode.Tables.ascii.IsDigit b = true)) :=
  ⟨by decide, FieldName_underscores unicode.Tables.ascii ascii_agreeOnASCII
    ascii_caseKeepsShape "a_1__2_b".data 2 (by decide) (by decide)⟩

/-! ## Claims on the handles, the regions and the response check -/

/-- C21: `Wrap` returns the handle on the node exactly when the selection holds exactly
one node and panics for every other selection, and `Sels.MustBeSingle` returns the element
exactly when the sequence has length 1 and panics otherwise. -/
theorem Wrap_MustBeSingle_single (s : List html.Node) :
    (∀ n, htmlutil.Wrap s = .ok n ↔ s = [n]) ∧
      (s.length ≠ 1 → htmlutil.Wrap s = .panic .invalidSelector) ∧
      (∀ n, htmlutil.MustBeSingle s = .ok n ↔ s = [n]) ∧
      (s.length ≠ 1 → htmlutil.MustBeSingle s = .panic (.mustHaveSingle s.length)) := by
  rcases s with _ | ⟨a, _ | ⟨b, rest⟩⟩
  · simp [htmlutil.Wrap, htmlutil.MustBeSingle]
  · simp [htmlutil.Wrap, htmlutil.MustBeSingle]
  · simp [htmlutil.Wrap, htmlutil.MustBeSingle]

theorem Wrap_MustBeSingle_single_witness :
    htmlutil.Wrap [leaf (str "a") (str "x")] = .ok (leaf (str "a") (str "x")) ∧
      htmlutil.Wrap [] = .panic .invalidSelector ∧
      htmlutil.MustBeSingle [leaf (str "a") (str "x"), leaf (str "a") (str "y")] =
        .panic (.mustHaveSingle 2) :=
  ⟨((Wrap_MustBeSingle_single [leaf (str "a") (str "x")]).1 _).mpr rfl,
    (Wrap_MustBeSingle_single []).2.1 (by decide),
    (Wrap_MustBeSingle_single [leaf (str "a") (str "x"), leaf (str "a") (str "y")]).2.2.2
      (by decide)⟩

theorem eatTextLoop_some (cs : List html.Node) (t : GoString)
    (h : htmlutil.eatTextLoop cs = some t) : html.Node.text t ∈ cs := by
  induction cs with
  | nil => simp [htmlutil.eatTextLoop] at h
  | cons c rest ih =>
    cases c with
    | element tag attrs ch =>
      exact List.mem_cons_of_mem _ (ih (by simpa [htmlutil.eatTextLoop] using h))
    | text d =>
      simp only [htmlutil.eatTextLoop, Option.some.injEq] at h
      subst h
      exact List.mem_cons_self _ _
    | comment d => exact List.mem_cons_of_mem _ (ih (by simpa [htmlutil.eatTextLoop] using h))

theorem eatTextLoop_none (cs : List html.Node) (h : ∀ t, html.Node.text t ∉ cs) :
    htmlutil.eatTextLoop cs = none := by
  cases hl : htmlutil.eatTextLoop cs with
  | none => rfl
  | some t => exact absurd (eatTextLoop_some cs t hl) (h t)

theorem firstText_eq_eatTextLoop (cs : List html.Node) :
    htmlutil.firstText cs = (htmlutil.eatTextLoop cs).getD [] := by
  induction cs with
  | nil => rfl
  | cons c rest ih =>
    cases c with
    | element tag attrs ch => simpa [htmlutil.firstText, htmlutil.eatTextLoop] using ih
    | text d => simp [htmlutil.firstText, htmlutil.eatTextLoop]
    | comment d => simpa [htmlutil.firstText, htmlutil.eatTextLoop] using ih

set_option maxRecDepth 100000 in
/-- C22: a node without any child has no element children, yet `EatText` returns the
empty text and leaves the node where it is; nothing is put in its place. The callers
count on the replacement: `parseQueryParams` reads the last cell of a row a second time
after `EatText`, so a row whose description cell is empty ends in the fault of
`td.Children().First()`, while the same row with a description is parsed. -/
theorem EatText_empty_node_stays :
    htmlutil.Children (.element (str "td") [] []) = [] ∧
      htmlutil.EatText loldoc.Library.plain (.element (str "td") [] []) =
        (.ok [], [.element (str "td") [] []]) ∧
      htmlutil.Text (.element (str "td") [] []) = .ok [] ∧
      loldoc.queryParamRow loldoc.Library.plain patcher.overrides (some (str "champion"))
        emptyDescriptionRow = .panic .indexOutOfRange ∧
      loldoc.queryParamRow loldoc.Library.plain patcher.overrides (some (str "champion"))
        freeToPlayRow = .ok freeToPlayParam :=
  ⟨rfl, rfl, rfl, by decide, by decide⟩

/-- The outcomes of `EatText` for every node: without element children it returns the
same text as `Text`; when the node has a text child, it is replaced afterwards by the
nodes that `ReplaceWithHtml` makes of the comment markup of the returned text; without a
text child the loop runs out before any replacement. For a node with element children
both panic with the same error and the node stays as it is. -/
theorem EatText_Text (L : loldoc.Library) (sel : html.Node) :
    ((htmlutil.Children sel).length = 0 →
        (htmlutil.EatText L sel).1 = htmlutil.Text sel ∧
        ((∃ t, html.Node.text t ∈ htmlutil.Contents sel) →
          ∃ t, html.Node.text t ∈ htmlutil.Contents sel ∧ htmlutil.Text sel = .ok t ∧
            (htmlutil.EatText L sel).2 =
              L.parseHTML (str "<!-- " ++ L.quote t ++ str " -->")) ∧
        ((∀ t, html.Node.text t ∉ htmlutil.Contents sel) →
          htmlutil.Text sel = .ok [] ∧ (htmlutil.EatText L sel).2 = [sel])) ∧
      ((htmlutil.Children sel).length ≠ 0 →
        (∃ e, htmlutil.Text sel = .panic e ∧ (htmlutil.EatText L sel).1 = .panic e) ∧
          (htmlutil.EatText L sel).2 = [sel]) := by
  constructor
  · intro h0
    have hT : htmlutil.Text sel = .ok (htmlutil.firstText (htmlutil.Contents sel)) := by
      simp [htmlutil.Text, h0]
    refine ⟨?_, ?_, ?_⟩
    · rw [hT, firstText_eq_eatTextLoop]
      unfold htmlutil.EatText
      rw [if_neg (by simp [h0])]
      cases htmlutil.eatTextLoop (htmlutil.Contents sel) <;> rfl
    · rintro ⟨t0, ht0⟩
      cases hl : htmlutil.eatTextLoop (htmlutil.Contents sel) with
      | none =>
        have : ∀ t, html.Node.text t ∉ htmlutil.Contents sel := by
          intro t ht
          have key : ∀ cs : List html.Node, html.Node.text t ∈ cs →
              htmlutil.eatTextLoop cs ≠ none := by
            intro cs
            induction cs with
            | nil => intro h; simp at h
            | cons c rest ih =>
              intro h
              cases c with
              | element tag attrs ch =>
                simp only [List.mem_cons, reduceCtorEq, false_or] at h
                simpa [htmlutil.eatTextLoop] using ih h
              | text d => simp [htmlutil.eatTextLoop]
              | comment d =>
                simp only [List.mem_cons, reduceCtorEq, false_or] at h
                simpa [htmlutil.eatTextLoop] using ih h
          exact key _ ht hl
        exact absurd ht0 (this t0)
      | some t =>
        refine ⟨t, eatTextLoop_some _ _ hl, ?_, ?_⟩
        · rw [hT, firstText_eq_eatTextLoop, hl]; rfl
        · unfold htmlutil.EatText
          rw [if_neg (by simp [h0])]
          simp only [hl]
    · intro hno
      have hl := eatTextLoop_none _ hno
      refine ⟨?_, ?_⟩
      · rw [hT, firstText_eq_eatTextLoop, hl]; rfl
      · unfold htmlutil.EatText
        rw [if_neg (by simp [h0])]
        simp only [hl]
  · intro h0
    refine ⟨⟨.withDump (.cannotReadText (htmlutil.Children sel).length), ?_, ?_⟩, ?_⟩
    · simp only [htmlutil.Text, if_pos h0]
    · simp only [htmlutil.EatText, if_pos h0]
    · simp only [htmlutil.EatText, if_pos h0]

theorem EatText_Text_witness :
    (htmlutil.EatText loldoc.Library.plain (leaf (str "b") (str "Dto"))).1 =
        htmlutil.Text (leaf (str "b") (str "Dto")) ∧
      (∃ t, html.Node.text t ∈ htmlutil.Contents (leaf (str "b") (str "Dto")) ∧
        htmlutil.Text (leaf (str "b") (str "Dto")) = .ok t ∧
        (htmlutil.EatText loldoc.Library.plain (leaf (str "b") (str "Dto"))).2 =
          loldoc.Library.plain.parseHTML
            (str "<!-- " ++ loldoc.Library.plain.quote t ++ str " -->")) ∧
      (htmlutil.EatText loldoc.Library.plain
        (.element (str "td") [] [leaf (str "b") (str "x")])).2 =
          [.element (str "td") [] [leaf (str "b") (str "x")]] :=
  ⟨((EatText_Text loldoc.Library.plain (leaf (str "b") (str "Dto"))).1 rfl).1,
    ((EatText_Text loldoc.Library.plain (leaf (str "b") (str "Dto"))).1 rfl).2.1
      ⟨str "Dto", List.mem_cons_self _ _⟩,
    ((EatText_Text loldoc.Library.plain
      (.element (str "td") [] [leaf (str "b") (str "x")])).2 (by decide)).2⟩

/-- C23: `Sels.Children` returns the child handles of the first element, then those of
the second, and so on, each element's child elements in their document order. -/
theorem Sels_Children_concat (ss : List html.Node) :
    htmlutil.Sels.Children ss = ss.flatMap htmlutil.Children ∧
      ∀ s ∈ ss, htmlutil.Children s = (htmlutil.Contents s).filter html.Node.isElement := by
  refine ⟨?_, fun _ _ => rfl⟩
  unfold htmlutil.Sels.Children
  have key : ∀ (l acc : List html.Node),
      l.foldl (fun ret s => ret ++ htmlutil.Children s) acc =
        acc ++ l.flatMap htmlutil.Children := by
    intro l
    induction l with
    | nil => intro acc; simp
    | cons a l ih => intro acc; simp [ih]
  simpa using key ss []
theorem regionByName_keys :
    lol.regionByName.map (fun e => e.1) =
      [str "global", str "pbe", str "na", str "euw", str "eune", str "kr", str "br",
       str "tr", str "ru", str "las", str "lan", str "oce", str "jp"] := by
  decide

/-- C24: for `Global` and for every region of `Regions()`, `RegionByName` of the region's
name returns the region and a nil error; for every name other than the thirteen lower-case
region names it returns `ErrNoSuchRegion` (with the region 0). -/
theorem RegionByName_Name :
    (∀ r : lol.Region, r = lol.Global ∨ r ∈ lol.Regions →
        lol.RegionByName (lol.Region.Name r) = (r, none)) ∧
      (∀ name : GoString,
        name ∉ [str "global", str "pbe", str "na", str "euw", str "eune", str "kr",
          str "br", str "tr", str "ru", str "las", str "lan", str "oce", str "jp"] →
        lol.RegionByName name = (0, some .ErrNoSuchRegion)) := by
  constructor
  · intro r hr
    have hall : ∀ r ∈ lol.Global :: lol.Regions,
        lol.RegionByName (lol.Region.Name r) = (r, none) := by decide
    exact hall r (by
      rcases hr with h | h
      · rw [h]; exact List.mem_cons_self _ _
      · exact List.mem_cons_of_mem _ h)
  · intro name hname
    rw [← regionByName_keys] at hname
    have hl : lol.regionByName.lookup name = none :=
      lookup_none_of_not_mem name _ (fun e he hk =>
        hname (hk ▸ List.mem_map_of_mem (fun e => e.1) he))
    simp only [lol.RegionByName, hl]

theorem RegionByName_Name_witness :
    lol.RegionByName (lol.Region.Name lol.KR) = (lol.KR, none) ∧
      lol.RegionByName (str "KR") = (0, some .ErrNoSuchRegion) :=
  ⟨RegionByName_Name.1 lol.KR (Or.inr (by decide)),
    RegionByName_Name.2 (str "KR") (by decide)⟩

/-- C25: `Regions()` holds twelve regions, no region twice and never `Global`, and they
are the declared constants other than `Global`. -/
theorem Regions_all_but_Global :
    lol.Regions.length = 12 ∧ lol.Regions.Nodup ∧ lol.Global ∉ lol.Regions ∧
      (∀ r ∈ lol.regionConstants, r ≠ lol.Global → r ∈ lol.Regions) ∧
      (∀ r ∈ lol.Regions, r ∈ lol.regionConstants) := by
  decide

theorem Regions_all_but_Global_witness :
    lol.JP ∈ lol.Regions ∧ lol.PBE ∈ lol.regionConstants :=
  ⟨Regions_all_but_Global.2.2.2.1 lol.JP (by decide) (by decide),
    Regions_all_but_Global.2.2.2.2 lol.PBE (by decide)⟩

/-- C26: `verifyResponse` returns nil exactly when the status code lies in 200..299; for
every other status code of a response that carries its request it returns an `HTTPError`
whose `Code` is the status code (with the URL of the request and the header of the
response). -/
theorem verifyResponse_status (resp : lol.Response) :
    (lol.verifyResponse resp = some none ↔
        200 ≤ resp.StatusCode ∧ resp.StatusCode ≤ 299) ∧
      (¬ (200 ≤ resp.StatusCode ∧ resp.StatusCode ≤ 299) →
        ∀ rq, resp.Request = some rq →
          ∃ e, lol.verifyResponse resp = some (some e) ∧ e.Code = resp.StatusCode ∧
            e.URL = rq.URL ∧ e.Header = resp.Header) := by
  constructor
  · constructor
    · intro h
      by_contra hc
      unfold lol.verifyResponse at h
      rw [if_neg (by simpa [ge_iff_le] using hc)] at h
      cases hr : resp.Request with
      | none => rw [hr] at h; simp at h
      | some rq => rw [hr] at h; simp at h
    · intro h
      unfold lol.verifyResponse
      rw [if_pos (by simpa [ge_iff_le] using h)]
  · intro hc rq hr
    unfold lol.verifyResponse
    rw [if_neg (by simpa [ge_iff_le] using hc)]
    simp only [hr]
    exact ⟨_, rfl, rfl, rfl, rfl⟩

theorem verifyResponse_status_witness :
    ∃ e, lol.verifyResponse ⟨404, some ⟨str "https://na.api.pvp.net/x"⟩, [], none⟩ =
        some (some e) ∧ e.Code = 404 ∧ e.URL = str "https://na.api.pvp.net/x" ∧
        e.Header = [] :=
  (verifyResponse_status ⟨404, some ⟨str "https://na.api.pvp.net/x"⟩, [], none⟩).2
    (by decide) _ rfl

/-! ## Lemmas on the URI templates -/

/-- The pieces of a split at a one-byte separator are joined back by the separator, hold
no separator, and are at least one. -/
theorem splitFrom_byte (c : UInt8) (s : GoString) :
    [c].intercalate (strings.splitFrom [c] 0 s) = s ∧
      (∀ p ∈ strings.splitFrom [c] 0 s, c ∉ p) ∧ strings.splitFrom [c] 0 s ≠ [] := by
  induction s with
  | nil => simp [strings.splitFrom, List.intercalate]
  | cons b bs ih =>
    obtain ⟨h1, h2, h3⟩ := ih
    rcases hP : strings.splitFrom [c] 0 bs with _ | ⟨p, ps⟩
    · exact absurd hP h3
    rw [hP] at h1 h2
    by_cases hb : c = b
    · subst hb
      have e : strings.splitFrom [c] 0 (c :: bs) = [] :: p :: ps := by
        simp [strings.splitFrom, hP]
      rw [e]
      refine ⟨?_, ?_, by simp⟩
      · simp only [List.intercalate, List.intersperse, List.flatten_cons, List.nil_append,
          List.singleton_append, List.cons.injEq, true_and] at h1 ⊢
        exact h1
      · intro q hq
        rcases List.mem_cons.mp hq with h | h
        · rw [h]; simp
        · exact h2 q h
    · have e : strings.splitFrom [c] 0 (b :: bs) = (b :: p) :: ps := by
        simp [strings.splitFrom, hP, hb, strings.consHead]
      rw [e]
      refine ⟨?_, ?_, by simp⟩
      · cases ps with
        | nil =>
          simp only [List.intercalate, List.intersperse, List.flatten_cons, List.flatten_nil,
            List.append_nil] at h1 ⊢
          rw [h1]
        | cons q qs =>
          simp only [List.intercalate, List.intersperse, List.flatten_cons,
            List.cons_append, List.cons.injEq, true_and] at h1 ⊢
          exact h1
      · intro q hq
        rcases List.mem_cons.mp hq with h | h
        · rw [h]
          intro hm
          rcases List.mem_cons.mp hm with h' | h'
          · exact hb h'
          · exact h2 p (List.mem_cons_self _ _) h'
        · exact h2 q (List.mem_cons_of_mem _ h)

theorem Split_byte_one (c : UInt8) (s x : GoString) (h : strings.Split s [c] = [x]) :
    x = s ∧ c ∉ s := by
  obtain ⟨h1, h2, _⟩ := splitFrom_byte c s
  unfold strings.Split at h
  rw [h] at h1 h2
  have e : x = s := by simpa [List.intercalate] using h1
  exact ⟨e, e ▸ h2 x (List.mem_cons_self _ _)⟩

theorem Split_byte_two (c : UInt8) (s a b : GoString) (h : strings.Split s [c] = [a, b]) :
    s = a ++ c :: b ∧ c ∉ a ∧ c ∉ b := by
  obtain ⟨h1, h2, _⟩ := splitFrom_byte c s
  unfold strings.Split at h
  rw [h] at h1 h2
  refine ⟨?_, h2 a (by simp), h2 b (by simp)⟩
  simpa [List.intercalate, List.intersperse] using h1.symm

theorem Split_byte_splitOn (c : UInt8) (s : GoString) :
    strings.Split s [c] = s.splitOn c := by
  unfold strings.Split
  induction s with
  | nil => simp [strings.splitFrom, List.splitOn]
  | cons b bs ih =>
    rw [List.splitOn, List.splitOnP_cons]
    rw [List.splitOn] at ih
    by_cases hb : c = b
    · subst hb
      simp [strings.splitFrom, ih]
    · have hb2 : ¬ b = c := fun e => hb e.symm
      rcases hP : List.splitOnP (fun x => x == c) bs with _ | ⟨p, ps⟩
      · exact absurd hP (List.splitOnP_ne_nil _ _)
      · simp [strings.splitFrom, ih, hP, hb, hb2, strings.consHead, List.modifyHead]

theorem Contains_byte (c : UInt8) (s : GoString) (h : strings.Contains s [c] = false) :
    c ∉ s := by
  induction s with
  | nil => simp
  | cons b bs ih =>
    simp only [strings.Contains, Bool.or_eq_false_iff] at h
    intro hm
    rcases List.mem_cons.mp hm with e | e
    · subst e
      simp at h
    · exact ih h.2 e

theorem specExpressions_skip (s rest : GoString) (h : (0x7b : UInt8) ∉ s) :
    uritemplates.specExpressions none (s ++ 0x7b :: rest) =
        uritemplates.specExpressions (some []) rest ∧
      uritemplates.specExpressions none s = [] := by
  induction s with
  | nil => simp [uritemplates.specExpressions]
  | cons b bs ih =>
    have hb : ¬ b = 0x7b := fun e => h (by simp [e])
    have hbs : (0x7b : UInt8) ∉ bs := fun e => h (by simp [e])
    simp only [List.cons_append, uritemplates.specExpressions, if_neg hb]
    exact ih hbs

theorem specExpressions_close (e rest acc : GoString) (h : (0x7d : UInt8) ∉ e) :
    uritemplates.specExpressions (some acc) (e ++ 0x7d :: rest) =
      (acc ++ e) :: uritemplates.specExpressions none rest := by
  induction e generalizing acc with
  | nil => simp [uritemplates.specExpressions]
  | cons b bs ih =>
    have hb : ¬ b = 0x7d := fun e => h (by simp [e])
    have hbs : (0x7d : UInt8) ∉ bs := fun e => h (by simp [e])
    have e := ih (acc ++ [b]) hbs
    simp only [List.cons_append, uritemplates.specExpressions, if_neg hb]
    simpa using e
theorem str_open : str "\x7b" = [0x7b] := by decide

theorem str_shut : str "\x7d" = [0x7d] := by decide

theorem str_colon : str ":" = [58] := by decide

theorem str_star : str "*" = [42] := by decide

theorem str_operators : str "+./;?&#" = [43, 46, 47, 59, 63, 38, 35] := by decide

set_option maxRecDepth 100000 in
theorem name_bytes : ∀ b : UInt8,
    (uritemplates.isNameByte b = true ∨ uritemplates.isHexByte b = true ∨ b = 37) →
      (b != 58 && b != 42) = true :=
  forall_byte _ (by decide)

theorem validnameFrom_bytes (k : Nat) (s : GoString)
    (h : uritemplates.validnameFrom k s = true) : ∀ x ∈ s, (x != 58 && x != 42) = true := by
  induction s generalizing k with
  | nil => simp
  | cons b bs ih =>
    cases k with
    | zero =>
      simp only [uritemplates.validnameFrom] at h
      by_cases h1 : uritemplates.isNameByte b = true
      · rw [if_pos h1] at h
        intro x hx
        rcases List.mem_cons.mp hx with e | e
        · rw [e]; exact name_bytes b (Or.inl h1)
        · exact ih 0 h x e
      · rw [if_neg h1] at h
        by_cases h2 : b = '%'.toUInt8
        · rw [if_pos h2] at h
          intro x hx
          rcases List.mem_cons.mp hx with e | e
          · rw [e]; exact name_bytes b (Or.inr (Or.inr h2))
          · exact ih 2 h x e
        · rw [if_neg h2] at h
          exact absurd h (by decide)
    | succ k =>
      simp only [uritemplates.validnameFrom, Bool.and_eq_true] at h
      intro x hx
      rcases List.mem_cons.mp hx with e | e
      · rw [e]; exact name_bytes b (Or.inr (Or.inl h.1))
      · exact ih k h.2 x e

theorem takeWhile_all_append {α : Type} (p : α → Bool) (a b : List α)
    (ha : ∀ x ∈ a, p x = true) : (a ++ b).takeWhile p = a ++ b.takeWhile p := by
  induction a with
  | nil => rfl
  | cons x xs ih =>
    simp only [List.cons_append, List.takeWhile_cons, ha x (List.mem_cons_self _ _), if_true]
    rw [ih (fun y hy => ha y (List.mem_cons_of_mem _ hy))]

theorem specVarName_of_valid (name rest : GoString)
    (hv : uritemplates.validname name = true)
    (hr : rest = [] ∨ (∃ r, rest = 58 :: r) ∨ (∃ r, rest = 42 :: r)) :
    uritemplates.specVarName (name ++ rest) = name := by
  have hb : ∀ x ∈ name, (x != ':'.toUInt8 && x != '*'.toUInt8) = true := by
    simp only [uritemplates.validname, Bool.and_eq_true] at hv
    exact validnameFrom_bytes 0 name hv.2
  unfold uritemplates.specVarName
  rw [takeWhile_all_append _ _ _ hb]
  rcases hr with h | ⟨r, h⟩ | ⟨r, h⟩
  · rw [h]; simp
  · rw [h, List.takeWhile_cons, if_neg (by decide)]; simp
  · rw [h, List.takeWhile_cons, if_neg (by decide)]; simp

theorem HasSuffix_byte (s : GoString) (c : UInt8) (h : strings.HasSuffix s [c] = true) :
    s = s.take (s.length - 1) ++ [c] := by
  unfold strings.HasSuffix at h
  obtain ⟨t, ht⟩ := List.isSuffixOf_iff_suffix.mp h
  rw [← ht]
  simp

/-- The name that `parseTerm` gives a term it accepts is the specifier up to its
modifier. -/
theorem parseTerm_name (P : GoString → Int × Bool) (raw : GoString)
    (t : uritemplates.templateTerm) (h : uritemplates.parseTerm P raw = (t, none)) :
    t.name = uritemplates.specVarName raw := by
  have hraw : ∀ term : GoString,
      (if strings.HasSuffix raw (str "*") = true then raw.take (raw.length - 1) else raw) =
        term → raw = term ∨ raw = term ++ [42] := by
    intro term hterm
    by_cases hs : strings.HasSuffix raw (str "*") = true
    · rw [if_pos hs] at hterm
      rw [str_star] at hs
      right
      rw [← hterm]
      exact HasSuffix_byte raw 42 hs
    · rw [if_neg hs] at hterm
      exact Or.inl hterm
  unfold uritemplates.parseTerm at h
  simp only [Prod.mk.injEq] at h
  generalize hterm : (if strings.HasSuffix raw (str "*") = true then
    raw.take (raw.length - 1) else raw) = term at h
  have hr := hraw term hterm
  rw [str_colon] at h
  obtain ⟨ht, herr⟩ := h
  rw [← ht]
  simp only
  -- the two later assignments of `err` did not happen
  rw [if_neg (fun hc => by rw [if_pos hc] at herr; exact absurd herr (by simp))] at herr
  have hval2 : uritemplates.validname
      (match strings.Split term [58] with
        | [_] => (term, (0 : Int), (none : Option uritemplates.ParseError))
        | [a, b] => (a, (P b).1,
            if (P b).2 = true then some (uritemplates.ParseError.parseInt b) else none)
        | _ => ([], 0, some uritemplates.ParseError.multipleColons)).1 = true := by
    by_contra hc
    rw [if_pos (by simpa using hc)] at herr
    exact absurd herr (by simp)
  rcases hsp : strings.Split term [58] with _ | ⟨a, _ | ⟨b, _ | ⟨c, rest⟩⟩⟩
  · rw [hsp] at hval2
    simp only at hval2
    exact absurd hval2 (by decide)
  · rw [hsp] at hval2
    simp only at hval2 ⊢
    rcases hr with e | e
    · rw [e]
      simpa using (specVarName_of_valid term [] hval2 (Or.inl rfl)).symm
    · rw [e]
      exact (specVarName_of_valid term [42] hval2 (Or.inr (Or.inr ⟨[], rfl⟩))).symm
  · rw [hsp] at hval2
    simp only at hval2 ⊢
    obtain ⟨e1, _, _⟩ := Split_byte_two 58 term a b hsp
    rcases hr with e | e
    · rw [e, e1]
      exact (specVarName_of_valid a (58 :: b) hval2 (Or.inr (Or.inl ⟨b, rfl⟩))).symm
    · rw [e, e1, List.append_assoc]
      exact (specVarName_of_valid a ((58 :: b) ++ [42]) hval2
        (Or.inr (Or.inl ⟨b ++ [42], rfl⟩))).symm
  · rw [hsp] at hval2
    simp only at hval2
    exact absurd hval2 (by decide)
theorem parseTerms_names (P : GoString → Int × Bool) :
    ∀ (pieces : List GoString) (terms : List uritemplates.templateTerm),
      uritemplates.parseTerms P pieces = .ok terms →
      terms.map (fun t => t.name) = pieces.map uritemplates.specVarName := by
  intro pieces
  induction pieces with
  | nil =>
    intro terms h
    simp only [uritemplates.parseTerms, Except.ok.injEq] at h
    rw [← h]; rfl
  | cons raw rest ih =>
    intro terms h
    unfold uritemplates.parseTerms at h
    rcases hp : uritemplates.parseTerm P raw with ⟨t, _ | err⟩
    · rw [hp] at h
      simp only at h
      cases hr : uritemplates.parseTerms P rest with
      | error e => rw [hr] at h; simp at h
      | ok ts =>
        rw [hr] at h
        simp only [Except.ok.injEq] at h
        rw [← h, List.map_cons, List.map_cons, ih ts hr, parseTerm_name P raw t hp]
    · rw [hp] at h
      simp at h

theorem operatorPart_rest (c : UInt8) (rest : GoString) :
    (uritemplates.operatorPart c rest).2 =
        (if c ∈ str "+./;?&#" then rest else c :: rest) ∧
      (uritemplates.operatorPart c rest).1.raw = [] := by
  rw [str_operators]
  unfold uritemplates.operatorPart
  rw [show '+'.toUInt8 = 43 by decide, show '.'.toUInt8 = 46 by decide,
    show '/'.toUInt8 = 47 by decide, show ';'.toUInt8 = 59 by decide,
    show '?'.toUInt8 = 63 by decide, show '&'.toUInt8 = 38 by decide,
    show '#'.toUInt8 = 35 by decide]
  split_ifs <;> simp_all

theorem parseExpression_names (P : GoString → Int × Bool) (e : GoString)
    (part : uritemplates.templatePart) (h : uritemplates.parseExpression P e = .ok part) :
    part.raw = [] ∧ part.terms ≠ [] ∧
      part.terms.map (fun t => t.name) = uritemplates.specExpressionNames e := by
  cases e with
  | nil => simp [uritemplates.parseExpression] at h
  | cons c rest =>
    unfold uritemplates.parseExpression at h
    simp only at h
    cases hr : uritemplates.parseTerms P
        (strings.Split (uritemplates.operatorPart c rest).2 (str ",")) with
    | error err => rw [hr] at h; simp at h
    | ok terms =>
      rw [hr] at h
      simp only [Except.ok.injEq] at h
      have hn := parseTerms_names P _ terms hr
      obtain ⟨e1, e2⟩ := operatorPart_rest c rest
      rw [← h]
      refine ⟨e2, ?_, ?_⟩
      · intro h0
        simp only at h0
        rw [h0, str_comma] at hn
        have := (splitFrom_byte ','.toUInt8 (uritemplates.operatorPart c rest).2).2.2
        unfold strings.Split at hn
        simp only [List.map_nil] at hn
        exact this (List.map_eq_nil_iff.mp hn.symm)
      · simp only
        rw [hn, str_comma, Split_byte_splitOn, e1]
        rfl

theorem Names_flatMap (t : uritemplates.URITemplate) :
    t.Names = t.parts.flatMap (fun p =>
      if p.raw.length > 0 ∨ p.terms.length = 0 then [] else p.terms.map (fun t => t.name)) := by
  have inner : ∀ (ts : List uritemplates.templateTerm) (acc : List GoString),
      ts.foldl (fun names term => names ++ [term.name]) acc =
        acc ++ ts.map (fun t => t.name) := by
    intro ts
    induction ts with
    | nil => intro acc; simp
    | cons a l ih => intro acc; simp [ih]
  have outer : ∀ (ps : List uritemplates.templatePart) (acc : List GoString),
      ps.foldl (fun names p =>
        if p.raw.length > 0 ∨ p.terms.length = 0 then names
        else p.terms.foldl (fun names term => names ++ [term.name]) names) acc =
      acc ++ ps.flatMap (fun p =>
        if p.raw.length > 0 ∨ p.terms.length = 0 then []
        else p.terms.map (fun t => t.name)) := by
    intro ps
    induction ps with
    | nil => intro acc; simp
    | cons a l ih =>
      intro acc
      rw [List.foldl_cons, ih, List.flatMap_cons]
      split_ifs
      · simp
      · rw [inner]; simp
  unfold uritemplates.URITemplate.Names
  simpa using outer t.parts []

theorem intercalate_cons_cons (c : UInt8) (a b : GoString) (rest : List GoString) :
    [c].intercalate (a :: b :: rest) = a ++ c :: [c].intercalate (b :: rest) := by
  simp [List.intercalate, List.intersperse]

theorem intercalate_append_head (c : UInt8) (x y : GoString) (rest : List GoString) :
    [c].intercalate ((x ++ y) :: rest) = x ++ [c].intercalate (y :: rest) := by
  cases rest with
  | nil => simp [List.intercalate, List.intersperse]
  | cons b rest => simp [List.intercalate, List.intersperse]

theorem parsePieces_names (P : GoString → Int × Bool) :
    ∀ (ss : List GoString) (parts : List uritemplates.templatePart) (lit0 : GoString),
      uritemplates.parsePieces P ss = .ok parts → (∀ s ∈ ss, (0x7b : UInt8) ∉ s) →
      (0x7b : UInt8) ∉ lit0 →
      parts.flatMap (fun p =>
        if p.raw.length > 0 ∨ p.terms.length = 0 then []
        else p.terms.map (fun t => t.name)) =
      (uritemplates.specExpressions none ([0x7b].intercalate (lit0 :: ss))).flatMap
        uritemplates.specExpressionNames := by
  intro ss
  induction ss with
  | nil =>
    intro parts lit0 h _ hl
    simp only [uritemplates.parsePieces, Except.ok.injEq] at h
    rw [← h]
    have : [(0x7b : UInt8)].intercalate [lit0] = lit0 := by simp [List.intercalate]
    rw [this, (specExpressions_skip lit0 [] hl).2]
    rfl
  | cons s ss ih =>
    intro parts lit0 h hs hl
    unfold uritemplates.parsePieces at h
    rw [str_shut] at h
    rcases hsp : strings.Split s [0x7d] with _ | ⟨e, _ | ⟨lit, _ | ⟨c, rest⟩⟩⟩
    · rw [hsp] at h; simp at h
    · rw [hsp] at h; simp at h
    · rw [hsp] at h
      simp only at h
      obtain ⟨es, he, hlit⟩ := Split_byte_two 0x7d s e lit hsp
      have hs0 := hs s (List.mem_cons_self _ _)
      have hlit2 : (0x7b : UInt8) ∉ lit := fun hm => hs0 (by rw [es]; simp [hm])
      cases hpe : uritemplates.parseExpression P e with
      | error err => rw [hpe] at h; simp at h
      | ok part =>
        rw [hpe] at h
        simp only at h
        cases hpp : uritemplates.parsePieces P ss with
        | error err => rw [hpp] at h; simp at h
        | ok parts2 =>
          rw [hpp] at h
          simp only [Except.ok.injEq] at h
          obtain ⟨p1, p2, p3⟩ := parseExpression_names P e part hpe
          have ihs := ih parts2 lit hpp (fun x hx => hs x (List.mem_cons_of_mem _ hx)) hlit2
          rw [← h, intercalate_cons_cons, (specExpressions_skip lit0 _ hl).1, es,
            show e ++ 0x7d :: lit = e ++ ([0x7d] ++ lit) by rfl, ← List.append_assoc,
            intercalate_append_head, List.append_assoc, List.singleton_append,
            specExpressions_close e _ [] he, List.flatMap_cons, List.flatMap_cons,
            List.flatMap_cons, ← ihs, List.nil_append, ← p3]
          have hp : ¬ (part.raw.length > 0 ∨ part.terms.length = 0) := by
            rw [p1]
            simp only [List.length_nil, gt_iff_lt, Nat.lt_irrefl, false_or]
            exact fun h0 => p2 (List.length_eq_zero.mp h0)
          rw [if_neg hp]
          simp [uritemplates.literalPart]
    · rw [hsp] at h; simp at h

/-- C27: for every template string that `Parse` accepts, `Names` returns the names of all
variables of all expressions of the template, in order of appearance (`specNames`, read
off the template text), and `String` returns the template string. `ParseInt` is any
function in the place of `strconv.ParseInt`. -/
theorem Parse_Names_String (ParseInt : GoString → Int × Bool) (rawtemplate : GoString)
    (t : uritemplates.URITemplate)
    (h : uritemplates.Parse ParseInt rawtemplate = .ok t) :
    t.Names = uritemplates.specNames rawtemplate ∧ t.String = rawtemplate := by
  unfold uritemplates.Parse at h
  rw [str_open] at h
  obtain ⟨j, hfree, hne⟩ := splitFrom_byte 0x7b rawtemplate
  rcases hsp : strings.Split rawtemplate [0x7b] with _ | ⟨s0, ss⟩
  · exact absurd hsp hne
  rw [hsp] at h
  simp only at h
  unfold strings.Split at hsp
  rw [hsp] at j hfree
  split at h
  · simp at h
  cases hpp : uritemplates.parsePieces ParseInt ss with
  | error err => rw [hpp] at h; simp at h
  | ok parts =>
    rw [hpp] at h
    simp only [Except.ok.injEq] at h
    refine ⟨?_, by rw [← h]; rfl⟩
    rw [Names_flatMap, ← h]
    simp only [List.flatMap_cons]
    rw [parsePieces_names ParseInt ss parts s0 hpp
      (fun s hs => hfree s (List.mem_cons_of_mem _ hs)) (hfree s0 (List.mem_cons_self _ _)), j]
    simp [uritemplates.literalPart, uritemplates.specNames]

theorem Parse_Names_String_witness :
    ∃ t, uritemplates.Parse plainParseInt (str "/api/\x7bregion\x7d/v1\x7b?a,b:3,c*\x7d") =
        .ok t ∧
      t.Names = [str "region", str "a", str "b", str "c"] ∧
      t.Names = uritemplates.specNames (str "/api/\x7bregion\x7d/v1\x7b?a,b:3,c*\x7d") ∧
      t.String = str "/api/\x7bregion\x7d/v1\x7b?a,b:3,c*\x7d" :=
  ⟨_, rfl, by decide,
    (Parse_Names_String plainParseInt (str "/api/\x7bregion\x7d/v1\x7b?a,b:3,c*\x7d") _ rfl).1,
    (Parse_Names_String plainParseInt (str "/api/\x7bregion\x7d/v1\x7b?a,b:3,c*\x7d") _ rfl).2⟩

/-! ## Lemmas on the pruning -/

theorem elementsOf_append (a b : List html.Node) :
    html.Node.elementsOf (a ++ b) = html.Node.elementsOf a ++ html.Node.elementsOf b := by
  induction a with
  | nil => simp [html.Node.elementsOf]
  | cons c rest ih => simp [html.Node.elementsOf, ih]

theorem removeIfUseless_cases (L : loldoc.Library) (tag : GoString)
    (attrs : List (GoString × GoString)) (cs : List html.Node) (s' : html.Node)
    (h : s' ∈ loldoc.removeIfUseless L (.element tag attrs cs)) :
    s' = .element tag (L.RemoveAttr (str "style") (L.RemoveAttr (str "onclick") attrs))
        (loldoc.removeEach L cs) ∧
      loldoc.isUseless L s' = false ∧
      loldoc.removeIfUseless L (.element tag attrs cs) = [s'] := by
  rw [loldoc.removeIfUseless] at h ⊢
  split at h
  · simp at h
  · split at h
    · simp at h
    · rename_i h1 h2
      simp only [List.mem_singleton] at h
      rw [if_neg h1, if_neg h2, h]
      exact ⟨rfl, by simpa using h2, rfl⟩

mutual
theorem removeIfUseless_elements (L : loldoc.Library) :
    ∀ (s s' : html.Node), s' ∈ loldoc.removeIfUseless L s →
      ∀ e ∈ s'.elements, loldoc.isUseless L e = false
  | .element tag attrs cs, s', h => by
    obtain ⟨e1, e2, _⟩ := removeIfUseless_cases L tag attrs cs s' h
    intro e he
    rw [e1, html.Node.elements] at he
    rcases List.mem_cons.mp he with h0 | h0
    · rw [h0, ← e1]; exact e2
    · exact removeEach_elements L cs e h0
  | .text d, s', h => by
    intro e he
    rw [loldoc.removeIfUseless] at h
    split at h
    · simp at h
    · simp only [List.mem_singleton] at h
      rw [h] at he
      simp [html.Node.elements] at he
  | .comment d, s', h => by
    intro e he
    rw [loldoc.removeIfUseless] at h
    split at h
    · simp at h
    · simp only [List.mem_singleton] at h
      rw [h] at he
      simp [html.Node.elements] at he
theorem removeEach_elements (L : loldoc.Library) :
    ∀ (cs : List html.Node), ∀ e ∈ html.Node.elementsOf (loldoc.removeEach L cs),
      loldoc.isUseless L e = false
  | [], e, he => by
    rw [loldoc.removeEach, html.Node.elementsOf] at he
    simp at he
  | .element tag attrs ch :: rest, e, he => by
    rw [loldoc.removeEach, elementsOf_append] at he
    rcases List.mem_append.mp he with h0 | h0
    · rcases hr : loldoc.removeIfUseless L (.element tag attrs ch) with _ | ⟨c', more⟩
      · rw [hr, html.Node.elementsOf] at h0
        simp at h0
      · have hc : c' ∈ loldoc.removeIfUseless L (.element tag attrs ch) := by
          rw [hr]; exact List.mem_cons_self _ _
        obtain ⟨_, _, e3⟩ := removeIfUseless_cases L tag attrs ch c' hc
        rw [e3, html.Node.elementsOf, html.Node.elementsOf, List.append_nil] at h0
        exact removeIfUseless_elements L (.element tag attrs ch) c' hc e h0
    · exact removeEach_elements L rest e h0
  | .text d :: rest, e, he => by
    simp only [loldoc.removeEach, html.Node.elementsOf, html.Node.elements,
      List.nil_append] at he
    exact removeEach_elements L rest e he
  | .comment d :: rest, e, he => by
    simp only [loldoc.removeEach, html.Node.elementsOf, html.Node.elements,
      List.nil_append] at he
    exact removeEach_elements L rest e he
end
theorem removeEach_append (L : loldoc.Library) (a b : List html.Node) :
    loldoc.removeEach L (a ++ b) = loldoc.removeEach L a ++ loldoc.removeEach L b := by
  induction a with
  | nil => simp [loldoc.removeEach]
  | cons c rest ih =>
    cases c with
    | element tag attrs ch => simp [loldoc.removeEach, ih]
    | text d => simp [loldoc.removeEach, ih]
    | comment d => simp [loldoc.removeEach, ih]

mutual
theorem removeIfUseless_again (L : loldoc.Library) :
    ∀ (s s' : html.Node), s' ∈ loldoc.removeIfUseless L s →
      (∀ e ∈ s.elements, removalSettles L e.attrs) → loldoc.removeIfUseless L s' = [s']
  | .element tag attrs cs, s', h, hset => by
    obtain ⟨e1, e2, _⟩ := removeIfUseless_cases L tag attrs cs s' h
    have hself := hset (.element tag attrs cs) (by simp [html.Node.elements])
    simp only [html.Node.attrs] at hself
    have hcs := removeEach_again L cs (fun e he =>
      hset e (by simp [html.Node.elements, he]))
    have e3 : loldoc.isUseless L (.element tag
        (L.RemoveAttr (str "style") (L.RemoveAttr (str "onclick") attrs))
        (loldoc.removeEach L cs)) = false := e1 ▸ e2
    rw [e1, loldoc.removeIfUseless, hself.1, hself.2, hcs, e3]
    simp
  | .text d, s', h, _ => by
    rw [loldoc.removeIfUseless] at h
    split at h
    · simp at h
    · rename_i hu
      simp only [List.mem_singleton] at h
      rw [h, loldoc.removeIfUseless, if_neg hu]
  | .comment d, s', h, _ => by
    rw [loldoc.removeIfUseless] at h
    split at h
    · simp at h
    · rename_i hu
      simp only [List.mem_singleton] at h
      rw [h, loldoc.removeIfUseless, if_neg hu]
theorem removeEach_again (L : loldoc.Library) :
    ∀ (cs : List html.Node), (∀ e ∈ html.Node.elementsOf cs, removalSettles L e.attrs) →
      loldoc.removeEach L (loldoc.removeEach L cs) = loldoc.removeEach L cs
  | [], _ => by simp [loldoc.removeEach]
  | .element tag attrs ch :: rest, hset => by
    have hrest := removeEach_again L rest (fun e he =>
      hset e (by simp [html.Node.elementsOf, he]))
    rw [loldoc.removeEach, removeEach_append, hrest]
    congr 1
    rcases hr : loldoc.removeIfUseless L (.element tag attrs ch) with _ | ⟨c', more⟩
    · simp [loldoc.removeEach]
    · have hc : c' ∈ loldoc.removeIfUseless L (.element tag attrs ch) := by
        rw [hr]; exact List.mem_cons_self _ _
      obtain ⟨e1, _, e3⟩ := removeIfUseless_cases L tag attrs ch c' hc
      have hagain := removeIfUseless_again L (.element tag attrs ch) c' hc (fun e he =>
        hset e (by simp [html.Node.elementsOf, he]))
      rw [e3] at hr
      rw [← hr]
      rw [e1] at hagain ⊢
      rw [loldoc.removeEach, hagain]
      simp [loldoc.removeEach]
  | .text d :: rest, hset => by
    have hrest := removeEach_again L rest (fun e he =>
      hset e (by simp [html.Node.elementsOf, html.Node.elements, he]))
    simp only [loldoc.removeEach, hrest]
  | .comment d :: rest, hset => by
    have hrest := removeEach_again L rest (fun e he =>
      hset e (by simp [html.Node.elementsOf, html.Node.elements, he]))
    simp only [loldoc.removeEach, hrest]
end

theorem isUseless_push (L : loldoc.Library) (e : html.Node)
    (h : loldoc.isUseless L e = false) (hp : L.Is e (str "div.push") = true) :
    (htmlutil.Children e).length ≠ 0 := by
  intro h0
  unfold loldoc.isUseless at h
  simp only [hp, h0, beq_self_eq_true, Bool.and_self, if_true] at h
  split_ifs at h

theorem plain_removalSettles (attrs : List (GoString × GoString)) :
    removalSettles loldoc.Library.plain attrs := by
  unfold removalSettles
  simp only [loldoc.Library.plain, List.filter_filter]
  constructor
  · congr 1
    funext a
    by_cases h1 : a.1 = str "onclick" <;> by_cases h2 : a.1 = str "style" <;> simp [h1, h2]
  · congr 1
    funext a
    by_cases h1 : a.1 = str "onclick" <;> by_cases h2 : a.1 = str "style" <;> simp [h1, h2]

/-- C28: after `removeIfUseless` has run on a subtree and left its root `s'` in place, no
element of the subtree satisfies `isUseless` (so an element `div.push` that remains has a
child element), and when no element of the subtree carried a second `onclick` or `style`
attribute for `RemoveAttr` to find, running `removeIfUseless` again leaves the subtree as
it is. -/
theorem removeIfUseless_prunes (L : loldoc.Library) (s s' : html.Node)
    (h : s' ∈ loldoc.removeIfUseless L s) :
    (∀ e ∈ s'.elements, loldoc.isUseless L e = false) ∧
      (∀ e ∈ s'.elements, L.Is e (str "div.push") = true →
        (htmlutil.Children e).length ≠ 0) ∧
      ((∀ e ∈ s.elements, removalSettles L e.attrs) →
        loldoc.removeIfUseless L s' = [s']) :=
  ⟨removeIfUseless_elements L s s' h,
    fun e he hp => isUseless_push L e (removeIfUseless_elements L s s' h e he) hp,
    removeIfUseless_again L s s' h⟩

theorem removeIfUseless_prunes_witness :
    loldoc.removeIfUseless loldoc.Library.plain prunedPage = [prunedResult] ∧
      (∀ e ∈ prunedResult.elements, loldoc.isUseless loldoc.Library.plain e = false) ∧
      loldoc.removeIfUseless loldoc.Library.plain prunedResult = [prunedResult] :=
  ⟨rfl,
    (removeIfUseless_prunes loldoc.Library.plain prunedPage prunedResult
      (List.mem_singleton.mpr rfl)).1,
    (removeIfUseless_prunes loldoc.Library.plain prunedPage prunedResult
      (List.mem_singleton.mpr rfl)).2.2 (fun e _ => plain_removalSettles e.attrs)⟩

/-! ## Lemmas on the parser of the method pages -/

theorem Outcome_bind_ok {α β : Type} (x : htmlutil.Outcome α) (f : α → htmlutil.Outcome β)
    (b : β) (h : (x >>= f) = .ok b) : ∃ a, x = .ok a ∧ f a = .ok b := by
  cases x with
  | ok a => exact ⟨a, rfl, h⟩
  | error e => exact absurd h (by simp [bind, htmlutil.Outcome.bind])
  | panic e => exact absurd h (by simp [bind, htmlutil.Outcome.bind])

theorem Outcome_wrap_ok {α : Type} (w : htmlutil.Failure → htmlutil.Failure)
    (x : htmlutil.Outcome α) (v : α) (h : x.wrap w = .ok v) : x = .ok v := by
  cases x with
  | ok a => simpa [htmlutil.Outcome.wrap] using h
  | error e => simp [htmlutil.Outcome.wrap] at h
  | panic e => simp [htmlutil.Outcome.wrap] at h

theorem Outcome_ofPatcher_ok {α : Type} (x : Except patcher.GoError α) (v : α)
    (h : htmlutil.Outcome.ofPatcher x = .ok v) : x = .ok v := by
  cases x with
  | ok a => simpa [htmlutil.Outcome.ofPatcher] using h
  | error e => simp [htmlutil.Outcome.ofPatcher] at h

theorem Outcome_pure_ok {α : Type} (a b : α)
    (h : (pure a : htmlutil.Outcome α) = .ok b) : a = b :=
  htmlutil.Outcome.ok.inj h

theorem pathParamRow_typed (L : loldoc.Library) (p : patcher.Patches) (c : Option GoString)
    (tr : html.Node) (q : loldoc.Parameter) (h : loldoc.pathParamRow L p c tr = .ok q) :
    q.Type_ ≠ none := by
  unfold loldoc.pathParamRow at h
  repeat (obtain ⟨_, -, h⟩ := Outcome_bind_ok _ _ _ h)
  have := Outcome_pure_ok _ _ h
  rw [← this]
  simp

theorem queryParamRow_typed (L : loldoc.Library) (p : patcher.Patches) (c : Option GoString)
    (tr : html.Node) (q : loldoc.Parameter) (h : loldoc.queryParamRow L p c tr = .ok q) :
    q.Type_ ≠ none := by
  unfold loldoc.queryParamRow at h
  repeat (obtain ⟨_, -, h⟩ := Outcome_bind_ok _ _ _ h)
  have := Outcome_pure_ok _ _ h
  rw [← this]
  simp

theorem pathParamRows_typed (L : loldoc.Library) (p : patcher.Patches) (c : Option GoString) :
    ∀ (rows : List html.Node) (acc params : List loldoc.Parameter),
      loldoc.pathParamRows L p c rows acc = .ok params →
      ∃ new, params = acc ++ new ∧ ∀ q ∈ new, q.Type_ ≠ none := by
  intro rows
  induction rows with
  | nil =>
    intro acc params h
    simp only [loldoc.pathParamRows, htmlutil.Outcome.ok.injEq] at h
    exact ⟨[], by simp [h], by simp⟩
  | cons tr rest ih =>
    intro acc params h
    rw [loldoc.pathParamRows] at h
    cases hr : loldoc.pathParamRow L p c tr with
    | ok q =>
      rw [hr] at h
      obtain ⟨new, e1, e2⟩ := ih _ _ h
      refine ⟨q :: new, by simp [e1], ?_⟩
      intro x hx
      rcases List.mem_cons.mp hx with e | e
      · rw [e]; exact pathParamRow_typed L p c tr q hr
      · exact e2 x e
    | error e => rw [hr] at h; simp at h
    | panic e => rw [hr] at h; simp at h

theorem queryParamRows_typed (L : loldoc.Library) (p : patcher.Patches)
    (c : Option GoString) :
    ∀ (rows : List html.Node) (acc params : List loldoc.Parameter),
      loldoc.queryParamRows L p c rows acc = .ok params →
      ∃ new, params = acc ++ new ∧ ∀ q ∈ new, q.Type_ ≠ none := by
  intro rows
  induction rows with
  | nil =>
    intro acc params h
    simp only [loldoc.queryParamRows, htmlutil.Outcome.ok.injEq] at h
    exact ⟨[], by simp [h], by simp⟩
  | cons tr rest ih =>
    intro acc params h
    rw [loldoc.queryParamRows] at h
    cases hr : loldoc.queryParamRow L p c tr with
    | ok q =>
      rw [hr] at h
      obtain ⟨new, e1, e2⟩ := ih _ _ h
      refine ⟨q :: new, by simp [e1], ?_⟩
      intro x hx
      rcases List.mem_cons.mp hx with e | e
      · rw [e]; exact queryParamRow_typed L p c tr q hr
      · exact e2 x e
    | error e => rw [hr] at h; simp at h
    | panic e => rw [hr] at h; simp at h

theorem parsePathParams_typed (L : loldoc.Library) (p : patcher.Patches)
    (c : Option GoString) (s : html.Node) (params : List loldoc.Parameter)
    (h : loldoc.parsePathParams L p c s = .ok params) : ∀ q ∈ params, q.Type_ ≠ none := by
  unfold loldoc.parsePathParams at h
  repeat (obtain ⟨_, -, h⟩ := Outcome_bind_ok _ _ _ h)
  obtain ⟨new, e1, e2⟩ := pathParamRows_typed L p c _ _ _ h
  rw [e1]
  simpa using e2

theorem parseQueryParams_typed (L : loldoc.Library) (p : patcher.Patches)
    (c : Option GoString) (s : html.Node) (params : List loldoc.Parameter)
    (h : loldoc.parseQueryParams L p c s = .ok params) : ∀ q ∈ params, q.Type_ ≠ none := by
  unfold loldoc.parseQueryParams at h
  repeat (obtain ⟨_, -, h⟩ := Outcome_bind_ok _ _ _ h)
  obtain ⟨new, e1, e2⟩ := queryParamRows_typed L p c _ _ _ h
  rw [e1]
  simpa using e2

/-- The loop over the response bodies leaves the parameters, the request path and the
resource ID as they are. -/
theorem responseClassesLoop_frame (L : loldoc.Library) (p : patcher.Patches)
    (c : Option GoString) :
    ∀ (bodies : List html.Node) (st st' : loldoc.Resource × loldoc.Operation),
      loldoc.responseClassesLoop L p c bodies st = .ok st' →
      st'.2.PathParams = st.2.PathParams ∧ st'.2.QueryParams = st.2.QueryParams ∧
        st'.2.RequestPath = st.2.RequestPath ∧ st'.1.ID = st.1.ID := by
  intro bodies
  induction bodies with
  | nil =>
    intro st st' h
    simp only [loldoc.responseClassesLoop, htmlutil.Outcome.ok.injEq] at h
    rw [h]
    exact ⟨rfl, rfl, rfl, rfl⟩
  | cons b rest ih =>
    intro st st' h
    rw [loldoc.responseClassesLoop] at h
    split at h
    · cases hr : loldoc.returnValue p st.1.ID b with
      | ok t =>
        rw [hr] at h
        have hh := ih _ _ h
        exact hh
      | error e => rw [hr] at h; simp at h
      | panic e => rw [hr] at h; simp at h
    · split at h
      · cases hr : loldoc.parseResponseClass L p c b with
        | ok cls =>
          rw [hr] at h
          have hh := ih _ _ h
          exact hh
        | error e => rw [hr] at h; simp at h
        | panic e => rw [hr] at h; simp at h
      · simp at h
theorem reverseFrom_eq (ss : List html.Node) :
    ∀ (n : Nat) (ret : List html.Node), n ≤ ss.length →
      htmlutil.reverseFrom ss n ret = ret ++ (ss.take n).reverse := by
  intro n
  induction n with
  | zero => intro ret _; simp [htmlutil.reverseFrom]
  | succ i ih =>
    intro ret hn
    have hi : i < ss.length := by omega
    rw [htmlutil.reverseFrom, List.getElem?_eq_getElem hi]
    simp only
    have e : List.take (i + 1) ss = List.take i ss ++ [ss[i]] := by
      rw [List.take_succ, List.getElem?_eq_getElem hi]
      rfl
    rw [ih _ (by omega), e, List.reverse_append, List.append_assoc]
    rfl

theorem Sels_Reverse_eq (ss : List html.Node) : htmlutil.Sels.Reverse ss = ss.reverse := by
  unfold htmlutil.Sels.Reverse
  rw [reverseFrom_eq ss ss.length [] (le_refl _)]
  simp

theorem definitions_kept (m : List (GoString × loldoc.Schema)) (cls : loldoc.Schema)
    (k : GoString) (h : ∃ v, m.lookup k = some v ∧ v.OrigName = k) :
    ∃ v, (mapSet m cls.OrigName cls).lookup k = some v ∧ v.OrigName = k := by
  rw [mapSet_lookup]
  by_cases hk : k = cls.OrigName
  · rw [if_pos hk]
    exact ⟨cls, rfl, hk.symm⟩
  · rw [if_neg hk]
    exact h

/-- The loop over the response bodies, when it ends without error: every body had one or
three child elements; the class of every body with three is registered under its original
name; every body with one gave a return type, and the return type of the operation is the
one of such a body. -/
theorem responseClassesLoop_ok (L : loldoc.Library) (p : patcher.Patches)
    (c : Option GoString) :
    ∀ (bodies : List html.Node) (st st' : loldoc.Resource × loldoc.Operation),
      loldoc.responseClassesLoop L p c bodies st = .ok st' →
      (∀ b ∈ bodies, (htmlutil.Children b).length = 1 ∨ (htmlutil.Children b).length = 3) ∧
      (∀ k, (∃ v, st.1.Definitions.lookup k = some v ∧ v.OrigName = k) →
        ∃ v, st'.1.Definitions.lookup k = some v ∧ v.OrigName = k) ∧
      (∀ b ∈ bodies, (htmlutil.Children b).length = 3 →
        ∃ cls, loldoc.parseResponseClass L p c b = .ok cls ∧
          ∃ v, st'.1.Definitions.lookup cls.OrigName = some v ∧
            v.OrigName = cls.OrigName) ∧
      (∀ b ∈ bodies, (htmlutil.Children b).length = 1 →
        ∃ t, loldoc.returnValue p st.1.ID b = .ok t) ∧
      ((∃ b ∈ bodies, (htmlutil.Children b).length = 1) →
        ∃ b ∈ bodies, (htmlutil.Children b).length = 1 ∧
          ∃ t, loldoc.returnValue p st.1.ID b = .ok t ∧ st'.2.OrigReturnType = some t) ∧
      ((∀ b ∈ bodies, (htmlutil.Children b).length ≠ 1) →
        st'.2.OrigReturnType = st.2.OrigReturnType) := by
  intro bodies
  induction bodies with
  | nil =>
    intro st st' h
    simp only [loldoc.responseClassesLoop, htmlutil.Outcome.ok.injEq] at h
    rw [← h]
    simp
  | cons b rest ih =>
    intro st st' h
    rw [loldoc.responseClassesLoop] at h
    by_cases h1 : (htmlutil.Children b).length = 1
    · rw [if_pos h1] at h
      cases hr : loldoc.returnValue p st.1.ID b with
      | error e => rw [hr] at h; simp at h
      | panic e => rw [hr] at h; simp at h
      | ok t =>
        rw [hr] at h
        obtain ⟨i1, i2, i3, i4, i5, i6⟩ := ih _ _ h
        simp only at i2 i4 i5 i6
        refine ⟨?_, i2, ?_, ?_, ?_, ?_⟩
        · intro x hx
          rcases List.mem_cons.mp hx with e | e
          · rw [e]; exact Or.inl h1
          · exact i1 x e
        · intro x hx h3
          rcases List.mem_cons.mp hx with e | e
          · rw [e] at h3; omega
          · exact i3 x e h3
        · intro x hx hx1
          rcases List.mem_cons.mp hx with e | e
          · rw [e]; exact ⟨t, hr⟩
          · exact i4 x e hx1
        · intro _
          by_cases hrest : ∃ x ∈ rest, (htmlutil.Children x).length = 1
          · obtain ⟨x, hx, hx1, t', ht', hset⟩ := i5 hrest
            exact ⟨x, List.mem_cons_of_mem _ hx, hx1, t', ht', hset⟩
          · have hnone : ∀ x ∈ rest, (htmlutil.Children x).length ≠ 1 :=
              fun x hx hx1 => hrest ⟨x, hx, hx1⟩
            exact ⟨b, List.mem_cons_self _ _, h1, t, hr, i6 hnone⟩
        · intro hno
          exact absurd h1 (hno b (List.mem_cons_self _ _))
    · rw [if_neg h1] at h
      by_cases h3 : (htmlutil.Children b).length = 3
      · rw [if_pos h3] at h
        cases hr : loldoc.parseResponseClass L p c b with
        | error e => rw [hr] at h; simp at h
        | panic e => rw [hr] at h; simp at h
        | ok cls =>
          rw [hr] at h
          obtain ⟨i1, i2, i3, i4, i5, i6⟩ := ih _ _ h
          simp only at i2 i4 i5 i6
          have hown : ∃ v, (mapSet st.1.Definitions cls.OrigName cls).lookup cls.OrigName =
              some v ∧ v.OrigName = cls.OrigName := by
            rw [mapSet_lookup, if_pos rfl]
            exact ⟨cls, rfl, rfl⟩
          refine ⟨?_, ?_, ?_, ?_, ?_, ?_⟩
          · intro x hx
            rcases List.mem_cons.mp hx with e | e
            · rw [e]; exact Or.inr h3
            · exact i1 x e
          · intro k hk
            exact i2 k (definitions_kept _ cls k hk)
          · intro x hx hx3
            rcases List.mem_cons.mp hx with e | e
            · rw [e]; exact ⟨cls, hr, i2 _ hown⟩
            · exact i3 x e hx3
          · intro x hx hx1
            rcases List.mem_cons.mp hx with e | e
            · rw [e] at hx1; exact absurd hx1 h1
            · exact i4 x e hx1
          · rintro ⟨x, hx, hx1⟩
            rcases List.mem_cons.mp hx with e | e
            · rw [e] at hx1; exact absurd hx1 h1
            · obtain ⟨y, hy, hy1, t', ht', hset⟩ := i5 ⟨x, e, hx1⟩
              exact ⟨y, List.mem_cons_of_mem _ hy, hy1, t', ht', hset⟩
          · intro hno
            exact i6 (fun x hx => hno x (List.mem_cons_of_mem _ hx))
      · rw [if_neg h3] at h
        simp at h

/-- Under the heading "Response Classes", `parseAPIBlock` is the loop over the response
bodies, last body first. -/
theorem parseAPIBlock_loop (L : loldoc.Library) (p : patcher.Patches) (c : Option GoString)
    (res : loldoc.Resource) (op : loldoc.Operation) (s h4 : html.Node)
    (hs : L.Is s (str ".api_block") = true)
    (hfirst : (htmlutil.Children s).head? = some h4)
    (hh4 : htmlutil.Is h4 (str "h4") = true)
    (htype : (htmlutil.EatText L h4).1 = .ok (str "Response Classes")) :
    loldoc.parseAPIBlock L p c res op s =
      loldoc.responseClassesLoop L p c
        (htmlutil.Sels.Reverse (htmlutil.ChildrenFilteredSel L
          (htmlutil.withChildren s (htmlutil.replaceFirst html.Node.isElement
            (htmlutil.EatText L h4).2 (htmlutil.Contents s)))
          (str ".block.response_body"))) (res, op) := by
  rcases hc : htmlutil.Children s with _ | ⟨x, xs⟩
  · rw [hc] at hfirst; simp at hfirst
  rw [hc] at hfirst
  simp only [List.head?_cons, Option.some.injEq] at hfirst
  subst hfirst
  unfold loldoc.parseAPIBlock
  simp only [htmlutil.EnsureSel, hs, if_true, bind, htmlutil.Outcome.bind, hc,
    List.length_cons, Nat.add_one_ne_zero, if_false, htmlutil.First, htmlutil.Ensure, hh4,
    htype]
/-- C29: in a block whose heading reads "Response Classes", `parseAPIBlock` fails as soon
as a response body has a number of child elements other than one or three (no body is
passed over); when it returns without error, the class of every body with three child
elements is registered in `Definitions` under its original name, every body with one child
element was read as a return-type declaration, and the return type of the operation is
the one that such a body declares. -/
theorem parseAPIBlock_response_bodies (L : loldoc.Library) (p : patcher.Patches)
    (c : Option GoString) (res : loldoc.Resource) (op : loldoc.Operation)
    (s h4 : html.Node) (bodies : List html.Node)
    (hs : L.Is s (str ".api_block") = true)
    (hfirst : (htmlutil.Children s).head? = some h4)
    (hh4 : htmlutil.Is h4 (str "h4") = true)
    (htype : (htmlutil.EatText L h4).1 = .ok (str "Response Classes"))
    (hb : bodies = htmlutil.ChildrenFilteredSel L
      (htmlutil.withChildren s (htmlutil.replaceFirst html.Node.isElement
        (htmlutil.EatText L h4).2 (htmlutil.Contents s))) (str ".block.response_body")) :
    ((∃ b ∈ bodies, (htmlutil.Children b).length ≠ 1 ∧ (htmlutil.Children b).length ≠ 3) →
        ∀ st, loldoc.parseAPIBlock L p c res op s ≠ .ok st) ∧
      (∀ st, loldoc.parseAPIBlock L p c res op s = .ok st →
        (∀ b ∈ bodies, (htmlutil.Children b).length = 3 →
          ∃ cls, loldoc.parseResponseClass L p c b = .ok cls ∧
            ∃ v, st.1.Definitions.lookup cls.OrigName = some v ∧
              v.OrigName = cls.OrigName) ∧
        (∀ b ∈ bodies, (htmlutil.Children b).length = 1 →
          (∃ t, loldoc.returnValue p res.ID b = .ok t) ∧
            ∃ b' ∈ bodies, (htmlutil.Children b').length = 1 ∧
              ∃ t', loldoc.returnValue p res.ID b' = .ok t' ∧
                st.2.OrigReturnType = some t')) := by
  have hloop := parseAPIBlock_loop L p c res op s h4 hs hfirst hh4 htype
  rw [Sels_Reverse_eq, ← hb] at hloop
  rw [hloop]
  constructor
  · rintro ⟨b, hbm, h1, h3⟩ st hst
    obtain ⟨i1, _⟩ := responseClassesLoop_ok L p c _ _ _ hst
    rcases i1 b (List.mem_reverse.mpr hbm) with e | e
    · exact h1 e
    · exact h3 e
  · intro st hst
    obtain ⟨_, _, i3, i4, i5, _⟩ := responseClassesLoop_ok L p c _ _ _ hst
    constructor
    · intro b hbm h3
      exact i3 b (List.mem_reverse.mpr hbm) h3
    · intro b hbm h1
      refine ⟨i4 b (List.mem_reverse.mpr hbm) h1, ?_⟩
      obtain ⟨b', hb', e1, t', e2, e3⟩ := i5 ⟨b, List.mem_reverse.mpr hbm, h1⟩
      exact ⟨b', List.mem_reverse.mp hb', e1, t', e2, e3⟩

set_option maxRecDepth 100000 in
theorem parseAPIBlock_response_bodies_witness :
    loldoc.parseAPIBlock loldoc.Library.plain patcher.overrides (some (str "champion"))
        (resourceOf (str "champion")) loldoc.Operation.zero championBlock =
      .ok championBlockParsed ∧
    (∃ cls, loldoc.parseResponseClass loldoc.Library.plain patcher.overrides
        (some (str "champion")) championClassBody = .ok cls ∧
      ∃ v, championBlockParsed.1.Definitions.lookup cls.OrigName = some v ∧
        v.OrigName = cls.OrigName) ∧
    loldoc.parseAPIBlock loldoc.Library.plain patcher.overrides
        (some (str "champion")) (resourceOf (str "champion")) loldoc.Operation.zero
        (responseClassesBlock [classed (str "div") (str "block response_body")
          [leaf (str "b") (str "x"), leaf (str "b") (str "y")]]) ≠
      .ok championBlockParsed :=
  ⟨by decide,
    ((parseAPIBlock_response_bodies loldoc.Library.plain patcher.overrides
      (some (str "champion")) (resourceOf (str "champion")) loldoc.Operation.zero
      championBlock (leaf (str "h4") (str "Response Classes"))
      [returnBody (str " ChampionDto"), championClassBody]
      (by decide) rfl (by decide) (by decide) rfl).2 championBlockParsed (by decide)).1
      championClassBody (List.mem_cons_of_mem _ (List.mem_cons_self _ _)) (by decide),
    (parseAPIBlock_response_bodies loldoc.Library.plain patcher.overrides
      (some (str "champion")) (resourceOf (str "champion")) loldoc.Operation.zero
      (responseClassesBlock [classed (str "div") (str "block response_body")
        [leaf (str "b") (str "x"), leaf (str "b") (str "y")]])
      (leaf (str "h4") (str "Response Classes"))
      [classed (str "div") (str "block response_body")
        [leaf (str "b") (str "x"), leaf (str "b") (str "y")]]
      (by decide) rfl (by decide) (by decide) rfl).1
      ⟨_, List.mem_cons_self _ _, by decide, by decide⟩ championBlockParsed⟩
/-- What a block may change of an operation: it appends typed path parameters, it keeps
the query parameters or sets them to typed ones, and it keeps the request path and the
resource ID. -/
theorem parseAPIBlock_params (L : loldoc.Library) (p : patcher.Patches)
    (c : Option GoString) (res : loldoc.Resource) (op : loldoc.Operation) (s : html.Node)
    (st' : loldoc.Resource × loldoc.Operation)
    (h : loldoc.parseAPIBlock L p c res op s = .ok st') :
    (∃ new, st'.2.PathParams = op.PathParams ++ new ∧ ∀ q ∈ new, q.Type_ ≠ none) ∧
      (st'.2.QueryParams = op.QueryParams ∨ ∀ q ∈ st'.2.QueryParams, q.Type_ ≠ none) ∧
      st'.2.RequestPath = op.RequestPath ∧ st'.1.ID = res.ID := by
  have keep : ∀ st : loldoc.Resource × loldoc.Operation,
      st.2.PathParams = op.PathParams → st.2.QueryParams = op.QueryParams →
      st.2.RequestPath = op.RequestPath → st.1.ID = res.ID →
      (∃ new, st.2.PathParams = op.PathParams ++ new ∧ ∀ q ∈ new, q.Type_ ≠ none) ∧
        (st.2.QueryParams = op.QueryParams ∨ ∀ q ∈ st.2.QueryParams, q.Type_ ≠ none) ∧
        st.2.RequestPath = op.RequestPath ∧ st.1.ID = res.ID :=
    fun st h1 h2 h3 h4 => ⟨⟨[], by simp [h1], by simp⟩, Or.inl h2, h3, h4⟩
  unfold loldoc.parseAPIBlock at h
  obtain ⟨_, -, h⟩ := Outcome_bind_ok _ _ _ h
  split at h
  · rw [← Outcome_pure_ok _ _ h]
    exact keep _ rfl rfl rfl rfl
  · repeat (obtain ⟨_, -, h⟩ := Outcome_bind_ok _ _ _ h)
    split at h
    · obtain ⟨h1, h2, h3, h4⟩ := responseClassesLoop_frame L p c _ _ _ h
      exact keep _ h1 h2 h3 h4
    split at h
    · obtain ⟨_, -, h⟩ := Outcome_bind_ok _ _ _ h
      rw [← Outcome_pure_ok _ _ h]
      exact keep _ rfl rfl rfl rfl
    split at h
    · obtain ⟨params, hp, h⟩ := Outcome_bind_ok _ _ _ h
      rw [← Outcome_pure_ok _ _ h]
      exact ⟨⟨[], by simp, by simp⟩,
        Or.inr (parseQueryParams_typed L p c _ params (Outcome_wrap_ok _ _ _ hp)), rfl, rfl⟩
    split at h
    · obtain ⟨params, hp, h⟩ := Outcome_bind_ok _ _ _ h
      rw [← Outcome_pure_ok _ _ h]
      exact ⟨⟨params, rfl,
        parsePathParams_typed L p c _ params (Outcome_wrap_ok _ _ _ hp)⟩, Or.inl rfl, rfl, rfl⟩
    split at h
    · rw [← Outcome_pure_ok _ _ h]
      exact keep _ rfl rfl rfl rfl
    split at h
    · repeat (obtain ⟨_, -, h⟩ := Outcome_bind_ok _ _ _ h)
      rw [← Outcome_pure_ok _ _ h]
      exact keep _ rfl rfl rfl rfl
    split at h
    · repeat (obtain ⟨_, -, h⟩ := Outcome_bind_ok _ _ _ h)
      rw [← Outcome_pure_ok _ _ h]
      exact keep _ rfl rfl rfl rfl
    · simp at h

theorem parseAPIBlocks_params (L : loldoc.Library) (p : patcher.Patches)
    (c : Option GoString) :
    ∀ (blocks : List html.Node) (st st' : loldoc.Resource × loldoc.Operation),
      loldoc.parseAPIBlocks L p c blocks st = .ok st' →
      (∃ new, st'.2.PathParams = st.2.PathParams ++ new ∧ ∀ q ∈ new, q.Type_ ≠ none) ∧
        (st'.2.QueryParams = st.2.QueryParams ∨ ∀ q ∈ st'.2.QueryParams, q.Type_ ≠ none) ∧
        st'.2.RequestPath = st.2.RequestPath ∧ st'.1.ID = st.1.ID := by
  intro blocks
  induction blocks with
  | nil =>
    intro st st' h
    simp only [loldoc.parseAPIBlocks, htmlutil.Outcome.ok.injEq] at h
    rw [h]
    exact ⟨⟨[], by simp, by simp⟩, Or.inl rfl, rfl, rfl⟩
  | cons b rest ih =>
    intro st st' h
    rw [loldoc.parseAPIBlocks] at h
    cases hr : loldoc.parseAPIBlock L p c st.1 st.2 b with
    | ok st1 =>
      rw [hr] at h
      obtain ⟨⟨n1, a1, a2⟩, a3, a4, a5⟩ := parseAPIBlock_params L p c _ _ _ _ hr
      obtain ⟨⟨n2, b1, b2⟩, b3, b4, b5⟩ := ih _ _ h
      refine ⟨⟨n1 ++ n2, by rw [b1, a1, List.append_assoc], ?_⟩, ?_, by rw [b4, a4],
        by rw [b5, a5]⟩
      · intro q hq
        rcases List.mem_append.mp hq with e | e
        · exact a2 q e
        · exact b2 q e
      · rcases b3 with e | e
        · rcases a3 with e' | e'
          · exact Or.inl (by rw [e, e'])
          · exact Or.inr (by rw [e]; exact e')
        · exact Or.inr e
    | error e => rw [hr] at h; simp at h
    | panic e => rw [hr] at h; simp at h

set_option maxRecDepth 100000 in
theorem overrides_no_Region :
    ∀ e ∈ patcher.overrides.Resources, e.2.Classes.lookup (str "Region") = none := by
  decide

/-- With the shipped registry the class `Region` resolves for no resource: the error of
`patcher.Type(res.ID, "Region")` is what `parseOperation` drops. -/
theorem Type_Region_error (resID : GoString) :
    ∃ err, patcher.Type_ patcher.overrides resID (str "Region") = .error err := by
  rw [Type_to_ClassType _ _ _ (by decide) (by decide) (by decide) (by decide) (by decide)
    (by decide)]
  unfold patcher.ClassType
  rw [if_neg (fun hc => absurd hc.2 (by decide))]
  unfold patcher.ForClass patcher.forResource
  cases hl : patcher.overrides.Resources.lookup resID with
  | none => exact ⟨_, rfl⟩
  | some rp =>
    have hc := overrides_no_Region (resID, rp) (lookup_some_mem _ _ _ hl)
    simp only [patcher.ResPatch.Class, hc]
    exact ⟨_, rfl⟩

theorem implicitParams_overrides (resID requestPath : GoString) :
    ∀ q ∈ loldoc.implicitParams patcher.overrides resID requestPath [],
      q.Type_ = none ∧ (q.Name = str "region" ∨ q.Name = str "platformId") := by
  obtain ⟨err, he⟩ := Type_Region_error resID
  unfold loldoc.implicitParams
  simp only [List.foldl_cons, List.foldl_nil, he]
  intro q hq
  split_ifs at hq
  · simp only [List.nil_append, List.mem_append, List.mem_singleton, List.mem_cons,
      List.not_mem_nil, or_false] at hq
    rcases hq with e | e <;> simp [e]
  · simp only [List.nil_append, List.mem_singleton] at hq
    simp [hq]
  · simp only [List.nil_append, List.mem_singleton] at hq
    simp [hq]
  · simp at hq
set_option maxRecDepth 100000 in
/-- C30: the operation `GET /shards/{region}` of the resource `lol-status` is parsed
without error with the shipped registry, and the parameter made for the placeholder
`{region}` has a null `Type`: no resource registers a class `Region`, and the error of
`patcher.Type(res.ID, "Region")` is dropped. The sibling path does not drop it: a row of
path parameters with the same type text makes `parsePathParams` return the error. -/
theorem parseOperation_implicit_type_null :
    loldoc.parseOperation loldoc.Library.plain patcher.overrides (some (str "lol-status"))
        (resourceOf (str "lol-status")) shardOperation =
      .ok (resourceOf (str "lol-status"), shardParsed) ∧
    shardParsed.PathParams = [⟨str "region", [], false, none⟩] ∧
    patcher.Type_ patcher.overrides (str "lol-status") (str "Region") =
      .error (.unknownType (str "Region") (.classOverrideRequired (str "Region"))) ∧
    loldoc.pathParamRow loldoc.Library.plain patcher.overrides (some (str "lol-status"))
        (paramRow (str "required") (str "region") (str "Region") (str "Region")) =
      .error (.patcher (.unknownType (str "Region")
        (.classOverrideRequired (str "Region")))) := by
  decide

/-- The parameters of every operation returned by a successful `parseOperation` with the
shipped registry: the path parameters are the parameters made for the placeholders
`{region}` and `{platformId}` of the request path, whose `Type` is null, followed by the
parameters read from the tables of path parameters, whose `Type` is non-null; the `Type`
of every query parameter is non-null. -/
theorem parseOperation_parameter_types (L : loldoc.Library) (c : Option GoString)
    (res : loldoc.Resource) (s : html.Node) (st : loldoc.Resource × loldoc.Operation)
    (h : loldoc.parseOperation L patcher.overrides c res s = .ok st) :
    ∃ declared, st.2.PathParams =
        loldoc.implicitParams patcher.overrides res.ID st.2.RequestPath [] ++ declared ∧
      (∀ q ∈ loldoc.implicitParams patcher.overrides res.ID st.2.RequestPath [],
        q.Type_ = none ∧ (q.Name = str "region" ∨ q.Name = str "platformId")) ∧
      (∀ q ∈ declared, q.Type_ ≠ none) ∧
      (∀ q ∈ st.2.QueryParams, q.Type_ ≠ none) := by
  unfold loldoc.parseOperation at h
  obtain ⟨_, -, h⟩ := Outcome_bind_ok _ _ _ h
  obtain ⟨⟨requestPath, description, s1⟩, -, h⟩ := Outcome_bind_ok _ _ _ h
  simp only at h
  obtain ⟨patch, -, h⟩ := Outcome_bind_ok _ _ _ h
  obtain ⟨httpMethod, -, h⟩ := Outcome_bind_ok _ _ _ h
  obtain ⟨⟨new, a1, a2⟩, a3, a4, _⟩ := parseAPIBlocks_params L patcher.overrides c _ _ _ h
  simp only at a1 a3 a4
  rw [a4]
  refine ⟨new, a1, implicitParams_overrides _ _, a2, ?_⟩
  rcases a3 with e | e
  · rw [e]
    intro q hq
    simp [loldoc.Operation.zero] at hq
  · exact e

set_option maxRecDepth 100000 in
theorem parseOperation_parameter_types_witness :
    loldoc.parseOperation loldoc.Library.plain patcher.overrides (some (str "champion"))
        (resourceOf (str "champion")) championOperation =
      .ok (resourceOf (str "champion"), championParsed) ∧
    ∃ declared, championParsed.PathParams =
        loldoc.implicitParams patcher.overrides (str "champion")
          championParsed.RequestPath [] ++ declared ∧
      (∀ q ∈ loldoc.implicitParams patcher.overrides (str "champion")
          championParsed.RequestPath [],
        q.Type_ = none ∧ (q.Name = str "region" ∨ q.Name = str "platformId")) ∧
      (∀ q ∈ declared, q.Type_ ≠ none) ∧
      (∀ q ∈ championParsed.QueryParams, q.Type_ ≠ none) :=
  ⟨by decide,
    parseOperation_parameter_types loldoc.Library.plain (some (str "champion"))
      (resourceOf (str "champion")) championOperation
      (resourceOf (str "champion"), championParsed) (by decide)⟩

/-- C34: for every sequence of handles `ss`, `Sels.Reverse` returns a sequence of the
same length whose `i`-th element is the `(n-1-i)`-th element of `ss`, and reversing twice
gives `ss` back. -/
theorem Sels_Reverse_index (ss : List html.Node) (i : Nat) (h : i < ss.length) :
    (htmlutil.Sels.Reverse ss).length = ss.length ∧
      (htmlutil.Sels.Reverse ss)[i]? = ss[ss.length - 1 - i]? ∧
      htmlutil.Sels.Reverse (htmlutil.Sels.Reverse ss) = ss := by
  rw [Sels_Reverse_eq, Sels_Reverse_eq, List.reverse_reverse]
  refine ⟨List.length_reverse ss, ?_, rfl⟩
  rw [List.getElem?_reverse h]

theorem Sels_Reverse_index_witness :
    1 < [html.Node.text (str "a"), html.Node.text (str "b"), html.Node.text (str "c")].length ∧
      (htmlutil.Sels.Reverse
          [html.Node.text (str "a"), html.Node.text (str "b"), html.Node.text (str "c")]).length
        = [html.Node.text (str "a"), html.Node.text (str "b"), html.Node.text (str "c")].length ∧
      (htmlutil.Sels.Reverse
          [html.Node.text (str "a"), html.Node.text (str "b"), html.Node.text (str "c")])[1]?
        = [html.Node.text (str "a"), html.Node.text (str "b"), html.Node.text (str "c")][
            [html.Node.text (str "a"), html.Node.text (str "b"),
              html.Node.text (str "c")].length - 1 - 1]? ∧
      htmlutil.Sels.Reverse (htmlutil.Sels.Reverse
          [html.Node.text (str "a"), html.Node.text (str "b"), html.Node.text (str "c")])
        = [html.Node.text (str "a"), html.Node.text (str "b"), html.Node.text (str "c")] :=
  ⟨by decide, Sels_Reverse_index _ 1 (by decide)⟩

theorem parseTerm_error (P : GoString → Int × Bool) (t : GoString) :
    (uritemplates.parseTerm P t).2 ≠ some .indexOutOfRange := by
  unfold uritemplates.parseTerm
  simp only
  split_ifs
  · simp
  · simp
  · split <;> simp
  · simp
  · simp
  · split <;> simp

theorem parseTerms_error (P : GoString → Int × Bool) (ts : List GoString)
    (err : uritemplates.ParseError) (h : uritemplates.parseTerms P ts = .error err) :
    err ≠ .indexOutOfRange := by
  induction ts with
  | nil => simp [uritemplates.parseTerms] at h
  | cons t ts ih =>
    unfold uritemplates.parseTerms at h
    have h1 := parseTerm_error P t
    rcases hp : uritemplates.parseTerm P t with ⟨term, _ | err2⟩
    · rw [hp] at h
      simp only at h
      cases hr : uritemplates.parseTerms P ts with
      | error e =>
        rw [hr] at h
        simp only [Except.error.injEq] at h
        exact ih (h ▸ hr)
      | ok l => rw [hr] at h; simp at h
    · rw [hp] at h h1
      simp only [Except.error.injEq] at h
      subst h
      intro hc
      exact h1 (by rw [hc])

theorem parseExpression_error (P : GoString → Int × Bool) (e : GoString) (he : e ≠ [])
    (err : uritemplates.ParseError) (h : uritemplates.parseExpression P e = .error err) :
    err ≠ .indexOutOfRange := by
  cases e with
  | nil => exact absurd rfl he
  | cons c rest =>
    unfold uritemplates.parseExpression at h
    simp only at h
    cases hr : uritemplates.parseTerms P
        (strings.Split (uritemplates.operatorPart c rest).2 (str ",")) with
    | error err2 =>
      rw [hr] at h
      simp only [Except.error.injEq] at h
      exact parseTerms_error P _ _ (h ▸ hr)
    | ok terms => rw [hr] at h; simp at h

theorem parsePieces_error (P : GoString → Int × Bool) (ss : List GoString)
    (hh : ∀ s ∈ ss, s.head? ≠ some 0x7d)
    (err : uritemplates.ParseError) (h : uritemplates.parsePieces P ss = .error err) :
    err ≠ .indexOutOfRange := by
  induction ss with
  | nil => simp [uritemplates.parsePieces] at h
  | cons s rest ih =>
    have ih2 := ih (fun x hx => hh x (List.mem_cons_of_mem _ hx))
    unfold uritemplates.parsePieces at h
    rw [str_shut] at h
    rcases hs : strings.Split s [0x7d] with _ | ⟨a, _ | ⟨b, _ | ⟨c, l⟩⟩⟩
    · rw [hs] at h; simp only [Except.error.injEq] at h; subst h; simp
    · rw [hs] at h; simp only [Except.error.injEq] at h; subst h; simp
    · rw [hs] at h
      simp only at h
      obtain ⟨e1, -, -⟩ := Split_byte_two _ _ _ _ hs
      have ha : a ≠ [] := by
        intro ha
        rw [ha] at e1
        exact hh s (List.mem_cons_self _ _) (by rw [e1]; rfl)
      cases hr : uritemplates.parseExpression P a with
      | error err2 =>
        rw [hr] at h
        simp only [Except.error.injEq] at h
        exact parseExpression_error P a ha _ (h ▸ hr)
      | ok part =>
        rw [hr] at h
        simp only at h
        cases hq : uritemplates.parsePieces P rest with
        | error err2 =>
          rw [hq] at h
          simp only [Except.error.injEq] at h
          exact ih2 (h ▸ hq)
        | ok parts => rw [hq] at h; simp at h
    · rw [hs] at h; simp only [Except.error.injEq] at h; subst h; simp

theorem splitFrom_open_heads (raw : GoString) (h : strings.Contains raw [0x7b, 0x7d] = false) :
    (∀ s ∈ (strings.splitFrom [0x7b] 0 raw).tail, s.head? ≠ some 0x7d) ∧
      (((strings.splitFrom [0x7b] 0 raw).head?.bind List.head?) = some 0x7d →
        raw.head? = some 0x7d) := by
  induction raw with
  | nil => simp [strings.splitFrom]
  | cons b bs ih =>
    simp only [strings.Contains, Bool.or_eq_false_iff] at h
    obtain ⟨h1, h2⟩ := ih h.2
    obtain ⟨-, -, h3⟩ := splitFrom_byte 0x7b bs
    rcases hP : strings.splitFrom [0x7b] 0 bs with _ | ⟨p, ps⟩
    · exact absurd hP h3
    rw [hP] at h1 h2
    by_cases hb : b = 0x7b
    · subst hb
      have e : strings.splitFrom [0x7b] 0 (0x7b :: bs) = [] :: p :: ps := by
        simp [strings.splitFrom, hP]
      rw [e]
      refine ⟨?_, by simp⟩
      intro s hs
      simp only [List.tail_cons, List.mem_cons] at hs
      rcases hs with hs | hs
      · subst hs
        intro hc
        have := h2 (by simpa using hc)
        cases bs with
        | nil => simp at this
        | cons x xs =>
          simp only [List.head?_cons, Option.some.injEq] at this
          subst this
          have := h.1
          simp at this
      · exact h1 s (by simpa using hs)
    · have e : strings.splitFrom [0x7b] 0 (b :: bs) = (b :: p) :: ps := by
        have hb2 : ¬ (0x7b : UInt8) = b := fun e => hb e.symm
        simp [strings.splitFrom, hP, hb2, strings.consHead]
      rw [e]
      refine ⟨?_, by simp⟩
      intro s hs
      exact h1 s (by simpa using hs)

/-- For every input string in which the text `{}` does not occur, `uritemplates.Parse`
returns either a template (which records the input) with a nil error, or a nil template
with an error; it does not fail with an index fault. -/
theorem Parse_without_empty_expression (P : GoString → Int × Bool) (rawtemplate : GoString)
    (h : strings.Contains rawtemplate (str "\x7b\x7d") = false) :
    (∃ t, uritemplates.Parse P rawtemplate = .ok t ∧ t.raw = rawtemplate) ∨
      (∃ e, uritemplates.Parse P rawtemplate = .error e ∧ e ≠ .indexOutOfRange) := by
  have hs : str "\x7b\x7d" = [0x7b, 0x7d] := by decide
  rw [hs] at h
  obtain ⟨h1, -⟩ := splitFrom_open_heads rawtemplate h
  unfold uritemplates.Parse
  rw [str_open]
  unfold strings.Split
  rcases hP : strings.splitFrom [0x7b] 0 rawtemplate with _ | ⟨s, rest⟩
  · exact Or.inl ⟨_, rfl, rfl⟩
  rw [hP] at h1
  simp only
  split_ifs with hc
  · exact Or.inr ⟨_, rfl, by simp⟩
  · cases hq : uritemplates.parsePieces P rest with
    | error err => exact Or.inr ⟨err, rfl, parsePieces_error P rest h1 err hq⟩
    | ok parts => exact Or.inl ⟨_, rfl, rfl⟩

/-- C39: on the template `{}` the expression is empty, so the index expression
`expression[0]` of `parseExpression` is out of range and `Parse` faults instead of
returning; on `{+}`, where only the name is empty, it returns the error
"not a valid name: ". -/
theorem Parse_empty_expression_faults :
    uritemplates.Parse plainParseInt (str "\x7b\x7d") = .error .indexOutOfRange ∧
      uritemplates.Parse plainParseInt (str "\x7b+\x7d") = .error (.notValidName []) := by
  decide

theorem plain_classKeptByChildren : loldoc.Library.plain.classKeptByChildren := by
  intro n cs c
  cases n <;> rfl

theorem responseClassesLoop_method (L : loldoc.Library) (p : patcher.Patches)
    (c : Option GoString) :
    ∀ (bodies : List html.Node) (st st' : loldoc.Resource × loldoc.Operation),
      loldoc.responseClassesLoop L p c bodies st = .ok st' →
      st'.2.HTTPMethod = st.2.HTTPMethod := by
  intro bodies
  induction bodies with
  | nil =>
    intro st st' h
    simp only [loldoc.responseClassesLoop, htmlutil.Outcome.ok.injEq] at h
    rw [h]
  | cons b rest ih =>
    intro st st' h
    rw [loldoc.responseClassesLoop] at h
    split at h
    · cases hr : loldoc.returnValue p st.1.ID b with
      | ok t =>
        rw [hr] at h
        have hh := ih _ _ h
        exact hh
      | error e => rw [hr] at h; simp at h
      | panic e => rw [hr] at h; simp at h
    · split at h
      · cases hr : loldoc.parseResponseClass L p c b with
        | ok cls =>
          rw [hr] at h
          have hh := ih _ _ h
          exact hh
        | error e => rw [hr] at h; simp at h
        | panic e => rw [hr] at h; simp at h
      · simp at h

theorem parseAPIBlock_method (L : loldoc.Library) (p : patcher.Patches)
    (c : Option GoString) (res : loldoc.Resource) (op : loldoc.Operation) (s : html.Node)
    (st' : loldoc.Resource × loldoc.Operation)
    (h : loldoc.parseAPIBlock L p c res op s = .ok st') :
    st'.2.HTTPMethod = op.HTTPMethod := by
  unfold loldoc.parseAPIBlock at h
  obtain ⟨_, -, h⟩ := Outcome_bind_ok _ _ _ h
  split at h
  · rw [← Outcome_pure_ok _ _ h]
  · repeat (obtain ⟨_, -, h⟩ := Outcome_bind_ok _ _ _ h)
    split at h
    · exact responseClassesLoop_method L p c _ _ _ h
    split at h
    · obtain ⟨_, -, h⟩ := Outcome_bind_ok _ _ _ h
      rw [← Outcome_pure_ok _ _ h]
    split at h
    · obtain ⟨_, -, h⟩ := Outcome_bind_ok _ _ _ h
      rw [← Outcome_pure_ok _ _ h]
    split at h
    · obtain ⟨_, -, h⟩ := Outcome_bind_ok _ _ _ h
      rw [← Outcome_pure_ok _ _ h]
    split at h
    · rw [← Outcome_pure_ok _ _ h]
    split at h
    · repeat (obtain ⟨_, -, h⟩ := Outcome_bind_ok _ _ _ h)
      rw [← Outcome_pure_ok _ _ h]
    split at h
    · repeat (obtain ⟨_, -, h⟩ := Outcome_bind_ok _ _ _ h)
      rw [← Outcome_pure_ok _ _ h]
    · simp at h

theorem parseAPIBlocks_method (L : loldoc.Library) (p : patcher.Patches)
    (c : Option GoString) :
    ∀ (blocks : List html.Node) (st st' : loldoc.Resource × loldoc.Operation),
      loldoc.parseAPIBlocks L p c blocks st = .ok st' →
      st'.2.HTTPMethod = st.2.HTTPMethod := by
  intro blocks
  induction blocks with
  | nil =>
    intro st st' h
    simp only [loldoc.parseAPIBlocks, htmlutil.Outcome.ok.injEq] at h
    rw [h]
  | cons b rest ih =>
    intro st st' h
    rw [loldoc.parseAPIBlocks] at h
    cases hr : loldoc.parseAPIBlock L p c st.1 st.2 b with
    | ok st1 =>
      rw [hr] at h
      have a := parseAPIBlock_method L p c _ _ _ _ hr
      have b := ih _ _ h
      rw [b, a]
    | error e => rw [hr] at h; simp at h
    | panic e => rw [hr] at h; simp at h

theorem parseHeading_node (L : loldoc.Library) (s s1 : html.Node) (path descr : GoString)
    (h : loldoc.parseHeading L s = .ok (path, descr, s1)) :
    ∃ cs, s1 = htmlutil.withChildren s cs := by
  unfold loldoc.parseHeading at h
  repeat (obtain ⟨_, -, h⟩ := Outcome_bind_ok _ _ _ h)
  have e := Outcome_pure_ok _ _ h
  simp only [Prod.mk.injEq] at e
  exact ⟨_, e.2.2.symm⟩

theorem EnsureSel_ok (L : loldoc.Library) (s v : html.Node) (selector : GoString)
    (h : htmlutil.EnsureSel L s selector = .ok v) : v = s := by
  unfold htmlutil.EnsureSel at h
  split_ifs at h
  exact (htmlutil.Outcome.ok.inj h).symm

/-- C32: `parseOperation` sets `HTTPMethod` to `GET`, `POST` or `PUT` according to the
first of the class markers `get`, `post`, `put` that the operation node carries, and it
does not return an operation when the node carries none of the three. -/
theorem parseOperation_HTTPMethod (L : loldoc.Library) (p : patcher.Patches)
    (c : Option GoString) (res : loldoc.Resource) (s : html.Node)
    (hL : L.classKeptByChildren) :
    (∀ st, loldoc.parseOperation L p c res s = .ok st →
      (L.HasClass s (str "get") = true ∧ st.2.HTTPMethod = str "GET") ∨
      (L.HasClass s (str "get") = false ∧ L.HasClass s (str "post") = true ∧
        st.2.HTTPMethod = str "POST") ∨
      (L.HasClass s (str "get") = false ∧ L.HasClass s (str "post") = false ∧
        L.HasClass s (str "put") = true ∧ st.2.HTTPMethod = str "PUT")) ∧
    (L.HasClass s (str "get") = false → L.HasClass s (str "post") = false →
      L.HasClass s (str "put") = false →
      ∀ st, loldoc.parseOperation L p c res s ≠ .ok st) := by
  have key : ∀ st, loldoc.parseOperation L p c res s = .ok st →
      (L.HasClass s (str "get") = true ∧ st.2.HTTPMethod = str "GET") ∨
      (L.HasClass s (str "get") = false ∧ L.HasClass s (str "post") = true ∧
        st.2.HTTPMethod = str "POST") ∨
      (L.HasClass s (str "get") = false ∧ L.HasClass s (str "post") = false ∧
        L.HasClass s (str "put") = true ∧ st.2.HTTPMethod = str "PUT") := by
    intro st h
    unfold loldoc.parseOperation at h
    obtain ⟨s0, hs0, h⟩ := Outcome_bind_ok _ _ _ h
    obtain ⟨⟨requestPath, description, s1⟩, hh, h⟩ := Outcome_bind_ok _ _ _ h
    simp only at h
    obtain ⟨patch, -, h⟩ := Outcome_bind_ok _ _ _ h
    obtain ⟨httpMethod, hm, h⟩ := Outcome_bind_ok _ _ _ h
    have e := parseAPIBlocks_method L p c _ _ _ h
    simp only at e
    rw [e]
    obtain ⟨cs, hcs⟩ := parseHeading_node L _ _ _ _ hh
    rw [EnsureSel_ok L _ _ _ hs0] at hcs
    unfold loldoc.httpMethodOf at hm
    rw [hcs, hL, hL, hL] at hm
    split_ifs at hm with h1 h2 h3
    · exact Or.inl ⟨h1, (htmlutil.Outcome.ok.inj hm).symm⟩
    · exact Or.inr (Or.inl ⟨by simpa using h1, h2, (htmlutil.Outcome.ok.inj hm).symm⟩)
    · exact Or.inr (Or.inr ⟨by simpa using h1, by simpa using h2, h3,
        (htmlutil.Outcome.ok.inj hm).symm⟩)
  refine ⟨key, ?_⟩
  intro h1 h2 h3 st h
  rcases key st h with a | a | a
  · rw [h1] at a; exact absurd a.1 (by decide)
  · rw [h2] at a; exact absurd a.2.1 (by decide)
  · rw [h3] at a; exact absurd a.2.2.1 (by decide)

set_option maxRecDepth 100000 in
theorem parseOperation_HTTPMethod_witness :
    loldoc.Library.plain.classKeptByChildren ∧
    loldoc.parseOperation loldoc.Library.plain patcher.overrides (some (str "lol-status"))
        (resourceOf (str "lol-status")) shardOperation =
      .ok (resourceOf (str "lol-status"), shardParsed) ∧
    ((loldoc.Library.plain.HasClass shardOperation (str "get") = true ∧
        shardParsed.HTTPMethod = str "GET") ∨
      (loldoc.Library.plain.HasClass shardOperation (str "get") = false ∧
        loldoc.Library.plain.HasClass shardOperation (str "post") = true ∧
        shardParsed.HTTPMethod = str "POST") ∨
      (loldoc.Library.plain.HasClass shardOperation (str "get") = false ∧
        loldoc.Library.plain.HasClass shardOperation (str "post") = false ∧
        loldoc.Library.plain.HasClass shardOperation (str "put") = true ∧
        shardParsed.HTTPMethod = str "PUT")) :=
  ⟨plain_classKeptByChildren, by decide,
    (parseOperation_HTTPMethod loldoc.Library.plain patcher.overrides
      (some (str "lol-status")) (resourceOf (str "lol-status")) shardOperation
      plain_classKeptByChildren).1 (resourceOf (str "lol-status"), shardParsed) (by decide)⟩

theorem Outcome_bind_eq {α β : Type} (x : htmlutil.Outcome α) (f : α → htmlutil.Outcome β)
    (a : α) (h : x = .ok a) : (x >>= f) = f a := by
  rw [h]
  rfl

theorem pathParamRow_Required (L : loldoc.Library) (p : patcher.Patches)
    (c : Option GoString) (tr : html.Node) (q : loldoc.Parameter)
    (h : loldoc.pathParamRow L p c tr = .ok q) :
    ∃ m, loldoc.pathParamMarker L tr = .ok m ∧ q.Required = decide (m = str "required") := by
  unfold loldoc.pathParamRow at h
  obtain ⟨tr1, e1, h⟩ := Outcome_bind_ok _ _ _ h
  obtain ⟨td0, e2, h⟩ := Outcome_bind_ok _ _ _ h
  obtain ⟨td, e3, h⟩ := Outcome_bind_ok _ _ _ h
  obtain ⟨cs, e4, h⟩ := Outcome_bind_ok _ _ _ h
  obtain ⟨m, e5, h⟩ := Outcome_bind_ok _ _ _ h
  refine ⟨m, ?_, ?_⟩
  · unfold loldoc.pathParamMarker
    rw [Outcome_bind_eq _ _ _ e1, Outcome_bind_eq _ _ _ e2, Outcome_bind_eq _ _ _ e3,
      Outcome_bind_eq _ _ _ e4, e5]
  · repeat (obtain ⟨_, -, h⟩ := Outcome_bind_ok _ _ _ h)
    rw [← Outcome_pure_ok _ _ h]

theorem queryParamRow_Required (L : loldoc.Library) (p : patcher.Patches)
    (c : Option GoString) (tr : html.Node) (q : loldoc.Parameter)
    (h : loldoc.queryParamRow L p c tr = .ok q) :
    ∃ m, loldoc.queryParamMarker L tr = .ok m ∧
      q.Required = !decide (m = str "optional") := by
  unfold loldoc.queryParamRow at h
  obtain ⟨tr1, e1, h⟩ := Outcome_bind_ok _ _ _ h
  obtain ⟨td0, e2, h⟩ := Outcome_bind_ok _ _ _ h
  obtain ⟨td, e3, h⟩ := Outcome_bind_ok _ _ _ h
  obtain ⟨ob0, e4, h⟩ := Outcome_bind_ok _ _ _ h
  obtain ⟨ob, e5, h⟩ := Outcome_bind_ok _ _ _ h
  obtain ⟨m, e6, h⟩ := Outcome_bind_ok _ _ _ h
  refine ⟨m, ?_, ?_⟩
  · unfold loldoc.queryParamMarker
    rw [Outcome_bind_eq _ _ _ e1, Outcome_bind_eq _ _ _ e2, Outcome_bind_eq _ _ _ e3,
      Outcome_bind_eq _ _ _ e4, Outcome_bind_eq _ _ _ e5, e6]
  · repeat (obtain ⟨_, -, h⟩ := Outcome_bind_ok _ _ _ h)
    rw [← Outcome_pure_ok _ _ h]

/-- C38: for a row that the loop body of `parsePathParams` reads with marker text `m`,
`Required` is true exactly when `m` is `required`; for a row that the loop body of
`parseQueryParams` reads with marker text `m`, `Required` is false exactly when `m` is
`optional`; when both read the same marker, one of `required` and `optional`, they set
the same `Required`. -/
theorem paramRow_Required (L : loldoc.Library) (p : patcher.Patches) (c : Option GoString)
    (trP trQ : html.Node) (qP qQ : loldoc.Parameter)
    (hP : loldoc.pathParamRow L p c trP = .ok qP)
    (hQ : loldoc.queryParamRow L p c trQ = .ok qQ) :
    ∃ mP mQ, loldoc.pathParamMarker L trP = .ok mP ∧ loldoc.queryParamMarker L trQ = .ok mQ ∧
      (qP.Required = true ↔ mP = str "required") ∧
      (qQ.Required = false ↔ mQ = str "optional") ∧
      (mP = mQ → (mP = str "required" ∨ mP = str "optional") →
        qP.Required = qQ.Required) := by
  obtain ⟨mP, a1, a2⟩ := pathParamRow_Required L p c trP qP hP
  obtain ⟨mQ, b1, b2⟩ := queryParamRow_Required L p c trQ qQ hQ
  refine ⟨mP, mQ, a1, b1, by simp [a2], by simp [b2], ?_⟩
  intro e hm
  subst e
  rw [a2, b2]
  rcases hm with hm | hm
  · subst hm
    decide
  · subst hm
    decide

set_option maxRecDepth 100000 in
theorem paramRow_Required_witness :
    loldoc.pathParamRow loldoc.Library.plain patcher.overrides (some (str "champion")) idRow =
      .ok idParam ∧
    loldoc.queryParamRow loldoc.Library.plain patcher.overrides (some (str "champion"))
        freeToPlayRow = .ok freeToPlayParam ∧
    ∃ mP mQ,
      loldoc.pathParamMarker loldoc.Library.plain idRow = .ok mP ∧
      loldoc.queryParamMarker loldoc.Library.plain freeToPlayRow = .ok mQ ∧
      (idParam.Required = true ↔ mP = str "required") ∧
      (freeToPlayParam.Required = false ↔ mQ = str "optional") ∧
      (mP = mQ → (mP = str "required" ∨ mP = str "optional") →
        idParam.Required = freeToPlayParam.Required) :=
  ⟨by decide, by decide,
    paramRow_Required loldoc.Library.plain patcher.overrides (some (str "champion"))
      idRow freeToPlayRow idParam freeToPlayParam (by decide) (by decide)⟩

set_option maxRecDepth 1000000 in
theorem initTable_suffixFree :
    patcher.initTable.all (fun e =>
      patcher.suffixFree e.2.Operations && patcher.singleValued e.2.Operations) = true := by
  decide

theorem suffixes_nested (path a b : GoString) (ha : strings.HasSuffix path a = true)
    (hb : strings.HasSuffix path b = true) :
    strings.HasSuffix a b = true ∨ strings.HasSuffix b a = true := by
  unfold strings.HasSuffix at *
  simp only [List.isSuffixOf_iff_suffix] at *
  rcases Nat.le_total a.length b.length with h | h
  · exact Or.inr (List.suffix_of_suffix_length_le ha hb h)
  · exact Or.inl (List.suffix_of_suffix_length_le hb ha h)

theorem suffixFree_single (ops : List (GoString × patcher.OpPatch))
    (h1 : patcher.suffixFree ops = true) (h2 : patcher.singleValued ops = true)
    (opPath : GoString) (a b : GoString × patcher.OpPatch) (ha : a ∈ ops) (hb : b ∈ ops)
    (hpa : strings.HasSuffix opPath a.1 = true) (hpb : strings.HasSuffix opPath b.1 = true) :
    a = b := by
  simp only [patcher.suffixFree, patcher.singleValued, List.all_eq_true, Bool.or_eq_true,
    beq_iff_eq, Bool.not_eq_true', beq_eq_false_iff_ne, ne_eq] at h1 h2
  have hk : a.1 = b.1 := by
    rcases suffixes_nested opPath a.1 b.1 hpa hpb with h | h
    · rcases h1 b hb a ha with e | e
      · exact e.symm
      · rw [h] at e; exact absurd e (by decide)
    · rcases h1 a ha b hb with e | e
      · exact e
      · rw [h] at e; exact absurd e (by decide)
  rcases h2 a ha b hb with e | e
  · exact absurd hk e
  · exact Prod.ext hk e

theorem find_perm_single {α : Type} (q : α → Bool) (l l' : List α) (hperm : l'.Perm l)
    (h : ∀ a ∈ l, ∀ b ∈ l, q a = true → q b = true → a = b) :
    l'.find? q = l.find? q := by
  cases hf : l.find? q with
  | none =>
    rw [List.find?_eq_none] at hf ⊢
    intro x hx
    exact hf x (hperm.mem_iff.mp hx)
  | some a =>
    have ha := List.mem_of_find?_eq_some hf
    have hqa := List.find?_some hf
    cases hf' : l'.find? q with
    | none =>
      rw [List.find?_eq_none] at hf'
      exact absurd hqa (hf' a (hperm.mem_iff.mpr ha))
    | some b =>
      have hb := hperm.mem_iff.mp (List.mem_of_find?_eq_some hf')
      have hqb := List.find?_some hf'
      rw [h a ha b hb hqa hqb]

/-- C35: in the shipped registry, within every resource no operation key is a suffix of a
different key; so at most one key of the resource is a suffix of a given path, and
`ForOperation` returns the same result for every order in which the operation table of the
resource is visited. -/
theorem ForOperation_shipped_order (resID : GoString) (rp : patcher.ResPatch)
    (h : patcher.overrides.Resources.lookup resID = some rp) :
    (∀ a ∈ rp.Operations, ∀ b ∈ rp.Operations, a.1 ≠ b.1 →
      strings.HasSuffix b.1 a.1 = false) ∧
    (∀ opPath, ∀ a ∈ rp.Operations, ∀ b ∈ rp.Operations,
      strings.HasSuffix opPath a.1 = true → strings.HasSuffix opPath b.1 = true → a = b) ∧
    (∀ (p : patcher.Patches) (rp' : patcher.ResPatch),
      p.Resources.lookup resID = some rp' → rp'.Operations.Perm rp.Operations →
      ∀ opPath, patcher.ForOperation p resID opPath =
        patcher.ForOperation patcher.overrides resID opPath) := by
  have hmem : (resID, rp) ∈ patcher.initTable := lookup_some_mem resID rp _ h
  have hall := initTable_suffixFree
  rw [List.all_eq_true] at hall
  have h12 := hall _ hmem
  simp only [Bool.and_eq_true] at h12
  obtain ⟨h1, h2⟩ := h12
  have single := suffixFree_single rp.Operations h1 h2
  refine ⟨?_, fun opPath a ha b hb => single opPath a b ha hb, ?_⟩
  · intro a ha b hb hne
    simp only [patcher.suffixFree, List.all_eq_true, Bool.or_eq_true, beq_iff_eq,
      Bool.not_eq_true'] at h1
    rcases h1 a ha b hb with e | e
    · exact absurd e hne
    · exact e
  · intro p rp' hp hperm opPath
    have hf := find_perm_single (fun e => strings.HasSuffix opPath e.1) rp.Operations
      rp'.Operations hperm (fun a ha b hb => single opPath a b ha hb)
    simp only [patcher.ForOperation, patcher.forResource, hp, h, hf]

set_option maxRecDepth 100000 in
theorem ForOperation_shipped_order_witness :
    patcher.overrides.Resources.lookup (str "lol-status") = some statusPatch ∧
      patcher.ForOperation statusReversed (str "lol-status") (str "/status/shards/{region}") =
        patcher.ForOperation patcher.overrides (str "lol-status")
          (str "/status/shards/{region}") :=
  ⟨by decide,
    (ForOperation_shipped_order (str "lol-status") statusPatch (by decide)).2.2
      statusReversed ⟨statusPatch.Operations.reverse, statusPatch.Classes⟩ (by decide)
      (List.reverse_perm _) (str "/status/shards/{region}")⟩

theorem bracket_slice (t pre : GoString) (hlast : pre.getLast? ≠ some 93)
    (h1 : strings.HasPrefix t pre = true) (h2 : strings.HasSuffix t (str "]") = true) :
    ∃ inner, sliceOf t (len pre) (len t - 1) = some inner ∧
      inner.length + pre.length + 1 = t.length := by
  unfold strings.HasPrefix at h1
  unfold strings.HasSuffix at h2
  rw [List.isPrefixOf_iff_prefix] at h1
  rw [str_close, List.isSuffixOf_iff_suffix] at h2
  obtain ⟨r, hr⟩ := h1
  obtain ⟨q, hq⟩ := h2
  have hr0 : r ≠ [] := by
    intro e
    rw [e, List.append_nil] at hr
    apply hlast
    rw [hr, ← hq, List.getLast?_append]
    rfl
  have hrl : 0 < r.length := List.length_pos.mpr hr0
  have hl : t.length = pre.length + r.length := by rw [← hr, List.length_append]
  have e : ((t.length : Int) - 1).toNat = t.length - 1 := by omega
  have e2 : ((pre.length : Int)).toNat = pre.length := by omega
  refine ⟨(t.take (t.length - 1)).drop pre.length, ?_, ?_⟩
  · simp only [sliceOf, len]
    rw [if_pos ⟨by omega, by omega, by omega⟩, e, e2]
  · simp only [List.length_drop, List.length_take]
    omega

theorem ClassType_error (p : patcher.Patches) (resID s : GoString) (err : patcher.GoError)
    (h : patcher.ClassType p resID s = .error err) : err.isFault = false := by
  unfold patcher.ClassType at h
  split_ifs at h
  unfold patcher.ForClass patcher.forResource patcher.ResPatch.Class at h
  cases h1 : p.Resources.lookup resID with
  | none =>
    simp only [h1] at h
    cases h
    rfl
  | some rp =>
    simp only [h1] at h
    cases h2 : rp.Classes.lookup s with
    | none =>
      simp only [h2] at h
      cases h
      rfl
    | some co => simp only [h2] at h; cases h

theorem Type_error (p : patcher.Patches) (resID : GoString) :
    ∀ (n : Nat) (s : GoString), s.length < n → ∀ err,
      patcher.Type_ p resID s = .error err → err.isFault = false := by
  intro n
  induction n with
  | zero => intro s h; exact absurd h (Nat.not_lt_zero _)
  | succ n ih =>
    intro s hn err h
    rw [Type_eq_typeBody] at h
    have hlen := TrimSpace_length_le s
    unfold patcher.typeBody at h
    generalize strings.TrimSpace s = s' at hlen h
    simp only [] at h
    split at h
    · cases h
    · split_ifs at h with he hL hS hM
      · cases h; rfl
      · simp only [Bool.and_eq_true] at hL
        obtain ⟨inner, hsl, hil⟩ := bracket_slice s' (str "List[") (by decide) hL.1 hL.2
        have e5 : len (str "List[") = 5 := by decide
        rw [e5] at hsl
        simp only [hsl] at h
        cases hr : patcher.Type_ p resID inner with
        | error e1 =>
          simp only [hr] at h
          cases h
          exact ih inner (by omega) e1 hr
        | ok ty => simp only [hr] at h; cases h
      · simp only [Bool.and_eq_true] at hS
        obtain ⟨inner, hsl, hil⟩ := bracket_slice s' (str "Set[") (by decide) hS.1 hS.2
        have e4 : len (str "Set[") = 4 := by decide
        rw [e4] at hsl
        simp only [hsl] at h
        cases hr : patcher.Type_ p resID inner with
        | error e1 =>
          simp only [hr] at h
          cases h
          exact ih inner (by omega) e1 hr
        | ok ty => simp only [hr] at h; cases h
      · simp only [Bool.and_eq_true] at hM
        obtain ⟨body, hsl, hil⟩ := bracket_slice s' (str "Map[") (by decide) hM.1 hM.2
        have e4 : len (str "Map[") = 4 := by decide
        rw [e4] at hsl
        simp only [hsl] at h
        have hp := splitFrom_length_le (str ", ") 0 body
        rcases hsp : strings.Split body (str ", ") with _ | ⟨k, _ | ⟨v, _ | ⟨w, l⟩⟩⟩
        · simp only [hsp] at h; cases h; rfl
        · simp only [hsp] at h; cases h; rfl
        · simp only [hsp] at h
          unfold strings.Split at hsp
          rw [hsp] at hp
          have hk := hp k (by simp)
          have hv := hp v (by simp)
          cases hr : patcher.Type_ p resID k with
          | error e1 =>
            simp only [hr] at h
            cases h
            exact ih k (by omega) e1 hr
          | ok ty =>
            simp only [hr] at h
            cases hr2 : patcher.Type_ p resID v with
            | error e2 =>
              simp only [hr2] at h
              cases h
              exact ih v (by omega) e2 hr2
            | ok ty2 => simp only [hr2] at h; cases h
        · simp only [hsp] at h; cases h; rfl
      · exact ClassType_error p resID s' err h

/-- C36: for every resource ID and every input string, `Type` is its body with itself in
the place of the recursive calls, the body calls itself on strictly shorter strings only,
and the result is a type or a Go error, never the recursion bound or the fault of a slice
expression; whenever one of the prefixes `List[`, `Set[`, `Map[` and the suffix `]` are
found, the slice between them is in range. -/
theorem Type_terminates_in_range (p : patcher.Patches) (resID s : GoString) :
    patcher.Type_ p resID s = patcher.typeBody p resID (patcher.Type_ p resID) s ∧
    (∀ f g : GoString → Except patcher.GoError types.GoType,
      (∀ t : GoString, t.length < s.length → f t = g t) →
      patcher.typeBody p resID f s = patcher.typeBody p resID g s) ∧
    (∀ err, patcher.Type_ p resID s = .error err → err.isFault = false) ∧
    (strings.HasPrefix s (str "List[") = true → strings.HasSuffix s (str "]") = true →
      ∃ inner, sliceOf s 5 (len s - 1) = some inner ∧ inner.length + 6 = s.length) ∧
    (strings.HasPrefix s (str "Set[") = true → strings.HasSuffix s (str "]") = true →
      ∃ inner, sliceOf s 4 (len s - 1) = some inner ∧ inner.length + 5 = s.length) ∧
    (strings.HasPrefix s (str "Map[") = true → strings.HasSuffix s (str "]") = true →
      ∃ inner, sliceOf s 4 (len s - 1) = some inner ∧ inner.length + 5 = s.length) := by
  refine ⟨Type_eq_typeBody p resID s, fun f g h => typeBody_congr p resID f g s h,
    fun err h => Type_error p resID (s.length + 1) s (Nat.lt_succ_self _) err h, ?_, ?_, ?_⟩
  · intro h1 h2
    exact bracket_slice s (str "List[") (by decide) h1 h2
  · intro h1 h2
    exact bracket_slice s (str "Set[") (by decide) h1 h2
  · intro h1 h2
    exact bracket_slice s (str "Map[") (by decide) h1 h2

theorem Type_terminates_in_range_witness :
    strings.HasPrefix (str "List[int]") (str "List[") = true ∧
      strings.HasSuffix (str "List[int]") (str "]") = true ∧
      ∃ inner, sliceOf (str "List[int]") 5 (len (str "List[int]") - 1) = some inner ∧
        inner.length + 6 = (str "List[int]").length :=
  ⟨by decide, by decide,
    (Type_terminates_in_range patcher.overrides (str "champion") (str "List[int]")).2.2.2.1
      (by decide) (by decide)⟩

theorem anyRegion_iff (ps : List loldoc.Parameter) :
    loldoc.anyRegion ps = true ↔
      ∃ q ∈ ps, q.Name = str "region" ∨ q.Name = str "platformId" := by
  induction ps with
  | nil => simp [loldoc.anyRegion]
  | cons p rest ih =>
    unfold loldoc.anyRegion
    by_cases hp : loldoc.IsRegion p = true
    · simp only [hp, if_true, List.mem_cons, true_iff]
      refine ⟨p, Or.inl rfl, ?_⟩
      simpa [loldoc.IsRegion] using hp
    · have hp2 : ¬ (p.Name = str "region" ∨ p.Name = str "platformId") := by
        simpa [loldoc.IsRegion] using hp
      simp only [hp, if_false, Bool.false_eq_true, ih, List.mem_cons]
      constructor
      · rintro ⟨q, hq, h⟩
        exact ⟨q, Or.inr hq, h⟩
      · rintro ⟨q, hq | hq, h⟩
        · subst hq
          exact absurd h hp2
        · exact ⟨q, hq, h⟩

/-- C33: `Operation.IsRegional` returns true exactly when the owning resource has an empty
`APIBase`, which is the case exactly when its ID is neither `lol-static-data` nor
`lol-status`, or the operation has a path parameter named `region` or `platformId`. -/
theorem IsRegional_iff (res : loldoc.Resource) (op : loldoc.Operation) :
    (res.APIBase = str "" ↔ (res.ID ≠ str "lol-static-data" ∧ res.ID ≠ str "lol-status")) ∧
    ∃ b, loldoc.Operation.IsRegional (some res) op = some b ∧
      (b = true ↔ (res.APIBase = str "" ∨
        ∃ q ∈ op.PathParams, q.Name = str "region" ∨ q.Name = str "platformId")) := by
  constructor
  · unfold loldoc.Resource.APIBase
    split_ifs with h1 h2
    · simp [h1]
      decide
    · simp [h2]
      decide
    · simp [h1, h2]
  · unfold loldoc.Operation.IsRegional
    by_cases hb : res.APIBase = str ""
    · exact ⟨true, by simp [hb], by simp [hb]⟩
    · refine ⟨loldoc.anyRegion op.PathParams, by simp [hb], ?_⟩
      rw [anyRegion_iff]
      simp [hb]

theorem foldedName_append (a b : List Char) :
    foldedName (a ++ b) = foldedName a ++ foldedName b := by
  simp [foldedName]

theorem foldedName_underscores (l : List Char) (h : ∀ c ∈ l, c = '_') :
    foldedName l = [] := by
  unfold foldedName
  rw [List.map_eq_nil_iff, List.filter_eq_nil_iff]
  intro c hc
  rw [h c hc]
  decide

theorem sameLetter_refl (c : Char) (h : c.toNat < 128) : sameLetter c c := ⟨h, h, rfl⟩

theorem sameLetter_underscore (a b : Char) (h : sameLetter a b) :
    (a != '_') = (b != '_') := by
  obtain ⟨ha, hb, e⟩ := h
  have key : ∀ c : Char, c.toNat < 128 → ((c != '_') = (c.toLower != '_')) :=
    forall_ascii _ (by decide)
  rw [key a ha, key b hb, e]

theorem foldedName_of_sameLetter (xs ys : List Char) (h : List.Forall₂ sameLetter xs ys) :
    foldedName xs = foldedName ys ∧ ∀ c ∈ ys, c.toNat < 128 := by
  induction h with
  | nil => exact ⟨rfl, by simp⟩
  | @cons a b l l' hab _ ih =>
    obtain ⟨ih1, ih2⟩ := ih
    constructor
    · have e := sameLetter_underscore a b hab
      unfold foldedName at ih1 ⊢
      simp only [List.filter_cons]
      rw [e]
      split
      · simp only [List.map_cons, ih1, hab.2.2]
      · exact ih1
    · intro c hc
      rcases List.mem_cons.mp hc with e | e
      · rw [e]; exact hab.2.1
      · exact ih2 c e

theorem sameLetter_upper (U : unicode.Tables) (hA : U.agreeOnASCII) (c : Char)
    (h : c.toNat < 128) : sameLetter c (U.ToUpper c) := by
  rw [(hA c h).2.2.1]
  exact forall_ascii (fun c => sameLetter c c.toUpper)
    (by unfold sameLetter; decide) c h

theorem sameLetter_upper_lower (U : unicode.Tables) (hA : U.agreeOnASCII) (c : Char)
    (h : c.toNat < 128) : sameLetter c (U.ToLower (U.ToUpper c)) := by
  rw [(hA c h).2.2.1]
  have h2 : c.toUpper.toNat < 128 :=
    forall_ascii (fun c => c.toUpper.toNat < 128) (by decide) c h
  rw [(hA _ h2).2.2.2]
  exact forall_ascii (fun c => sameLetter c c.toUpper.toLower)
    (by unfold sameLetter; decide) c h

theorem lintWord_sameLetter (U : unicode.Tables) (hA : U.agreeOnASCII)
    (runes : List Char) (w i : Nat) (hall : ∀ c ∈ runes, c.toNat < 128) :
    List.Forall₂ sameLetter runes (patcher.lintWord U runes w i) := by
  have hrefl : ∀ l : List Char, (∀ c ∈ l, c ∈ runes) → List.Forall₂ sameLetter l l :=
    fun l hl => List.forall₂_same.mpr (fun x hx => sameLetter_refl x (hall x (hl x hx)))
  have htake : ∀ k, ∀ c ∈ List.take k runes, c ∈ runes :=
    fun k c hc => List.mem_of_mem_take hc
  have hdrop : ∀ k, ∀ c ∈ List.drop k runes, c ∈ runes :=
    fun k c hc => List.mem_of_mem_drop hc
  have hword : ∀ c ∈ List.drop w (List.take i runes), c.toNat < 128 :=
    fun c hc => hall c (List.mem_of_mem_take (List.mem_of_mem_drop hc))
  unfold patcher.lintWord
  simp only
  split
  · rename_i hc
    have hlen : 0 < (List.drop w (List.take i runes)).length := by
      rcases hl : List.drop w (List.take i runes) with _ | ⟨a, l⟩
      · rw [hl, List.map_nil] at hc; exact absurd hc (by decide)
      · simp
    have hup : List.Forall₂ sameLetter (List.drop w (List.take i runes))
        (List.map U.ToUpper (List.drop w (List.take i runes))) := by
      rw [List.forall₂_map_right_iff]
      exact List.forall₂_same.mpr (fun x hx => sameLetter_upper U hA x (hword x hx))
    have hlow : List.Forall₂ sameLetter (List.drop w (List.take i runes))
        (List.map U.ToLower (List.map U.ToUpper (List.drop w (List.take i runes)))) := by
      rw [List.forall₂_map_right_iff, List.forall₂_map_right_iff]
      exact List.forall₂_same.mpr (fun x hx => sameLetter_upper_lower U hA x (hword x hx))
    split
    · have h := forall₂_append3 _ _ _ _ _ (hrefl (List.take w runes) (htake w)) hlow
        (hrefl (List.drop (w + (List.drop w (List.take i runes)).length) runes) (hdrop _))
      rw [← word_decomp runes w i hlen] at h
      simpa only [List.length_map] using h
    · have h := forall₂_append3 _ _ _ _ _ (hrefl (List.take w runes) (htake w)) hup
        (hrefl (List.drop (w + (List.drop w (List.take i runes)).length) runes) (hdrop _))
      rw [← word_decomp runes w i hlen] at h
      simpa only [List.length_map] using h
  · split
    · split
      · rename_i r hr
        have hw : w < runes.length := by
          by_contra hcon
          rw [List.getElem?_eq_none (by omega)] at hr
          exact absurd hr (by simp)
        have hset : runes.set w (U.ToUpper r) =
            List.take w runes ++ U.ToUpper r :: List.drop (w + 1) runes := by
          rw [List.set_eq_take_append_cons_drop, if_pos hw]
        have hrun : runes = List.take w runes ++ r :: List.drop (w + 1) runes := by
          have hr' : runes[w] = r := by
            rw [List.getElem?_eq_getElem hw] at hr
            exact Option.some.inj hr
          rw [← hr', ← List.drop_eq_getElem_cons hw, List.take_append_drop]
        have hrm : r.toNat < 128 := hall r (List.getElem?_mem hr)
        rw [hset]
        have h := forall₂_append3 _ _ _ _ [] (hrefl (List.take w runes) (htake w))
          (List.Forall₂.cons (sameLetter_upper U hA r hrm)
            (hrefl (List.drop (w + 1) runes) (hdrop _)))
          List.Forall₂.nil
        rw [List.append_nil, List.append_nil, ← hrun] at h
        exact h
      · exact hrefl _ (fun _ h => h)
    · exact hrefl _ (fun _ h => h)

theorem lintWord_folded (U : unicode.Tables) (hA : U.agreeOnASCII)
    (runes : List Char) (w i : Nat) (hall : ∀ c ∈ runes, c.toNat < 128) :
    foldedName (patcher.lintWord U runes w i) = foldedName runes ∧
      ∀ c ∈ patcher.lintWord U runes w i, c.toNat < 128 := by
  obtain ⟨h1, h2⟩ := foldedName_of_sameLetter _ _ (lintWord_sameLetter U hA runes w i hall)
  exact ⟨h1.symm, h2⟩

theorem cut_folded (runes : List Char) (i m : Nat) (h1 : runes[i + 1]? = some '_')
    (hm : m ≤ 1 + ((runes.drop (i + 2)).takeWhile (fun r => r == '_')).length) :
    foldedName (List.take (i + 1) runes ++ List.drop (i + m + 1) runes) = foldedName runes := by
  have hi : i + 1 < runes.length := by
    by_contra hcon
    rw [List.getElem?_eq_none (by omega)] at h1
    exact absurd h1 (by simp)
  have htail : List.drop (i + 1) runes = '_' :: List.drop (i + 2) runes := by
    rw [List.drop_eq_getElem_cons hi]
    rw [List.getElem?_eq_getElem hi] at h1
    rw [Option.some.inj h1]
  have hsplit : List.drop (i + 2) runes =
      (List.drop (i + 2) runes).takeWhile (fun r => r == '_') ++
        (List.drop (i + 2) runes).dropWhile (fun r => r == '_') :=
    (List.takeWhile_append_dropWhile _ _).symm
  have hus : ∀ c ∈ List.take m (List.drop (i + 1) runes), c = '_' := by
    intro c hc
    rw [htail, hsplit, ← List.cons_append, List.take_append_of_le_length
      (by simp only [List.length_cons]; omega)] at hc
    have hc2 := List.mem_of_mem_take hc
    rcases List.mem_cons.mp hc2 with e | e
    · exact e
    · simpa using (List.mem_takeWhile_imp e)
  have e1 : List.drop (i + m + 1) runes = List.drop m (List.drop (i + 1) runes) := by
    rw [List.drop_drop]
    congr 1
    omega
  have e2 : runes = List.take (i + 1) runes ++
      (List.take m (List.drop (i + 1) runes) ++ List.drop m (List.drop (i + 1) runes)) := by
    rw [List.take_append_drop, List.take_append_drop]
  rw [e1]
  conv_rhs => rw [e2]
  rw [foldedName_append, foldedName_append, foldedName_append,
    foldedName_underscores _ hus, List.nil_append]

theorem lintIter_folded (U : unicode.Tables) (hA : U.agreeOnASCII)
    (runes : List Char) (w i : Nat) (hall : ∀ c ∈ runes, c.toNat < 128) :
    foldedName (patcher.lintIter U runes w i).1 = foldedName runes ∧
      ∀ c ∈ (patcher.lintIter U runes w i).1, c.toNat < 128 := by
  unfold patcher.lintIter
  simp only
  split
  · exact lintWord_folded U hA runes w (i + 1) hall
  · split
    · rename_i h1
      have hcut : ∀ m, ∀ c ∈ List.take (i + 1) runes ++ List.drop (i + m + 1) runes,
          c.toNat < 128 := by
        intro m c hc
        rcases List.mem_append.mp hc with e | e
        · exact hall c (List.mem_of_mem_take e)
        · exact hall c (List.mem_of_mem_drop e)
      obtain ⟨a1, a2⟩ := lintWord_folded U hA _ w (i + 1) (hcut _)
      refine ⟨?_, a2⟩
      rw [a1]
      apply cut_folded runes i _ h1
      split <;> omega
    · split
      · exact lintWord_folded U hA runes w (i + 1) hall
      · exact ⟨rfl, hall⟩

theorem lintLoop_folded (U : unicode.Tables) (hA : U.agreeOnASCII) :
    ∀ (fuel : Nat) (runes : List Char) (w i : Nat), (∀ c ∈ runes, c.toNat < 128) →
      foldedName (patcher.lintLoop U fuel runes w i) = foldedName runes := by
  intro fuel
  induction fuel with
  | zero => intro runes w i _; rfl
  | succ fuel ih =>
    intro runes w i hall
    rw [patcher.lintLoop]
    split
    · obtain ⟨h1, h2⟩ := lintIter_folded U hA runes w i hall
      rw [ih _ _ _ h2, h1]
    · rfl

theorem lintName_folded (U : unicode.Tables) (hA : U.agreeOnASCII) (name : List Char)
    (hall : ∀ c ∈ name, c.toNat < 128) :
    foldedName (patcher.lintName U name) = foldedName name := by
  unfold patcher.lintName
  split
  · rfl
  · split
    · rfl
    · exact lintLoop_folded U hA _ _ _ _ hall

/-- C37: for every identifier of ASCII runes, `FieldName` only changes letter case and
deletes underscores: the output with its underscores removed and in lower case is the
input with its underscores removed and in lower case. The tables of package `unicode` are
any that are the ASCII ones below U+0080. -/
theorem FieldName_folded (U : unicode.Tables) (hA : U.agreeOnASCII) (orig : List Char)
    (hall : ∀ c ∈ orig, c.toNat < 128) :
    foldedName (patcher.FieldName U orig) = foldedName orig := by
  unfold patcher.FieldName
  split
  · rename_i h
    rw [h]
  · cases orig with
    | nil => rfl
    | cons r rest =>
      have hr : r.toNat < 128 := hall r (List.mem_cons_self _ _)
      have hrest : ∀ c ∈ rest, c.toNat < 128 := fun c hc => hall c (List.mem_cons_of_mem _ hc)
      have hrel : List.Forall₂ sameLetter (r :: rest) (patcher.upperFirst U (r :: rest)) :=
        List.Forall₂.cons (sameLetter_upper U hA r hr)
          (List.forall₂_same.mpr (fun x hx => sameLetter_refl x (hrest x hx)))
      obtain ⟨h1, h2⟩ := foldedName_of_sameLetter _ _ hrel
      rw [lintName_folded U hA _ h2, h1]

theorem FieldName_folded_witness :
    (∀ c ∈ "summoner_spell_id".data, c.toNat < 128) ∧
      patcher.FieldName unicode.Tables.ascii "summoner_spell_id".data = "SummonerSpellID".data ∧
      foldedName (patcher.FieldName unicode.Tables.ascii "summoner_spell_id".data) =
        foldedName "summoner_spell_id".data :=
  ⟨by decide, by decide,
    FieldName_folded unicode.Tables.ascii ascii_agreeOnASCII "summoner_spell_id".data
      (by decide)⟩

theorem parseOperation_ID (L : loldoc.Library) (p : patcher.Patches) (c : Option GoString)
    (res : loldoc.Resource) (s : html.Node) (st : loldoc.Resource × loldoc.Operation)
    (h : loldoc.parseOperation L p c res s = .ok st) : st.1.ID = res.ID := by
  unfold loldoc.parseOperation at h
  obtain ⟨_, -, h⟩ := Outcome_bind_ok _ _ _ h
  obtain ⟨⟨requestPath, description, s1⟩, -, h⟩ := Outcome_bind_ok _ _ _ h
  simp only at h
  obtain ⟨patch, -, h⟩ := Outcome_bind_ok _ _ _ h
  obtain ⟨httpMethod, -, h⟩ := Outcome_bind_ok _ _ _ h
  exact (parseAPIBlocks_params L p c _ _ _ h).2.2.2

theorem operationsLoop_ID (L : loldoc.Library) (p : patcher.Patches) (c : Option GoString) :
    ∀ (ss : List html.Node) (st st' : loldoc.Resource × List loldoc.Operation),
      loldoc.operationsLoop L p c ss st = .ok st' → st'.1.ID = st.1.ID := by
  intro ss
  induction ss with
  | nil =>
    intro st st' h
    simp only [loldoc.operationsLoop, htmlutil.Outcome.ok.injEq] at h
    rw [h]
  | cons s rest ih =>
    intro st st' h
    rw [loldoc.operationsLoop] at h
    cases hr : loldoc.parseOperation L p c st.1 s with
    | ok st1 =>
      rw [hr] at h
      have a := parseOperation_ID L p c _ _ _ hr
      have b := ih _ _ h
      rw [b]
      exact a
    | error e => rw [hr] at h; simp at h
    | panic e => rw [hr] at h; simp at h

theorem parseEndpoint_ID (L : loldoc.Library) (p : patcher.Patches) (c : Option GoString)
    (res : loldoc.Resource) (s : html.Node) (st : loldoc.Resource × List loldoc.Operation)
    (h : loldoc.parseEndpoint L p c res s = .ok st) : st.1.ID = res.ID := by
  unfold loldoc.parseEndpoint at h
  obtain ⟨_, -, h⟩ := Outcome_bind_ok _ _ _ h
  exact operationsLoop_ID L p c _ _ _ h

theorem endpointsLoop_ID (L : loldoc.Library) (p : patcher.Patches) (c : Option GoString) :
    ∀ (ss : List html.Node) (res r : loldoc.Resource),
      loldoc.endpointsLoop L p c ss res = .ok r → r.ID = res.ID := by
  intro ss
  induction ss with
  | nil =>
    intro res r h
    simp only [loldoc.endpointsLoop, htmlutil.Outcome.ok.injEq] at h
    rw [h]
  | cons s rest ih =>
    intro res r h
    rw [loldoc.endpointsLoop] at h
    cases hr : loldoc.parseEndpoint L p c res s with
    | ok st =>
      rw [hr] at h
      have a := parseEndpoint_ID L p c _ _ _ hr
      have b := ih _ _ h
      rw [b]
      exact a
    | error e => rw [hr] at h; simp at h
    | panic e => rw [hr] at h; simp at h

theorem parseResource_ID (L : loldoc.Library) (p : patcher.Patches) (s : html.Node)
    (r : loldoc.Resource) (h : loldoc.parseResource L p s = .ok r) :
    r.ID ≠ str "tournament-provider" := by
  unfold loldoc.parseResource at h
  repeat (obtain ⟨_, -, h⟩ := Outcome_bind_ok _ _ _ h)
  split_ifs at h with hid
  · rw [← Outcome_pure_ok _ _ h]
    decide
  · rw [endpointsLoop_ID L p _ _ _ _ h]
    exact hid

theorem resourcesLoop_parsed (L : loldoc.Library) (p : patcher.Patches) :
    ∀ (lis : List html.Node) (acc out : List loldoc.Resource),
      loldoc.resourcesLoop L p lis acc = .ok out →
      ∃ parsed, List.Forall₂ (fun li r => loldoc.parseResource L p li = .ok r) lis parsed ∧
        out = acc ++ parsed.filter (fun r => decide (r.ID ≠ str "")) := by
  intro lis
  induction lis with
  | nil =>
    intro acc out h
    simp only [loldoc.resourcesLoop, htmlutil.Outcome.ok.injEq] at h
    exact ⟨[], List.Forall₂.nil, by simp [h]⟩
  | cons li rest ih =>
    intro acc out h
    rw [loldoc.resourcesLoop] at h
    cases hr : loldoc.parseResource L p li with
    | ok res =>
      rw [hr] at h
      simp only at h
      split_ifs at h with hid
      · obtain ⟨parsed, h1, h2⟩ := ih _ _ h
        refine ⟨res :: parsed, List.Forall₂.cons hr h1, ?_⟩
        rw [List.filter_cons, if_neg (by simp [hid])]
        exact h2
      · obtain ⟨parsed, h1, h2⟩ := ih _ _ h
        refine ⟨res :: parsed, List.Forall₂.cons hr h1, ?_⟩
        rw [List.filter_cons, if_pos (by simp [hid]), h2, List.append_assoc]
        rfl
    | error e => rw [hr] at h; simp at h
    | panic e => rw [hr] at h; simp at h

theorem First_ok (ss : List html.Node) (s : html.Node) (h : htmlutil.First ss = .ok s) :
    ∃ rest, ss = s :: rest := by
  cases ss with
  | nil => simp [htmlutil.First] at h
  | cons a rest =>
    simp only [htmlutil.First, htmlutil.Outcome.ok.injEq] at h
    exact ⟨rest, by rw [h]⟩

theorem detailsLoop_parsed (L : loldoc.Library) (p : patcher.Patches) :
    ∀ (ss : List html.Node) (acc out : List loldoc.Resource),
      loldoc.detailsLoop L p ss acc = .ok out →
      ∃ parsed, List.Forall₂ (fun li r => loldoc.parseResource L p li = .ok r)
          (ss.flatMap fun s =>
            match htmlutil.Children s with
            | ul :: _ => htmlutil.Children ul
            | [] => []) parsed ∧
        out = acc ++ parsed.filter (fun r => decide (r.ID ≠ str "")) := by
  intro ss
  induction ss with
  | nil =>
    intro acc out h
    simp only [loldoc.detailsLoop, htmlutil.Outcome.ok.injEq] at h
    exact ⟨[], by simp, by simp [h]⟩
  | cons s rest ih =>
    intro acc out h
    rw [loldoc.detailsLoop] at h
    cases h1 : htmlutil.EnsureSel L s (str "div#api_detail") with
    | error e => rw [h1] at h; simp at h
    | panic e => rw [h1] at h; simp at h
    | ok s' =>
      rw [h1] at h
      simp only at h
      have es := EnsureSel_ok L _ _ _ h1
      subst es
      cases h2 : htmlutil.First (htmlutil.Children s') with
      | error e => rw [h2] at h; simp at h
      | panic e => rw [h2] at h; simp at h
      | ok u0 =>
        rw [h2] at h
        simp only at h
        obtain ⟨more, hch⟩ := First_ok _ _ h2
        cases h3 : htmlutil.EnsureSel L u0 (str "ul#resources") with
        | error e => rw [h3] at h; simp at h
        | panic e => rw [h3] at h; simp at h
        | ok ul =>
          rw [h3] at h
          simp only at h
          have eu := EnsureSel_ok L _ _ _ h3
          subst eu
          cases h4 : loldoc.resourcesLoop L p (htmlutil.Children ul) acc with
          | error e => rw [h4] at h; simp at h
          | panic e => rw [h4] at h; simp at h
          | ok acc' =>
            rw [h4] at h
            simp only at h
            obtain ⟨p1, a1, a2⟩ := resourcesLoop_parsed L p _ _ _ h4
            obtain ⟨p2, b1, b2⟩ := ih _ _ h
            refine ⟨p1 ++ p2, ?_, ?_⟩
            · rw [List.flatMap_cons, hch]
              exact List.rel_append a1 b1
            · rw [b2, a2, List.filter_append, List.append_assoc]

theorem forall₂_mem_right {α β : Type} (R : α → β → Prop) (l : List α) (l' : List β)
    (h : List.Forall₂ R l l') (b : β) (hb : b ∈ l') : ∃ a ∈ l, R a b := by
  induction h with
  | nil => simp at hb
  | @cons x y xs ys hxy _ ih =>
    rcases List.mem_cons.mp hb with e | e
    · subst e
      exact ⟨x, List.mem_cons_self _ _, hxy⟩
    · obtain ⟨a, ha, hr⟩ := ih e
      exact ⟨a, List.mem_cons_of_mem _ ha, hr⟩

set_option maxRecDepth 100000 in
/-- A container that `removeIfUseless` takes out of the document is still searched by
`Find`: the page with such a container is parsed to the same document. -/
theorem Parse_detached_container :
    (loldoc.removeIfUselessSel loldoc.Library.page
      [classed (str "div") (str "body container sandbox_header") []]).2 = true ∧
    loldoc.Parse loldoc.Library.page patcher.overrides methodsPageDetached =
      .ok methodsDoc := by
  decide

/-- C31: a successful `Parse` returns, in document order, the resources that
`parseResource` reads from the resource blocks of the page, except those it returns with
an empty ID, as it does for the block `tournament-provider`; so no resource with the ID
`tournament-provider` and no resource with an empty ID is in the returned `Doc`. -/
theorem Parse_resources (L : loldoc.Library) (p : patcher.Patches) (d : html.Node)
    (doc : loldoc.Doc) (h : loldoc.Parse L p d = .ok doc) :
    ∃ parsed,
      List.Forall₂ (fun li r => loldoc.parseResource L p li = .ok r)
        (loldoc.resourceBlocks L d) parsed ∧
      doc.Resources = parsed.filter (fun r => decide (r.ID ≠ str "")) ∧
      (∀ r ∈ parsed, r.ID ≠ str "tournament-provider") ∧
      ∀ r ∈ doc.Resources, r.ID ≠ str "tournament-provider" ∧ r.ID ≠ str "" := by
  unfold loldoc.Parse at h
  cases hd : loldoc.detailsLoop L p (loldoc.apiDetails L d) [] with
  | error e => rw [hd] at h; simp at h
  | panic e => rw [hd] at h; simp at h
  | ok resources =>
    rw [hd] at h
    simp only [htmlutil.Outcome.ok.injEq] at h
    obtain ⟨parsed, h1, h2⟩ := detailsLoop_parsed L p _ _ _ hd
    rw [List.nil_append] at h2
    have hall : ∀ r ∈ parsed, r.ID ≠ str "tournament-provider" := by
      intro r hr
      obtain ⟨li, -, hp⟩ := forall₂_mem_right _ _ _ h1 r hr
      exact parseResource_ID L p _ _ hp
    refine ⟨parsed, h1, by rw [← h, h2], hall, ?_⟩
    intro r hr
    rw [← h] at hr
    simp only at hr
    rw [h2, List.mem_filter] at hr
    exact ⟨hall r hr.1, by simpa using hr.2⟩

set_option maxRecDepth 100000 in
theorem Parse_resources_witness :
    loldoc.Parse loldoc.Library.page patcher.overrides methodsPage = .ok methodsDoc ∧
    ∃ parsed,
      List.Forall₂ (fun li r => loldoc.parseResource loldoc.Library.page patcher.overrides li =
          .ok r)
        (loldoc.resourceBlocks loldoc.Library.page methodsPage) parsed ∧
      methodsDoc.Resources = parsed.filter (fun r => decide (r.ID ≠ str "")) ∧
      (∀ r ∈ parsed, r.ID ≠ str "tournament-provider") ∧
      ∀ r ∈ methodsDoc.Resources, r.ID ≠ str "tournament-provider" ∧ r.ID ≠ str "" :=
  ⟨by decide,
    Parse_resources loldoc.Library.page patcher.overrides methodsPage methodsDoc (by decide)⟩
